import Mathlib

/-!
# Branch decomposition of a contour tree (`ContourTree/SimplifyCT.cpp`)

A shallow embedding of the simplification engine `SimplifyCT`.

Conventions of the embedding.

* The arena vectors of the engine (`branches`, `nodes`, `fn`, `removed`, `invalid`, `inq`,
  `vArray`) and of the input (`arcs`, `fnVals`) are total maps `Nat → α`; their sizes are the
  counts `noArcs` / `noNodes` of the input (`branches.resize(data->noArcs)` and so on).  A read
  outside the size, undefined in C++, yields whatever the map holds there.
* The small vectors that the code measures with `size()`, scans or appends to (`prev`, `next`,
  `children`, `arcs`, `vArray[v]`, `order`) are lists.
* `float` weights and scalar values are exact integers, `uint32_t` ids are naturals; the one
  place where the code narrows an unsigned difference to `int` (`compare`) is wrapped explicitly.
* `std::priority_queue` is the list of its entries; `top` selects a greatest entry for the
  comparator as it stands at the moment of the call, the first such entry in insertion order.
-/

namespace contourtree

/-- One branch of the decomposition (`struct Branch`); `from_` and `to_` are the fields `from`
and `to`, which are reserved words here. -/
structure Branch where
  from_ : Nat
  to_ : Nat
  parent : Int
  children : List Nat
  arcs : List Nat
deriving DecidableEq, Repr

/-- Incoming (`prev`) and outgoing (`next`) branch ids of a node (`struct Node`). -/
structure Node where
  prev : List Nat
  next : List Nat
deriving DecidableEq, Repr

/-- One input arc (`data->arcs[i]`). -/
structure Arc where
  from_ : Nat
  to_ : Nat
deriving DecidableEq, Repr

/-- The input contour tree (`ContourTreeData`): counts, arcs and scalar values. -/
structure ContourTreeData where
  noNodes : Nat
  noArcs : Nat
  arcs : Nat → Arc
  fnVals : Nat → Int

/-- Modelled from the spec: the members of `class TriMesh` that `TriMesh.cpp` works on, the
class declaration (`TriMesh.hpp`) not being among the sources: the vertex count `nv`, the scalar
value `fnVals[v]` of every vertex (an exact number), the adjacency sets `vertices[v].adj` and
the maximum degree `maxStar`.  Vertex indices are `int64_t`. -/
structure TriMesh where
  nv : Int
  fnVals : Int → Int
  adj : Int → List Nat
  maxStar : Int

namespace TriMesh

/-- `TriMesh::lessThan`. -/
def lessThan (m : TriMesh) (v1 v2 : Int) : Bool :=
  if m.fnVals v1 < m.fnVals v2 then true
  else if m.fnVals v1 = m.fnVals v2 then decide (v1 < v2)
  else false

end TriMesh

/-- Assignment `m[i] = a` on a vector modelled as a total map. -/
def upd {α : Type} (m : Nat → α) (i : Nat) (a : α) : Nat → α :=
  fun j => if j = i then a else m j

/-- A vector given by its entries, read as a total map (default outside). -/
def ofList {α : Type} (l : List α) (d : α) : Nat → α :=
  fun i => l.getD i d

/-- Modelled from the spec: the importance function interface `SimFunction` (§6), whose
declaration is not among the sources.  `σ` is the private state of the implementation; the
weight vector `fn` is handed over by reference in `init`, so every callback may rewrite it;
`branchRemoved` may rewrite the `invalid` flags. -/
structure SimFunction (σ : Type) where
  init : σ → (Nat → Int) → Nat → (Nat → Branch) → σ × (Nat → Int)
  update : σ → (Nat → Int) → (Nat → Branch) → Nat → σ × (Nat → Int)
  branchRemoved : σ → (Nat → Int) → (Nat → Branch) → Nat → (Nat → Bool) →
    σ × (Nat → Int) × (Nat → Bool)
  getBranchWeight : σ → (Nat → Int) → Nat → Int

/-- The engine state (`class SimplifyCT`); `simFn` is the importance function pointer (`none`
is `NULL`) and `sim` the state of the object behind it. -/
structure SimplifyCT (σ : Type) where
  data : ContourTreeData
  simFn : Option (SimFunction σ)
  branches : Nat → Branch
  nodes : Nat → Node
  fn : Nat → Int
  removed : Nat → Bool
  invalid : Nat → Bool
  inq : Nat → Bool
  vArray : Nat → List Nat
  queue : List Nat
  order : List Nat
  sim : σ

namespace SimplifyCT

variable {σ : Type}

/-- `SimplifyCT::isCandidate`. -/
def isCandidate (s : SimplifyCT σ) (br : Branch) : Bool :=
  let from_ := br.from_
  let to_ := br.to_
  if (s.nodes from_).prev.length = 0 then
    -- minimum
    if (s.nodes to_).prev.length > 1 then true else false
  else if (s.nodes to_).next.length = 0 then
    -- maximum
    if (s.nodes from_).next.length > 1 then true else false
  else false

/-- Conversion of a `uint32_t` value to `int` (two's complement, 32 bits). -/
def toInt32 (x : Int) : Int :=
  (x + 2147483648) % 4294967296 - 2147483648

/-- The value of `int diff = branches[b].to - branches[b].from` in `compare`: the difference of
two `uint32_t` wraps modulo `2^32` and is then narrowed to `int`. -/
def indexSpan (br : Branch) : Int :=
  toInt32 (((br.to_ : Int) - (br.from_ : Int)) % 4294967296)

/-- The value of `data->fnVals[branches[b].to] - data->fnVals[branches[b].from]`. -/
def persistence (s : SimplifyCT σ) (b : Nat) : Int :=
  s.data.fnVals (s.branches b).to_ - s.data.fnVals (s.branches b).from_

/-- `SimplifyCT::compare`. -/
def compare (s : SimplifyCT σ) (b1 b2 : Nat) : Bool :=
  if s.fn b1 > s.fn b2 then true
  else if s.fn b1 < s.fn b2 then false
  else
    let p1 := s.data.fnVals (s.branches b1).to_ - s.data.fnVals (s.branches b1).from_
    let p2 := s.data.fnVals (s.branches b2).to_ - s.data.fnVals (s.branches b2).from_
    if p1 > p2 then true
    else if p1 < p2 then false
    else
      let diff1 := indexSpan (s.branches b1)
      let diff2 := indexSpan (s.branches b2)
      if diff1 > diff2 then true
      else if diff1 < diff2 then false
      else decide ((s.branches b2).from_ > (s.branches b1).from_)

/-- `SimplifyCT::addToQueue`. -/
def addToQueue (s : SimplifyCT σ) (ano : Nat) : SimplifyCT σ :=
  if s.isCandidate (s.branches ano) then
    { s with queue := s.queue ++ [ano], inq := upd s.inq ano true }
  else s

/-- A freshly constructed engine on input `d` after the two `resize` calls of
`initSimplification`: empty queue and order, default branches and nodes. -/
def fresh (f : Option (SimFunction σ)) (sim0 : σ) (d : ContourTreeData) : SimplifyCT σ where
  data := d
  simFn := f
  branches := fun _ => { from_ := 0, to_ := 0, parent := 0, children := [], arcs := [] }
  nodes := fun _ => { prev := [], next := [] }
  fn := fun _ => 0
  removed := fun _ => false
  invalid := fun _ => false
  inq := fun _ => false
  vArray := fun _ => []
  queue := []
  order := []
  sim := sim0

/-- Body of the first loop of `initSimplification` for arc `i`. -/
def initArc (s : SimplifyCT σ) (i : Nat) : SimplifyCT σ :=
  let bs := upd s.branches i
    { s.branches i with
      from_ := (s.data.arcs i).from_, to_ := (s.data.arcs i).to_, parent := -1,
      arcs := (s.branches i).arcs ++ [i] }
  let ns := upd s.nodes (bs i).from_
    { s.nodes (bs i).from_ with next := (s.nodes (bs i).from_).next ++ [i] }
  let ns := upd ns (bs i).to_ { ns (bs i).to_ with prev := (ns (bs i).to_).prev ++ [i] }
  { s with branches := bs, nodes := ns }

/-- `SimplifyCT::initSimplification`, run on a freshly constructed engine. -/
def initSimplification (f : Option (SimFunction σ)) (sim0 : σ) (d : ContourTreeData) :
    SimplifyCT σ :=
  let s := (List.range d.noArcs).foldl initArc (fresh f sim0 d)
  match f with
  | some F =>
    let r := F.init s.sim s.fn d.noArcs s.branches
    let s := { s with sim := r.1, fn := r.2 }
    (List.range d.noArcs).foldl addToQueue s
  | none => s

/-- First branch of `mergeVertex` (`inq[prev]` holds): `prev` survives, is marked invalid and
extended to the far end of `next`, whose entry in that node's `prev` list it takes over. -/
def mergeIntoPrev (s : SimplifyCT σ) (prev next : Nat) : SimplifyCT σ :=
  let bs := upd s.branches prev { s.branches prev with to_ := (s.branches next).to_ }
  let t := (bs prev).to_
  { s with
    invalid := upd s.invalid prev true
    removed := upd s.removed next true
    branches := bs
    nodes := upd s.nodes t
      { s.nodes t with prev := (s.nodes t).prev.map (fun x => if x = next then prev else x) } }

/-- Second branch of `mergeVertex`: `next` survives, is marked invalid and extended to the
far end of `prev`; with an importance function present it is enqueued unless `inq[next]`. -/
def mergeIntoNext (s : SimplifyCT σ) (prev next : Nat) : SimplifyCT σ :=
  let bs := upd s.branches next { s.branches next with from_ := (s.branches prev).from_ }
  let t := (bs next).from_
  let s' : SimplifyCT σ :=
    { s with
      invalid := upd s.invalid next true
      removed := upd s.removed prev true
      branches := bs
      nodes := upd s.nodes t
        { s.nodes t with next := (s.nodes t).next.map (fun x => if x = prev then next else x) } }
  if s'.simFn.isSome && !s'.inq next then s'.addToQueue next else s'

/-- Body shared by the two bookkeeping loops of `mergeVertex`: `ch` becomes a child of `a`. -/
def adopt (a : Nat) (bs : Nat → Branch) (ch : Nat) : Nat → Branch :=
  let bs := upd bs a { bs a with children := (bs a).children ++ [ch] }
  upd bs ch { bs ch with parent := (a : Int) }

/-- The tail of `mergeVertex` (hierarchy transfer) on the branch table: the children of `rem`
and the branches parked in `vArray[v]` go to the survivor `a`, which absorbs the arcs of `rem`;
`rem` gets the parent `-2`.  The first loop runs over the children of `rem` as they stand on
entry, which is what the code does whenever `a != rem`. -/
def transfer (bs : Nat → Branch) (parked : List Nat) (a rem : Nat) : Nat → Branch :=
  let bs := (bs rem).children.foldl (adopt a) bs
  let bs := upd bs a { bs a with arcs := (bs a).arcs ++ (bs rem).arcs }
  let bs := parked.foldl (adopt a) bs
  upd bs rem { bs rem with parent := -2 }

/-- `SimplifyCT::mergeVertex`.  `at(0)` is read with a default, the function being called only
on a vertex whose `prev` and `next` hold one entry each. -/
def mergeVertex (s : SimplifyCT σ) (v : Nat) : SimplifyCT σ :=
  let prev := (s.nodes v).prev.headD 0
  let next := (s.nodes v).next.headD 0
  if s.inq prev then
    let s' := s.mergeIntoPrev prev next
    { s' with branches := transfer s'.branches (s'.vArray v) prev next }
  else
    let s' := s.mergeIntoNext prev next
    { s' with branches := transfer s'.branches (s'.vArray v) next prev }

/-- The vertex chosen by `removeArc`; `4294967295` is the initial `uint32_t mergedVertex = -1`. -/
def mergedVertexOf (s : SimplifyCT σ) (ano : Nat) : Nat :=
  let from_ := (s.branches ano).from_
  let to_ := (s.branches ano).to_
  let mergedVertex := if (s.nodes from_).prev.length = 0 then to_ else 4294967295
  if (s.nodes to_).next.length = 0 then from_ else mergedVertex

/-- The part of `removeArc` before the merge test: `ano` leaves the lists of its endpoints, is
marked removed and parked at `mergedVertex`. -/
def detach (s : SimplifyCT σ) (ano : Nat) : SimplifyCT σ :=
  let from_ := (s.branches ano).from_
  let to_ := (s.branches ano).to_
  let mergedVertex := s.mergedVertexOf ano
  let ns := upd s.nodes from_
    { s.nodes from_ with next := (s.nodes from_).next.filter (fun x => x ≠ ano) }
  let ns := upd ns to_ { ns to_ with prev := (ns to_).prev.filter (fun x => x ≠ ano) }
  { s with
    nodes := ns
    removed := upd s.removed ano true
    vArray := upd s.vArray mergedVertex (s.vArray mergedVertex ++ [ano]) }

/-- The call `simFn->branchRemoved(branches, ano, invalid)` guarded by `simFn != NULL`. -/
def notifyRemoved (s : SimplifyCT σ) (ano : Nat) : SimplifyCT σ :=
  match s.simFn with
  | some F =>
    let r := F.branchRemoved s.sim s.fn s.branches ano s.invalid
    { s with sim := r.1, fn := r.2.1, invalid := r.2.2 }
  | none => s

/-- `SimplifyCT::removeArc`. -/
def removeArc (s : SimplifyCT σ) (ano : Nat) : SimplifyCT σ :=
  let mergedVertex := s.mergedVertexOf ano
  let s1 := s.detach ano
  let s2 := if (s1.nodes mergedVertex).prev.length = 1 ∧ (s1.nodes mergedVertex).next.length = 1
    then s1.mergeVertex mergedVertex else s1
  s2.notifyRemoved ano

/-- `queue.top()`: a greatest entry for `compare`, the earliest pushed among equals. -/
def queueTop (s : SimplifyCT σ) : Option Nat :=
  match s.queue with
  | [] => none
  | x :: xs => some (xs.foldl (fun best y => if s.compare best y then y else best) x)

/-- The call `simFn->update(branches, ano)`. -/
def updateWeight (s : SimplifyCT σ) (ano : Nat) : SimplifyCT σ :=
  match s.simFn with
  | some F =>
    let r := F.update s.sim s.fn s.branches ano
    { s with sim := r.1, fn := r.2 }
  | none => s

/-- One iteration of the `while(queue.size() > 0)` loop of priority-mode `simplify`. -/
def loopStep (s : SimplifyCT σ) : SimplifyCT σ :=
  match s.queueTop with
  | none => s
  | some ano =>
    let s := { s with queue := s.queue.erase ano, inq := upd s.inq ano false }
    if !s.removed ano then
      if s.invalid ano then
        let s := s.updateWeight ano
        let s := { s with invalid := upd s.invalid ano false }
        s.addToQueue ano
      else if s.isCandidate (s.branches ano) then
        let s := s.removeArc ano
        { s with order := s.order ++ [ano] }
      else s
    else s

/-- The queue loop of priority-mode `simplify`, at most `fuel` iterations. -/
def queueLoop : Nat → SimplifyCT σ → SimplifyCT σ
  | 0, s => s
  | fuel + 1, s => if s.queue.length > 0 then queueLoop fuel s.loopStep else s

/-- Iterations granted to the queue loop on `n` arcs (shown sufficient below). -/
def loopFuel (n : Nat) : Nat := (n + 1) * (2 * n + 2)

/-- The branches with `removed[i] == false`, in the order of the final pass. -/
def unremoved (s : SimplifyCT σ) : List Nat :=
  (List.range s.data.noArcs).filter (fun i => !s.removed i)

/-- The "pass over removed" of priority-mode `simplify`. -/
def finalPass (s : SimplifyCT σ) : SimplifyCT σ :=
  { s with order := s.order ++ s.unremoved }

/-- The state in which the queue loop of priority-mode `simplify` ends. -/
def afterQueueLoop (f : Option (SimFunction σ)) (sim0 : σ) (d : ContourTreeData) :
    SimplifyCT σ :=
  queueLoop (loopFuel d.noArcs) (initSimplification f sim0 d)

/-- Priority mode: `SimplifyCT::simplify(SimFunction *simFn)`. -/
def simplify (f : Option (SimFunction σ)) (sim0 : σ) (d : ContourTreeData) : SimplifyCT σ :=
  (afterQueueLoop f sim0 d).finalPass

/-- The weights `wts` that `outputOrder` reads through `getBranchWeight`. -/
def outputWeights (s : SimplifyCT σ) : List Int :=
  match s.simFn with
  | some F => s.order.map (fun ano => F.getBranchWeight s.sim s.fn ano)
  | none => []

/-- The check `assert(pwt <= val)` of `outputOrder`, over all positions `i > 0`. -/
def weightsAscend : List Int → Bool
  | a :: b :: rest => decide (a ≤ b) && weightsAscend (b :: rest)
  | _ => true

/-- The two ways replay-mode `simplify` stops without a result: the `assert(false)` after
"failing candidate test", and the `std::out_of_range` thrown by `at`. -/
inductive ReplayError where
  | failingCandidateTest
  | outOfRange
deriving DecidableEq, Repr

/-- The removal of replay mode: `inq[ano] = false; removeArc(ano);`. -/
def replayRemove (s : SimplifyCT σ) (ano : Nat) : SimplifyCT σ :=
  ({ s with inq := upd s.inq ano false }).removeArc ano

/-- The `topk` loop of replay mode over the entries it visits. -/
def replayTopk : SimplifyCT σ → List Nat → Except ReplayError (SimplifyCT σ)
  | s, [] => .ok s
  | s, ano :: rest =>
    if !s.isCandidate (s.branches ano) then .error .failingCandidateTest
    else replayTopk (s.replayRemove ano) rest

/-- The threshold loop of replay mode over the entries it visits and the weights `wts.at(i)`
from the same index on. -/
def replayThreshold (th : Int) :
    SimplifyCT σ → List Nat → List Int → Except ReplayError (SimplifyCT σ)
  | s, [], _ => .ok s
  | s, ano :: rest, ws =>
    if !s.isCandidate (s.branches ano) then .error .failingCandidateTest
    else match ws with
      | [] => .error .outOfRange
      | w :: ws' => if w > th then .ok s else replayThreshold th (s.replayRemove ano) rest ws'

/-- The loop `inq[order.at(i)] = true` of replay mode. -/
def markQueued (s : SimplifyCT σ) (order : List Nat) : SimplifyCT σ :=
  order.foldl (fun s x => { s with inq := upd s.inq x true }) s

/-- The bound `size_t ct = order.size() - topk` (64-bit `size_t`). -/
def topkCount (order : List Nat) (topk : Int) : Int :=
  ((order.length : Int) - topk) % 18446744073709551616

/-- Replay mode: `SimplifyCT::simplify(order, topk, th, wts)`.  When `ct` exceeds the length
of `order` the loop runs through all entries and `order.at` throws; an empty `order` makes the
bound `order.size() - 1` of the threshold loop wrap, and `order.at(0)` throws. -/
def simplifyReplay (d : ContourTreeData) (order : List Nat) (topk : Int) (th : Int)
    (wts : List Int) : Except ReplayError (SimplifyCT Unit) :=
  let s := markQueued (initSimplification none () d) order
  if topk > 0 then
    let ct := topkCount order topk
    if ct ≤ order.length then replayTopk s (order.take ct.toNat)
    else (replayTopk s order).bind (fun _ => .error .outOfRange)
  else if th ≠ 0 then
    if order.length = 0 then .error .outOfRange
    else replayThreshold th s (order.take (order.length - 1)) wts
  else .ok s

/-! ## Reference notions used to state the properties -/

/-- First disjunct of the candidacy rule: `from` has no incoming arc, `to` more than one. -/
def minCase (s : SimplifyCT σ) (br : Branch) : Prop :=
  (s.nodes br.from_).prev.length = 0 ∧ (s.nodes br.to_).prev.length > 1

/-- Second disjunct of the candidacy rule: `to` has no outgoing arc, `from` more than one. -/
def maxCase (s : SimplifyCT σ) (br : Branch) : Prop :=
  (s.nodes br.to_).next.length = 0 ∧ (s.nodes br.from_).next.length > 1

instance decMinCase (s : SimplifyCT σ) (br : Branch) : Decidable (minCase s br) := by
  unfold minCase; infer_instance

instance decMaxCase (s : SimplifyCT σ) (br : Branch) : Decidable (maxCase s br) := by
  unfold maxCase; infer_instance

/-- The ordering key of a branch: weight, persistence, index span as `compare` computes it. -/
def key (s : SimplifyCT σ) (b : Nat) : Int × Int × Int :=
  (s.fn b, s.persistence b, indexSpan (s.branches b))

/-- Strict lexicographic order on keys. -/
def keyLess (k1 k2 : Int × Int × Int) : Prop :=
  k1.1 < k2.1 ∨ (k1.1 = k2.1 ∧ (k1.2.1 < k2.2.1 ∨ (k1.2.1 = k2.2.1 ∧ k1.2.2 < k2.2.2)))

instance decKeyLess (k1 k2 : Int × Int × Int) : Decidable (keyLess k1 k2) := by
  unfold keyLess; infer_instance

/-- Whether a replay run ended in the consistency error. -/
def aborted {α : Type} : Except ReplayError α → Bool
  | .error .failingCandidateTest => true
  | _ => false

/-- The state after `inq[ano] = false; removeArc(ano)` on the first `i` entries of `order`. -/
def replayPrefix (s : SimplifyCT σ) (order : List Nat) (i : Nat) : SimplifyCT σ :=
  (order.take i).foldl replayRemove s

/-- Index of the first weight exceeding `th` (the length of `wts` if there is none). -/
def firstOver (th : Int) (wts : List Int) : Nat :=
  (wts.takeWhile (fun w => decide (w ≤ th))).length

/-- Number of leading entries of `order` on which replay mode runs the candidacy test. -/
def examined (order : List Nat) (topk th : Int) (wts : List Int) : Nat :=
  if topk > 0 then min (topkCount order topk).toNat order.length
  else if th ≠ 0 then min (firstOver th wts + 1) (order.length - 1)
  else 0

/-- Number of leading entries of `order` that threshold replay removes when nothing fails. -/
def removalCount (order : List Nat) (th : Int) (wts : List Int) : Nat :=
  if th = 0 then 0 else min (firstOver th wts) (order.length - 1)

/-- Entry `i` of `order` fails `isCandidate` in the topology left by the `i` removals before
it. -/
def failsAt (s : SimplifyCT σ) (order : List Nat) (i : Nat) : Prop :=
  (replayPrefix s order i).isCandidate
    ((replayPrefix s order i).branches (order.getD i 0)) = false

/-- The state in which replay mode enters its removal loop. -/
def replayStart (d : ContourTreeData) (order : List Nat) : SimplifyCT Unit :=
  markQueued (initSimplification none () d) order

/-- The survivor `a` of `mergeVertex(v)`. -/
def survivorOf (s : SimplifyCT σ) (v : Nat) : Nat :=
  if s.inq ((s.nodes v).prev.headD 0) then (s.nodes v).prev.headD 0
  else (s.nodes v).next.headD 0

/-- The consumed branch `rem` of `mergeVertex(v)`. -/
def consumedOf (s : SimplifyCT σ) (v : Nat) : Nat :=
  if s.inq ((s.nodes v).prev.headD 0) then (s.nodes v).next.headD 0
  else (s.nodes v).prev.headD 0

/-- Every entry of every `prev` / `next` list is a branch id. -/
def NodesBounded (s : SimplifyCT σ) : Prop :=
  ∀ v x, (x ∈ (s.nodes v).prev ∨ x ∈ (s.nodes v).next) → x < s.data.noArcs

/-- Facts kept by every iteration of the priority-mode queue loop. -/
structure LoopInv (s : SimplifyCT σ) : Prop where
  nodes_lt : NodesBounded s
  queue_lt : ∀ x ∈ s.queue, x < s.data.noArcs
  queue_len : s.queue.length ≤ s.data.noArcs
  order_removed : ∀ x ∈ s.order, s.removed x = true
  order_lt : ∀ x ∈ s.order, x < s.data.noArcs
  order_nodup : s.order.Nodup

/-- Number of branches not yet removed. -/
def unremovedCount (s : SimplifyCT σ) : Nat :=
  ((Finset.range s.data.noArcs).filter (fun i => s.removed i = false)).card

/-- Number of branches flagged invalid. -/
def invalidCount (s : SimplifyCT σ) : Nat :=
  ((Finset.range s.data.noArcs).filter (fun i => s.invalid i = true)).card

/-- The measure that every iteration of the queue loop decreases. -/
def loopMeasure (s : SimplifyCT σ) : Nat :=
  s.unremovedCount * (2 * s.data.noArcs + 1) + s.invalidCount + s.queue.length

/-- Branch `b` is part of the live topology: a branch id whose `removed` flag is clear. -/
def live (s : SimplifyCT σ) (b : Nat) : Prop :=
  b < s.data.noArcs ∧ s.removed b = false

/-- Node `v` is an endpoint of some live branch. -/
def alive (s : SimplifyCT σ) (v : Nat) : Prop :=
  ∃ b, s.live b ∧ ((s.branches b).from_ = v ∨ (s.branches b).to_ = v)

/-- Consistency of the live topology.  `rank` is a node ranking along which every live branch
ascends; the lists of a node that still carries live branches hold exactly these branches; a
node that carries none has empty lists or, if it was collapsed by a merge, one stale entry in
each; live branches cover disjoint sets of arcs; children and parked branches are removed
ones. -/
structure Topo (rank : Nat → Int) (s : SimplifyCT σ) : Prop where
  ranked : ∀ b, s.live b → rank (s.branches b).from_ < rank (s.branches b).to_
  in_next : ∀ b, s.live b → b ∈ (s.nodes (s.branches b).from_).next
  in_prev : ∀ b, s.live b → b ∈ (s.nodes (s.branches b).to_).prev
  prev_ok : ∀ v x, s.alive v → x ∈ (s.nodes v).prev → s.live x ∧ (s.branches x).to_ = v
  next_ok : ∀ v x, s.alive v → x ∈ (s.nodes v).next → s.live x ∧ (s.branches x).from_ = v
  prev_nodup : ∀ v, s.alive v → (s.nodes v).prev.Nodup
  next_nodup : ∀ v, s.alive v → (s.nodes v).next.Nodup
  dead_lists : ∀ v, ¬ s.alive v →
    ((s.nodes v).prev = [] ∧ (s.nodes v).next = []) ∨
    ((s.nodes v).prev.length = 1 ∧ (s.nodes v).next.length = 1)
  arcs_disjoint : ∀ b c, s.live b → s.live c → b ≠ c →
    List.Disjoint (s.branches b).arcs (s.branches c).arcs
  children_removed : ∀ b x, x ∈ (s.branches b).children → s.removed x = true
  parked_removed : ∀ v x, x ∈ s.vArray v → s.removed x = true

/-- The merge test of `removeArc` at the moment it is evaluated. -/
def mergeTest (s : SimplifyCT σ) (a : Nat) : Prop :=
  ((s.detach a).nodes (s.mergedVertexOf a)).prev.length = 1 ∧
    ((s.detach a).nodes (s.mergedVertexOf a)).next.length = 1

instance decMergeTest (s : SimplifyCT σ) (a : Nat) : Decidable (mergeTest s a) := by
  unfold mergeTest; infer_instance

/-- The input arcs ascend along some ranking of the nodes, as the arcs of a contour tree do
along the scalar values. -/
def Ranked (rank : Nat → Int) (d : ContourTreeData) : Prop :=
  ∀ i, i < d.noArcs → rank (d.arcs i).from_ < rank (d.arcs i).to_

/-- The states the engine passes through, in either mode, on an input whose arcs ascend along
some ranking of the nodes.  The contents of the queue and of `inq` are left open (`flags`):
they only steer which candidate is removed next and which branch survives a merge. -/
inductive Reachable : SimplifyCT σ → Prop
  | init (rank : Nat → Int) (f : Option (SimFunction σ)) (sim0 : σ) (d : ContourTreeData)
      (h : Ranked rank d) : Reachable (initSimplification f sim0 d)
  | flags (s : SimplifyCT σ) (q : List Nat) (i : Nat → Bool) (h : Reachable s) :
      Reachable { s with queue := q, inq := i }
  | loop (s : SimplifyCT σ) (h : Reachable s) : Reachable s.loopStep
  | remove (s : SimplifyCT σ) (ano : Nat) (h : Reachable s)
      (hc : s.isCandidate (s.branches ano) = true) : Reachable (s.removeArc ano)

/-- The effect claimed for `mergeVertex(v)`, from the state `s1` before the call to the state
`s2` after it: the survivor `a` holds its old arcs followed by those of the consumed branch
`rem`, the two lists having been disjoint; every former child of `rem` and every branch parked
at `v` is a child of `a` with `parent == a`; `rem` has the parent `-2`. -/
def TransferDone (s1 : SimplifyCT σ) (v : Nat) (s2 : SimplifyCT σ) : Prop :=
  (s2.branches (s1.survivorOf v)).arcs =
      (s1.branches (s1.survivorOf v)).arcs ++ (s1.branches (s1.consumedOf v)).arcs ∧
    List.Disjoint (s1.branches (s1.survivorOf v)).arcs (s1.branches (s1.consumedOf v)).arcs ∧
    (∀ ch, ch ∈ (s1.branches (s1.consumedOf v)).children →
      ch ∈ (s2.branches (s1.survivorOf v)).children ∧
        (s2.branches ch).parent = (s1.survivorOf v : Int)) ∧
    (∀ ch, ch ∈ s1.vArray v →
      ch ∈ (s2.branches (s1.survivorOf v)).children ∧
        (s2.branches ch).parent = (s1.survivorOf v : Int)) ∧
    (s2.branches (s1.consumedOf v)).parent = -2

/-- The live branches, as a finite set. -/
def liveSet (s : SimplifyCT σ) : Finset Nat :=
  (Finset.range s.data.noArcs).filter (fun b => s.removed b = false)

/-- The endpoints of the live branches, as a finite set. -/
def aliveSet (s : SimplifyCT σ) : Finset Nat :=
  s.liveSet.biUnion (fun b => {(s.branches b).from_, (s.branches b).to_})

/-- Nodes `u` and `v` are joined by a live branch, in either direction. -/
def adj (s : SimplifyCT σ) (u v : Nat) : Prop :=
  ∃ b, s.live b ∧ (((s.branches b).from_ = u ∧ (s.branches b).to_ = v) ∨
    ((s.branches b).from_ = v ∧ (s.branches b).to_ = u))

/-- The degree rule of a valid contour tree at node `v`: no incoming arc means exactly one
outgoing arc, no outgoing arc means exactly one incoming arc, and never one of each. -/
def DegOk (s : SimplifyCT σ) (v : Nat) : Prop :=
  ((s.nodes v).prev.length = 0 → (s.nodes v).next.length = 1) ∧
    ((s.nodes v).next.length = 0 → (s.nodes v).prev.length = 1) ∧
    ¬ ((s.nodes v).prev.length = 1 ∧ (s.nodes v).next.length = 1)

/-- What priority mode keeps true of the live topology of a valid contour tree, apart from the
degree rule: consistency, connectedness, one branch less than nodes, every live candidate is
queued, and every branch flagged `inq` is in the queue. -/
structure TreeCore (rank : Nat → Int) (s : SimplifyCT σ) : Prop where
  topo : Topo rank s
  conn : ∀ u v, s.alive u → s.alive v → Relation.ReflTransGen s.adj u v
  count : s.liveSet.card + 1 = s.aliveSet.card
  queued : ∀ b, s.live b → s.isCandidate (s.branches b) = true → b ∈ s.queue
  inq_queue : ∀ b, s.inq b = true → b ∈ s.queue
  queue_lt : ∀ b, b ∈ s.queue → b < s.data.noArcs
  has_fn : s.simFn.isSome = true

/-- The same facts right after branch `a` was popped from the queue: `a` may be a live
candidate without being queued. -/
structure TreeCoreBut (rank : Nat → Int) (s : SimplifyCT σ) (a : Nat) : Prop where
  topo : Topo rank s
  conn : ∀ u v, s.alive u → s.alive v → Relation.ReflTransGen s.adj u v
  count : s.liveSet.card + 1 = s.aliveSet.card
  queued : ∀ b, s.live b → b ≠ a → s.isCandidate (s.branches b) = true → b ∈ s.queue
  inq_queue : ∀ b, s.inq b = true → b ∈ s.queue
  queue_lt : ∀ b, b ∈ s.queue → b < s.data.noArcs
  has_fn : s.simFn.isSome = true

/-- The invariant of the priority-mode queue loop on a valid contour tree. -/
def TreeInv (rank : Nat → Int) (s : SimplifyCT σ) : Prop :=
  TreeCore rank s ∧ ∀ w, s.alive w → DegOk s w

/-- The state inside `removeArc` between `detach` and the merge test: the degree rule holds
everywhere but at the merged vertex `v`, which keeps arcs on both sides. -/
def MidInv (rank : Nat → Int) (s : SimplifyCT σ) (v : Nat) : Prop :=
  TreeCore rank s ∧ (∀ w, s.alive w → w ≠ v → DegOk s w) ∧ s.alive v ∧
    1 ≤ (s.nodes v).prev.length ∧ 1 ≤ (s.nodes v).next.length

/-- Number of input arcs ending in node `v`. -/
def inDegree (d : ContourTreeData) (v : Nat) : Nat :=
  ((List.range d.noArcs).filter (fun i => (d.arcs i).to_ = v)).length

/-- Number of input arcs starting in node `v`. -/
def outDegree (d : ContourTreeData) (v : Nat) : Nat :=
  ((List.range d.noArcs).filter (fun i => (d.arcs i).from_ = v)).length

/-- Nodes `u` and `v` are joined by an input arc, in either direction. -/
def arcAdj (d : ContourTreeData) (u v : Nat) : Prop :=
  ∃ i, i < d.noArcs ∧ (((d.arcs i).from_ = u ∧ (d.arcs i).to_ = v) ∨
    ((d.arcs i).from_ = v ∧ (d.arcs i).to_ = u))

/-- A valid input contour tree.  The arcs join nodes `0..noNodes-1`; the graph they form is
connected and has one arc less than nodes (which, for a connected graph, is to be acyclic) and
at least one arc; a node without incoming arcs has exactly one outgoing arc, a node without
outgoing arcs exactly one incoming arc, and no node has exactly one of each. -/
structure ValidTree (d : ContourTreeData) : Prop where
  in_range : ∀ i, i < d.noArcs → (d.arcs i).from_ < d.noNodes ∧ (d.arcs i).to_ < d.noNodes
  connected : ∀ u v, u < d.noNodes → v < d.noNodes → Relation.ReflTransGen (arcAdj d) u v
  arc_count : d.noArcs + 1 = d.noNodes
  nonempty : 1 ≤ d.noArcs
  min_rule : ∀ v, v < d.noNodes → inDegree d v = 0 → outDegree d v = 1
  max_rule : ∀ v, v < d.noNodes → outDegree d v = 0 → inDegree d v = 1
  no_pass : ∀ v, v < d.noNodes → ¬ (inDegree d v = 1 ∧ outDegree d v = 1)

/-- The number of arcs at a node. -/
def degree (s : SimplifyCT σ) (v : Nat) : Nat :=
  (s.nodes v).prev.length + (s.nodes v).next.length

/-- The neighbour of a node of degree one. -/
def leafNeighbour (s : SimplifyCT σ) (v : Nat) : Nat :=
  if (s.nodes v).prev = [] then (s.branches ((s.nodes v).next.headD 0)).to_
  else (s.branches ((s.nodes v).prev.headD 0)).from_

/-- Body of the "pass over removed" for index `i`, with the counter `root`; `none` stands for
a failed `assert(root == 0)`. -/
def finalPassStep (acc : Option (SimplifyCT σ × Nat)) (i : Nat) : Option (SimplifyCT σ × Nat) :=
  match acc with
  | none => none
  | some (s, root) =>
    if !s.removed i then
      if root = 0 then some ({ s with order := s.order ++ [i] }, root + 1) else none
    else some (s, root)

/-- The "pass over removed" of priority-mode `simplify` with its assertion: the final state and
the final value of `root`, or `none` when `assert(root == 0)` fails. -/
def finalPassChecked (s : SimplifyCT σ) : Option (SimplifyCT σ × Nat) :=
  (List.range s.data.noArcs).foldl finalPassStep (some (s, 0))

instance decArcAdj (d : ContourTreeData) (u v : Nat) : Decidable (arcAdj d u v) := by
  unfold arcAdj; infer_instance

/-- The replay state `R` mirrors the priority-mode state `P` up to the renaming `φ` of live
branches: `φ` is a bijection between the live branches of `P` and those of `R` that keeps
endpoints, every node has as many incoming and outgoing entries in `R` as in `P`, the branches
in `rest` (the entries of the order still to be replayed) are live and keep their id, and
replay's `inq` flags mark exactly `rest`. -/
structure Sim {τ : Type} (rank : Nat → Int) (φ : Nat → Nat) (P : SimplifyCT σ)
    (R : SimplifyCT τ) (rest : List Nat) : Prop where
  data : R.data = P.data
  topoP : Topo rank P
  topoR : Topo rank R
  live_map : ∀ b, P.live b → R.live (φ b)
  inj : ∀ b c, P.live b → P.live c → φ b = φ c → b = c
  surj : ∀ c, R.live c → ∃ b, P.live b ∧ φ b = c
  from_eq : ∀ b, P.live b → (R.branches (φ b)).from_ = (P.branches b).from_
  to_eq : ∀ b, P.live b → (R.branches (φ b)).to_ = (P.branches b).to_
  prev_len : ∀ v, (R.nodes v).prev.length = (P.nodes v).prev.length
  next_len : ∀ v, (R.nodes v).next.length = (P.nodes v).next.length
  fix : ∀ x, x ∈ rest → P.live x ∧ φ x = x
  inq_iff : ∀ x, R.inq x = true ↔ x ∈ rest
  no_fn : R.simFn = none

/-- Replay state `R` agrees with priority-mode state `P` as far as the replayed `order` can
tell: every branch listed in `order` has the same `removed` flag and, while un-removed, the same
endpoints; every node has as many incoming and as many outgoing entries; and the un-removed
branches of `P` and `R` correspond one-to-one with equal endpoints, the listed ones to
themselves. -/
def Mirrors {τ : Type} (order : List Nat) (P : SimplifyCT σ) (R : SimplifyCT τ) : Prop :=
  (∀ b, b ∈ order → R.removed b = P.removed b ∧
    (P.removed b = false → (R.branches b).from_ = (P.branches b).from_ ∧
      (R.branches b).to_ = (P.branches b).to_)) ∧
  (∀ v, (R.nodes v).prev.length = (P.nodes v).prev.length ∧
    (R.nodes v).next.length = (P.nodes v).next.length) ∧
  ∃ φ : Nat → Nat, (∀ b, b ∈ order → P.live b → φ b = b) ∧
    (∀ b, P.live b → R.live (φ b) ∧ (R.branches (φ b)).from_ = (P.branches b).from_ ∧
      (R.branches (φ b)).to_ = (P.branches b).to_) ∧
    (∀ b c, P.live b → P.live c → φ b = φ c → b = c) ∧
    (∀ c, R.live c → ∃ b, P.live b ∧ φ b = c)

/-- Ownership in the branch hierarchy.  Every `children` list is free of repetitions; the
lists of two different branches that have not been consumed by a merge (`parent != -2`) share
no entry; an un-removed branch is not consumed; the lists `vArray[v]` of parked branches are
free of repetitions and pairwise disjoint, and disjoint from the `children` lists of
non-consumed branches as long as `v` carries a live branch; a consumed branch is neither parked
nor a child of a non-consumed branch. -/
structure Forest (s : SimplifyCT σ) : Prop where
  child_nodup : ∀ b, (s.branches b).children.Nodup
  child_disjoint : ∀ b c, b ≠ c → (s.branches b).parent ≠ -2 → (s.branches c).parent ≠ -2 →
    List.Disjoint (s.branches b).children (s.branches c).children
  live_parent : ∀ b, s.removed b = false → (s.branches b).parent ≠ -2
  parked_nodup : ∀ v, (s.vArray v).Nodup
  parked_disjoint : ∀ v w, v ≠ w → List.Disjoint (s.vArray v) (s.vArray w)
  parked_child : ∀ v b, s.alive v → (s.branches b).parent ≠ -2 →
    List.Disjoint (s.vArray v) (s.branches b).children
  consumed_not_parked : ∀ x v, (s.branches x).parent = -2 → x ∉ s.vArray v
  consumed_not_child : ∀ x b, (s.branches x).parent = -2 → (s.branches b).parent ≠ -2 →
    x ∉ (s.branches b).children

/-- No branch is a child of two branches, consumed branches (`parent == -2`, whose stale
`children` lists the code leaves in place) set aside: no `children` list holds an id twice,
and the lists of two different non-consumed branches share no id. -/
def SingleOwner (s : SimplifyCT σ) : Prop :=
  (∀ b, (s.branches b).children.Nodup) ∧
    ∀ b c x, b ≠ c → (s.branches b).parent ≠ -2 → (s.branches c).parent ≠ -2 →
      x ∈ (s.branches b).children → x ∉ (s.branches c).children

/-- The queue discipline: no branch id occurs twice in the queue, and `inq[b]` holds exactly
for the ids in it. -/
def QueueInv (s : SimplifyCT σ) : Prop :=
  s.queue.Nodup ∧ ∀ b, s.inq b = true ↔ b ∈ s.queue

/-- The state after `queue.pop(); inq[ano] = false` at the head of a loop iteration. -/
def popped (s : SimplifyCT σ) (ano : Nat) : SimplifyCT σ :=
  { s with queue := s.queue.erase ano, inq := upd s.inq ano false }

/-- Number of queue entries whose branch is flagged invalid. -/
def queuedInvalid (s : SimplifyCT σ) : Nat :=
  (s.queue.filter (fun b => s.invalid b)).length

/-- The triple (number of un-removed branches, number of queued invalid branches, queue
size). -/
def lexMeasure (s : SimplifyCT σ) : Nat × Nat × Nat :=
  (s.unremovedCount, s.queuedInvalid, s.queue.length)

/-- Strict lexicographic order on triples of natural numbers. -/
def lexLess (a b : Nat × Nat × Nat) : Prop :=
  a.1 < b.1 ∨ (a.1 = b.1 ∧ (a.2.1 < b.2.1 ∨ (a.2.1 = b.2.1 ∧ a.2.2 < b.2.2)))

instance decLexLess (a b : Nat × Nat × Nat) : Decidable (lexLess a b) := by
  unfold lexLess; infer_instance

/-- The iteration that starts in `s` pops `b` and finds it un-removed and invalid: it
recomputes the weight of `b`, clears the flag and hands `b` back to `addToQueue`. -/
def requeues (s : SimplifyCT σ) (b : Nat) : Prop :=
  s.queueTop = some b ∧ s.removed b = false ∧ s.invalid b = true

/-- `mergeVertex` with its two `at(0)` reads checked: `none` if `nodes[v].prev` or
`nodes[v].next` is empty. -/
def mergeVertexChecked (s : SimplifyCT σ) (v : Nat) : Option (SimplifyCT σ) :=
  match (s.nodes v).prev, (s.nodes v).next with
  | _ :: _, _ :: _ => some (s.mergeVertex v)
  | _, _ => none

/-- `removeArc` with the accesses `nodes[from]`, `nodes[to]`, `vArray[mergedVertex]` and
`nodes[mergedVertex]` checked against the `n` entries of `nodes` and `vArray`, and with the
`at(0)` reads of `mergeVertex` checked: `none` where an access is out of bounds. -/
def removeArcChecked (s : SimplifyCT σ) (n ano : Nat) : Option (SimplifyCT σ) :=
  let mergedVertex := s.mergedVertexOf ano
  if (s.branches ano).from_ < n ∧ (s.branches ano).to_ < n ∧ mergedVertex < n then
    let s1 := s.detach ano
    if (s1.nodes mergedVertex).prev.length = 1 ∧ (s1.nodes mergedVertex).next.length = 1 then
      (s1.mergeVertexChecked mergedVertex).map (fun s2 => s2.notifyRemoved ano)
    else some (s1.notifyRemoved ano)
  else none

/-- Consistency of the lists with the branch table: every un-removed branch is listed exactly
once in the `next` list of its `from` node and exactly once in the `prev` list of its `to`
node, and the lists of a node that is an endpoint of some un-removed branch hold only
un-removed branches ending, respectively starting, at that node. -/
def Consistent (s : SimplifyCT σ) : Prop :=
  (∀ b, s.live b →
      List.count b (s.nodes (s.branches b).from_).next = 1 ∧
      List.count b (s.nodes (s.branches b).to_).prev = 1) ∧
    ∀ v, s.alive v →
      (∀ x, x ∈ (s.nodes v).prev → s.live x ∧ (s.branches x).to_ = v) ∧
      (∀ x, x ∈ (s.nodes v).next → s.live x ∧ (s.branches x).from_ = v)

/-- Body of the first bookkeeping loop of `mergeVertex` with its assertion
`branches[ch].parent == rem` checked; `none` once the assertion has failed. -/
def adoptAsserted (a rem : Nat) (acc : Option (Nat → Branch)) (ch : Nat) :
    Option (Nat → Branch) :=
  match acc with
  | some bs =>
    let bs := upd bs a { bs a with children := (bs a).children ++ [ch] }
    if (bs ch).parent = (rem : Int) then some (upd bs ch { bs ch with parent := (a : Int) })
    else none
  | none => none

/-- The tail of `mergeVertex` on the branch table, with the assertion of its first loop
checked. -/
def transferAsserted (bs : Nat → Branch) (parked : List Nat) (a rem : Nat) :
    Option (Nat → Branch) :=
  match (bs rem).children.foldl (adoptAsserted a rem) (some bs) with
  | some bs =>
    let bs := upd bs a { bs a with arcs := (bs a).arcs ++ (bs rem).arcs }
    let bs := parked.foldl (adopt a) bs
    some (upd bs rem { bs rem with parent := -2 })
  | none => none

/-- `SimplifyCT::mergeVertex` with its assertion checked. -/
def mergeVertexAsserted (s : SimplifyCT σ) (v : Nat) : Option (SimplifyCT σ) :=
  let prev := (s.nodes v).prev.headD 0
  let next := (s.nodes v).next.headD 0
  if s.inq prev then
    let s' := s.mergeIntoPrev prev next
    (transferAsserted s'.branches (s'.vArray v) prev next).map
      (fun bs => { s' with branches := bs })
  else
    let s' := s.mergeIntoNext prev next
    (transferAsserted s'.branches (s'.vArray v) next prev).map
      (fun bs => { s' with branches := bs })

/-- `SimplifyCT::removeArc` with the assertion of `mergeVertex` checked. -/
def removeArcAsserted (s : SimplifyCT σ) (ano : Nat) : Option (SimplifyCT σ) :=
  let mergedVertex := s.mergedVertexOf ano
  let s1 := s.detach ano
  let s2 := if (s1.nodes mergedVertex).prev.length = 1 ∧ (s1.nodes mergedVertex).next.length = 1
    then s1.mergeVertexAsserted mergedVertex else some s1
  s2.map (fun t => t.notifyRemoved ano)

/-- One iteration of the queue loop with the assertion of `mergeVertex` checked. -/
def loopStepAsserted (s : SimplifyCT σ) : Option (SimplifyCT σ) :=
  match s.queueTop with
  | none => some s
  | some ano =>
    let s := { s with queue := s.queue.erase ano, inq := upd s.inq ano false }
    if !s.removed ano then
      if s.invalid ano then
        let s := s.updateWeight ano
        let s := { s with invalid := upd s.invalid ano false }
        some (s.addToQueue ano)
      else if s.isCandidate (s.branches ano) then
        (s.removeArcAsserted ano).map (fun t => { t with order := t.order ++ [ano] })
      else some s
    else some s

/-- The queue loop of priority-mode `simplify` with the assertion of `mergeVertex` checked, at
most `fuel` iterations; `none` if the assertion fails. -/
def queueLoopAsserted : Nat → SimplifyCT σ → Option (SimplifyCT σ)
  | 0, s => some s
  | fuel + 1, s =>
    if s.queue.length > 0 then
      match s.loopStepAsserted with
      | some t => queueLoopAsserted fuel t
      | none => none
    else some s

/-- Agreement of the `parent` fields with the `children` lists: every entry of the `children`
list of a branch `p` that has not been consumed (`parent != -2`) has the parent `p`; and every
branch with `parent >= 0` is removed and listed in the `children` of its parent. -/
def Parents (s : SimplifyCT σ) : Prop :=
  (∀ p ch, (s.branches p).parent ≠ -2 → ch ∈ (s.branches p).children →
      (s.branches ch).parent = (p : Int)) ∧
    ∀ b, b < s.data.noArcs → 0 ≤ (s.branches b).parent →
      s.removed b = true ∧ b ∈ (s.branches (s.branches b).parent.toNat).children

/-- The `arcs` lists of the branches that have not been consumed (`parent != -2`) partition
the arc ids: they hold arc ids only, and every arc id below `noArcs` occurs in the list of
exactly one such branch, exactly once. -/
def ArcPartition (s : SimplifyCT σ) : Prop :=
  (∀ b, b < s.data.noArcs → (s.branches b).parent ≠ -2 →
      ∀ i, i ∈ (s.branches b).arcs → i < s.data.noArcs) ∧
    ∀ i, i < s.data.noArcs →
      ∃ b, b < s.data.noArcs ∧ (s.branches b).parent ≠ -2 ∧
        List.count i (s.branches b).arcs = 1 ∧
        ∀ c, c < s.data.noArcs → (s.branches c).parent ≠ -2 → i ∈ (s.branches c).arcs → c = b

end SimplifyCT

/-! ## Example inputs -/

/-- Input data from a list of arcs `(from, to)` and a list of scalar values. -/
def mkData (nn : Nat) (arcs : List (Nat × Nat)) (vals : List Int) : ContourTreeData where
  noNodes := nn
  noArcs := arcs.length
  arcs := fun i => { from_ := (arcs.getD i (0, 0)).1, to_ := (arcs.getD i (0, 0)).2 }
  fnVals := fun i => vals.getD i 0

/-- An importance function with the weights `w`, never recomputed. -/
def fixedSim (w : Nat → Int) : SimFunction Unit where
  init := fun st _ _ _ => (st, w)
  update := fun st fn _ _ => (st, fn)
  branchRemoved := fun st fn _ _ inv => (st, fn, inv)
  getBranchWeight := fun _ fn b => fn b

/-- The persistence importance function: the weight of a branch is the scalar span between
its current endpoints, recomputed by `update`. -/
def persistenceSim (fnVals : Nat → Int) : SimFunction Unit where
  init := fun st fn n br =>
    (st, fun i => if i < n then fnVals (br i).to_ - fnVals (br i).from_ else fn i)
  update := fun st fn br b => (st, upd fn b (fnVals (br b).to_ - fnVals (br b).from_))
  branchRemoved := fun st fn _ _ inv => (st, fn, inv)
  getBranchWeight := fun _ fn b => fn b

/-- Two arcs leaving node 0: `0 → 1` and `0 → 2`. -/
def forkData : ContourTreeData := mkData 3 [(0, 1), (0, 2)] [0, 1, 2]

/-- The engine right after `initSimplification(NULL)` on `forkData`. -/
def forkState : SimplifyCT Unit := SimplifyCT.initSimplification none () forkData

/-- Two disjoint arcs `0 → 2` and `1 → 3` of equal scalar span. -/
def tieData : ContourTreeData := mkData 4 [(0, 2), (1, 3)] [0, 0, 1, 1]

/-- The engine after `initSimplification` on `tieData` with both weights equal to 5. -/
def tieState : SimplifyCT Unit :=
  SimplifyCT.initSimplification (some (fixedSim (fun _ => 5))) () tieData

/-- The engine after `initSimplification` on `tieData` with weights 5 and 7. -/
def weightState : SimplifyCT Unit :=
  SimplifyCT.initSimplification (some (fixedSim (ofList [5, 7] 0))) () tieData

/-- Two minima 0 and 1 below the saddle 2, and the maximum 3: arcs `0 → 2`, `1 → 2`, `2 → 3`. -/
def yData : ContourTreeData := mkData 4 [(0, 2), (1, 2), (2, 3)] [0, 1, 2, 10]

/-- A valid contour tree on which the weights of the produced order drop: minima 0 and 1,
maxima 2 and 4, inner nodes 3 and 5; arcs `0 → 3`, `3 → 4`, `3 → 5`, `1 → 5`, `5 → 2`. -/
def dipData : ContourTreeData :=
  mkData 6 [(0, 3), (3, 4), (3, 5), (1, 5), (5, 2)] [0, 0, 101, 99, 1099, 100]

/-- The engine after `initSimplification` on `yData` with the persistence importance function. -/
def yState : SimplifyCT Unit :=
  SimplifyCT.initSimplification (some (persistenceSim yData.fnVals)) () yData

/-- A valid contour tree with two saddles: minima 0 and 1 below node 2, the arc `2 → 3`, and
the maxima 4 and 5 above node 3. -/
def saddleData : ContourTreeData :=
  mkData 6 [(0, 2), (1, 2), (2, 3), (3, 4), (3, 5)] [0, 0, 5, 6, 100, 200]

/-- Fixed weights `1, 2, 9, 3, 4` for the five arcs of `saddleData`. -/
def saddleSim : SimFunction Unit := fixedSim (ofList [1, 2, 9, 3, 4] 0)

/-- Two minima 0 and 1 below one maximum 2: arcs `0 → 2`, `1 → 2`. -/
def veeData : ContourTreeData := mkData 3 [(0, 2), (1, 2)] [0, 0, 1]

/-- The engine right after `initSimplification(NULL)` on `veeData`. -/
def veeState : SimplifyCT Unit := SimplifyCT.initSimplification none () veeData

/-- A valid contour tree with three saddles: minima 0 and 1 below node 2, the arc `2 → 3`,
the maximum 4 above node 3, the arc `3 → 5`, and the maxima 6 and 7 above node 5. -/
def deepData : ContourTreeData :=
  mkData 8 [(0, 2), (1, 2), (2, 3), (3, 4), (3, 5), (5, 6), (5, 7)]
    [0, 0, 5, 6, 100, 50, 200, 300]

/-- Fixed weights `5, 6, 9, 1, 9, 7, 8` for the seven arcs of `deepData`. -/
def deepSim : SimFunction Unit := fixedSim (ofList [5, 6, 9, 1, 9, 7, 8] 0)

/-! ## The vertex order of the mesh -/

namespace TriMesh

theorem lessThan_iff (m : TriMesh) (v1 v2 : Int) :
    m.lessThan v1 v2 = true ↔
      (m.fnVals v1 < m.fnVals v2 ∨ (m.fnVals v1 = m.fnVals v2 ∧ v1 < v2)) := by
  unfold lessThan
  split_ifs with h1 h2
  · simp [h1]
  · simp [h2]
  · simp [h1, h2]

/-- Claim C12: `TriMesh::lessThan` is a strict total order on vertex indices, by scalar value
with the index as tie-break: it is irreflexive and transitive, of two different vertices
exactly one is less than the other, and `lessThan(v1, v2)` holds iff
`fnVals[v1] < fnVals[v2]`, or `fnVals[v1] == fnVals[v2]` and `v1 < v2`. -/
theorem lessThan_strict_total_order (m : TriMesh) :
    (∀ v, m.lessThan v v = false) ∧
      (∀ v1 v2 v3, m.lessThan v1 v2 = true → m.lessThan v2 v3 = true →
        m.lessThan v1 v3 = true) ∧
      (∀ v1 v2, v1 ≠ v2 →
        (m.lessThan v1 v2 = true ∧ m.lessThan v2 v1 = false) ∨
          (m.lessThan v1 v2 = false ∧ m.lessThan v2 v1 = true)) ∧
      (∀ v1 v2, m.lessThan v1 v2 = true ↔
        (m.fnVals v1 < m.fnVals v2 ∨ (m.fnVals v1 = m.fnVals v2 ∧ v1 < v2))) := by
  have hf : ∀ v1 v2, m.lessThan v1 v2 = false ↔
      ¬ (m.fnVals v1 < m.fnVals v2 ∨ (m.fnVals v1 = m.fnVals v2 ∧ v1 < v2)) := by
    intro v1 v2
    rw [← lessThan_iff, Bool.not_eq_true]
  refine ⟨?_, ?_, ?_, lessThan_iff m⟩
  · intro v
    rw [hf]
    omega
  · intro v1 v2 v3 h12 h23
    rw [lessThan_iff] at h12 h23 ⊢
    omega
  · intro v1 v2 hne
    rw [lessThan_iff, lessThan_iff, hf, hf]
    omega

end TriMesh

/-! ## Candidacy -/

namespace SimplifyCT

variable {σ : Type}

/-- Claim C1, as stated, fails: after `initSimplification` on the arcs `0 → 1`, `0 → 2`, branch 0
starts at a node without incoming arcs whose target has a single incoming arc, so `isCandidate`
answers false, although exactly one of the two conditions (the second) holds. -/
theorem isCandidate_not_exactly_one_of_cases :
    ¬ (forkState.isCandidate (forkState.branches 0) = true ↔
        Xor' (minCase forkState (forkState.branches 0))
          (maxCase forkState (forkState.branches 0))) := by
  decide

/-- Claim C1, amended: in every engine state `isCandidate(b)` is true iff exactly one of
(i) `from` has no incoming arc and `to` has more than one, (ii) `from` has an incoming arc,
`to` has no outgoing arc and `from` has more than one outgoing arc. -/
theorem isCandidate_iff (s : SimplifyCT σ) (br : Branch) :
    s.isCandidate br = true ↔
      Xor' (minCase s br) ((s.nodes br.from_).prev.length ≠ 0 ∧ maxCase s br) := by
  unfold isCandidate minCase maxCase Xor'
  simp only []
  split_ifs <;> simp_all

/-! ## The comparator -/

/-- The narrowed difference is the plain index difference for node ids below `2^31`. -/
theorem indexSpan_eq_sub (br : Branch) (hf : br.from_ < 2147483648) (ht : br.to_ < 2147483648) :
    indexSpan br = (br.to_ : Int) - (br.from_ : Int) := by
  unfold indexSpan toInt32
  omega

/-- Claim C2: whenever the keys (weight, persistence, index span) of `b1` and `b2` differ,
`compare(b1,b2)` is true exactly when the key of `b1` is lexicographically greater, so the lower
weight, then the lower persistence, then the smaller index span leaves the queue first.  The
index span is the `int` the code computes, equal to `to - from` for ids below `2^31`. -/
theorem compare_iff_key_greater (s : SimplifyCT σ) (b1 b2 : Nat) (h : key s b1 ≠ key s b2) :
    s.compare b1 b2 = true ↔ keyLess (key s b2) (key s b1) := by
  unfold key persistence at h
  unfold compare keyLess key persistence
  simp only [gt_iff_lt]
  split_ifs with h1 h2 h3 h4 h5 h6
  · simp [h1]
  · simp only [false_iff, Bool.false_eq_true]; intro hc; omega
  · simp only [true_iff]; right; exact ⟨by omega, Or.inl h3⟩
  · simp only [false_iff, Bool.false_eq_true]; intro hc; omega
  · simp only [true_iff]; right; exact ⟨by omega, Or.inr ⟨by omega, h5⟩⟩
  · simp only [false_iff, Bool.false_eq_true]; intro hc; omega
  · exfalso
    apply h
    have e1 : s.fn b1 = s.fn b2 := by omega
    have e3 : indexSpan (s.branches b1) = indexSpan (s.branches b2) := by omega
    rw [e1, e3]
    congr 2
    omega

/-- Witness for C2: weights 5 and 7 on two arcs of equal span. -/
theorem compare_iff_key_greater_witness :
    key weightState 1 ≠ key weightState 0 ∧
      (weightState.compare 1 0 = true ↔ keyLess (key weightState 0) (key weightState 1)) :=
  ⟨by decide, compare_iff_key_greater weightState 1 0 (by decide)⟩

/-- On equal keys the last line of `compare` decides: true exactly when `b1` has the smaller
`from`. -/
theorem compare_of_key_eq (s : SimplifyCT σ) (b1 b2 : Nat) (h : key s b1 = key s b2) :
    s.compare b1 b2 = true ↔ (s.branches b1).from_ < (s.branches b2).from_ := by
  unfold key persistence at h
  simp only [Prod.mk.injEq] at h
  obtain ⟨h1, h2, h3⟩ := h
  unfold compare
  simp only [gt_iff_lt]
  split_ifs <;> first | omega | simp

/-- Claim C3 at its failing input: branches 0 and 1 of `tieState` agree in weight, persistence
and index span, `from` is 0 and 1; `compare(0,1)` is true although `branches[0].from` is not
greater than `branches[1].from`, and `queueTop` on the queue holding both yields branch 1, the
one with the larger `from`. -/
theorem compare_tie_prefers_larger_from :
    key tieState 0 = key tieState 1 ∧ tieState.compare 0 1 = true ∧
      ¬ ((tieState.branches 0).from_ > (tieState.branches 1).from_) ∧
      ({ tieState with queue := [0, 1] } : SimplifyCT Unit).queueTop = some 1 := by
  decide

/-! ## Frame lemmas, bounds and termination -/

@[simp]
theorem upd_same {α : Type} (m : Nat → α) (i : Nat) (a : α) : upd m i a i = a := by
  simp [upd]

theorem upd_other {α : Type} (m : Nat → α) (i j : Nat) (a : α) (h : j ≠ i) :
    upd m i a j = m j := by
  simp [upd, h]

theorem upd_apply {α : Type} (m : Nat → α) (i j : Nat) (a : α) :
    upd m i a j = if j = i then a else m j := rfl

/-! ### Frame lemmas -/

@[simp]
theorem addToQueue_removed (s : SimplifyCT σ) (a : Nat) :
    (s.addToQueue a).removed = s.removed := by
  unfold addToQueue; split_ifs <;> rfl

@[simp]
theorem addToQueue_order (s : SimplifyCT σ) (a : Nat) :
    (s.addToQueue a).order = s.order := by
  unfold addToQueue; split_ifs <;> rfl

@[simp]
theorem addToQueue_data (s : SimplifyCT σ) (a : Nat) :
    (s.addToQueue a).data = s.data := by
  unfold addToQueue; split_ifs <;> rfl

@[simp]
theorem addToQueue_nodes (s : SimplifyCT σ) (a : Nat) :
    (s.addToQueue a).nodes = s.nodes := by
  unfold addToQueue; split_ifs <;> rfl

@[simp]
theorem addToQueue_branches (s : SimplifyCT σ) (a : Nat) :
    (s.addToQueue a).branches = s.branches := by
  unfold addToQueue; split_ifs <;> rfl

@[simp]
theorem addToQueue_invalid (s : SimplifyCT σ) (a : Nat) :
    (s.addToQueue a).invalid = s.invalid := by
  unfold addToQueue; split_ifs <;> rfl

@[simp]
theorem addToQueue_simFn (s : SimplifyCT σ) (a : Nat) :
    (s.addToQueue a).simFn = s.simFn := by
  unfold addToQueue; split_ifs <;> rfl

@[simp]
theorem addToQueue_vArray (s : SimplifyCT σ) (a : Nat) :
    (s.addToQueue a).vArray = s.vArray := by
  unfold addToQueue; split_ifs <;> rfl

theorem addToQueue_queue (s : SimplifyCT σ) (a : Nat) :
    (s.addToQueue a).queue =
      if s.isCandidate (s.branches a) then s.queue ++ [a] else s.queue := by
  unfold addToQueue; split_ifs <;> rfl

theorem addToQueue_inq (s : SimplifyCT σ) (a : Nat) :
    (s.addToQueue a).inq =
      if s.isCandidate (s.branches a) then upd s.inq a true else s.inq := by
  unfold addToQueue; split_ifs <;> rfl

@[simp]
theorem mergeIntoPrev_removed (s : SimplifyCT σ) (p q : Nat) :
    (s.mergeIntoPrev p q).removed = upd s.removed q true := rfl
@[simp]
theorem mergeIntoPrev_order (s : SimplifyCT σ) (p q : Nat) :
    (s.mergeIntoPrev p q).order = s.order := rfl
@[simp]
theorem mergeIntoPrev_data (s : SimplifyCT σ) (p q : Nat) :
    (s.mergeIntoPrev p q).data = s.data := rfl
@[simp]
theorem mergeIntoPrev_simFn (s : SimplifyCT σ) (p q : Nat) :
    (s.mergeIntoPrev p q).simFn = s.simFn := rfl
@[simp]
theorem mergeIntoPrev_queue (s : SimplifyCT σ) (p q : Nat) :
    (s.mergeIntoPrev p q).queue = s.queue := rfl
@[simp]
theorem mergeIntoPrev_inq (s : SimplifyCT σ) (p q : Nat) :
    (s.mergeIntoPrev p q).inq = s.inq := rfl
@[simp]
theorem mergeIntoPrev_vArray (s : SimplifyCT σ) (p q : Nat) :
    (s.mergeIntoPrev p q).vArray = s.vArray := rfl
@[simp]
theorem mergeIntoPrev_invalid (s : SimplifyCT σ) (p q : Nat) :
    (s.mergeIntoPrev p q).invalid = upd s.invalid p true := rfl

@[simp]
theorem mergeIntoNext_removed (s : SimplifyCT σ) (p q : Nat) :
    (s.mergeIntoNext p q).removed = upd s.removed p true := by
  unfold mergeIntoNext; simp only []; split_ifs <;> simp
@[simp]
theorem mergeIntoNext_order (s : SimplifyCT σ) (p q : Nat) :
    (s.mergeIntoNext p q).order = s.order := by
  unfold mergeIntoNext; simp only []; split_ifs <;> simp
@[simp]
theorem mergeIntoNext_data (s : SimplifyCT σ) (p q : Nat) :
    (s.mergeIntoNext p q).data = s.data := by
  unfold mergeIntoNext; simp only []; split_ifs <;> simp
@[simp]
theorem mergeIntoNext_simFn (s : SimplifyCT σ) (p q : Nat) :
    (s.mergeIntoNext p q).simFn = s.simFn := by
  unfold mergeIntoNext; simp only []; split_ifs <;> simp
@[simp]
theorem mergeIntoNext_vArray (s : SimplifyCT σ) (p q : Nat) :
    (s.mergeIntoNext p q).vArray = s.vArray := by
  unfold mergeIntoNext; simp only []; split_ifs <;> simp
@[simp]
theorem mergeIntoNext_invalid (s : SimplifyCT σ) (p q : Nat) :
    (s.mergeIntoNext p q).invalid = upd s.invalid q true := by
  unfold mergeIntoNext; simp only []; split_ifs <;> simp

theorem mergeIntoNext_queue (s : SimplifyCT σ) (p q : Nat) :
    (s.mergeIntoNext p q).queue = s.queue ∨ (s.mergeIntoNext p q).queue = s.queue ++ [q] := by
  unfold mergeIntoNext; simp only []
  split_ifs
  · rw [addToQueue_queue]; split_ifs <;> simp
  · simp

@[simp]
theorem detach_removed (s : SimplifyCT σ) (a : Nat) :
    (s.detach a).removed = upd s.removed a true := rfl
@[simp]
theorem detach_order (s : SimplifyCT σ) (a : Nat) : (s.detach a).order = s.order := rfl
@[simp]
theorem detach_data (s : SimplifyCT σ) (a : Nat) : (s.detach a).data = s.data := rfl
@[simp]
theorem detach_simFn (s : SimplifyCT σ) (a : Nat) : (s.detach a).simFn = s.simFn := rfl
@[simp]
theorem detach_queue (s : SimplifyCT σ) (a : Nat) : (s.detach a).queue = s.queue := rfl
@[simp]
theorem detach_inq (s : SimplifyCT σ) (a : Nat) : (s.detach a).inq = s.inq := rfl
@[simp]
theorem detach_invalid (s : SimplifyCT σ) (a : Nat) :
    (s.detach a).invalid = s.invalid := rfl
@[simp]
theorem detach_branches (s : SimplifyCT σ) (a : Nat) :
    (s.detach a).branches = s.branches := rfl

@[simp]
theorem notifyRemoved_removed (s : SimplifyCT σ) (a : Nat) :
    (s.notifyRemoved a).removed = s.removed := by
  unfold notifyRemoved; split <;> rfl
@[simp]
theorem notifyRemoved_order (s : SimplifyCT σ) (a : Nat) :
    (s.notifyRemoved a).order = s.order := by
  unfold notifyRemoved; split <;> rfl
@[simp]
theorem notifyRemoved_data (s : SimplifyCT σ) (a : Nat) :
    (s.notifyRemoved a).data = s.data := by
  unfold notifyRemoved; split <;> rfl
@[simp]
theorem notifyRemoved_simFn (s : SimplifyCT σ) (a : Nat) :
    (s.notifyRemoved a).simFn = s.simFn := by
  unfold notifyRemoved; split <;> simp_all
@[simp]
theorem notifyRemoved_queue (s : SimplifyCT σ) (a : Nat) :
    (s.notifyRemoved a).queue = s.queue := by
  unfold notifyRemoved; split <;> rfl
@[simp]
theorem notifyRemoved_inq (s : SimplifyCT σ) (a : Nat) :
    (s.notifyRemoved a).inq = s.inq := by
  unfold notifyRemoved; split <;> rfl
@[simp]
theorem notifyRemoved_nodes (s : SimplifyCT σ) (a : Nat) :
    (s.notifyRemoved a).nodes = s.nodes := by
  unfold notifyRemoved; split <;> rfl
@[simp]
theorem notifyRemoved_branches (s : SimplifyCT σ) (a : Nat) :
    (s.notifyRemoved a).branches = s.branches := by
  unfold notifyRemoved; split <;> rfl
@[simp]
theorem notifyRemoved_vArray (s : SimplifyCT σ) (a : Nat) :
    (s.notifyRemoved a).vArray = s.vArray := by
  unfold notifyRemoved; split <;> rfl

@[simp]
theorem updateWeight_removed (s : SimplifyCT σ) (a : Nat) :
    (s.updateWeight a).removed = s.removed := by
  unfold updateWeight; split <;> rfl
@[simp]
theorem updateWeight_order (s : SimplifyCT σ) (a : Nat) :
    (s.updateWeight a).order = s.order := by
  unfold updateWeight; split <;> rfl
@[simp]
theorem updateWeight_data (s : SimplifyCT σ) (a : Nat) :
    (s.updateWeight a).data = s.data := by
  unfold updateWeight; split <;> rfl
@[simp]
theorem updateWeight_simFn (s : SimplifyCT σ) (a : Nat) :
    (s.updateWeight a).simFn = s.simFn := by
  unfold updateWeight; split <;> simp_all
@[simp]
theorem updateWeight_queue (s : SimplifyCT σ) (a : Nat) :
    (s.updateWeight a).queue = s.queue := by
  unfold updateWeight; split <;> rfl
@[simp]
theorem updateWeight_inq (s : SimplifyCT σ) (a : Nat) :
    (s.updateWeight a).inq = s.inq := by
  unfold updateWeight; split <;> rfl
@[simp]
theorem updateWeight_invalid (s : SimplifyCT σ) (a : Nat) :
    (s.updateWeight a).invalid = s.invalid := by
  unfold updateWeight; split <;> rfl
@[simp]
theorem updateWeight_nodes (s : SimplifyCT σ) (a : Nat) :
    (s.updateWeight a).nodes = s.nodes := by
  unfold updateWeight; split <;> rfl
@[simp]
theorem updateWeight_branches (s : SimplifyCT σ) (a : Nat) :
    (s.updateWeight a).branches = s.branches := by
  unfold updateWeight; split <;> rfl
@[simp]
theorem updateWeight_vArray (s : SimplifyCT σ) (a : Nat) :
    (s.updateWeight a).vArray = s.vArray := by
  unfold updateWeight; split <;> rfl

@[simp]
theorem mergeVertex_removed (s : SimplifyCT σ) (v : Nat) :
    (s.mergeVertex v).removed = upd s.removed (s.consumedOf v) true := by
  unfold mergeVertex consumedOf; simp only []; split_ifs <;> simp
@[simp]
theorem mergeVertex_order (s : SimplifyCT σ) (v : Nat) :
    (s.mergeVertex v).order = s.order := by
  unfold mergeVertex; simp only []; split_ifs <;> simp
@[simp]
theorem mergeVertex_data (s : SimplifyCT σ) (v : Nat) :
    (s.mergeVertex v).data = s.data := by
  unfold mergeVertex; simp only []; split_ifs <;> simp
@[simp]
theorem mergeVertex_simFn (s : SimplifyCT σ) (v : Nat) :
    (s.mergeVertex v).simFn = s.simFn := by
  unfold mergeVertex; simp only []; split_ifs <;> simp
@[simp]
theorem mergeVertex_vArray (s : SimplifyCT σ) (v : Nat) :
    (s.mergeVertex v).vArray = s.vArray := by
  unfold mergeVertex; simp only []; split_ifs <;> simp
theorem mergeVertex_queue (s : SimplifyCT σ) (v : Nat) :
    (s.mergeVertex v).queue = s.queue ∨
      (s.mergeVertex v).queue = s.queue ++ [(s.nodes v).next.headD 0] := by
  unfold mergeVertex; simp only []
  split_ifs
  · left; simp
  · exact mergeIntoNext_queue s _ _

/-! ### Node lists after each operation -/

theorem upd_next_prev (m : Nat → Node) (i w : Nat) (l : List Nat) :
    (upd m i { prev := (m i).prev, next := l } w).prev = (m w).prev := by
  unfold upd; split_ifs with h
  · subst h; rfl
  · rfl

theorem upd_next_next (m : Nat → Node) (i w : Nat) (l : List Nat) :
    (upd m i { prev := (m i).prev, next := l } w).next = if w = i then l else (m w).next := by
  unfold upd; split_ifs <;> rfl

theorem upd_prev_next (m : Nat → Node) (i w : Nat) (l : List Nat) :
    (upd m i { prev := l, next := (m i).next } w).next = (m w).next := by
  unfold upd; split_ifs with h
  · subst h; rfl
  · rfl

theorem upd_prev_prev (m : Nat → Node) (i w : Nat) (l : List Nat) :
    (upd m i { prev := l, next := (m i).next } w).prev = if w = i then l else (m w).prev := by
  unfold upd; split_ifs <;> rfl

theorem detach_prev (s : SimplifyCT σ) (a w : Nat) :
    ((s.detach a).nodes w).prev =
      if w = (s.branches a).to_ then (s.nodes w).prev.filter (fun x => x ≠ a)
      else (s.nodes w).prev := by
  unfold detach upd
  dsimp only
  split_ifs <;> simp_all

theorem detach_next (s : SimplifyCT σ) (a w : Nat) :
    ((s.detach a).nodes w).next =
      if w = (s.branches a).from_ then (s.nodes w).next.filter (fun x => x ≠ a)
      else (s.nodes w).next := by
  unfold detach upd
  dsimp only
  split_ifs <;> simp_all

theorem mergeIntoPrev_prev (s : SimplifyCT σ) (p q w : Nat) :
    ((s.mergeIntoPrev p q).nodes w).prev =
      if w = (s.branches q).to_ then (s.nodes w).prev.map (fun x => if x = q then p else x)
      else (s.nodes w).prev := by
  unfold mergeIntoPrev
  simp only [upd_prev_prev, upd_same]
  split_ifs with h
  · subst h; rfl
  · rfl

theorem mergeIntoPrev_next (s : SimplifyCT σ) (p q w : Nat) :
    ((s.mergeIntoPrev p q).nodes w).next = (s.nodes w).next := by
  unfold mergeIntoPrev
  simp only [upd_prev_next]

theorem mergeIntoPrev_branches (s : SimplifyCT σ) (p q : Nat) :
    (s.mergeIntoPrev p q).branches =
      upd s.branches p { s.branches p with to_ := (s.branches q).to_ } := rfl

theorem mergeIntoNext_branches (s : SimplifyCT σ) (p q : Nat) :
    (s.mergeIntoNext p q).branches =
      upd s.branches q { s.branches q with from_ := (s.branches p).from_ } := by
  unfold mergeIntoNext; simp only []; split_ifs <;> simp

theorem mergeIntoNext_next (s : SimplifyCT σ) (p q w : Nat) :
    ((s.mergeIntoNext p q).nodes w).next =
      if w = (s.branches p).from_ then (s.nodes w).next.map (fun x => if x = p then q else x)
      else (s.nodes w).next := by
  unfold mergeIntoNext
  simp only []
  split_ifs with h1 h2 h2
  all_goals simp only [addToQueue_nodes, upd_next_next, upd_same]
  all_goals simp_all

theorem mergeIntoNext_prev (s : SimplifyCT σ) (p q w : Nat) :
    ((s.mergeIntoNext p q).nodes w).prev = (s.nodes w).prev := by
  unfold mergeIntoNext
  simp only []
  split_ifs <;> simp only [addToQueue_nodes, upd_next_prev]

theorem mergeVertex_nodes (s : SimplifyCT σ) (v : Nat) :
    (s.mergeVertex v).nodes =
      if s.inq ((s.nodes v).prev.headD 0)
      then (s.mergeIntoPrev ((s.nodes v).prev.headD 0) ((s.nodes v).next.headD 0)).nodes
      else (s.mergeIntoNext ((s.nodes v).prev.headD 0) ((s.nodes v).next.headD 0)).nodes := by
  unfold mergeVertex; simp only []; split_ifs <;> rfl

theorem removeArc_eq (s : SimplifyCT σ) (a : Nat) :
    s.removeArc a =
      (if ((s.detach a).nodes (s.mergedVertexOf a)).prev.length = 1 ∧
          ((s.detach a).nodes (s.mergedVertexOf a)).next.length = 1
        then (s.detach a).mergeVertex (s.mergedVertexOf a) else s.detach a).notifyRemoved a :=
  rfl

theorem queueTop_mem (s : SimplifyCT σ) (a : Nat) (h : s.queueTop = some a) : a ∈ s.queue := by
  unfold queueTop at h
  cases hq : s.queue with
  | nil => simp [hq] at h
  | cons x xs =>
    simp only [hq, Option.some.injEq] at h
    have key : ∀ (l : List Nat) (b : Nat),
        l.foldl (fun best y => if s.compare best y then y else best) b = b ∨
        l.foldl (fun best y => if s.compare best y then y else best) b ∈ l := by
      intro l
      induction l with
      | nil => intro b; left; rfl
      | cons y ys ih =>
        intro b
        simp only [List.foldl_cons]
        rcases ih (if s.compare b y then y else b) with h1 | h1
        · rw [h1]; split_ifs
          · right; simp
          · left; rfl
        · right; exact List.mem_cons_of_mem _ h1
    rcases key xs x with h1 | h1
    · rw [h1] at h; subst h; simp
    · rw [h] at h1; exact List.mem_cons_of_mem _ h1

theorem queueTop_none (s : SimplifyCT σ) (h : s.queueTop = none) : s.queue = [] := by
  unfold queueTop at h
  cases hq : s.queue with
  | nil => rfl
  | cons x xs => simp [hq] at h

/-! ### Ids stay below `noArcs` -/

theorem headD_mem_of_length_one (l : List Nat) (h : l.length = 1) : l.headD 0 ∈ l := by
  match l, h with
  | [x], _ => simp

theorem detach_nodesBounded (s : SimplifyCT σ) (a : Nat) (h : NodesBounded s) :
    NodesBounded (s.detach a) := by
  intro v x hx
  rw [detach_prev, detach_next] at hx
  simp only [detach_data]
  apply h v x
  rcases hx with hx | hx
  · left; split_ifs at hx
    · exact (List.mem_filter.1 hx).1
    · exact hx
  · right; split_ifs at hx
    · exact (List.mem_filter.1 hx).1
    · exact hx

theorem mergeVertex_nodesBounded (s : SimplifyCT σ) (v : Nat) (h : NodesBounded s)
    (h1 : (s.nodes v).prev.length = 1) (h2 : (s.nodes v).next.length = 1) :
    NodesBounded (s.mergeVertex v) := by
  have hp : (s.nodes v).prev.headD 0 < s.data.noArcs :=
    h v _ (Or.inl (headD_mem_of_length_one _ h1))
  have hq : (s.nodes v).next.headD 0 < s.data.noArcs :=
    h v _ (Or.inr (headD_mem_of_length_one _ h2))
  intro w x hx
  simp only [mergeVertex_data]
  rw [mergeVertex_nodes] at hx
  split_ifs at hx
  · rw [mergeIntoPrev_prev, mergeIntoPrev_next] at hx
    rcases hx with hx | hx
    · split_ifs at hx
      · obtain ⟨y, hy, rfl⟩ := List.mem_map.1 hx
        split_ifs
        · exact hp
        · exact h w y (Or.inl hy)
      · exact h w x (Or.inl hx)
    · exact h w x (Or.inr hx)
  · rw [mergeIntoNext_prev, mergeIntoNext_next] at hx
    rcases hx with hx | hx
    · exact h w x (Or.inl hx)
    · split_ifs at hx
      · obtain ⟨y, hy, rfl⟩ := List.mem_map.1 hx
        split_ifs
        · exact hq
        · exact h w y (Or.inr hy)
      · exact h w x (Or.inr hx)

theorem removeArc_nodesBounded (s : SimplifyCT σ) (a : Nat) (h : NodesBounded s) :
    NodesBounded (s.removeArc a) := by
  rw [removeArc_eq]
  intro v x hx
  simp only [notifyRemoved_nodes, notifyRemoved_data] at hx ⊢
  split_ifs at hx ⊢ with hc
  · exact mergeVertex_nodesBounded _ _ (detach_nodesBounded s a h) hc.1 hc.2 v x hx
  · exact detach_nodesBounded s a h v x hx

@[simp]
theorem removeArc_data (s : SimplifyCT σ) (a : Nat) : (s.removeArc a).data = s.data := by
  rw [removeArc_eq]; split_ifs <;> simp

@[simp]
theorem removeArc_order (s : SimplifyCT σ) (a : Nat) :
    (s.removeArc a).order = s.order := by
  rw [removeArc_eq]; split_ifs <;> simp

@[simp]
theorem removeArc_simFn (s : SimplifyCT σ) (a : Nat) :
    (s.removeArc a).simFn = s.simFn := by
  rw [removeArc_eq]; split_ifs <;> simp

theorem removeArc_removed_self (s : SimplifyCT σ) (a : Nat) : (s.removeArc a).removed a = true := by
  rw [removeArc_eq]; split_ifs <;> simp [upd_apply]

theorem removeArc_removed_mono (s : SimplifyCT σ) (a x : Nat) (h : s.removed x = true) :
    (s.removeArc a).removed x = true := by
  rw [removeArc_eq]; split_ifs <;> simp [upd_apply, h]

theorem removeArc_queue (s : SimplifyCT σ) (a : Nat) (h : NodesBounded s) :
    (s.removeArc a).queue = s.queue ∨
      ∃ y, y < s.data.noArcs ∧ (s.removeArc a).queue = s.queue ++ [y] := by
  rw [removeArc_eq]
  simp only [notifyRemoved_queue]
  split_ifs with hc
  · rcases mergeVertex_queue (s.detach a) (s.mergedVertexOf a) with h1 | h1
    · left; simpa using h1
    · right
      refine ⟨_, ?_, by simpa using h1⟩
      have := detach_nodesBounded s a h (s.mergedVertexOf a) _
        (Or.inr (headD_mem_of_length_one _ hc.2))
      simpa using this
  · left; simp

/-! ### The loop invariant and the measure -/

theorem invalidCount_le (s : SimplifyCT σ) : s.invalidCount ≤ s.data.noArcs := by
  unfold invalidCount
  calc _ ≤ (Finset.range s.data.noArcs).card := Finset.card_filter_le _ _
    _ = _ := Finset.card_range _

theorem unremovedCount_le (s : SimplifyCT σ) : s.unremovedCount ≤ s.data.noArcs := by
  unfold unremovedCount
  calc _ ≤ (Finset.range s.data.noArcs).card := Finset.card_filter_le _ _
    _ = _ := Finset.card_range _

theorem card_filter_lt (n a : Nat) (p q : Nat → Prop) [DecidablePred p] [DecidablePred q]
    (ha : a < n) (hq : q a) (hp : ¬ p a) (h : ∀ x, p x → q x) :
    ((Finset.range n).filter p).card < ((Finset.range n).filter q).card := by
  apply Finset.card_lt_card
  rw [Finset.ssubset_iff_of_subset]
  · exact ⟨a, by simp [ha, hq], by simp [hp]⟩
  · intro x hx
    simp only [Finset.mem_filter] at hx ⊢
    exact ⟨hx.1, h x hx.2⟩

theorem card_filter_le (n : Nat) (p q : Nat → Prop) [DecidablePred p] [DecidablePred q]
    (h : ∀ x, p x → q x) :
    ((Finset.range n).filter p).card ≤ ((Finset.range n).filter q).card := by
  apply Finset.card_le_card
  intro x hx
  simp only [Finset.mem_filter] at hx ⊢
  exact ⟨hx.1, h x hx.2⟩

theorem loopStep_inv_measure (s : SimplifyCT σ) (h : LoopInv s) (hq : s.queue.length > 0) :
    LoopInv s.loopStep ∧ s.loopStep.data = s.data ∧ s.loopStep.loopMeasure < s.loopMeasure := by
  unfold loopStep
  cases htop : s.queueTop with
  | none => rw [queueTop_none s htop] at hq; simp at hq
  | some ano =>
    have hmem := queueTop_mem s ano htop
    have hano : ano < s.data.noArcs := h.queue_lt ano hmem
    have hlen : (s.queue.erase ano).length + 1 = s.queue.length := by
      rw [List.length_erase_of_mem hmem]; omega
    have hsub : ∀ x ∈ s.queue.erase ano, x < s.data.noArcs :=
      fun x hx => h.queue_lt x (List.mem_of_mem_erase hx)
    have hql := h.queue_len
    simp only []
    by_cases hr : s.removed ano = true
    · -- stale entry
      simp only [hr, Bool.not_true, Bool.false_eq_true, if_false]
      refine ⟨⟨h.nodes_lt, hsub, ?_, h.order_removed, h.order_lt, h.order_nodup⟩, ?_, ?_⟩
      · simp only []; omega
      · simp only []
      · simp only [loopMeasure, unremovedCount, invalidCount]
        omega
    · simp only [hr, Bool.not_false, if_true]
      simp only [Bool.not_eq_true] at hr
      by_cases hi : s.invalid ano = true
      · -- recompute and re-enqueue
        simp only [hi, if_true]
        refine ⟨⟨?_, ?_, ?_, ?_, ?_, ?_⟩, ?_, ?_⟩
        · intro v x hx
          simp only [addToQueue_nodes, addToQueue_data, updateWeight_nodes,
            updateWeight_data] at hx ⊢
          exact h.nodes_lt v x hx
        · intro x hx
          simp only [addToQueue_queue, addToQueue_data, updateWeight_data,
            updateWeight_queue] at hx ⊢
          split_ifs at hx
          · rcases List.mem_append.1 hx with hx | hx
            · exact hsub x hx
            · simp at hx; subst hx; exact hano
          · exact hsub x hx
        · simp only [addToQueue_queue, addToQueue_data, updateWeight_data, updateWeight_queue]
          split_ifs
          · simp only [List.length_append, List.length_singleton]
            omega
          · omega
        · simpa using h.order_removed
        · simpa using h.order_lt
        · simpa using h.order_nodup
        · simp
        · simp only [loopMeasure, unremovedCount, invalidCount, addToQueue_data,
            addToQueue_removed, addToQueue_invalid, addToQueue_queue, updateWeight_data,
            updateWeight_removed, updateWeight_invalid, updateWeight_queue]
          have h1 : ((Finset.range s.data.noArcs).filter
              (fun i => upd s.invalid ano false i = true)).card <
              ((Finset.range s.data.noArcs).filter (fun i => s.invalid i = true)).card := by
            apply card_filter_lt _ ano _ _ hano hi (by simp)
            intro x hx
            simp only [upd_apply] at hx
            split_ifs at hx
            exact hx
          split_ifs
          · simp only [List.length_append, List.length_singleton]; omega
          · omega
      · simp only [hi, Bool.false_eq_true, if_false]
        split_ifs with hc
        · -- removal
          set s0 : SimplifyCT σ := { s with queue := s.queue.erase ano, inq := upd s.inq ano false }
            with hs0
          have hb0 : NodesBounded s0 := h.nodes_lt
          have hqr := removeArc_queue s0 ano hb0
          have hd0 : s0.data = s.data := rfl
          have hq0 : s0.queue = s.queue.erase ano := rfl
          refine ⟨⟨?_, ?_, ?_, ?_, ?_, ?_⟩, ?_, ?_⟩
          · exact removeArc_nodesBounded s0 ano hb0
          · intro x hx
            simp only [removeArc_data] at hx ⊢
            rcases hqr with e | ⟨y, hy, e⟩
            · rw [e] at hx; exact hsub x hx
            · rw [e] at hx
              rcases List.mem_append.1 hx with hx | hx
              · exact hsub x hx
              · simp at hx; subst hx; exact hy
          · simp only [removeArc_data]
            rcases hqr with e | ⟨y, hy, e⟩
            · rw [e, hq0, hd0]; omega
            · rw [e, hq0, hd0]; simp only [List.length_append, List.length_singleton]; omega
          · intro x hx
            simp only [removeArc_order] at hx ⊢
            rcases List.mem_append.1 hx with hx | hx
            · exact removeArc_removed_mono s0 ano x (h.order_removed x hx)
            · simp at hx; subst hx; exact removeArc_removed_self s0 x
          · intro x hx
            simp only [removeArc_order, removeArc_data] at hx ⊢
            rcases List.mem_append.1 hx with hx | hx
            · exact h.order_lt x hx
            · simp at hx; subst hx; exact hano
          · simp only [removeArc_order]
            apply List.Nodup.append h.order_nodup (List.nodup_singleton _)
            intro x hx1 hx2
            simp at hx2; subst hx2
            have := h.order_removed x hx1
            simp [hs0] at this
            rw [this] at hr; cases hr
          · simp
          · have hU : (s0.removeArc ano).unremovedCount + 1 ≤ s.unremovedCount := by
              simp only [unremovedCount, removeArc_data, hd0]
              have := card_filter_lt s.data.noArcs ano
                (fun i => (s0.removeArc ano).removed i = false) (fun i => s.removed i = false)
                hano hr (by simp [removeArc_removed_self])
                (by
                  intro x hx
                  by_contra hne
                  simp only [Bool.not_eq_false] at hne
                  have := removeArc_removed_mono s0 ano x hne
                  rw [this] at hx; cases hx)
              omega
            have hI := invalidCount_le (s0.removeArc ano)
            have hQ : (s0.removeArc ano).queue.length ≤ s.data.noArcs := by
              rcases hqr with e | ⟨y, hy, e⟩
              · rw [e, hq0]; omega
              · rw [e, hq0]; simp only [List.length_append, List.length_singleton]; omega
            simp only [removeArc_data, hd0] at hI
            have hmul := Nat.mul_le_mul_right (2 * s.data.noArcs + 1) hU
            rw [Nat.add_mul, Nat.one_mul] at hmul
            change (s0.removeArc ano).loopMeasure < s.loopMeasure
            unfold loopMeasure
            simp only [removeArc_data, hd0]
            generalize (s0.removeArc ano).unremovedCount * (2 * s.data.noArcs + 1) = A at hmul ⊢
            generalize s.unremovedCount * (2 * s.data.noArcs + 1) = B at hmul ⊢
            omega
        · -- dropped entry
          refine ⟨⟨h.nodes_lt, hsub, ?_, h.order_removed, h.order_lt, h.order_nodup⟩, ?_, ?_⟩
          · simp only []; omega
          · simp only []
          · simp only [loopMeasure, unremovedCount, invalidCount]
            omega

theorem queueLoop_spec (fuel : Nat) : ∀ s : SimplifyCT σ, LoopInv s →
    LoopInv (queueLoop fuel s) ∧ (queueLoop fuel s).data = s.data ∧
      (s.loopMeasure < fuel → (queueLoop fuel s).queue = []) := by
  induction fuel with
  | zero => intro s h; exact ⟨h, rfl, fun h => by omega⟩
  | succ k ih =>
    intro s h
    unfold queueLoop
    split_ifs with hq
    · obtain ⟨h1, h2, h3⟩ := loopStep_inv_measure s h hq
      obtain ⟨i1, i2, i3⟩ := ih s.loopStep h1
      exact ⟨i1, i2.trans h2, fun hm => i3 (by omega)⟩
    · exact ⟨h, rfl, fun _ => by
        cases hs : s.queue with
        | nil => rfl
        | cons x xs => simp [hs] at hq⟩

/-! ### The state after `initSimplification` -/

@[simp]
theorem initArc_data (s : SimplifyCT σ) (i : Nat) : (s.initArc i).data = s.data := rfl
@[simp]
theorem initArc_queue (s : SimplifyCT σ) (i : Nat) : (s.initArc i).queue = s.queue := rfl
@[simp]
theorem initArc_order (s : SimplifyCT σ) (i : Nat) : (s.initArc i).order = s.order := rfl
@[simp]
theorem initArc_removed (s : SimplifyCT σ) (i : Nat) :
    (s.initArc i).removed = s.removed := rfl
@[simp]
theorem initArc_invalid (s : SimplifyCT σ) (i : Nat) :
    (s.initArc i).invalid = s.invalid := rfl
@[simp]
theorem initArc_inq (s : SimplifyCT σ) (i : Nat) : (s.initArc i).inq = s.inq := rfl
@[simp]
theorem initArc_vArray (s : SimplifyCT σ) (i : Nat) :
    (s.initArc i).vArray = s.vArray := rfl
@[simp]
theorem initArc_simFn (s : SimplifyCT σ) (i : Nat) : (s.initArc i).simFn = s.simFn := rfl

theorem initArc_prev (s : SimplifyCT σ) (i w : Nat) :
    ((s.initArc i).nodes w).prev =
      if w = (s.data.arcs i).to_ then (s.nodes w).prev ++ [i] else (s.nodes w).prev := by
  unfold initArc upd
  dsimp only
  split_ifs <;> simp_all

theorem initArc_next (s : SimplifyCT σ) (i w : Nat) :
    ((s.initArc i).nodes w).next =
      if w = (s.data.arcs i).from_ then (s.nodes w).next ++ [i] else (s.nodes w).next := by
  unfold initArc upd
  dsimp only
  split_ifs <;> simp_all

theorem foldl_initArc_frame (l : List Nat) : ∀ s : SimplifyCT σ,
    (l.foldl initArc s).data = s.data ∧ (l.foldl initArc s).queue = s.queue ∧
    (l.foldl initArc s).order = s.order ∧ (l.foldl initArc s).removed = s.removed ∧
    (l.foldl initArc s).invalid = s.invalid ∧ (l.foldl initArc s).inq = s.inq ∧
    (l.foldl initArc s).vArray = s.vArray ∧ (l.foldl initArc s).simFn = s.simFn := by
  induction l with
  | nil => intro s; simp
  | cons a l ih => intro s; simpa using ih (s.initArc a)

theorem foldl_initArc_nodesBounded (l : List Nat) : ∀ s : SimplifyCT σ,
    NodesBounded s → (∀ x ∈ l, x < s.data.noArcs) → NodesBounded (l.foldl initArc s) := by
  induction l with
  | nil => intro s h _; exact h
  | cons a l ih =>
    intro s h hl
    simp only [List.foldl_cons]
    apply ih
    · intro v x hx
      rw [initArc_prev, initArc_next] at hx
      simp only [initArc_data]
      have ha : a < s.data.noArcs := hl a (by simp)
      rcases hx with hx | hx
      · split_ifs at hx
        · rcases List.mem_append.1 hx with hx | hx
          · exact h v x (Or.inl hx)
          · simp at hx; omega
        · exact h v x (Or.inl hx)
      · split_ifs at hx
        · rcases List.mem_append.1 hx with hx | hx
          · exact h v x (Or.inr hx)
          · simp at hx; omega
        · exact h v x (Or.inr hx)
    · intro x hx; exact hl x (List.mem_cons_of_mem _ hx)

theorem foldl_addToQueue_frame (l : List Nat) : ∀ s : SimplifyCT σ,
    (l.foldl addToQueue s).data = s.data ∧ (l.foldl addToQueue s).nodes = s.nodes ∧
    (l.foldl addToQueue s).order = s.order ∧ (l.foldl addToQueue s).removed = s.removed ∧
    (l.foldl addToQueue s).invalid = s.invalid ∧ (l.foldl addToQueue s).simFn = s.simFn ∧
    (l.foldl addToQueue s).branches = s.branches ∧ (l.foldl addToQueue s).vArray = s.vArray ∧
    (l.foldl addToQueue s).queue.length ≤ s.queue.length + l.length ∧
    (∀ x ∈ (l.foldl addToQueue s).queue, x ∈ s.queue ∨ x ∈ l) := by
  induction l with
  | nil => intro s; simp
  | cons a l ih =>
    intro s
    obtain ⟨h1, h2, h3, h4, h5, h6, h7, h8, h9, h10⟩ := ih (s.addToQueue a)
    simp only [List.foldl_cons]
    refine ⟨by simpa using h1, by simpa using h2, by simpa using h3, by simpa using h4,
      by simpa using h5, by simpa using h6, by simpa using h7, by simpa using h8, ?_, ?_⟩
    · rw [addToQueue_queue] at h9
      simp only [List.length_cons]
      split_ifs at h9
      · simp only [List.length_append, List.length_singleton] at h9; omega
      · omega
    · intro x hx
      rcases h10 x hx with h | h
      · rw [addToQueue_queue] at h
        split_ifs at h
        · rcases List.mem_append.1 h with h | h
          · exact Or.inl h
          · simp at h; subst h; right; simp
        · exact Or.inl h
      · right; exact List.mem_cons_of_mem _ h

theorem fresh_nodesBounded (f : Option (SimFunction σ)) (sim0 : σ) (d : ContourTreeData) :
    NodesBounded (fresh f sim0 d) := by
  intro v x hx
  simp [fresh] at hx

theorem initSimplification_spec (f : Option (SimFunction σ)) (sim0 : σ) (d : ContourTreeData) :
    LoopInv (initSimplification f sim0 d) ∧ (initSimplification f sim0 d).data = d ∧
      (initSimplification f sim0 d).order = [] ∧
      (initSimplification f sim0 d).simFn = f := by
  have hfr := foldl_initArc_frame (List.range d.noArcs) (fresh f sim0 d)
  have hnb := foldl_initArc_nodesBounded (List.range d.noArcs) (fresh f sim0 d)
    (fresh_nodesBounded f sim0 d) (by intro x hx; simpa [fresh] using hx)
  obtain ⟨e1, e2, e3, e4, e5, e6, e7, e8⟩ := hfr
  unfold initSimplification
  cases f with
  | none =>
    simp only []
    refine ⟨⟨hnb, ?_, ?_, ?_, ?_, ?_⟩, e1, e3, e8⟩
    · rw [e2]; simp [fresh]
    · rw [e2]; simp [fresh]
    · rw [e3]; simp [fresh]
    · rw [e3]; simp [fresh]
    · rw [e3]; simp [fresh]
  | some F =>
    simp only []
    set s1 : SimplifyCT σ := (List.range d.noArcs).foldl initArc (fresh (some F) sim0 d) with hs1
    set s2 : SimplifyCT σ :=
      { s1 with sim := (F.init s1.sim s1.fn d.noArcs s1.branches).1,
                fn := (F.init s1.sim s1.fn d.noArcs s1.branches).2 } with hs2
    obtain ⟨g1, g2, g3, g4, g5, g6, g7, g8, g9, g10⟩ :=
      foldl_addToQueue_frame (List.range d.noArcs) s2
    have hd2 : s2.data = d := e1
    have hq2 : s2.queue = [] := e2
    have ho2 : s2.order = [] := e3
    refine ⟨⟨?_, ?_, ?_, ?_, ?_, ?_⟩, g1.trans hd2, g3.trans ho2, g6.trans e8⟩
    · intro v x hx
      rw [g2] at hx; rw [g1]
      exact hnb v x hx
    · intro x hx
      rw [g1, hd2]
      rcases g10 x hx with h | h
      · rw [hq2] at h; simp at h
      · simpa using h
    · rw [g1, hd2]
      rw [hq2] at g9
      simpa using g9
    · rw [g3, ho2]; simp
    · rw [g3, ho2]; simp
    · rw [g3, ho2]; simp

theorem loopMeasure_lt_loopFuel (s : SimplifyCT σ) (h : s.queue.length ≤ s.data.noArcs) :
    s.loopMeasure < loopFuel s.data.noArcs := by
  unfold loopMeasure loopFuel
  have h1 := unremovedCount_le s
  have h2 := invalidCount_le s
  have h3 := Nat.mul_le_mul_right (2 * s.data.noArcs + 1) h1
  nlinarith

/-- The queue loop of priority mode runs to completion within its fuel, and the state in which
it ends satisfies the loop invariant. -/
theorem afterQueueLoop_spec (f : Option (SimFunction σ)) (sim0 : σ) (d : ContourTreeData) :
    LoopInv (afterQueueLoop f sim0 d) ∧ (afterQueueLoop f sim0 d).data = d ∧
      (afterQueueLoop f sim0 d).queue = [] := by
  obtain ⟨h1, h2, _, _⟩ := initSimplification_spec f sim0 d
  obtain ⟨i1, i2, i3⟩ := queueLoop_spec (loopFuel d.noArcs) (initSimplification f sim0 d) h1
  refine ⟨i1, i2.trans h2, i3 ?_⟩
  have := loopMeasure_lt_loopFuel (initSimplification f sim0 d) h1.queue_len
  rw [h2] at this
  exact this

/-! ## Priority mode -/

/-- Claim C4, as stated, fails: on the tree `yData` (3 arcs) with the persistence importance
function the produced order is `[1, 0]`; arc 2 never occurs in it, its branch having been
absorbed by branch 0 in the merge at node 2. -/
theorem simplify_order_misses_consumed_branch :
    yData.noArcs = 3 ∧
      (simplify (some (persistenceSim yData.fnVals)) () yData).order = [1, 0] ∧
      2 ∉ (simplify (some (persistenceSim yData.fnVals)) () yData).order ∧
      (afterQueueLoop (some (persistenceSim yData.fnVals)) () yData).removed 2 = true := by
  decide!

/-- Claim C4, amended: for every input and importance function the queue loop of priority mode
ends with an empty queue, and the produced `order` consists of the branches handed to
`removeArc`, in sequence, followed by all branches still un-removed when the loop ends
(ascending); it holds arc ids only and none of them twice, and an arc id is absent from it
exactly when its branch was marked removed without being handed to `removeArc`, which is what
a vertex merge does to the branch it consumes. -/
theorem simplify_order_spec (f : Option (SimFunction σ)) (sim0 : σ) (d : ContourTreeData) :
    (afterQueueLoop f sim0 d).queue = [] ∧
      (simplify f sim0 d).order =
        (afterQueueLoop f sim0 d).order ++ (afterQueueLoop f sim0 d).unremoved ∧
      (simplify f sim0 d).order.Nodup ∧
      (∀ x ∈ (simplify f sim0 d).order, x < d.noArcs) ∧
      (∀ x ∈ (afterQueueLoop f sim0 d).order, (afterQueueLoop f sim0 d).removed x = true) ∧
      (∀ i, i < d.noArcs → (i ∉ (simplify f sim0 d).order ↔
        ((afterQueueLoop f sim0 d).removed i = true ∧ i ∉ (afterQueueLoop f sim0 d).order))) := by
  obtain ⟨hinv, hd, hq⟩ := afterQueueLoop_spec f sim0 d
  have ho : (simplify f sim0 d).order =
      (afterQueueLoop f sim0 d).order ++ (afterQueueLoop f sim0 d).unremoved := rfl
  have hu : ∀ x, x ∈ (afterQueueLoop f sim0 d).unremoved ↔
      x < d.noArcs ∧ (afterQueueLoop f sim0 d).removed x = false := by
    intro x
    simp [unremoved, hd]
  refine ⟨hq, ho, ?_, ?_, hinv.order_removed, ?_⟩
  · rw [ho]
    apply List.Nodup.append hinv.order_nodup
    · exact (List.nodup_range _).filter _
    · intro x hx1 hx2
      have h1 := hinv.order_removed x hx1
      have h2 := ((hu x).1 hx2).2
      rw [h1] at h2; cases h2
  · intro x hx
    rw [ho] at hx
    rcases List.mem_append.1 hx with hx | hx
    · have := hinv.order_lt x hx; rwa [hd] at this
    · exact ((hu x).1 hx).1
  · intro i hi
    rw [ho, List.mem_append, hu]
    constructor
    · intro h
      refine ⟨?_, fun h' => h (Or.inl h')⟩
      by_contra hne
      exact h (Or.inr ⟨hi, by simpa using hne⟩)
    · rintro ⟨h1, h2⟩ h
      rcases h with h | h
      · exact h2 h
      · rw [h1] at h; cases h.2

/-- Claim C6 at its failing input: on the valid tree `dipData` with the persistence importance
function the produced order is `[3, 4, 1]` and the weights read by `outputOrder` are
`[100, 2, 1099]`, so `assert(pwt <= val)` fails at the second entry. -/
theorem simplify_weights_not_ascending :
    (simplify (some (persistenceSim dipData.fnVals)) () dipData).order = [3, 4, 1] ∧
      outputWeights (simplify (some (persistenceSim dipData.fnVals)) () dipData) =
        [100, 2, 1099] ∧
      weightsAscend
        (outputWeights (simplify (some (persistenceSim dipData.fnVals)) () dipData)) = false := by
  decide!

/-! ## Replay mode -/

theorem replayPrefix_zero (s : SimplifyCT σ) (l : List Nat) : replayPrefix s l 0 = s := rfl

theorem replayPrefix_cons (s : SimplifyCT σ) (a : Nat) (l : List Nat) (i : Nat) :
    replayPrefix s (a :: l) (i + 1) = replayPrefix (s.replayRemove a) l i := rfl

theorem replayPrefix_take (s : SimplifyCT σ) (l : List Nat) (i m : Nat) (h : i ≤ m) :
    replayPrefix s (l.take m) i = replayPrefix s l i := by
  unfold replayPrefix
  rw [List.take_take, Nat.min_eq_left h]

theorem failsAt_cons (s : SimplifyCT σ) (a : Nat) (l : List Nat) (i : Nat) :
    failsAt s (a :: l) (i + 1) ↔ failsAt (s.replayRemove a) l i := by
  unfold failsAt
  rw [replayPrefix_cons]
  simp

theorem replayTopk_spec (l : List Nat) : ∀ s : SimplifyCT σ,
    (aborted (replayTopk s l) = true ↔ ∃ i, i < l.length ∧ failsAt s l i) ∧
    (aborted (replayTopk s l) = false → replayTopk s l = .ok (replayPrefix s l l.length)) := by
  induction l with
  | nil => intro s; simp [replayTopk, aborted, replayPrefix]
  | cons a l ih =>
    intro s
    unfold replayTopk
    by_cases hc : s.isCandidate (s.branches a) = true
    · simp only [hc, Bool.not_true, Bool.false_eq_true, if_false]
      obtain ⟨ih1, ih2⟩ := ih (s.replayRemove a)
      constructor
      · rw [ih1]
        constructor
        · rintro ⟨i, hi, hf⟩
          exact ⟨i + 1, by simp; omega, (failsAt_cons s a l i).2 hf⟩
        · rintro ⟨i, hi, hf⟩
          cases i with
          | zero => simp [failsAt, replayPrefix, hc] at hf
          | succ i => exact ⟨i, by simp at hi; omega, (failsAt_cons s a l i).1 hf⟩
      · intro h
        rw [ih2 h]
        rfl
    · simp only [Bool.not_eq_true] at hc
      simp only [hc, Bool.not_false, if_true, aborted, true_iff]
      constructor
      · exact ⟨0, by simp, by simp [failsAt, replayPrefix, hc]⟩
      · intro h; cases h

theorem firstOver_cons_le (th w : Int) (ws : List Int) (h : w ≤ th) :
    firstOver th (w :: ws) = firstOver th ws + 1 := by
  simp [firstOver, List.takeWhile, h]

theorem firstOver_cons_gt (th w : Int) (ws : List Int) (h : w > th) :
    firstOver th (w :: ws) = 0 := by
  have : ¬ w ≤ th := by omega
  simp [firstOver, List.takeWhile, this]

theorem replayThreshold_spec (th : Int) (l : List Nat) : ∀ (ws : List Int) (s : SimplifyCT σ),
    (aborted (replayThreshold th s l ws) = true ↔
      ∃ i, i < min (firstOver th ws + 1) l.length ∧ failsAt s l i) ∧
    (aborted (replayThreshold th s l ws) = false → l.length ≤ ws.length →
      replayThreshold th s l ws = .ok (replayPrefix s l (min (firstOver th ws) l.length))) := by
  induction l with
  | nil => intro ws s; simp [replayThreshold, aborted, replayPrefix]
  | cons a l ih =>
    intro ws s
    unfold replayThreshold
    by_cases hc : s.isCandidate (s.branches a) = true
    · simp only [hc, Bool.not_true, Bool.false_eq_true, if_false]
      cases ws with
      | nil =>
        simp only [aborted, firstOver, List.takeWhile, List.length_nil]
        constructor
        · simp only [Bool.false_eq_true, false_iff, not_exists, not_and]
          intro i hi hf
          have : i = 0 := by simp at hi; omega
          subst this
          simp [failsAt, replayPrefix, hc] at hf
        · intro _ hl; simp at hl
      | cons w ws =>
        simp only []
        by_cases hw : w > th
        · simp only [hw, if_true, aborted, firstOver_cons_gt th w ws hw]
          constructor
          · simp only [Bool.false_eq_true, false_iff, not_exists, not_and]
            intro i hi hf
            have : i = 0 := by simp at hi; omega
            subst this
            simp [failsAt, replayPrefix, hc] at hf
          · intro _ _; simp [replayPrefix]
        · simp only [hw, if_false]
          have hle : w ≤ th := by omega
          rw [firstOver_cons_le th w ws hle]
          obtain ⟨ih1, ih2⟩ := ih ws (s.replayRemove a)
          constructor
          · rw [ih1]
            constructor
            · rintro ⟨i, hi, hf⟩
              exact ⟨i + 1, by simp at hi ⊢; omega, (failsAt_cons s a l i).2 hf⟩
            · rintro ⟨i, hi, hf⟩
              cases i with
              | zero => simp [failsAt, replayPrefix, hc] at hf
              | succ i => exact ⟨i, by simp at hi ⊢; omega, (failsAt_cons s a l i).1 hf⟩
          · intro h hl
            rw [ih2 h (by simp at hl; omega)]
            have : min (firstOver th ws + 1) (a :: l).length = min (firstOver th ws) l.length + 1 := by
              simp; omega
            rw [this]
            rfl
    · simp only [Bool.not_eq_true] at hc
      simp only [hc, Bool.not_false, if_true, aborted, true_iff]
      constructor
      · exact ⟨0, by simp, by simp [failsAt, replayPrefix, hc]⟩
      · intro h; cases h

theorem aborted_bind_outOfRange {α : Type} (r : Except ReplayError α) :
    aborted (r.bind (fun _ => (.error .outOfRange : Except ReplayError α))) = aborted r := by
  cases r with
  | error e => rfl
  | ok a => rfl

theorem failsAt_take (s : SimplifyCT σ) (l : List Nat) (i m : Nat) (h : i < m) :
    failsAt s (l.take m) i ↔ failsAt s l i := by
  unfold failsAt
  rw [replayPrefix_take s l i m (Nat.le_of_lt h)]
  have : (l.take m).getD i 0 = l.getD i 0 := by
    simp [List.getD_eq_getElem?_getD, List.getElem?_take, h]
  rw [this]

/-- Claim C8, as stated, fails for the threshold 0: on the tree `yData` with order `[0, 1]` and
weights `[0, 5]` entry 0 is a candidate of weight `0 <= th` before the first weight above the
threshold (index 1), yet the code removes nothing, because the loop is guarded by `th != 0`. -/
theorem simplifyReplay_zero_threshold_removes_nothing :
    firstOver 0 [0, 5] = 1 ∧
      (replayStart yData [0, 1]).isCandidate ((replayStart yData [0, 1]).branches 0) = true ∧
      simplifyReplay yData [0, 1] 0 0 [0, 5] ≠
        .ok (replayPrefix (replayStart yData [0, 1]) [0, 1] (firstOver 0 [0, 5])) := by
  refine ⟨by decide, by decide, ?_⟩
  intro h
  have h2 : (replayStart yData [0, 1]).removed 0 =
      (replayPrefix (replayStart yData [0, 1]) [0, 1] (firstOver 0 [0, 5])).removed 0 :=
    congrArg (fun s => s.removed 0) (Except.ok.inj h)
  revert h2
  decide

/-- Claim C8, amended: in replay mode without topk (`topk <= 0`), on a non-empty `order` with
one weight per entry and no failed candidacy check, `removeArc` is called on exactly the entries
`order[0..j)` in sequence, where for `th != 0` the index `j` is the first one below
`order.size() - 1` whose weight exceeds `th` (`order.size() - 1` if there is none: the last entry
is never visited), and `j = 0` for `th = 0`. -/
theorem simplifyReplay_threshold_removals (d : ContourTreeData) (order : List Nat)
    (topk th : Int) (wts : List Int) (hk : topk ≤ 0) (hne : order ≠ [])
    (hw : wts.length = order.length)
    (hok : aborted (simplifyReplay d order topk th wts) = false) :
    simplifyReplay d order topk th wts =
      .ok (replayPrefix (replayStart d order) order (removalCount order th wts)) := by
  have hk2 : ¬ topk > 0 := by omega
  have hlen : order.length ≠ 0 := by
    intro h; exact hne (List.length_eq_zero.1 h)
  unfold simplifyReplay at hok ⊢
  unfold removalCount
  simp only [hk2, if_false] at hok ⊢
  by_cases hth : th = 0
  · simp [hth, replayPrefix, replayStart]
  · simp only [hth, ne_eq, not_false_eq_true, if_true, hlen, if_false] at hok ⊢
    have h := (replayThreshold_spec th (order.take (order.length - 1)) wts
      (markQueued (initSimplification none () d) order)).2 hok (by simp; omega)
    rw [h, replayPrefix_take _ _ _ _ (by simp)]
    simp [replayStart]

/-- Witness for C8: on `yData` with order `[0, 1]`, weights `[1, 10]` and threshold 5. -/
theorem simplifyReplay_threshold_removals_witness :
    simplifyReplay yData [0, 1] 0 5 [1, 10] =
      .ok (replayPrefix (replayStart yData [0, 1]) [0, 1] (removalCount [0, 1] 5 [1, 10])) :=
  simplifyReplay_threshold_removals yData [0, 1] 0 5 [1, 10] (by decide) (by decide)
    (by decide) (by decide)

/-- Claim C9, as stated, fails: on `yData` with order `[2, 0]`, weights `[100, 200]` and
threshold 5 no entry is going to be removed (the first weight already exceeds the threshold),
yet the run aborts, because entry 0 (branch 2, not a candidate) is tested before its weight is
read. -/
theorem simplifyReplay_aborts_on_entry_not_removed :
    removalCount [2, 0] 5 [100, 200] = 0 ∧ ([100, 200] : List Int).getD 0 0 > 5 ∧
      aborted (simplifyReplay yData [2, 0] 0 5 [100, 200]) = true := by
  decide

/-- Claim C9, amended: replay mode aborts with the consistency error iff some entry among the
ones it examines fails `isCandidate` in the topology left by the removals before it; the
examined entries are the first `order.size() - topk` in topk mode and, in threshold mode
(`th != 0`), the entries up to and including the first one whose weight exceeds `th`, the last
entry of `order` excluded.  No other entry can cause the abort. -/
theorem simplifyReplay_aborted_iff (d : ContourTreeData) (order : List Nat) (topk th : Int)
    (wts : List Int) :
    aborted (simplifyReplay d order topk th wts) = true ↔
      ∃ i, i < examined order topk th wts ∧ failsAt (replayStart d order) order i := by
  unfold simplifyReplay examined replayStart
  by_cases hk : topk > 0
  · simp only [hk, if_true]
    by_cases hct : topkCount order topk ≤ order.length
    · simp only [hct, if_true]
      rw [(replayTopk_spec (order.take (topkCount order topk).toNat) _).1]
      have hm : min (topkCount order topk).toNat order.length = (topkCount order topk).toNat := by
        omega
      rw [hm]
      constructor
      · rintro ⟨i, hi, hf⟩
        have hi2 : i < (topkCount order topk).toNat := by
          simp only [List.length_take] at hi; omega
        exact ⟨i, hi2, (failsAt_take _ _ _ _ hi2).1 hf⟩
      · rintro ⟨i, hi, hf⟩
        exact ⟨i, by simp only [List.length_take]; omega, (failsAt_take _ _ _ _ hi).2 hf⟩
    · simp only [hct, if_false]
      rw [aborted_bind_outOfRange, (replayTopk_spec order _).1]
      have hm : min (topkCount order topk).toNat order.length = order.length := by omega
      rw [hm]
  · simp only [hk, if_false]
    by_cases hth : th = 0
    · simp [hth, aborted]
    · simp only [hth, ne_eq, not_false_eq_true, if_true]
      by_cases hlen : order.length = 0
      · simp [hlen, aborted]
      · simp only [hlen, if_false]
        rw [(replayThreshold_spec th (order.take (order.length - 1)) wts _).1]
        have hl : (order.take (order.length - 1)).length = order.length - 1 := by simp
        rw [hl]
        constructor
        · rintro ⟨i, hi, hf⟩
          exact ⟨i, hi, (failsAt_take _ _ _ _ (by omega)).1 hf⟩
        · rintro ⟨i, hi, hf⟩
          exact ⟨i, hi, (failsAt_take _ _ _ _ (by omega)).2 hf⟩

/-! ### The hierarchy transfer -/

theorem adopt_from (a : Nat) (bs : Nat → Branch) (ch b : Nat) :
    (adopt a bs ch b).from_ = (bs b).from_ := by
  unfold adopt upd; dsimp only; split_ifs <;> simp_all

theorem adopt_to (a : Nat) (bs : Nat → Branch) (ch b : Nat) :
    (adopt a bs ch b).to_ = (bs b).to_ := by
  unfold adopt upd; dsimp only; split_ifs <;> simp_all

theorem adopt_arcs (a : Nat) (bs : Nat → Branch) (ch b : Nat) :
    (adopt a bs ch b).arcs = (bs b).arcs := by
  unfold adopt upd; dsimp only; split_ifs <;> simp_all

theorem adopt_children (a : Nat) (bs : Nat → Branch) (ch b : Nat) :
    (adopt a bs ch b).children =
      if b = a then (bs a).children ++ [ch] else (bs b).children := by
  unfold adopt upd; dsimp only; split_ifs <;> simp_all

theorem adopt_parent (a : Nat) (bs : Nat → Branch) (ch b : Nat) :
    (adopt a bs ch b).parent = if b = ch then (a : Int) else (bs b).parent := by
  unfold adopt upd; dsimp only; split_ifs <;> simp_all

theorem foldl_adopt (a : Nat) (l : List Nat) : ∀ (bs : Nat → Branch) (b : Nat),
    ((l.foldl (adopt a) bs) b).from_ = (bs b).from_ ∧
    ((l.foldl (adopt a) bs) b).to_ = (bs b).to_ ∧
    ((l.foldl (adopt a) bs) b).arcs = (bs b).arcs ∧
    ((l.foldl (adopt a) bs) b).children =
      (if b = a then (bs a).children ++ l else (bs b).children) ∧
    ((l.foldl (adopt a) bs) b).parent = (if b ∈ l then (a : Int) else (bs b).parent) := by
  induction l with
  | nil =>
    intro bs b
    simp only [List.foldl_nil, List.append_nil, List.not_mem_nil, if_false, true_and]
    split_ifs with h
    · rw [h]; simp
    · simp
  | cons c l ih =>
    intro bs b
    obtain ⟨h1, h2, h3, h4, h5⟩ := ih (adopt a bs c) b
    simp only [List.foldl_cons]
    refine ⟨by rw [h1, adopt_from], by rw [h2, adopt_to], by rw [h3, adopt_arcs], ?_, ?_⟩
    · rw [h4, adopt_children, adopt_children]
      by_cases hb : b = a
      · simp [hb]
      · simp [hb]
    · rw [h5, adopt_parent]
      by_cases hb : b ∈ l
      · simp [hb]
      · by_cases hc : b = c
        · simp [hb, hc]
        · simp [hb, hc]

theorem foldl_adopt_from (a : Nat) (l : List Nat) (bs : Nat → Branch) (b : Nat) :
    ((l.foldl (adopt a) bs) b).from_ = (bs b).from_ := (foldl_adopt a l bs b).1

theorem foldl_adopt_to (a : Nat) (l : List Nat) (bs : Nat → Branch) (b : Nat) :
    ((l.foldl (adopt a) bs) b).to_ = (bs b).to_ := (foldl_adopt a l bs b).2.1

theorem foldl_adopt_arcs (a : Nat) (l : List Nat) (bs : Nat → Branch) (b : Nat) :
    ((l.foldl (adopt a) bs) b).arcs = (bs b).arcs := (foldl_adopt a l bs b).2.2.1

theorem foldl_adopt_children (a : Nat) (l : List Nat) (bs : Nat → Branch) (b : Nat) :
    ((l.foldl (adopt a) bs) b).children =
      (if b = a then (bs a).children ++ l else (bs b).children) := (foldl_adopt a l bs b).2.2.2.1

theorem foldl_adopt_parent (a : Nat) (l : List Nat) (bs : Nat → Branch) (b : Nat) :
    ((l.foldl (adopt a) bs) b).parent = (if b ∈ l then (a : Int) else (bs b).parent) :=
  (foldl_adopt a l bs b).2.2.2.2

theorem transfer_from (bs : Nat → Branch) (parked : List Nat) (a rem b : Nat) :
    (transfer bs parked a rem b).from_ = (bs b).from_ := by
  unfold transfer upd
  dsimp only
  split_ifs with h1 <;> simp only [foldl_adopt_from]
  all_goals split_ifs with h2 <;> simp only [foldl_adopt_from]
  all_goals simp_all

theorem transfer_to (bs : Nat → Branch) (parked : List Nat) (a rem b : Nat) :
    (transfer bs parked a rem b).to_ = (bs b).to_ := by
  unfold transfer upd
  dsimp only
  split_ifs with h1 <;> simp only [foldl_adopt_to]
  all_goals split_ifs with h2 <;> simp only [foldl_adopt_to]
  all_goals simp_all

theorem transfer_arcs (bs : Nat → Branch) (parked : List Nat) (a rem b : Nat) :
    (transfer bs parked a rem b).arcs =
      if b = a then (bs a).arcs ++ (bs rem).arcs else (bs b).arcs := by
  unfold transfer upd
  dsimp only
  split_ifs with h1 h2 h2 <;> simp only [foldl_adopt_arcs]
  all_goals split_ifs <;> simp only [foldl_adopt_arcs]
  all_goals simp_all

theorem transfer_children (bs : Nat → Branch) (parked : List Nat) (a rem b : Nat) :
    (transfer bs parked a rem b).children =
      if b = a then (bs a).children ++ (bs rem).children ++ parked else (bs b).children := by
  unfold transfer upd
  dsimp only
  split_ifs with h1 h2 h2 <;> simp only [foldl_adopt_children]
  all_goals split_ifs <;> simp only [foldl_adopt_children]
  all_goals simp_all

theorem transfer_parent (bs : Nat → Branch) (parked : List Nat) (a rem b : Nat) :
    (transfer bs parked a rem b).parent =
      if b = rem then -2
      else if b ∈ parked then (a : Int)
      else if b ∈ (bs rem).children then (a : Int) else (bs b).parent := by
  unfold transfer upd
  dsimp only
  split_ifs with h1 h2 h3 <;> simp only [foldl_adopt_parent]
  all_goals split_ifs <;> simp only [foldl_adopt_parent]
  all_goals simp_all

/-! ### `detach` keeps the topology consistent -/

theorem detach_live (s : SimplifyCT σ) (a b : Nat) :
    (s.detach a).live b ↔ s.live b ∧ b ≠ a := by
  unfold live
  simp only [detach_data, detach_removed, upd_apply]
  by_cases h : b = a
  · simp [h]
  · simp [h]

theorem detach_alive (s : SimplifyCT σ) (a v : Nat) (h : (s.detach a).alive v) : s.alive v := by
  obtain ⟨b, hb, he⟩ := h
  exact ⟨b, ((detach_live s a b).1 hb).1, he⟩

theorem detach_vArray (s : SimplifyCT σ) (a v : Nat) :
    (s.detach a).vArray v =
      if v = s.mergedVertexOf a then s.vArray v ++ [a] else s.vArray v := by
  unfold detach upd
  dsimp only
  split_ifs with h
  · rw [h]
  · rfl

theorem detach_topo (rank : Nat → Int) (s : SimplifyCT σ) (a : Nat) (h : Topo rank s)
    (ha : s.live a) : Topo rank (s.detach a) := by
  have hfa : s.alive (s.branches a).from_ := ⟨a, ha, Or.inl rfl⟩
  have hta : s.alive (s.branches a).to_ := ⟨a, ha, Or.inr rfl⟩
  refine ⟨?_, ?_, ?_, ?_, ?_, ?_, ?_, ?_, ?_, ?_, ?_⟩
  · intro b hb
    exact h.ranked b ((detach_live s a b).1 hb).1
  · intro b hb
    obtain ⟨hb1, hb2⟩ := (detach_live s a b).1 hb
    rw [detach_branches, detach_next]
    split_ifs
    · exact List.mem_filter.2 ⟨h.in_next b hb1, by simpa using hb2⟩
    · exact h.in_next b hb1
  · intro b hb
    obtain ⟨hb1, hb2⟩ := (detach_live s a b).1 hb
    rw [detach_branches, detach_prev]
    split_ifs
    · exact List.mem_filter.2 ⟨h.in_prev b hb1, by simpa using hb2⟩
    · exact h.in_prev b hb1
  · intro v x hv hx
    have hv' := detach_alive s a v hv
    rw [detach_prev] at hx
    rw [detach_live, detach_branches]
    split_ifs at hx with hc
    · obtain ⟨hx1, hx2⟩ := List.mem_filter.1 hx
      obtain ⟨h1, h2⟩ := h.prev_ok v x hv' hx1
      exact ⟨⟨h1, by simpa using hx2⟩, h2⟩
    · obtain ⟨h1, h2⟩ := h.prev_ok v x hv' hx
      refine ⟨⟨h1, ?_⟩, h2⟩
      intro hxa; subst hxa; exact hc h2.symm
  · intro v x hv hx
    have hv' := detach_alive s a v hv
    rw [detach_next] at hx
    rw [detach_live, detach_branches]
    split_ifs at hx with hc
    · obtain ⟨hx1, hx2⟩ := List.mem_filter.1 hx
      obtain ⟨h1, h2⟩ := h.next_ok v x hv' hx1
      exact ⟨⟨h1, by simpa using hx2⟩, h2⟩
    · obtain ⟨h1, h2⟩ := h.next_ok v x hv' hx
      refine ⟨⟨h1, ?_⟩, h2⟩
      intro hxa; subst hxa; exact hc h2.symm
  · intro v hv
    rw [detach_prev]
    have := h.prev_nodup v (detach_alive s a v hv)
    split_ifs
    · exact this.filter _
    · exact this
  · intro v hv
    rw [detach_next]
    have := h.next_nodup v (detach_alive s a v hv)
    split_ifs
    · exact this.filter _
    · exact this
  · intro v hv
    by_cases hv' : s.alive v
    · -- the last live branch at `v` has just left
      left
      constructor
      · rw [detach_prev]
        have key : ∀ x ∈ (s.nodes v).prev, x = a := by
          intro x hx
          obtain ⟨h1, h2⟩ := h.prev_ok v x hv' hx
          by_contra hne
          exact hv ⟨x, (detach_live s a x).2 ⟨h1, hne⟩, Or.inr (by simpa using h2)⟩
        split_ifs with hc
        · apply List.filter_eq_nil_iff.2
          intro x hx
          simp [key x hx]
        · apply List.eq_nil_iff_forall_not_mem.2
          intro x hx
          have := (h.prev_ok v x hv' hx).2
          rw [key x hx] at this
          exact hc this.symm
      · rw [detach_next]
        have key : ∀ x ∈ (s.nodes v).next, x = a := by
          intro x hx
          obtain ⟨h1, h2⟩ := h.next_ok v x hv' hx
          by_contra hne
          exact hv ⟨x, (detach_live s a x).2 ⟨h1, hne⟩, Or.inl (by simpa using h2)⟩
        split_ifs with hc
        · apply List.filter_eq_nil_iff.2
          intro x hx
          simp [key x hx]
        · apply List.eq_nil_iff_forall_not_mem.2
          intro x hx
          have := (h.next_ok v x hv' hx).2
          rw [key x hx] at this
          exact hc this.symm
    · have h1 : v ≠ (s.branches a).to_ := by intro e; exact hv' (e ▸ hta)
      have h2 : v ≠ (s.branches a).from_ := by intro e; exact hv' (e ▸ hfa)
      rw [detach_prev, detach_next]
      simp only [h1, h2, if_false]
      exact h.dead_lists v hv'
  · intro b c hb hc hne
    exact h.arcs_disjoint b c ((detach_live s a b).1 hb).1 ((detach_live s a c).1 hc).1 hne
  · intro b x hx
    rw [detach_branches] at hx
    rw [detach_removed, upd_apply]
    split_ifs
    · rfl
    · exact h.children_removed b x hx
  · intro v x hx
    rw [detach_vArray] at hx
    rw [detach_removed, upd_apply]
    split_ifs at hx
    · rcases List.mem_append.1 hx with hx | hx
      · split_ifs
        · rfl
        · exact h.parked_removed v x hx
      · simp at hx; simp [hx]
    · split_ifs
      · rfl
      · exact h.parked_removed v x hx

/-! ### `mergeVertex` keeps the topology consistent -/

theorem mem_map_replace_of_mem {l : List Nat} {b q p : Nat} (h : b ∈ l) (hb : b ≠ q) :
    b ∈ l.map (fun x => if x = q then p else x) :=
  List.mem_map.2 ⟨b, h, by simp [hb]⟩

theorem mem_map_replace {l : List Nat} {q p : Nat} (h : q ∈ l) :
    p ∈ l.map (fun x => if x = q then p else x) :=
  List.mem_map.2 ⟨q, h, by simp⟩

theorem nodup_map_replace {l : List Nat} {q p : Nat} (h : l.Nodup) (hp : p ∉ l) :
    (l.map (fun x => if x = q then p else x)).Nodup := by
  apply List.Nodup.map_on _ h
  intro x hx y hy hxy
  by_cases h1 : x = q <;> by_cases h2 : y = q <;> simp [h1, h2] at hxy
  · rw [h1, h2]
  · exact absurd (hxy ▸ hy) hp
  · exact absurd (hxy ▸ hx) hp
  · exact hxy

/-- The state after the first branch of `mergeVertex(v)`. -/
theorem mergeVertex_of_inq (s : SimplifyCT σ) (v : Nat)
    (h : s.inq ((s.nodes v).prev.headD 0) = true) :
    s.mergeVertex v =
      { s.mergeIntoPrev ((s.nodes v).prev.headD 0) ((s.nodes v).next.headD 0) with
        branches := transfer
          (s.mergeIntoPrev ((s.nodes v).prev.headD 0) ((s.nodes v).next.headD 0)).branches
          (s.vArray v) ((s.nodes v).prev.headD 0) ((s.nodes v).next.headD 0) } := by
  unfold mergeVertex
  simp only [h, if_true, mergeIntoPrev_vArray]

/-- The state after the second branch of `mergeVertex(v)`. -/
theorem mergeVertex_of_not_inq (s : SimplifyCT σ) (v : Nat)
    (h : s.inq ((s.nodes v).prev.headD 0) = false) :
    s.mergeVertex v =
      { s.mergeIntoNext ((s.nodes v).prev.headD 0) ((s.nodes v).next.headD 0) with
        branches := transfer
          (s.mergeIntoNext ((s.nodes v).prev.headD 0) ((s.nodes v).next.headD 0)).branches
          (s.vArray v) ((s.nodes v).next.headD 0) ((s.nodes v).prev.headD 0) } := by
  unfold mergeVertex
  simp only [h, Bool.false_eq_true, if_false, mergeIntoNext_vArray]

theorem mergePrev_topo (rank : Nat → Int) (s : SimplifyCT σ) (v p q : Nat) (h : Topo rank s)
    (hp : (s.nodes v).prev = [p]) (hq : (s.nodes v).next = [q]) (hv : s.alive v) :
    Topo rank { s.mergeIntoPrev p q with
      branches := transfer (s.mergeIntoPrev p q).branches (s.vArray v) p q } := by
  obtain ⟨hpl, hpt⟩ := h.prev_ok v p hv (by simp [hp])
  obtain ⟨hql, hqf⟩ := h.next_ok v q hv (by simp [hq])
  have hrp := h.ranked p hpl
  have hrq := h.ranked q hql
  rw [hpt] at hrp
  rw [hqf] at hrq
  have hpq : p ≠ q := by
    intro e; rw [e, hqf] at hrp; omega
  have htv : (s.branches q).to_ ≠ v := by
    intro e; rw [e] at hrq; omega
  have huv : (s.branches p).from_ ≠ v := by
    intro e; rw [e] at hrp; omega
  set s' : SimplifyCT σ := { s.mergeIntoPrev p q with
      branches := transfer (s.mergeIntoPrev p q).branches (s.vArray v) p q } with hs'
  have hfrom : ∀ b, (s'.branches b).from_ = (s.branches b).from_ := by
    intro b
    simp only [hs', transfer_from, mergeIntoPrev_branches, upd_apply]
    split_ifs with e
    · rw [e]
    · rfl
  have hto : ∀ b, (s'.branches b).to_ =
      if b = p then (s.branches q).to_ else (s.branches b).to_ := by
    intro b
    simp only [hs', transfer_to, mergeIntoPrev_branches, upd_apply]
    split_ifs <;> rfl
  have harcs : ∀ b, (s'.branches b).arcs =
      if b = p then (s.branches p).arcs ++ (s.branches q).arcs else (s.branches b).arcs := by
    intro b
    simp only [hs', transfer_arcs, mergeIntoPrev_branches, upd_apply, if_true, hpq.symm, if_false]
    split_ifs <;> rfl
  have hchildren : ∀ b, (s'.branches b).children =
      if b = p then (s.branches p).children ++ (s.branches q).children ++ s.vArray v
      else (s.branches b).children := by
    intro b
    simp only [hs', transfer_children, mergeIntoPrev_branches, upd_apply, if_true, hpq.symm,
      if_false]
    split_ifs <;> rfl
  have hrem : s'.removed = upd s.removed q true := rfl
  have hdata : s'.data = s.data := rfl
  have hvarr : s'.vArray = s.vArray := rfl
  have hprev : ∀ w, (s'.nodes w).prev =
      if w = (s.branches q).to_ then (s.nodes w).prev.map (fun x => if x = q then p else x)
      else (s.nodes w).prev := fun w => mergeIntoPrev_prev s p q w
  have hnext : ∀ w, (s'.nodes w).next = (s.nodes w).next := fun w => mergeIntoPrev_next s p q w
  have hlive : ∀ b, s'.live b ↔ s.live b ∧ b ≠ q := by
    intro b
    unfold live
    rw [hrem, hdata, upd_apply]
    by_cases e : b = q
    · simp [e]
    · simp [e]
  have hpl' : s'.live p := (hlive p).2 ⟨hpl, hpq⟩
  have halive : ∀ w, s'.alive w → s.alive w ∧ w ≠ v := by
    rintro w ⟨b, hb, he⟩
    obtain ⟨hb1, hb2⟩ := (hlive b).1 hb
    rw [hfrom, hto] at he
    rcases he with he | he
    · refine ⟨⟨b, hb1, Or.inl he⟩, ?_⟩
      intro e
      have := h.in_next b hb1
      rw [he, e, hq] at this
      simp at this
      exact hb2 this
    · split_ifs at he with e
      · refine ⟨⟨q, hql, Or.inr he⟩, ?_⟩
        rw [← he]; exact htv
      · refine ⟨⟨b, hb1, Or.inr he⟩, ?_⟩
        intro e2
        have := h.in_prev b hb1
        rw [he, e2, hp] at this
        simp at this
        exact e this
  have halive' : ∀ w, s.alive w → w ≠ v → s'.alive w := by
    rintro w ⟨b, hb, he⟩ hw
    by_cases e : b = q
    · subst e
      rcases he with he | he
      · exact absurd (hqf.symm.trans he) (Ne.symm hw)
      · exact ⟨p, hpl', Or.inr (by rw [hto]; simp [he])⟩
    · refine ⟨b, (hlive b).2 ⟨hb, e⟩, ?_⟩
      rw [hfrom, hto]
      rcases he with he | he
      · exact Or.inl he
      · right
        split_ifs with e2
        · subst e2; exact absurd (hpt.symm.trans he) (Ne.symm hw)
        · exact he
  have hpnot : p ∉ (s.nodes (s.branches q).to_).prev := by
    intro hm
    have := (h.prev_ok _ p ⟨q, hql, Or.inr rfl⟩ hm).2
    rw [hpt] at this
    exact htv this.symm
  refine ⟨?_, ?_, ?_, ?_, ?_, ?_, ?_, ?_, ?_, ?_, ?_⟩
  · intro b hb
    obtain ⟨hb1, hb2⟩ := (hlive b).1 hb
    rw [hfrom, hto]
    split_ifs with e
    · subst e; omega
    · exact h.ranked b hb1
  · intro b hb
    obtain ⟨hb1, hb2⟩ := (hlive b).1 hb
    rw [hfrom, hnext]
    exact h.in_next b hb1
  · intro b hb
    obtain ⟨hb1, hb2⟩ := (hlive b).1 hb
    rw [hto, hprev]
    by_cases e : b = p
    · rw [if_pos e, if_pos rfl, e]
      exact mem_map_replace (h.in_prev q hql)
    · rw [if_neg e]
      by_cases e2 : (s.branches b).to_ = (s.branches q).to_
      · rw [if_pos e2]
        exact mem_map_replace_of_mem (h.in_prev b hb1) hb2
      · rw [if_neg e2]
        exact h.in_prev b hb1
  · intro w x hw hx
    obtain ⟨hw1, hw2⟩ := halive w hw
    rw [hprev] at hx
    rw [hlive, hto]
    by_cases e : w = (s.branches q).to_
    · rw [if_pos e] at hx
      obtain ⟨y, hy, hxy⟩ := List.mem_map.1 hx
      obtain ⟨hy1, hy2⟩ := h.prev_ok w y hw1 hy
      by_cases e2 : y = q
      · rw [if_pos e2] at hxy
        subst hxy
        exact ⟨⟨hpl, hpq⟩, by rw [if_pos rfl]; exact e.symm⟩
      · rw [if_neg e2] at hxy
        subst hxy
        refine ⟨⟨hy1, e2⟩, ?_⟩
        split_ifs
        · exact e.symm
        · exact hy2
    · rw [if_neg e] at hx
      obtain ⟨hx1, hx2⟩ := h.prev_ok w x hw1 hx
      have hxq : x ≠ q := by
        intro e3; rw [e3] at hx2; exact e hx2.symm
      have hxp : x ≠ p := by
        intro e3; rw [e3, hpt] at hx2; exact hw2 hx2.symm
      exact ⟨⟨hx1, hxq⟩, by rw [if_neg hxp]; exact hx2⟩
  · intro w x hw hx
    obtain ⟨hw1, hw2⟩ := halive w hw
    rw [hnext] at hx
    rw [hlive, hfrom]
    obtain ⟨hx1, hx2⟩ := h.next_ok w x hw1 hx
    refine ⟨⟨hx1, ?_⟩, hx2⟩
    intro e3; rw [e3, hqf] at hx2; exact hw2 hx2.symm
  · intro w hw
    obtain ⟨hw1, hw2⟩ := halive w hw
    rw [hprev]
    split_ifs with e
    · rw [e]
      exact nodup_map_replace (h.prev_nodup _ ⟨q, hql, Or.inr rfl⟩) hpnot
    · exact h.prev_nodup w hw1
  · intro w hw
    rw [hnext]
    exact h.next_nodup w (halive w hw).1
  · intro w hw
    by_cases e : w = v
    · right
      rw [hprev, hnext, if_neg (by rw [e]; exact Ne.symm htv), e, hp, hq]
      simp
    · have hw1 : ¬ s.alive w := fun ha => hw (halive' w ha e)
      have hwt : w ≠ (s.branches q).to_ := by
        intro e2; exact hw1 ⟨q, hql, Or.inr e2.symm⟩
      rw [hprev, hnext, if_neg hwt]
      exact h.dead_lists w hw1
  · intro b c hb hc hne
    obtain ⟨hb1, hb2⟩ := (hlive b).1 hb
    obtain ⟨hc1, hc2⟩ := (hlive c).1 hc
    rw [harcs, harcs]
    by_cases e1 : b = p
    · have e2 : c ≠ p := fun e => hne (e1.trans e.symm)
      rw [if_pos e1, if_neg e2]
      intro x hx1 hx2
      rcases List.mem_append.1 hx1 with hx1 | hx1
      · exact h.arcs_disjoint p c hpl hc1 (Ne.symm e2) hx1 hx2
      · exact h.arcs_disjoint q c hql hc1 (Ne.symm hc2) hx1 hx2
    · rw [if_neg e1]
      by_cases e2 : c = p
      · rw [if_pos e2]
        intro x hx1 hx2
        rcases List.mem_append.1 hx2 with hx2 | hx2
        · exact h.arcs_disjoint b p hb1 hpl e1 hx1 hx2
        · exact h.arcs_disjoint b q hb1 hql hb2 hx1 hx2
      · rw [if_neg e2]
        exact h.arcs_disjoint b c hb1 hc1 hne
  · intro b x hx
    rw [hchildren] at hx
    rw [hrem, upd_apply]
    split_ifs with e
    · rfl
    · split_ifs at hx
      · rcases List.mem_append.1 hx with hx | hx
        · rcases List.mem_append.1 hx with hx | hx
          · exact h.children_removed p x hx
          · exact h.children_removed q x hx
        · exact h.parked_removed v x hx
      · exact h.children_removed b x hx
  · intro w x hx
    rw [hvarr] at hx
    rw [hrem, upd_apply]
    split_ifs
    · rfl
    · exact h.parked_removed w x hx

theorem mergeNext_topo (rank : Nat → Int) (s : SimplifyCT σ) (v p q : Nat) (h : Topo rank s)
    (hp : (s.nodes v).prev = [p]) (hq : (s.nodes v).next = [q]) (hv : s.alive v) :
    Topo rank { s.mergeIntoNext p q with
      branches := transfer (s.mergeIntoNext p q).branches (s.vArray v) q p } := by
  obtain ⟨hpl, hpt⟩ := h.prev_ok v p hv (by simp [hp])
  obtain ⟨hql, hqf⟩ := h.next_ok v q hv (by simp [hq])
  have hrp := h.ranked p hpl
  have hrq := h.ranked q hql
  rw [hpt] at hrp
  rw [hqf] at hrq
  have hpq : p ≠ q := by
    intro e; rw [e, hqf] at hrp; omega
  have htv : (s.branches q).to_ ≠ v := by
    intro e; rw [e] at hrq; omega
  have huv : (s.branches p).from_ ≠ v := by
    intro e; rw [e] at hrp; omega
  set s' : SimplifyCT σ := { s.mergeIntoNext p q with
      branches := transfer (s.mergeIntoNext p q).branches (s.vArray v) q p } with hs'
  have hto : ∀ b, (s'.branches b).to_ = (s.branches b).to_ := by
    intro b
    simp only [hs', transfer_to, mergeIntoNext_branches, upd_apply]
    split_ifs with e
    · rw [e]
    · rfl
  have hfrom : ∀ b, (s'.branches b).from_ =
      if b = q then (s.branches p).from_ else (s.branches b).from_ := by
    intro b
    simp only [hs', transfer_from, mergeIntoNext_branches, upd_apply]
    split_ifs <;> rfl
  have harcs : ∀ b, (s'.branches b).arcs =
      if b = q then (s.branches q).arcs ++ (s.branches p).arcs else (s.branches b).arcs := by
    intro b
    simp only [hs', transfer_arcs, mergeIntoNext_branches, upd_apply, if_true, hpq, if_false]
    split_ifs <;> rfl
  have hchildren : ∀ b, (s'.branches b).children =
      if b = q then (s.branches q).children ++ (s.branches p).children ++ s.vArray v
      else (s.branches b).children := by
    intro b
    simp only [hs', transfer_children, mergeIntoNext_branches, upd_apply, if_true, hpq,
      if_false]
    split_ifs <;> rfl
  have hrem : s'.removed = upd s.removed p true := mergeIntoNext_removed s p q
  have hdata : s'.data = s.data := mergeIntoNext_data s p q
  have hvarr : s'.vArray = s.vArray := mergeIntoNext_vArray s p q
  have hnext : ∀ w, (s'.nodes w).next =
      if w = (s.branches p).from_ then (s.nodes w).next.map (fun x => if x = p then q else x)
      else (s.nodes w).next := fun w => mergeIntoNext_next s p q w
  have hprev : ∀ w, (s'.nodes w).prev = (s.nodes w).prev := fun w => mergeIntoNext_prev s p q w
  have hlive : ∀ b, s'.live b ↔ s.live b ∧ b ≠ p := by
    intro b
    unfold live
    rw [hrem, hdata, upd_apply]
    by_cases e : b = p
    · simp [e]
    · simp [e]
  have hql' : s'.live q := (hlive q).2 ⟨hql, Ne.symm hpq⟩
  have halive : ∀ w, s'.alive w → s.alive w ∧ w ≠ v := by
    rintro w ⟨b, hb, he⟩
    obtain ⟨hb1, hb2⟩ := (hlive b).1 hb
    rw [hfrom, hto] at he
    rcases he with he | he
    · split_ifs at he with e
      · refine ⟨⟨p, hpl, Or.inl he⟩, ?_⟩
        rw [← he]; exact huv
      · refine ⟨⟨b, hb1, Or.inl he⟩, ?_⟩
        intro e2
        have := h.in_next b hb1
        rw [he, e2, hq] at this
        simp at this
        exact e this
    · refine ⟨⟨b, hb1, Or.inr he⟩, ?_⟩
      intro e
      have := h.in_prev b hb1
      rw [he, e, hp] at this
      simp at this
      exact hb2 this
  have halive' : ∀ w, s.alive w → w ≠ v → s'.alive w := by
    rintro w ⟨b, hb, he⟩ hw
    by_cases e : b = p
    · subst e
      rcases he with he | he
      · exact ⟨q, hql', Or.inl (by rw [hfrom]; simp [he])⟩
      · exact absurd (hpt.symm.trans he) (Ne.symm hw)
    · refine ⟨b, (hlive b).2 ⟨hb, e⟩, ?_⟩
      rw [hfrom, hto]
      rcases he with he | he
      · left
        split_ifs with e2
        · subst e2; exact absurd (hqf.symm.trans he) (Ne.symm hw)
        · exact he
      · exact Or.inr he
  have hqnot : q ∉ (s.nodes (s.branches p).from_).next := by
    intro hm
    have := (h.next_ok _ q ⟨p, hpl, Or.inl rfl⟩ hm).2
    rw [hqf] at this
    exact huv this.symm
  refine ⟨?_, ?_, ?_, ?_, ?_, ?_, ?_, ?_, ?_, ?_, ?_⟩
  · intro b hb
    obtain ⟨hb1, hb2⟩ := (hlive b).1 hb
    rw [hfrom, hto]
    split_ifs with e
    · subst e; omega
    · exact h.ranked b hb1
  · intro b hb
    obtain ⟨hb1, hb2⟩ := (hlive b).1 hb
    rw [hfrom, hnext]
    by_cases e : b = q
    · rw [if_pos e, if_pos rfl, e]
      exact mem_map_replace (h.in_next p hpl)
    · rw [if_neg e]
      by_cases e2 : (s.branches b).from_ = (s.branches p).from_
      · rw [if_pos e2]
        exact mem_map_replace_of_mem (h.in_next b hb1) hb2
      · rw [if_neg e2]
        exact h.in_next b hb1
  · intro b hb
    obtain ⟨hb1, hb2⟩ := (hlive b).1 hb
    rw [hto, hprev]
    exact h.in_prev b hb1
  · intro w x hw hx
    obtain ⟨hw1, hw2⟩ := halive w hw
    rw [hprev] at hx
    rw [hlive, hto]
    obtain ⟨hx1, hx2⟩ := h.prev_ok w x hw1 hx
    refine ⟨⟨hx1, ?_⟩, hx2⟩
    intro e3; rw [e3, hpt] at hx2; exact hw2 hx2.symm
  · intro w x hw hx
    obtain ⟨hw1, hw2⟩ := halive w hw
    rw [hnext] at hx
    rw [hlive, hfrom]
    by_cases e : w = (s.branches p).from_
    · rw [if_pos e] at hx
      obtain ⟨y, hy, hxy⟩ := List.mem_map.1 hx
      obtain ⟨hy1, hy2⟩ := h.next_ok w y hw1 hy
      by_cases e2 : y = p
      · rw [if_pos e2] at hxy
        subst hxy
        exact ⟨⟨hql, Ne.symm hpq⟩, by rw [if_pos rfl]; exact e.symm⟩
      · rw [if_neg e2] at hxy
        subst hxy
        refine ⟨⟨hy1, e2⟩, ?_⟩
        split_ifs
        · exact e.symm
        · exact hy2
    · rw [if_neg e] at hx
      obtain ⟨hx1, hx2⟩ := h.next_ok w x hw1 hx
      have hxp : x ≠ p := by
        intro e3; rw [e3] at hx2; exact e hx2.symm
      have hxq : x ≠ q := by
        intro e3; rw [e3, hqf] at hx2; exact hw2 hx2.symm
      exact ⟨⟨hx1, hxp⟩, by rw [if_neg hxq]; exact hx2⟩
  · intro w hw
    rw [hprev]
    exact h.prev_nodup w (halive w hw).1
  · intro w hw
    obtain ⟨hw1, hw2⟩ := halive w hw
    rw [hnext]
    split_ifs with e
    · rw [e]
      exact nodup_map_replace (h.next_nodup _ ⟨p, hpl, Or.inl rfl⟩) hqnot
    · exact h.next_nodup w hw1
  · intro w hw
    by_cases e : w = v
    · right
      rw [hprev, hnext, if_neg (by rw [e]; exact Ne.symm huv), e, hp, hq]
      simp
    · have hw1 : ¬ s.alive w := fun ha => hw (halive' w ha e)
      have hwt : w ≠ (s.branches p).from_ := by
        intro e2; exact hw1 ⟨p, hpl, Or.inl e2.symm⟩
      rw [hprev, hnext, if_neg hwt]
      exact h.dead_lists w hw1
  · intro b c hb hc hne
    obtain ⟨hb1, hb2⟩ := (hlive b).1 hb
    obtain ⟨hc1, hc2⟩ := (hlive c).1 hc
    rw [harcs, harcs]
    by_cases e1 : b = q
    · have e2 : c ≠ q := fun e => hne (e1.trans e.symm)
      rw [if_pos e1, if_neg e2]
      intro x hx1 hx2
      rcases List.mem_append.1 hx1 with hx1 | hx1
      · exact h.arcs_disjoint q c hql hc1 (Ne.symm e2) hx1 hx2
      · exact h.arcs_disjoint p c hpl hc1 (Ne.symm hc2) hx1 hx2
    · rw [if_neg e1]
      by_cases e2 : c = q
      · rw [if_pos e2]
        intro x hx1 hx2
        rcases List.mem_append.1 hx2 with hx2 | hx2
        · exact h.arcs_disjoint b q hb1 hql e1 hx1 hx2
        · exact h.arcs_disjoint b p hb1 hpl hb2 hx1 hx2
      · rw [if_neg e2]
        exact h.arcs_disjoint b c hb1 hc1 hne
  · intro b x hx
    rw [hchildren] at hx
    rw [hrem, upd_apply]
    split_ifs with e
    · rfl
    · split_ifs at hx
      · rcases List.mem_append.1 hx with hx | hx
        · rcases List.mem_append.1 hx with hx | hx
          · exact h.children_removed q x hx
          · exact h.children_removed p x hx
        · exact h.parked_removed v x hx
      · exact h.children_removed b x hx
  · intro w x hx
    rw [hvarr] at hx
    rw [hrem, upd_apply]
    split_ifs
    · rfl
    · exact h.parked_removed w x hx

theorem list_eq_singleton_headD (l : List Nat) (h : l.length = 1) : l = [l.headD 0] := by
  match l, h with
  | [x], _ => rfl

theorem mergeVertex_topo (rank : Nat → Int) (s : SimplifyCT σ) (v : Nat) (h : Topo rank s)
    (h1 : (s.nodes v).prev.length = 1) (h2 : (s.nodes v).next.length = 1) (hv : s.alive v) :
    Topo rank (s.mergeVertex v) := by
  have hp := list_eq_singleton_headD _ h1
  have hq := list_eq_singleton_headD _ h2
  by_cases hi : s.inq ((s.nodes v).prev.headD 0) = true
  · rw [mergeVertex_of_inq s v hi]
    exact mergePrev_topo rank s v _ _ h hp hq hv
  · simp only [Bool.not_eq_true] at hi
    rw [mergeVertex_of_not_inq s v hi]
    exact mergeNext_topo rank s v _ _ h hp hq hv

/-! ### `removeArc` keeps the topology consistent -/

theorem Topo.of_eq {rank : Nat → Int} {s t : SimplifyCT σ} (h : Topo rank s)
    (hd : t.data = s.data) (hb : t.branches = s.branches) (hn : t.nodes = s.nodes)
    (hr : t.removed = s.removed) (hv : t.vArray = s.vArray) : Topo rank t := by
  have hl : ∀ b, t.live b ↔ s.live b := by
    intro b; unfold live; rw [hd, hr]
  have ha : ∀ v, t.alive v ↔ s.alive v := by
    intro v; unfold alive; simp only [hl, hb]
  refine ⟨?_, ?_, ?_, ?_, ?_, ?_, ?_, ?_, ?_, ?_, ?_⟩
  · intro b hb'; rw [hb]; exact h.ranked b ((hl b).1 hb')
  · intro b hb'; rw [hb, hn]; exact h.in_next b ((hl b).1 hb')
  · intro b hb'; rw [hb, hn]; exact h.in_prev b ((hl b).1 hb')
  · intro v x hv' hx; rw [hn] at hx; rw [hl, hb]; exact h.prev_ok v x ((ha v).1 hv') hx
  · intro v x hv' hx; rw [hn] at hx; rw [hl, hb]; exact h.next_ok v x ((ha v).1 hv') hx
  · intro v hv'; rw [hn]; exact h.prev_nodup v ((ha v).1 hv')
  · intro v hv'; rw [hn]; exact h.next_nodup v ((ha v).1 hv')
  · intro v hv'; rw [hn]; exact h.dead_lists v (fun x => hv' ((ha v).2 x))
  · intro b c hb' hc' hne; rw [hb]; exact h.arcs_disjoint b c ((hl b).1 hb') ((hl c).1 hc') hne
  · intro b x hx; rw [hb] at hx; rw [hr]; exact h.children_removed b x hx
  · intro v x hx; rw [hv] at hx; rw [hr]; exact h.parked_removed v x hx

/-- What `isCandidate` says about the lists at the endpoints. -/
theorem isCandidate_cases (s : SimplifyCT σ) (br : Branch) (h : s.isCandidate br = true) :
    ((s.nodes br.from_).prev.length = 0 ∧ (s.nodes br.to_).prev.length > 1) ∨
    ((s.nodes br.from_).prev.length ≠ 0 ∧ (s.nodes br.to_).next.length = 0 ∧
      (s.nodes br.from_).next.length > 1) := by
  unfold isCandidate at h
  simp only [] at h
  split_ifs at h with h1 h2 h3 h4
  · exact Or.inl ⟨h1, h2⟩
  · exact Or.inr ⟨h1, h3, h4⟩

/-- For a candidate the merged vertex is one of the two endpoints. -/
theorem mergedVertexOf_candidate (s : SimplifyCT σ) (a : Nat)
    (h : s.isCandidate (s.branches a) = true) :
    (s.mergedVertexOf a = (s.branches a).to_ ∧ (s.nodes (s.branches a).from_).prev.length = 0 ∧
        (s.nodes (s.branches a).to_).next.length ≠ 0) ∨
    (s.mergedVertexOf a = (s.branches a).from_ ∧ (s.nodes (s.branches a).to_).next.length = 0) := by
  unfold mergedVertexOf
  simp only []
  rcases isCandidate_cases s _ h with ⟨h1, h2⟩ | ⟨h1, h2, h3⟩
  · by_cases h4 : (s.nodes (s.branches a).to_).next.length = 0
    · right; simp [h4]
    · left; simp [h4, h1]
  · right; simp [h2]

theorem detach_lists_nil_of_dead (rank : Nat → Int) (s : SimplifyCT σ) (a v : Nat)
    (h : Topo rank s) (hv' : s.alive v) (hv : ¬ (s.detach a).alive v) :
    ((s.detach a).nodes v).prev = [] ∧ ((s.detach a).nodes v).next = [] := by
  constructor
  · rw [detach_prev]
    have key : ∀ x ∈ (s.nodes v).prev, x = a := by
      intro x hx
      obtain ⟨h1, h2⟩ := h.prev_ok v x hv' hx
      by_contra hne
      exact hv ⟨x, (detach_live s a x).2 ⟨h1, hne⟩, Or.inr (by simpa using h2)⟩
    split_ifs with hc
    · apply List.filter_eq_nil_iff.2
      intro x hx
      simp [key x hx]
    · apply List.eq_nil_iff_forall_not_mem.2
      intro x hx
      have := (h.prev_ok v x hv' hx).2
      rw [key x hx] at this
      exact hc this.symm
  · rw [detach_next]
    have key : ∀ x ∈ (s.nodes v).next, x = a := by
      intro x hx
      obtain ⟨h1, h2⟩ := h.next_ok v x hv' hx
      by_contra hne
      exact hv ⟨x, (detach_live s a x).2 ⟨h1, hne⟩, Or.inl (by simpa using h2)⟩
    split_ifs with hc
    · apply List.filter_eq_nil_iff.2
      intro x hx
      simp [key x hx]
    · apply List.eq_nil_iff_forall_not_mem.2
      intro x hx
      have := (h.next_ok v x hv' hx).2
      rw [key x hx] at this
      exact hc this.symm

/-- A candidate that is not live occurs in no list at its endpoints. -/
theorem not_mem_lists_of_not_live (rank : Nat → Int) (s : SimplifyCT σ) (a : Nat)
    (h : Topo rank s) (hc : s.isCandidate (s.branches a) = true) (hl : ¬ s.live a) :
    a ∉ (s.nodes (s.branches a).to_).prev ∧ a ∉ (s.nodes (s.branches a).from_).next := by
  have hcs := isCandidate_cases s _ hc
  constructor
  · intro hm
    by_cases hv : s.alive (s.branches a).to_
    · exact hl (h.prev_ok _ a hv hm).1
    · rcases h.dead_lists _ hv with ⟨e1, _⟩ | ⟨e1, e2⟩
      · rw [e1] at hm; simp at hm
      · rcases hcs with ⟨_, c2⟩ | ⟨_, c2, _⟩ <;> omega
  · intro hm
    by_cases hv : s.alive (s.branches a).from_
    · exact hl (h.next_ok _ a hv hm).1
    · rcases h.dead_lists _ hv with ⟨_, e2⟩ | ⟨e1, e2⟩
      · rw [e2] at hm; simp at hm
      · rcases hcs with ⟨c1, _⟩ | ⟨_, _, c3⟩ <;> omega

theorem filter_ne_of_not_mem (l : List Nat) (a : Nat) (h : a ∉ l) :
    l.filter (fun x => x ≠ a) = l := by
  apply List.filter_eq_self.2
  intro x hx
  have : x ≠ a := fun e => h (e ▸ hx)
  simpa using this

theorem detach_nodes_of_not_live (rank : Nat → Int) (s : SimplifyCT σ) (a : Nat)
    (h : Topo rank s) (hc : s.isCandidate (s.branches a) = true) (hl : ¬ s.live a) :
    (s.detach a).nodes = s.nodes := by
  obtain ⟨h1, h2⟩ := not_mem_lists_of_not_live rank s a h hc hl
  funext w
  have e1 := detach_prev s a w
  have e2 := detach_next s a w
  have p1 : ((s.detach a).nodes w).prev = (s.nodes w).prev := by
    rw [e1]; split_ifs with e
    · rw [e]; exact filter_ne_of_not_mem _ _ h1
    · rfl
  have p2 : ((s.detach a).nodes w).next = (s.nodes w).next := by
    rw [e2]; split_ifs with e
    · rw [e]; exact filter_ne_of_not_mem _ _ h2
    · rfl
  cases hx : (s.detach a).nodes w with
  | mk pr nx =>
    cases hy : s.nodes w with
    | mk pr' nx' =>
      rw [hx] at p1 p2; rw [hy] at p1 p2
      simp only at p1 p2
      rw [p1, p2]

theorem detach_topo_of_not_live (rank : Nat → Int) (s : SimplifyCT σ) (a : Nat)
    (h : Topo rank s) (hc : s.isCandidate (s.branches a) = true) (hl : ¬ s.live a) :
    Topo rank (s.detach a) := by
  have hn := detach_nodes_of_not_live rank s a h hc hl
  have hlive : ∀ b, (s.detach a).live b ↔ s.live b := by
    intro b
    rw [detach_live]
    constructor
    · exact fun x => x.1
    · exact fun x => ⟨x, fun e => hl (e ▸ x)⟩
  have halive : ∀ v, (s.detach a).alive v ↔ s.alive v := by
    intro v; unfold alive; simp only [hlive, detach_branches]
  refine ⟨?_, ?_, ?_, ?_, ?_, ?_, ?_, ?_, ?_, ?_, ?_⟩
  · intro b hb; exact h.ranked b ((hlive b).1 hb)
  · intro b hb; rw [hn]; exact h.in_next b ((hlive b).1 hb)
  · intro b hb; rw [hn]; exact h.in_prev b ((hlive b).1 hb)
  · intro v x hv hx; rw [hn] at hx; rw [hlive]; exact h.prev_ok v x ((halive v).1 hv) hx
  · intro v x hv hx; rw [hn] at hx; rw [hlive]; exact h.next_ok v x ((halive v).1 hv) hx
  · intro v hv; rw [hn]; exact h.prev_nodup v ((halive v).1 hv)
  · intro v hv; rw [hn]; exact h.next_nodup v ((halive v).1 hv)
  · intro v hv; rw [hn]; exact h.dead_lists v (fun x => hv ((halive v).2 x))
  · intro b c hb hc' hne; exact h.arcs_disjoint b c ((hlive b).1 hb) ((hlive c).1 hc') hne
  · intro b x hx
    rw [detach_removed, upd_apply]
    split_ifs
    · rfl
    · exact h.children_removed b x hx
  · intro v x hx
    rw [detach_vArray] at hx
    rw [detach_removed, upd_apply]
    split_ifs at hx
    · rcases List.mem_append.1 hx with hx | hx
      · split_ifs
        · rfl
        · exact h.parked_removed v x hx
      · simp at hx; simp [hx]
    · split_ifs
      · rfl
      · exact h.parked_removed v x hx

/-- When the merge test of `removeArc` succeeds on a candidate, the candidate was live and the
merged vertex still carries live branches. -/
theorem mergeTest_live (rank : Nat → Int) (s : SimplifyCT σ) (a : Nat)
    (h : Topo rank s) (hc : s.isCandidate (s.branches a) = true) (hm : mergeTest s a) :
    s.live a ∧ (s.detach a).alive (s.mergedVertexOf a) := by
  have hcs := isCandidate_cases s _ hc
  have hmv := mergedVertexOf_candidate s a hc
  have hl : s.live a := by
    by_contra hl
    have hn := detach_nodes_of_not_live rank s a h hc hl
    unfold mergeTest at hm
    rw [hn] at hm
    rcases hmv with ⟨e, e1, e2⟩ | ⟨e, e1⟩
    · rw [e] at hm
      rcases hcs with ⟨_, c2⟩ | ⟨c1, _, _⟩ <;> omega
    · rw [e] at hm
      rcases hcs with ⟨c1, _⟩ | ⟨_, _, c3⟩ <;> omega
  refine ⟨hl, ?_⟩
  by_contra hd
  have hal : s.alive (s.mergedVertexOf a) := by
    rcases hmv with ⟨e, _⟩ | ⟨e, _⟩
    · rw [e]; exact ⟨a, hl, Or.inr rfl⟩
    · rw [e]; exact ⟨a, hl, Or.inl rfl⟩
  have := detach_lists_nil_of_dead rank s a _ h hal hd
  unfold mergeTest at hm
  rw [this.1] at hm
  simp at hm

theorem removeArc_topo (rank : Nat → Int) (s : SimplifyCT σ) (a : Nat)
    (h : Topo rank s) (hc : s.isCandidate (s.branches a) = true) :
    Topo rank (s.removeArc a) := by
  rw [removeArc_eq]
  have hd : Topo rank (s.detach a) := by
    by_cases hl : s.live a
    · exact detach_topo rank s a h hl
    · exact detach_topo_of_not_live rank s a h hc hl
  split_ifs with hm
  · obtain ⟨_, hal⟩ := mergeTest_live rank s a h hc hm
    have := mergeVertex_topo rank (s.detach a) _ hd hm.1 hm.2 hal
    exact this.of_eq (by simp) (by simp) (by simp) (by simp) (by simp)
  · exact hd.of_eq (by simp) (by simp) (by simp) (by simp) (by simp)

/-! ### The topology built by `initSimplification` -/

theorem initArc_branches (s : SimplifyCT σ) (i b : Nat) :
    (s.initArc i).branches b =
      if b = i then
        { from_ := (s.data.arcs i).from_, to_ := (s.data.arcs i).to_, parent := -1,
          children := (s.branches i).children, arcs := (s.branches i).arcs ++ [i] }
      else s.branches b := by
  unfold initArc upd
  dsimp only

/-- The state after the first `k` rounds of the first loop of `initSimplification`. -/
theorem foldl_initArc_range (f : Option (SimFunction σ)) (sim0 : σ) (d : ContourTreeData)
    (k : Nat) :
    (∀ b, ((List.range k).foldl initArc (fresh f sim0 d)).branches b =
      if b < k then
        { from_ := (d.arcs b).from_, to_ := (d.arcs b).to_, parent := -1, children := [],
          arcs := [b] }
      else { from_ := 0, to_ := 0, parent := 0, children := [], arcs := [] }) ∧
    (∀ v, (((List.range k).foldl initArc (fresh f sim0 d)).nodes v).prev =
      (List.range k).filter (fun i => (d.arcs i).to_ = v)) ∧
    (∀ v, (((List.range k).foldl initArc (fresh f sim0 d)).nodes v).next =
      (List.range k).filter (fun i => (d.arcs i).from_ = v)) := by
  induction k with
  | zero =>
    refine ⟨fun b => ?_, fun v => ?_, fun v => ?_⟩ <;> simp [fresh]
  | succ k ih =>
    obtain ⟨ih1, ih2, ih3⟩ := ih
    have hd : ((List.range k).foldl initArc (fresh f sim0 d)).data = d :=
      (foldl_initArc_frame (List.range k) (fresh f sim0 d)).1
    rw [List.range_succ, List.foldl_append]
    simp only [List.foldl_cons, List.foldl_nil]
    refine ⟨fun b => ?_, fun v => ?_, fun v => ?_⟩
    · rw [initArc_branches, hd, ih1, ih1]
      by_cases e : b = k
      · subst e; simp
      · have : b < k + 1 ↔ b < k := by omega
        simp only [e, if_false, this]
    · rw [initArc_prev, hd, ih2, List.filter_append]
      by_cases e : v = (d.arcs k).to_
      · simp [e]
      · have e' : ¬ (d.arcs k).to_ = v := fun x => e x.symm
        simp [e, e']
    · rw [initArc_next, hd, ih3, List.filter_append]
      by_cases e : v = (d.arcs k).from_
      · simp [e]
      · have e' : ¬ (d.arcs k).from_ = v := fun x => e x.symm
        simp [e, e']

theorem initSimplification_fields (f : Option (SimFunction σ)) (sim0 : σ)
    (d : ContourTreeData) :
    (initSimplification f sim0 d).data = d ∧
    (initSimplification f sim0 d).branches =
      ((List.range d.noArcs).foldl initArc (fresh f sim0 d)).branches ∧
    (initSimplification f sim0 d).nodes =
      ((List.range d.noArcs).foldl initArc (fresh f sim0 d)).nodes ∧
    (initSimplification f sim0 d).removed = (fun _ => false) ∧
    (initSimplification f sim0 d).vArray = (fun _ => []) ∧
    (initSimplification f sim0 d).invalid = (fun _ => false) := by
  obtain ⟨e1, e2, e3, e4, e5, e6, e7, e8⟩ :=
    foldl_initArc_frame (List.range d.noArcs) (fresh f sim0 d)
  unfold initSimplification
  cases f with
  | none => exact ⟨e1, rfl, rfl, e4, e7, e5⟩
  | some F =>
    simp only []
    set s1 : SimplifyCT σ := (List.range d.noArcs).foldl initArc (fresh (some F) sim0 d)
    set s2 : SimplifyCT σ :=
      { s1 with sim := (F.init s1.sim s1.fn d.noArcs s1.branches).1,
                fn := (F.init s1.sim s1.fn d.noArcs s1.branches).2 }
    obtain ⟨g1, g2, g3, g4, g5, g6, g7, g8, g9, g10⟩ :=
      foldl_addToQueue_frame (List.range d.noArcs) s2
    exact ⟨g1.trans e1, g7, g2, g4.trans e4, g8.trans e7, g5.trans e5⟩

theorem initSimplification_topo (rank : Nat → Int) (f : Option (SimFunction σ)) (sim0 : σ)
    (d : ContourTreeData) (hr : Ranked rank d) : Topo rank (initSimplification f sim0 d) := by
  obtain ⟨hd, hb, hn, hrm, hva, _⟩ := initSimplification_fields f sim0 d
  obtain ⟨k1, k2, k3⟩ := foldl_initArc_range f sim0 d d.noArcs
  have hlive : ∀ b, (initSimplification f sim0 d).live b ↔ b < d.noArcs := by
    intro b; unfold live; rw [hd, hrm]; simp
  have hfrom : ∀ b, b < d.noArcs →
      ((initSimplification f sim0 d).branches b).from_ = (d.arcs b).from_ := by
    intro b hb'; rw [hb, k1, if_pos hb']
  have hto : ∀ b, b < d.noArcs →
      ((initSimplification f sim0 d).branches b).to_ = (d.arcs b).to_ := by
    intro b hb'; rw [hb, k1, if_pos hb']
  have hprev : ∀ v, ((initSimplification f sim0 d).nodes v).prev =
      (List.range d.noArcs).filter (fun i => (d.arcs i).to_ = v) := by
    intro v; rw [hn, k2]
  have hnext : ∀ v, ((initSimplification f sim0 d).nodes v).next =
      (List.range d.noArcs).filter (fun i => (d.arcs i).from_ = v) := by
    intro v; rw [hn, k3]
  refine ⟨?_, ?_, ?_, ?_, ?_, ?_, ?_, ?_, ?_, ?_, ?_⟩
  · intro b hb'
    have := (hlive b).1 hb'
    rw [hfrom b this, hto b this]
    exact hr b this
  · intro b hb'
    have := (hlive b).1 hb'
    rw [hnext, hfrom b this]
    simp [this]
  · intro b hb'
    have := (hlive b).1 hb'
    rw [hprev, hto b this]
    simp [this]
  · intro v x _ hx
    rw [hprev] at hx
    simp only [List.mem_filter, List.mem_range, decide_eq_true_eq] at hx
    exact ⟨(hlive x).2 hx.1, by rw [hto x hx.1]; exact hx.2⟩
  · intro v x _ hx
    rw [hnext] at hx
    simp only [List.mem_filter, List.mem_range, decide_eq_true_eq] at hx
    exact ⟨(hlive x).2 hx.1, by rw [hfrom x hx.1]; exact hx.2⟩
  · intro v _
    rw [hprev]; exact (List.nodup_range _).filter _
  · intro v _
    rw [hnext]; exact (List.nodup_range _).filter _
  · intro v hv
    left
    constructor
    · rw [hprev]
      apply List.filter_eq_nil_iff.2
      intro x hx
      simp only [List.mem_range] at hx
      simp only [decide_eq_true_eq]
      intro e
      exact hv ⟨x, (hlive x).2 hx, Or.inr (by rw [hto x hx]; exact e)⟩
    · rw [hnext]
      apply List.filter_eq_nil_iff.2
      intro x hx
      simp only [List.mem_range] at hx
      simp only [decide_eq_true_eq]
      intro e
      exact hv ⟨x, (hlive x).2 hx, Or.inl (by rw [hfrom x hx]; exact e)⟩
  · intro b c hb' hc' hne
    have h1 := (hlive b).1 hb'
    have h2 := (hlive c).1 hc'
    rw [hb, k1, k1, if_pos h1, if_pos h2]
    simp only []
    intro x hx1 hx2
    simp at hx1 hx2
    exact hne (hx1.symm.trans hx2)
  · intro b x hx
    rw [hb, k1] at hx
    split_ifs at hx <;> simp at hx
  · intro v x hx
    rw [hva] at hx
    simp at hx

/-! ### Reachable states -/

theorem loopStep_topo (rank : Nat → Int) (s : SimplifyCT σ) (h : Topo rank s) :
    Topo rank s.loopStep := by
  unfold loopStep
  cases s.queueTop with
  | none => exact h
  | some ano =>
    simp only []
    have h0 : Topo rank ({ s with queue := s.queue.erase ano, inq := upd s.inq ano false } :
        SimplifyCT σ) := h.of_eq rfl rfl rfl rfl rfl
    split_ifs with h1 h2 h3
    · exact h0.of_eq (by simp) (by simp) (by simp) (by simp) (by simp)
    · exact (removeArc_topo rank _ ano h0 h3).of_eq (by simp) rfl rfl rfl rfl
    · exact h0
    · exact h0

theorem Reachable.topo {s : SimplifyCT σ} (h : Reachable s) : ∃ rank, Topo rank s := by
  induction h with
  | init rank f sim0 d hr => exact ⟨rank, initSimplification_topo rank f sim0 d hr⟩
  | flags s q i _ ih =>
    obtain ⟨rank, ht⟩ := ih
    exact ⟨rank, ht.of_eq rfl rfl rfl rfl rfl⟩
  | loop s _ ih =>
    obtain ⟨rank, ht⟩ := ih
    exact ⟨rank, loopStep_topo rank s ht⟩
  | remove s ano _ hc ih =>
    obtain ⟨rank, ht⟩ := ih
    exact ⟨rank, removeArc_topo rank s ano ht hc⟩

theorem markQueued_eq (order : List Nat) : ∀ s : SimplifyCT σ,
    markQueued s order = { s with inq := (markQueued s order).inq } := by
  unfold markQueued
  induction order with
  | nil => intro s; rfl
  | cons a l ih =>
    intro s
    simp only [List.foldl_cons]
    rw [ih]

/-- Every state of a replay run is reachable. -/
theorem replayPrefix_reachable (l : List Nat) : ∀ (s : SimplifyCT σ), Reachable s →
    ∀ i, (∀ j, j < i → j < l.length → ¬ failsAt s l j) → Reachable (replayPrefix s l i) := by
  induction l with
  | nil => intro s hs i _; simpa [replayPrefix] using hs
  | cons a l ih =>
    intro s hs i hi
    cases i with
    | zero => exact hs
    | succ i =>
      rw [replayPrefix_cons]
      apply ih
      · have h0 := hi 0 (by omega) (by simp)
        unfold failsAt at h0
        simp only [replayPrefix_zero, List.getD_cons_zero, Bool.not_eq_false] at h0
        exact Reachable.remove _ a (Reachable.flags s s.queue (upd s.inq a false) hs) h0
      · intro j hj hjl
        have := hi (j + 1) (by omega) (by simp; omega)
        rwa [failsAt_cons] at this

/-! ### The hierarchy transfer of `mergeVertex` -/

theorem mergeVertex_branches (s : SimplifyCT σ) (v : Nat) :
    (s.mergeVertex v).branches =
      transfer
        (if s.inq ((s.nodes v).prev.headD 0)
          then upd s.branches ((s.nodes v).prev.headD 0)
            { s.branches ((s.nodes v).prev.headD 0) with
              to_ := (s.branches ((s.nodes v).next.headD 0)).to_ }
          else upd s.branches ((s.nodes v).next.headD 0)
            { s.branches ((s.nodes v).next.headD 0) with
              from_ := (s.branches ((s.nodes v).prev.headD 0)).from_ })
        (s.vArray v) (s.survivorOf v) (s.consumedOf v) := by
  unfold survivorOf consumedOf
  by_cases hi : s.inq ((s.nodes v).prev.headD 0) = true
  · rw [mergeVertex_of_inq s v hi]
    simp only [hi, if_true, mergeIntoPrev_branches]
  · simp only [Bool.not_eq_true] at hi
    rw [mergeVertex_of_not_inq s v hi]
    simp only [hi, Bool.false_eq_true, if_false, mergeIntoNext_branches]

theorem transferDone_of_topo (rank : Nat → Int) (s : SimplifyCT σ) (v : Nat) (h : Topo rank s)
    (h1 : (s.nodes v).prev.length = 1) (h2 : (s.nodes v).next.length = 1) (hv : s.alive v) :
    TransferDone s v (s.mergeVertex v) := by
  have hp := list_eq_singleton_headD _ h1
  have hq := list_eq_singleton_headD _ h2
  set p := (s.nodes v).prev.headD 0 with hpd
  set q := (s.nodes v).next.headD 0 with hqd
  obtain ⟨hpl, hpt⟩ := h.prev_ok v p hv (by rw [hp]; simp)
  obtain ⟨hql, hqf⟩ := h.next_ok v q hv (by rw [hq]; simp)
  have hrp := h.ranked p hpl
  have hpq : p ≠ q := by
    intro e; rw [hpt, e, hqf] at hrp; omega
  -- the endpoint change touches neither arcs nor children
  have key : ∀ (a rem : Nat) (bs : Nat → Branch), s.live a → s.live rem → a ≠ rem →
      (∀ b, (bs b).arcs = (s.branches b).arcs) →
      (∀ b, (bs b).children = (s.branches b).children) →
      ((transfer bs (s.vArray v) a rem a).arcs =
          (s.branches a).arcs ++ (s.branches rem).arcs ∧
        List.Disjoint (s.branches a).arcs (s.branches rem).arcs ∧
        (∀ ch, ch ∈ (s.branches rem).children →
          ch ∈ (transfer bs (s.vArray v) a rem a).children ∧
            (transfer bs (s.vArray v) a rem ch).parent = (a : Int)) ∧
        (∀ ch, ch ∈ s.vArray v →
          ch ∈ (transfer bs (s.vArray v) a rem a).children ∧
            (transfer bs (s.vArray v) a rem ch).parent = (a : Int)) ∧
        (transfer bs (s.vArray v) a rem rem).parent = -2) := by
    intro a rem bs ha hrem hne hA hC
    refine ⟨?_, h.arcs_disjoint a rem ha hrem hne, ?_, ?_, ?_⟩
    · rw [transfer_arcs, if_pos rfl, hA, hA]
    · intro ch hch
      have hne2 : ch ≠ rem := by
        intro e
        have := h.children_removed rem ch hch
        rw [e, hrem.2] at this; cases this
      constructor
      · rw [transfer_children, if_pos rfl, hC, hC]
        simp [hch]
      · rw [transfer_parent, if_neg hne2, hC]
        split_ifs <;> rfl
    · intro ch hch
      have hne2 : ch ≠ rem := by
        intro e
        have := h.parked_removed v ch hch
        rw [e, hrem.2] at this; cases this
      constructor
      · rw [transfer_children, if_pos rfl]
        simp [hch]
      · rw [transfer_parent, if_neg hne2, if_pos hch]
    · rw [transfer_parent, if_pos rfl]
  unfold TransferDone
  rw [mergeVertex_branches]
  by_cases hi : s.inq p = true
  · have e1 : s.survivorOf v = p := by unfold survivorOf; rw [← hpd, if_pos hi]
    have e2 : s.consumedOf v = q := by unfold consumedOf; rw [← hpd, if_pos hi]
    rw [e1, e2, if_pos hi]
    apply key p q _ hpl hql hpq
    · intro b; rw [upd_apply]; split_ifs with e
      · rw [e]
      · rfl
    · intro b; rw [upd_apply]; split_ifs with e
      · rw [e]
      · rfl
  · have e1 : s.survivorOf v = q := by unfold survivorOf; rw [← hpd, if_neg hi]
    have e2 : s.consumedOf v = p := by unfold consumedOf; rw [← hpd, if_neg hi]
    rw [e1, e2, if_neg hi]
    apply key q p _ hql hpl (Ne.symm hpq)
    · intro b; rw [upd_apply]; split_ifs with e
      · rw [e]
      · rfl
    · intro b; rw [upd_apply]; split_ifs with e
      · rw [e]
      · rfl

/-- Claim C10: whenever `removeArc(ano)`, called on a candidate in a reachable state, reaches
`mergeVertex(v)` (the merge test succeeds), then with survivor `a` and consumed branch `rem`:
afterwards `branches[a].arcs` is the former arcs of `a` followed by the former arcs of `rem`,
two lists that were disjoint; every former child of `rem` and every branch parked in `vArray[v]`
is in `branches[a].children` and has `parent == a`; `branches[rem].parent == -2`; and this
branch table is the one `removeArc` returns with. -/
theorem mergeVertex_transfers_hierarchy (s : SimplifyCT σ) (ano : Nat) (hr : Reachable s)
    (hc : s.isCandidate (s.branches ano) = true) (hm : mergeTest s ano) :
    TransferDone (s.detach ano) (s.mergedVertexOf ano)
        ((s.detach ano).mergeVertex (s.mergedVertexOf ano)) ∧
      (s.removeArc ano).branches =
        ((s.detach ano).mergeVertex (s.mergedVertexOf ano)).branches := by
  obtain ⟨rank, ht⟩ := hr.topo
  obtain ⟨hl, hal⟩ := mergeTest_live rank s ano ht hc hm
  have hd := detach_topo rank s ano ht hl
  refine ⟨transferDone_of_topo rank _ _ hd hm.1 hm.2 hal, ?_⟩
  rw [removeArc_eq, notifyRemoved_branches]
  have : ((s.detach ano).nodes (s.mergedVertexOf ano)).prev.length = 1 ∧
      ((s.detach ano).nodes (s.mergedVertexOf ano)).next.length = 1 := hm
  rw [if_pos this]

theorem yData_ranked : Ranked yData.fnVals yData := by
  unfold Ranked
  decide

/-- Witness for C10: removing branch 1 of `yState` merges at node 2. -/
theorem mergeVertex_transfers_hierarchy_witness :
    Reachable yState ∧ yState.isCandidate (yState.branches 1) = true ∧ mergeTest yState 1 ∧
      TransferDone (yState.detach 1) (yState.mergedVertexOf 1)
        ((yState.detach 1).mergeVertex (yState.mergedVertexOf 1)) ∧
      (yState.removeArc 1).branches =
        ((yState.detach 1).mergeVertex (yState.mergedVertexOf 1)).branches :=
  ⟨Reachable.init _ _ _ _ yData_ranked, by decide!, by decide!,
    mergeVertex_transfers_hierarchy yState 1 (Reachable.init _ _ _ _ yData_ranked)
      (by decide!) (by decide!)⟩

/-! ### Counting in the live topology -/

theorem mem_liveSet (s : SimplifyCT σ) (b : Nat) : b ∈ s.liveSet ↔ s.live b := by
  unfold liveSet live; simp

theorem mem_aliveSet (s : SimplifyCT σ) (v : Nat) : v ∈ s.aliveSet ↔ s.alive v := by
  unfold aliveSet alive
  simp only [Finset.mem_biUnion, mem_liveSet, Finset.mem_insert, Finset.mem_singleton]
  constructor
  · rintro ⟨b, hb, h | h⟩
    · exact ⟨b, hb, Or.inl h.symm⟩
    · exact ⟨b, hb, Or.inr h.symm⟩
  · rintro ⟨b, hb, h | h⟩
    · exact ⟨b, hb, Or.inl h.symm⟩
    · exact ⟨b, hb, Or.inr h.symm⟩

theorem next_length_eq_card (rank : Nat → Int) (s : SimplifyCT σ) (h : Topo rank s) (v : Nat)
    (hv : s.alive v) :
    (s.liveSet.filter (fun b => (s.branches b).from_ = v)).card = (s.nodes v).next.length := by
  rw [← List.toFinset_card_of_nodup (h.next_nodup v hv)]
  congr 1
  ext b
  simp only [Finset.mem_filter, mem_liveSet, List.mem_toFinset]
  constructor
  · rintro ⟨h1, h2⟩
    rw [← h2]; exact h.in_next b h1
  · intro hb
    exact h.next_ok v b hv hb

theorem prev_length_eq_card (rank : Nat → Int) (s : SimplifyCT σ) (h : Topo rank s) (v : Nat)
    (hv : s.alive v) :
    (s.liveSet.filter (fun b => (s.branches b).to_ = v)).card = (s.nodes v).prev.length := by
  rw [← List.toFinset_card_of_nodup (h.prev_nodup v hv)]
  congr 1
  ext b
  simp only [Finset.mem_filter, mem_liveSet, List.mem_toFinset]
  constructor
  · rintro ⟨h1, h2⟩
    rw [← h2]; exact h.in_prev b h1
  · intro hb
    exact h.prev_ok v b hv hb

/-- Every live branch is counted once at its start node. -/
theorem sum_next_length (rank : Nat → Int) (s : SimplifyCT σ) (h : Topo rank s) :
    ∑ v in s.aliveSet, (s.nodes v).next.length = s.liveSet.card := by
  rw [Finset.card_eq_sum_card_fiberwise (f := fun b => (s.branches b).from_) (t := s.aliveSet)]
  · apply Finset.sum_congr rfl
    intro v hv
    exact (next_length_eq_card rank s h v ((mem_aliveSet s v).1 hv)).symm
  · intro b hb
    exact (mem_aliveSet s _).2 ⟨b, (mem_liveSet s b).1 hb, Or.inl rfl⟩

/-- Every live branch is counted once at its end node. -/
theorem sum_prev_length (rank : Nat → Int) (s : SimplifyCT σ) (h : Topo rank s) :
    ∑ v in s.aliveSet, (s.nodes v).prev.length = s.liveSet.card := by
  rw [Finset.card_eq_sum_card_fiberwise (f := fun b => (s.branches b).to_) (t := s.aliveSet)]
  · apply Finset.sum_congr rfl
    intro v hv
    exact (prev_length_eq_card rank s h v ((mem_aliveSet s v).1 hv)).symm
  · intro b hb
    exact (mem_aliveSet s _).2 ⟨b, (mem_liveSet s b).1 hb, Or.inr rfl⟩

theorem sum_degree (rank : Nat → Int) (s : SimplifyCT σ) (h : Topo rank s) :
    ∑ v in s.aliveSet, s.degree v = 2 * s.liveSet.card := by
  unfold degree
  rw [Finset.sum_add_distrib, sum_next_length rank s h, sum_prev_length rank s h]
  omega

theorem degree_pos_of_alive (rank : Nat → Int) (s : SimplifyCT σ) (h : Topo rank s) (v : Nat)
    (hv : s.alive v) : 1 ≤ s.degree v := by
  obtain ⟨b, hb, he | he⟩ := hv
  · have := h.in_next b hb
    rw [he] at this
    have := List.length_pos_of_mem this
    unfold degree; omega
  · have := h.in_prev b hb
    rw [he] at this
    have := List.length_pos_of_mem this
    unfold degree; omega

theorem degree_cases (rank : Nat → Int) (s : SimplifyCT σ) (h : Topo rank s) (v : Nat)
    (hv : s.alive v) (hd : DegOk s v) : s.degree v = 1 ∨ 3 ≤ s.degree v := by
  have := degree_pos_of_alive rank s h v hv
  unfold degree at this ⊢
  obtain ⟨d1, d2, d3⟩ := hd
  omega

/-! ### A valid tree without candidates has a single branch -/

theorem list_eq_singleton_of_mem {l : List Nat} {b : Nat} (hm : b ∈ l) (hl : l.length = 1) :
    l = [b] := by
  match l, hl with
  | [x], _ => simp at hm; rw [hm]

/-- The lists at a node of degree one: a minimum with its single outgoing branch, or a maximum
with its single incoming branch. -/
theorem leaf_cases (rank : Nat → Int) (s : SimplifyCT σ) (h : Topo rank s) (v : Nat)
    (hv : s.alive v) (hd : s.degree v = 1) :
    ((s.nodes v).prev = [] ∧ ∃ b, (s.nodes v).next = [b] ∧ s.live b ∧ (s.branches b).from_ = v) ∨
    ((s.nodes v).next = [] ∧ ∃ b, (s.nodes v).prev = [b] ∧ s.live b ∧ (s.branches b).to_ = v) := by
  unfold degree at hd
  by_cases hp : (s.nodes v).prev.length = 0
  · left
    have hn : (s.nodes v).next.length = 1 := by omega
    refine ⟨List.length_eq_zero.1 hp, (s.nodes v).next.headD 0, list_eq_singleton_headD _ hn, ?_⟩
    exact h.next_ok v _ hv (headD_mem_of_length_one _ hn)
  · right
    have hp1 : (s.nodes v).prev.length = 1 := by omega
    have hn : (s.nodes v).next.length = 0 := by omega
    refine ⟨List.length_eq_zero.1 hn, (s.nodes v).prev.headD 0, list_eq_singleton_headD _ hp1, ?_⟩
    exact h.prev_ok v _ hv (headD_mem_of_length_one _ hp1)

/-- In a connected topology with at least two live branches no branch joins two nodes of
degree one. -/
theorem no_leaf_leaf (rank : Nat → Int) (s : SimplifyCT σ) (h : TreeCore rank s)
    (h2 : 2 ≤ s.liveSet.card) (b : Nat) (hb : s.live b)
    (h1 : s.degree (s.branches b).from_ = 1) (h3 : s.degree (s.branches b).to_ = 1) : False := by
  have ht := h.topo
  have hm := ht.in_next b hb
  have hx := ht.in_prev b hb
  have hma : s.alive (s.branches b).from_ := ⟨b, hb, Or.inl rfl⟩
  have hxa : s.alive (s.branches b).to_ := ⟨b, hb, Or.inr rfl⟩
  have hne : (s.branches b).from_ ≠ (s.branches b).to_ := by
    intro e; have := ht.ranked b hb; rw [e] at this; omega
  -- the lists at the two ends
  have hmn : (s.nodes (s.branches b).from_).next = [b] ∧ (s.nodes (s.branches b).from_).prev = [] := by
    unfold degree at h1
    have := List.length_pos_of_mem hm
    exact ⟨list_eq_singleton_of_mem hm (by omega), List.length_eq_zero.1 (by omega)⟩
  have hxp : (s.nodes (s.branches b).to_).prev = [b] ∧ (s.nodes (s.branches b).to_).next = [] := by
    unfold degree at h3
    have := List.length_pos_of_mem hx
    exact ⟨list_eq_singleton_of_mem hx (by omega), List.length_eq_zero.1 (by omega)⟩
  have reach : ∀ w, Relation.ReflTransGen s.adj (s.branches b).from_ w →
      w = (s.branches b).from_ ∨ w = (s.branches b).to_ := by
    intro w hw
    induction hw with
    | refl => exact Or.inl rfl
    | @tail y z _ hyz ih =>
      obtain ⟨c, hc, hcz⟩ := hyz
      rcases ih with e | e
      · -- leaving the start node
        rcases hcz with ⟨c1, c2⟩ | ⟨c1, c2⟩
        · have := ht.in_next c hc
          rw [c1, e, hmn.1] at this
          simp at this
          right; rw [← c2, this]
        · have := ht.in_prev c hc
          rw [c2, e, hmn.2] at this
          simp at this
      · rcases hcz with ⟨c1, c2⟩ | ⟨c1, c2⟩
        · have := ht.in_next c hc
          rw [c1, e, hxp.2] at this
          simp at this
        · have := ht.in_prev c hc
          rw [c2, e, hxp.1] at this
          simp at this
          left; rw [← c1, this]
  obtain ⟨c, hc, hcb⟩ := Finset.exists_mem_ne (by omega : 1 < s.liveSet.card) b
  have hcl := (mem_liveSet s c).1 hc
  have := reach _ (h.conn _ _ hma ⟨c, hcl, Or.inl rfl⟩)
  have hcn := ht.in_next c hcl
  rcases this with e | e
  · rw [e, hmn.1] at hcn; simp at hcn; exact hcb hcn
  · rw [e, hxp.2] at hcn; simp at hcn

theorem card_live_pos (rank : Nat → Int) (s : SimplifyCT σ) (h : TreeCore rank s) :
    1 ≤ s.liveSet.card := by
  by_contra hc
  have h0 : s.liveSet = ∅ := Finset.card_eq_zero.1 (by omega)
  have h1 : s.aliveSet = ∅ := by unfold aliveSet; rw [h0]; simp
  have := h.count
  rw [h0, h1] at this
  simp at this

theorem single_of_no_candidate (rank : Nat → Int) (s : SimplifyCT σ) (h : TreeInv rank s)
    (hnc : ∀ b, s.live b → s.isCandidate (s.branches b) = false) : s.liveSet.card = 1 := by
  obtain ⟨hc, hdeg⟩ := h
  have ht := hc.topo
  have hE1 := card_live_pos rank s hc
  by_contra hne1
  have hE2 : 2 ≤ s.liveSet.card := by omega
  -- leaves and inner nodes
  have hcases : ∀ v ∈ s.aliveSet, s.degree v = 1 ∨ 3 ≤ s.degree v := fun v hv =>
    degree_cases rank s ht v ((mem_aliveSet s v).1 hv) (hdeg v ((mem_aliveSet s v).1 hv))
  have hsplit := Finset.filter_card_add_filter_neg_card_eq_card (s := s.aliveSet)
    (fun v => s.degree v = 1)
  have hsum := Finset.sum_filter_add_sum_filter_not s.aliveSet (fun v => s.degree v = 1)
    (fun v => s.degree v)
  have hleaf : ∑ v in s.aliveSet.filter (fun v => s.degree v = 1), s.degree v =
      (s.aliveSet.filter (fun v => s.degree v = 1)).card := by
    rw [Finset.card_eq_sum_ones]
    apply Finset.sum_congr rfl
    intro v hv
    exact (Finset.mem_filter.1 hv).2
  have hinner : 3 * (s.aliveSet.filter (fun v => ¬ s.degree v = 1)).card ≤
      ∑ v in s.aliveSet.filter (fun v => ¬ s.degree v = 1), s.degree v := by
    rw [Finset.card_eq_sum_ones, Finset.mul_sum]
    apply Finset.sum_le_sum
    intro v hv
    obtain ⟨hv1, hv2⟩ := Finset.mem_filter.1 hv
    rcases hcases v hv1 with e | e
    · exact absurd e hv2
    · omega
  have htot := sum_degree rank s ht
  have hcount := hc.count
  -- the leaves inject into the inner nodes
  have hinj : (s.aliveSet.filter (fun v => s.degree v = 1)).card ≤
      (s.aliveSet.filter (fun v => ¬ s.degree v = 1)).card := by
    apply Finset.card_le_card_of_injOn s.leafNeighbour
    · intro v hv
      rw [Finset.mem_filter] at hv ⊢
      have hv1 := hv.1
      have hv2 := hv.2
      have hva := (mem_aliveSet s v).1 hv1
      unfold leafNeighbour
      rcases leaf_cases rank s ht v hva hv2 with ⟨e1, b, e2, hb, e3⟩ | ⟨e1, b, e2, hb, e3⟩
      · rw [if_pos e1, e2]
        simp only [List.headD_cons]
        refine ⟨(mem_aliveSet s _).2 ⟨b, hb, Or.inr rfl⟩, ?_⟩
        intro hd
        exact no_leaf_leaf rank s hc hE2 b hb (by rw [e3]; exact hv2) hd
      · have e1' : (s.nodes v).prev ≠ [] := by rw [e2]; simp
        rw [if_neg e1', e2]
        simp only [List.headD_cons]
        refine ⟨(mem_aliveSet s _).2 ⟨b, hb, Or.inl rfl⟩, ?_⟩
        intro hd
        exact no_leaf_leaf rank s hc hE2 b hb hd (by rw [e3]; exact hv2)
    · -- injectivity
      have side : ∀ v, v ∈ s.aliveSet → s.degree v = 1 →
          ((s.nodes v).prev = [] ∧ ∃ b, s.live b ∧ (s.branches b).from_ = v ∧
              (s.branches b).to_ = s.leafNeighbour v ∧
              (s.nodes (s.leafNeighbour v)).prev = [b]) ∨
          ((s.nodes v).next = [] ∧ ∃ b, s.live b ∧ (s.branches b).to_ = v ∧
              (s.branches b).from_ = s.leafNeighbour v ∧
              (s.nodes (s.leafNeighbour v)).next = [b]) := by
        intro v hv1 hv2
        have hva := (mem_aliveSet s v).1 hv1
        unfold leafNeighbour
        rcases leaf_cases rank s ht v hva hv2 with ⟨e1, b, e2, hb, e3⟩ | ⟨e1, b, e2, hb, e3⟩
        · left
          rw [if_pos e1, e2]
          simp only [List.headD_cons]
          refine ⟨e1, b, hb, e3, rfl, ?_⟩
          have hn := hnc b hb
          unfold isCandidate at hn
          simp only [e3, e1, List.length_nil, if_true] at hn
          have hmem := ht.in_prev b hb
          have := List.length_pos_of_mem hmem
          apply list_eq_singleton_of_mem hmem
          by_contra hlen
          have : (s.nodes (s.branches b).to_).prev.length > 1 := by omega
          simp [this] at hn
        · right
          have e1' : (s.nodes v).prev ≠ [] := by rw [e2]; simp
          rw [if_neg e1', e2]
          simp only [List.headD_cons]
          refine ⟨e1, b, hb, e3, rfl, ?_⟩
          -- the neighbour is an inner node, so it has an incoming arc
          have hxa : s.alive (s.branches b).from_ := ⟨b, hb, Or.inl rfl⟩
          have hxd : ¬ s.degree (s.branches b).from_ = 1 := by
            intro hd
            exact no_leaf_leaf rank s hc hE2 b hb hd (by rw [e3]; exact hv2)
          have hxp : (s.nodes (s.branches b).from_).prev.length ≠ 0 := by
            intro e0
            have := (hdeg _ hxa).1 e0
            unfold degree at hxd
            omega
          have hn := hnc b hb
          unfold isCandidate at hn
          simp only [hxp, if_false, e3, e1, List.length_nil, if_true] at hn
          have hmem := ht.in_next b hb
          have := List.length_pos_of_mem hmem
          apply list_eq_singleton_of_mem hmem
          by_contra hlen
          have : (s.nodes (s.branches b).from_).next.length > 1 := by omega
          simp [this] at hn
      intro v hv w hw hvw
      simp only [Finset.coe_filter, Set.mem_setOf_eq] at hv hw
      have hx : s.alive (s.leafNeighbour v) := by
        rcases side v hv.1 hv.2 with ⟨_, b, hb, _, e, _⟩ | ⟨_, b, hb, _, e, _⟩
        · exact ⟨b, hb, Or.inr e⟩
        · exact ⟨b, hb, Or.inl e⟩
      have hxd := hdeg _ hx
      rcases side v hv.1 hv.2 with ⟨_, b, hb, b1, b2, b3⟩ | ⟨_, b, hb, b1, b2, b3⟩ <;>
        rcases side w hw.1 hw.2 with ⟨_, c, hc', c1, c2, c3⟩ | ⟨_, c, hc', c1, c2, c3⟩
      · rw [← hvw, b3] at c3
        simp at c3
        rw [← b1, ← c1, c3]
      · rw [← hvw] at c3
        exact absurd ⟨by rw [b3]; rfl, by rw [c3]; rfl⟩ hxd.2.2
      · rw [← hvw] at c3
        exact absurd ⟨by rw [c3]; rfl, by rw [b3]; rfl⟩ hxd.2.2
      · rw [← hvw, b3] at c3
        simp at c3
        rw [← b1, ← c1, c3]
  omega

/-! ### `detach` on a valid tree -/

theorem liveSet_detach (s : SimplifyCT σ) (a : Nat) :
    (s.detach a).liveSet = s.liveSet.erase a := by
  ext b
  rw [mem_liveSet, detach_live, Finset.mem_erase, mem_liveSet]
  tauto

/-- Removing the only live branch `a` at the node `l` of a connected topology, where the other
end `v` of `a` keeps a live branch: the node `l` drops out, everything else stays connected, and
the count of branches against nodes is kept. -/
theorem detach_core (rank : Nat → Int) (s : SimplifyCT σ) (a l v : Nat)
    (h : TreeCoreBut rank s a)
    (hl : s.live a)
    (hends : ((s.branches a).from_ = l ∧ (s.branches a).to_ = v) ∨
      ((s.branches a).from_ = v ∧ (s.branches a).to_ = l))
    (honly : ∀ b, s.live b → ((s.branches b).from_ = l ∨ (s.branches b).to_ = l) → b = a)
    (hother : ∃ c, s.live c ∧ c ≠ a ∧ ((s.branches c).from_ = v ∨ (s.branches c).to_ = v))
    (hcand : ∀ b, s.live b → b ≠ a → (s.detach a).isCandidate (s.branches b) = true →
      s.isCandidate (s.branches b) = true) :
    TreeCore rank (s.detach a) ∧ (∀ w, (s.detach a).alive w ↔ (s.alive w ∧ w ≠ l)) := by
  have ht := h.topo
  have hlv : l ≠ v := by
    have := ht.ranked a hl
    rcases hends with ⟨e1, e2⟩ | ⟨e1, e2⟩
    · rw [e1, e2] at this; intro e; rw [e] at this; omega
    · rw [e1, e2] at this; intro e; rw [e] at this; omega
  have halive : ∀ w, (s.detach a).alive w ↔ (s.alive w ∧ w ≠ l) := by
    intro w
    constructor
    · rintro ⟨b, hb, he⟩
      obtain ⟨hb1, hb2⟩ := (detach_live s a b).1 hb
      rw [detach_branches] at he
      refine ⟨⟨b, hb1, he⟩, ?_⟩
      intro e
      rw [e] at he
      exact hb2 (honly b hb1 he)
    · rintro ⟨⟨b, hb, he⟩, hw⟩
      by_cases e : b = a
      · subst e
        have hwv : w = v := by
          rcases hends with ⟨e1, e2⟩ | ⟨e1, e2⟩ <;> rcases he with he | he
          · exact absurd (he.symm.trans e1) hw
          · exact he.symm.trans e2
          · exact he.symm.trans e1
          · exact absurd (he.symm.trans e2) hw
        obtain ⟨c, hc1, hc2, hc3⟩ := hother
        exact ⟨c, (detach_live s b c).2 ⟨hc1, hc2⟩, by rw [detach_branches, hwv]; exact hc3⟩
      · exact ⟨b, (detach_live s a b).2 ⟨hb, e⟩, by rw [detach_branches]; exact he⟩
  have hva : (s.detach a).alive v := by
    obtain ⟨c, hc1, hc2, hc3⟩ := hother
    exact ⟨c, (detach_live s a c).2 ⟨hc1, hc2⟩, by rw [detach_branches]; exact hc3⟩
  refine ⟨⟨detach_topo rank s a ht hl, ?_, ?_, ?_, ?_, ?_, ?_⟩, halive⟩
  · -- connectedness
    intro u w hu hw
    obtain ⟨hu1, hu2⟩ := (halive u).1 hu
    obtain ⟨hw1, hw2⟩ := (halive w).1 hw
    have key : ∀ x, Relation.ReflTransGen s.adj u x →
        Relation.ReflTransGen (s.detach a).adj u (if x = l then v else x) := by
      intro x hx
      induction hx with
      | refl => rw [if_neg hu2]
      | @tail y z _ hyz ih =>
        obtain ⟨b, hb, hbz⟩ := hyz
        by_cases e : b = a
        · subst e
          have hyz2 : (y = l ∧ z = v) ∨ (y = v ∧ z = l) := by
            rcases hends with ⟨e1, e2⟩ | ⟨e1, e2⟩ <;> rcases hbz with ⟨c1, c2⟩ | ⟨c1, c2⟩
            · left; exact ⟨c1.symm.trans e1, c2.symm.trans e2⟩
            · right; exact ⟨c2.symm.trans e2, c1.symm.trans e1⟩
            · right; exact ⟨c1.symm.trans e1, c2.symm.trans e2⟩
            · left; exact ⟨c2.symm.trans e2, c1.symm.trans e1⟩
          rcases hyz2 with ⟨c1, c2⟩ | ⟨c1, c2⟩
          · rw [if_pos c1] at ih
            rw [c2, if_neg (Ne.symm hlv)]; exact ih
          · rw [c1, if_neg (Ne.symm hlv)] at ih
            rw [if_pos c2]; exact ih
        · have hy : y ≠ l := by
            intro e2
            rcases hbz with ⟨c1, c2⟩ | ⟨c1, c2⟩
            · exact e (honly b hb (Or.inl (c1.trans e2)))
            · exact e (honly b hb (Or.inr (c2.trans e2)))
          have hz : z ≠ l := by
            intro e2
            rcases hbz with ⟨c1, c2⟩ | ⟨c1, c2⟩
            · exact e (honly b hb (Or.inr (c2.trans e2)))
            · exact e (honly b hb (Or.inl (c1.trans e2)))
          rw [if_neg hy] at ih
          rw [if_neg hz]
          exact ih.tail ⟨b, (detach_live s a b).2 ⟨hb, e⟩, by rw [detach_branches]; exact hbz⟩
    have := key w (h.conn u w hu1 hw1)
    rwa [if_neg hw2] at this
  · -- the count
    have h1 : (s.detach a).liveSet.card + 1 = s.liveSet.card := by
      rw [liveSet_detach, Finset.card_erase_of_mem ((mem_liveSet s a).2 hl)]
      have := Finset.card_pos.2 ⟨a, (mem_liveSet s a).2 hl⟩
      omega
    have hla : l ∈ s.aliveSet := by
      rw [mem_aliveSet]
      rcases hends with ⟨e1, _⟩ | ⟨_, e2⟩
      · exact ⟨a, hl, Or.inl e1⟩
      · exact ⟨a, hl, Or.inr e2⟩
    have h2 : (s.detach a).aliveSet = s.aliveSet.erase l := by
      ext w
      rw [mem_aliveSet, halive, Finset.mem_erase, mem_aliveSet]
      tauto
    have h3 : (s.detach a).aliveSet.card + 1 = s.aliveSet.card := by
      rw [h2, Finset.card_erase_of_mem hla]
      have := Finset.card_pos.2 ⟨l, hla⟩
      omega
    have := h.count
    omega
  · intro b hb hc
    obtain ⟨hb1, hb2⟩ := (detach_live s a b).1 hb
    rw [detach_branches] at hc
    rw [detach_queue]
    exact h.queued b hb1 hb2 (hcand b hb1 hb2 hc)
  · intro b hb
    rw [detach_inq] at hb
    rw [detach_queue]
    exact h.inq_queue b hb
  · intro b hb
    rw [detach_queue] at hb
    rw [detach_data]
    exact h.queue_lt b hb
  · rw [detach_simFn]; exact h.has_fn

theorem exists_mem_ne_of_length {l : List Nat} (hn : l.Nodup) (hl : 1 < l.length) (a : Nat) :
    ∃ c, c ∈ l ∧ c ≠ a := by
  match l, hl with
  | x :: y :: r, _ =>
    have hxy : x ≠ y := by
      intro e; rw [e] at hn; simp at hn
    by_cases e : x = a
    · exact ⟨y, by simp, fun e2 => hxy (e.trans e2.symm)⟩
    · exact ⟨x, by simp, e⟩

theorem length_filter_le_self (l : List Nat) (a : Nat) :
    (l.filter (fun x => x ≠ a)).length ≤ l.length := List.length_filter_le _ _

/-- `detach` of a live candidate on a valid tree: the leaf end of the branch drops out and the
degree rule survives everywhere except, possibly, at the merged vertex. -/
theorem detach_midInv (rank : Nat → Int) (s : SimplifyCT σ) (a : Nat)
    (hcore : TreeCoreBut rank s a) (hdeg : ∀ w, s.alive w → DegOk s w)
    (hl : s.live a) (hc : s.isCandidate (s.branches a) = true) :
    MidInv rank (s.detach a) (s.mergedVertexOf a) := by
  have ht := hcore.topo
  have hfa : s.alive (s.branches a).from_ := ⟨a, hl, Or.inl rfl⟩
  have hta : s.alive (s.branches a).to_ := ⟨a, hl, Or.inr rfl⟩
  have hin := ht.in_next a hl
  have hip := ht.in_prev a hl
  rcases isCandidate_cases s _ hc with ⟨hA1, hA2⟩ | ⟨hB1, hB2, hB3⟩
  · -- a branch leaving a minimum
    have hnext : (s.nodes (s.branches a).from_).next = [a] :=
      list_eq_singleton_of_mem hin ((hdeg _ hfa).1 hA1)
    have hprev : (s.nodes (s.branches a).from_).prev = [] := List.length_eq_zero.1 hA1
    have hvn : (s.nodes (s.branches a).to_).next.length ≠ 0 := by
      intro e; have := (hdeg _ hta).2.1 e; omega
    have hmv : s.mergedVertexOf a = (s.branches a).to_ := by
      unfold mergedVertexOf; simp [hvn, hA1]
    have honly : ∀ b, s.live b →
        ((s.branches b).from_ = (s.branches a).from_ ∨ (s.branches b).to_ = (s.branches a).from_) →
        b = a := by
      intro b hb he
      rcases he with he | he
      · have := ht.in_next b hb
        rw [he, hnext] at this; simpa using this
      · have := ht.in_prev b hb
        rw [he, hprev] at this; simp at this
    obtain ⟨c, hc1, hc2⟩ := exists_mem_ne_of_length (ht.prev_nodup _ hta) hA2 a
    obtain ⟨hc3, hc4⟩ := ht.prev_ok _ c hta hc1
    have hP : ∀ w, ((s.detach a).nodes w).prev =
        if w = (s.branches a).to_ then (s.nodes w).prev.filter (fun x => x ≠ a)
        else (s.nodes w).prev := detach_prev s a
    have hN : ∀ w, w ≠ (s.branches a).from_ → ((s.detach a).nodes w).next = (s.nodes w).next := by
      intro w hw; rw [detach_next, if_neg hw]
    have hvp1 : 1 ≤ ((s.detach a).nodes (s.branches a).to_).prev.length := by
      rw [hP, if_pos rfl]
      exact List.length_pos_of_mem (List.mem_filter.2 ⟨hc1, by simpa using hc2⟩)
    have hne : (s.branches a).to_ ≠ (s.branches a).from_ := by
      intro e; have := ht.ranked a hl; rw [e] at this; omega
    obtain ⟨hcore', halive⟩ := detach_core rank s a (s.branches a).from_ (s.branches a).to_ hcore hl
      (Or.inl ⟨rfl, rfl⟩) honly ⟨c, hc3, hc2, Or.inr hc4⟩ (by
        intro b hb hba hcb
        have hf : (s.branches b).from_ ≠ (s.branches a).from_ :=
          fun e => hba (honly b hb (Or.inl e))
        have htn : (s.branches b).to_ ≠ (s.branches a).from_ :=
          fun e => hba (honly b hb (Or.inr e))
        have e0 : ((s.detach a).nodes (s.branches b).from_).prev.length = 0 ↔
            (s.nodes (s.branches b).from_).prev.length = 0 := by
          rw [hP]
          split_ifs with e
          · rw [e]
            have := hvp1
            rw [hP, if_pos rfl] at this
            constructor <;> intro <;> omega
          · rfl
        have e1 : ((s.detach a).nodes (s.branches b).to_).prev.length ≤
            (s.nodes (s.branches b).to_).prev.length := by
          rw [hP]; split_ifs
          · exact length_filter_le_self _ _
          · exact le_refl _
        rcases isCandidate_cases _ _ hcb with ⟨c1, c2⟩ | ⟨c1, c2, c3⟩
        · have := e0.1 c1
          unfold isCandidate
          simp only [this, if_true]
          have : (s.nodes (s.branches b).to_).prev.length > 1 := by omega
          simp [this]
        · rw [hN _ htn] at c2
          rw [hN _ hf] at c3
          have : ¬ (s.nodes (s.branches b).from_).prev.length = 0 := fun e => c1 (e0.2 e)
          unfold isCandidate
          simp only [this, if_false, c2, if_true]
          simp [c3])
    rw [hmv]
    refine ⟨hcore', ?_, ?_, hvp1, ?_⟩
    · intro w hw hwv
      obtain ⟨hw1, hw2⟩ := (halive w).1 hw
      unfold DegOk
      rw [hP, if_neg hwv, hN w hw2]
      exact hdeg w hw1
    · exact (halive _).2 ⟨hta, hne⟩
    · rw [hN _ hne]; omega
  · -- a branch entering a maximum
    have hprev : (s.nodes (s.branches a).to_).prev = [a] :=
      list_eq_singleton_of_mem hip ((hdeg _ hta).2.1 hB2)
    have hnext : (s.nodes (s.branches a).to_).next = [] := List.length_eq_zero.1 hB2
    have hmv : s.mergedVertexOf a = (s.branches a).from_ := by
      unfold mergedVertexOf; simp [hB2]
    have honly : ∀ b, s.live b →
        ((s.branches b).from_ = (s.branches a).to_ ∨ (s.branches b).to_ = (s.branches a).to_) →
        b = a := by
      intro b hb he
      rcases he with he | he
      · have := ht.in_next b hb
        rw [he, hnext] at this; simp at this
      · have := ht.in_prev b hb
        rw [he, hprev] at this; simpa using this
    obtain ⟨c, hc1, hc2⟩ := exists_mem_ne_of_length (ht.next_nodup _ hfa) hB3 a
    obtain ⟨hc3, hc4⟩ := ht.next_ok _ c hfa hc1
    have hN : ∀ w, ((s.detach a).nodes w).next =
        if w = (s.branches a).from_ then (s.nodes w).next.filter (fun x => x ≠ a)
        else (s.nodes w).next := detach_next s a
    have hP : ∀ w, w ≠ (s.branches a).to_ → ((s.detach a).nodes w).prev = (s.nodes w).prev := by
      intro w hw; rw [detach_prev, if_neg hw]
    have hvn1 : 1 ≤ ((s.detach a).nodes (s.branches a).from_).next.length := by
      rw [hN, if_pos rfl]
      exact List.length_pos_of_mem (List.mem_filter.2 ⟨hc1, by simpa using hc2⟩)
    have hne : (s.branches a).from_ ≠ (s.branches a).to_ := by
      intro e; have := ht.ranked a hl; rw [e] at this; omega
    obtain ⟨hcore', halive⟩ := detach_core rank s a (s.branches a).to_ (s.branches a).from_ hcore hl
      (Or.inr ⟨rfl, rfl⟩) honly ⟨c, hc3, hc2, Or.inl hc4⟩ (by
        intro b hb hba hcb
        have hf : (s.branches b).from_ ≠ (s.branches a).to_ :=
          fun e => hba (honly b hb (Or.inl e))
        have htn : (s.branches b).to_ ≠ (s.branches a).to_ :=
          fun e => hba (honly b hb (Or.inr e))
        have e0 : ((s.detach a).nodes (s.branches b).to_).next.length = 0 ↔
            (s.nodes (s.branches b).to_).next.length = 0 := by
          rw [hN]
          split_ifs with e
          · rw [e]
            have := hvn1
            rw [hN, if_pos rfl] at this
            constructor <;> intro <;> omega
          · rfl
        have e1 : ((s.detach a).nodes (s.branches b).from_).next.length ≤
            (s.nodes (s.branches b).from_).next.length := by
          rw [hN]; split_ifs
          · exact length_filter_le_self _ _
          · exact le_refl _
        rcases isCandidate_cases _ _ hcb with ⟨c1, c2⟩ | ⟨c1, c2, c3⟩
        · rw [hP _ hf] at c1
          rw [hP _ htn] at c2
          unfold isCandidate
          simp only [c1, if_true]
          simp [c2]
        · rw [hP _ hf] at c1
          have := e0.1 c2
          unfold isCandidate
          simp only [c1, if_false, this, if_true]
          have : (s.nodes (s.branches b).from_).next.length > 1 := by omega
          simp [this])
    rw [hmv]
    refine ⟨hcore', ?_, ?_, ?_, hvn1⟩
    · intro w hw hwv
      obtain ⟨hw1, hw2⟩ := (halive w).1 hw
      unfold DegOk
      rw [hN, if_neg hwv, hP w hw2]
      exact hdeg w hw1
    · exact (halive _).2 ⟨hfa, hne⟩
    · rw [hP _ hne]; omega

/-! ### `mergeVertex` on a valid tree -/

/-- `isCandidate` looks at the endpoints of the branch and at list lengths only. -/
theorem isCandidate_congr {τ : Type} (s : SimplifyCT σ) (t : SimplifyCT τ) (br cr : Branch)
    (hf : cr.from_ = br.from_) (hto : cr.to_ = br.to_)
    (hlen : ∀ w, (t.nodes w).prev.length = (s.nodes w).prev.length ∧
      (t.nodes w).next.length = (s.nodes w).next.length) :
    t.isCandidate cr = s.isCandidate br := by
  unfold isCandidate
  simp only [hf, hto, (hlen _).1, (hlen _).2]

/-- Contracting the node `v` between the live branches `p = (u, v)` and `q = (v, t)`, the only
ones at `v`: the survivor `a` spans `(u, t)`, the other one, `rem`, leaves the live topology. -/
theorem contract_core (rank : Nat → Int) (s s' : SimplifyCT σ) (a rem p q u v t : Nat)
    (h : TreeCore rank s) (ht' : Topo rank s') (hd : s'.data = s.data)
    (hlive : ∀ b, s'.live b ↔ s.live b ∧ b ≠ rem)
    (hp : s.live p ∧ (s.branches p).from_ = u ∧ (s.branches p).to_ = v)
    (hq : s.live q ∧ (s.branches q).from_ = v ∧ (s.branches q).to_ = t)
    (har : (a = p ∧ rem = q) ∨ (a = q ∧ rem = p)) (hpq : p ≠ q)
    (hat : (s'.branches a).from_ = u ∧ (s'.branches a).to_ = t)
    (hsame : ∀ b, b ≠ a → (s'.branches b).from_ = (s.branches b).from_ ∧
      (s'.branches b).to_ = (s.branches b).to_)
    (honly : ∀ b, s.live b → ((s.branches b).from_ = v ∨ (s.branches b).to_ = v) →
      b = p ∨ b = q)
    (huv : u ≠ v) (htv : t ≠ v)
    (hlen : ∀ w, (s'.nodes w).prev.length = (s.nodes w).prev.length ∧
      (s'.nodes w).next.length = (s.nodes w).next.length)
    (hqsub : ∀ b, b ∈ s.queue → b ∈ s'.queue)
    (hinq : ∀ b, s'.inq b = true → b ∈ s'.queue)
    (hacand : s'.isCandidate (s'.branches a) = true → a ∈ s'.queue)
    (hqlt : ∀ b, b ∈ s'.queue → b ∈ s.queue ∨ b = a)
    (hfn : s'.simFn = s.simFn) :
    TreeCore rank s' ∧ (∀ w, s'.alive w ↔ (s.alive w ∧ w ≠ v)) := by
  have harem : a ≠ rem := by
    rcases har with ⟨e1, e2⟩ | ⟨e1, e2⟩
    · rw [e1, e2]; exact hpq
    · rw [e1, e2]; exact Ne.symm hpq
  have ha : s.live a := by
    rcases har with ⟨e1, _⟩ | ⟨e1, _⟩
    · rw [e1]; exact hp.1
    · rw [e1]; exact hq.1
  have hrem : s.live rem := by
    rcases har with ⟨_, e2⟩ | ⟨_, e2⟩
    · rw [e2]; exact hq.1
    · rw [e2]; exact hp.1
  have ha' : s'.live a := (hlive a).2 ⟨ha, harem⟩
  have hpqar : ∀ b, (b = p ∨ b = q) → (b = a ∨ b = rem) := by
    intro b hb
    rcases har with ⟨e1, e2⟩ | ⟨e1, e2⟩
    · rw [e1, e2]; exact hb
    · rw [e1, e2]; exact hb.symm
  have hua : s.alive u := ⟨p, hp.1, Or.inl hp.2.1⟩
  have hta : s.alive t := ⟨q, hq.1, Or.inr hq.2.2⟩
  have halive : ∀ w, s'.alive w ↔ (s.alive w ∧ w ≠ v) := by
    intro w
    constructor
    · rintro ⟨b, hb, he⟩
      obtain ⟨hb1, hb2⟩ := (hlive b).1 hb
      by_cases e : b = a
      · rw [e, hat.1, hat.2] at he
        rcases he with he | he
        · rw [← he]; exact ⟨hua, huv⟩
        · rw [← he]; exact ⟨hta, htv⟩
      · rw [(hsame b e).1, (hsame b e).2] at he
        refine ⟨⟨b, hb1, he⟩, ?_⟩
        intro e2
        rw [e2] at he
        rcases hpqar b (honly b hb1 he) with e3 | e3
        · exact e e3
        · exact hb2 e3
    · rintro ⟨⟨b, hb, he⟩, hw⟩
      by_cases e : b = a ∨ b = rem
      · have hbpq : b = p ∨ b = q := by
          rcases har with ⟨e1, e2⟩ | ⟨e1, e2⟩
          · rw [e1, e2] at e; exact e
          · rw [e1, e2] at e; exact e.symm
        have hwut : w = u ∨ w = t := by
          rcases hbpq with e3 | e3
          · rw [e3, hp.2.1, hp.2.2] at he
            rcases he with he | he
            · exact Or.inl he.symm
            · exact absurd he.symm hw
          · rw [e3, hq.2.1, hq.2.2] at he
            rcases he with he | he
            · exact absurd he.symm hw
            · exact Or.inr he.symm
        refine ⟨a, ha', ?_⟩
        rw [hat.1, hat.2]
        rcases hwut with e3 | e3
        · exact Or.inl e3.symm
        · exact Or.inr e3.symm
      · push_neg at e
        refine ⟨b, (hlive b).2 ⟨hb, e.2⟩, ?_⟩
        rw [(hsame b e.1).1, (hsame b e.1).2]
        exact he
  have hadj_ut : s'.adj u t := ⟨a, ha', Or.inl hat⟩
  have hadj_tu : s'.adj t u := ⟨a, ha', Or.inr hat⟩
  refine ⟨⟨ht', ?_, ?_, ?_, hinq, ?_, ?_⟩, halive⟩
  · intro x w hx hw
    obtain ⟨hx1, hx2⟩ := (halive x).1 hx
    obtain ⟨hw1, hw2⟩ := (halive w).1 hw
    have key : ∀ y, Relation.ReflTransGen s.adj x y →
        Relation.ReflTransGen s'.adj x (if y = v then u else y) := by
      intro y hy
      induction hy with
      | refl => rw [if_neg hx2]
      | @tail y z _ hyz ih =>
        obtain ⟨b, hb, hbz⟩ := hyz
        by_cases e1 : b = p
        · rw [e1, hp.2.1, hp.2.2] at hbz
          rcases hbz with ⟨c1, c2⟩ | ⟨c1, c2⟩
          · rw [← c1, if_neg huv] at ih
            rw [← c2, if_pos rfl]; exact ih
          · rw [← c2, if_pos rfl] at ih
            rw [← c1, if_neg huv]; exact ih
        · by_cases e2 : b = q
          · rw [e2, hq.2.1, hq.2.2] at hbz
            rcases hbz with ⟨c1, c2⟩ | ⟨c1, c2⟩
            · rw [← c1, if_pos rfl] at ih
              rw [← c2, if_neg htv]; exact ih.tail hadj_ut
            · rw [← c2, if_neg htv] at ih
              rw [← c1, if_pos rfl]; exact ih.tail hadj_tu
          · have hba : b ≠ a := by
              intro e; rcases har with ⟨e3, _⟩ | ⟨e3, _⟩
              · exact e1 (e.trans e3)
              · exact e2 (e.trans e3)
            have hbr : b ≠ rem := by
              intro e; rcases har with ⟨_, e3⟩ | ⟨_, e3⟩
              · exact e2 (e.trans e3)
              · exact e1 (e.trans e3)
            have hy : y ≠ v := by
              intro e
              rcases hbz with ⟨c1, c2⟩ | ⟨c1, c2⟩
              · rcases honly b hb (Or.inl (c1.trans e)) with e3 | e3
                · exact e1 e3
                · exact e2 e3
              · rcases honly b hb (Or.inr (c2.trans e)) with e3 | e3
                · exact e1 e3
                · exact e2 e3
            have hz : z ≠ v := by
              intro e
              rcases hbz with ⟨c1, c2⟩ | ⟨c1, c2⟩
              · rcases honly b hb (Or.inr (c2.trans e)) with e3 | e3
                · exact e1 e3
                · exact e2 e3
              · rcases honly b hb (Or.inl (c1.trans e)) with e3 | e3
                · exact e1 e3
                · exact e2 e3
            rw [if_neg hy] at ih
            rw [if_neg hz]
            exact ih.tail ⟨b, (hlive b).2 ⟨hb, hbr⟩, by
              rw [(hsame b hba).1, (hsame b hba).2]; exact hbz⟩
    have := key w (h.conn x w hx1 hw1)
    rwa [if_neg hw2] at this
  · have e1 : s'.liveSet = s.liveSet.erase rem := by
      ext b
      rw [mem_liveSet, hlive, Finset.mem_erase, mem_liveSet]
      tauto
    have hva : v ∈ s.aliveSet := (mem_aliveSet s v).2 ⟨p, hp.1, Or.inr hp.2.2⟩
    have e2 : s'.aliveSet = s.aliveSet.erase v := by
      ext w
      rw [mem_aliveSet, halive, Finset.mem_erase, mem_aliveSet]
      tauto
    have h1 : s'.liveSet.card + 1 = s.liveSet.card := by
      rw [e1, Finset.card_erase_of_mem ((mem_liveSet s rem).2 hrem)]
      have := Finset.card_pos.2 ⟨rem, (mem_liveSet s rem).2 hrem⟩
      omega
    have h2 : s'.aliveSet.card + 1 = s.aliveSet.card := by
      rw [e2, Finset.card_erase_of_mem hva]
      have := Finset.card_pos.2 ⟨v, hva⟩
      omega
    have := h.count
    omega
  · intro b hb hc
    by_cases e : b = a
    · rw [e] at hc ⊢; exact hacand hc
    · obtain ⟨hb1, hb2⟩ := (hlive b).1 hb
      rw [isCandidate_congr s s' (s.branches b) (s'.branches b) (hsame b e).1 (hsame b e).2
        hlen] at hc
      exact hqsub b (h.queued b hb1 hc)
  · intro b hb
    rw [hd]
    rcases hqlt b hb with e | e
    · exact h.queue_lt b e
    · rw [e]; exact ha.1
  · rw [hfn]; exact h.has_fn

theorem isCandidate_of_nodes_eq (s t : SimplifyCT σ) (br : Branch) (h : t.nodes = s.nodes) :
    t.isCandidate br = s.isCandidate br := by
  unfold isCandidate; rw [h]

theorem mergeIntoNext_cases (s : SimplifyCT σ) (p q : Nat) :
    ∃ core : SimplifyCT σ, core.queue = s.queue ∧ core.inq = s.inq ∧
      (((s.simFn.isSome && !s.inq q) = true ∧ s.mergeIntoNext p q = core.addToQueue q) ∨
        (¬ (s.simFn.isSome && !s.inq q) = true ∧ s.mergeIntoNext p q = core)) := by
  refine ⟨{ s with
      invalid := upd s.invalid q true
      removed := upd s.removed p true
      branches := upd s.branches q { s.branches q with from_ := (s.branches p).from_ }
      nodes := upd s.nodes (s.branches p).from_
        { s.nodes (s.branches p).from_ with
          next := (s.nodes (s.branches p).from_).next.map (fun x => if x = p then q else x) } },
    rfl, rfl, ?_⟩
  unfold mergeIntoNext
  simp only [upd_same]
  by_cases hc : (s.simFn.isSome && !s.inq q) = true
  · exact Or.inl ⟨hc, by rw [if_pos hc]⟩
  · exact Or.inr ⟨hc, by rw [if_neg hc]⟩

theorem mergeIntoNext_queue_inq (s : SimplifyCT σ) (p q : Nat) :
    (s.mergeIntoNext p q).queue =
        (if (s.simFn.isSome && !s.inq q) = true ∧
            (s.mergeIntoNext p q).isCandidate ((s.mergeIntoNext p q).branches q) = true
          then s.queue ++ [q] else s.queue) ∧
      (s.mergeIntoNext p q).inq =
        (if (s.simFn.isSome && !s.inq q) = true ∧
            (s.mergeIntoNext p q).isCandidate ((s.mergeIntoNext p q).branches q) = true
          then upd s.inq q true else s.inq) := by
  obtain ⟨core, hq, hi, ⟨hc, e⟩ | ⟨hc, e⟩⟩ := mergeIntoNext_cases s p q
  · rw [e, addToQueue_queue, addToQueue_inq, addToQueue_branches,
      isCandidate_of_nodes_eq core (core.addToQueue q) _ (addToQueue_nodes core q), hq, hi]
    constructor <;> split_ifs with h1 h2 h2 <;> first | rfl | (exfalso; tauto)
  · rw [e, hq, hi, if_neg (fun x => hc x.1), if_neg (fun x => hc x.1)]
    exact ⟨rfl, rfl⟩

theorem mergeVertex_lengths (s : SimplifyCT σ) (v w : Nat) :
    ((s.mergeVertex v).nodes w).prev.length = (s.nodes w).prev.length ∧
      ((s.mergeVertex v).nodes w).next.length = (s.nodes w).next.length := by
  rw [mergeVertex_nodes]
  split_ifs
  · rw [mergeIntoPrev_prev, mergeIntoPrev_next]
    split_ifs <;> simp
  · rw [mergeIntoNext_prev, mergeIntoNext_next]
    split_ifs <;> simp

theorem mergeVertex_endpoints (s : SimplifyCT σ) (v b : Nat) :
    ((s.mergeVertex v).branches b).from_ =
        (if s.inq ((s.nodes v).prev.headD 0) = true then (s.branches b).from_
          else if b = (s.nodes v).next.headD 0 then (s.branches ((s.nodes v).prev.headD 0)).from_
          else (s.branches b).from_) ∧
      ((s.mergeVertex v).branches b).to_ =
        (if s.inq ((s.nodes v).prev.headD 0) = true then
          (if b = (s.nodes v).prev.headD 0 then (s.branches ((s.nodes v).next.headD 0)).to_
            else (s.branches b).to_)
          else (s.branches b).to_) := by
  rw [mergeVertex_branches, transfer_from, transfer_to]
  by_cases hi : s.inq ((s.nodes v).prev.headD 0) = true
  · rw [if_pos hi, if_pos hi, if_pos hi]
    simp only [upd_apply]
    constructor
    · split_ifs with e
      · rw [e]
      · rfl
    · split_ifs <;> rfl
  · rw [if_neg hi, if_neg hi, if_neg hi]
    simp only [upd_apply]
    constructor
    · split_ifs <;> rfl
    · split_ifs with e
      · rw [e]
      · rfl

/-- The merge inside `removeArc` re-establishes the invariant of a valid tree. -/
theorem mergeVertex_treeInv (rank : Nat → Int) (s : SimplifyCT σ) (v : Nat)
    (h : MidInv rank s v) (h1 : (s.nodes v).prev.length = 1)
    (h2 : (s.nodes v).next.length = 1) : TreeInv rank (s.mergeVertex v) := by
  obtain ⟨hcore, hdeg, hv, _, _⟩ := h
  have ht := hcore.topo
  have hpe := list_eq_singleton_headD _ h1
  have hqe := list_eq_singleton_headD _ h2
  set p := (s.nodes v).prev.headD 0 with hpd
  set q := (s.nodes v).next.headD 0 with hqd
  obtain ⟨hpl, hpt⟩ := ht.prev_ok v p hv (by rw [hpe]; simp)
  obtain ⟨hql, hqf⟩ := ht.next_ok v q hv (by rw [hqe]; simp)
  have hrp := ht.ranked p hpl
  have hrq := ht.ranked q hql
  rw [hpt] at hrp
  rw [hqf] at hrq
  have hpq : p ≠ q := by
    intro e; rw [e, hqf] at hrp; omega
  have htv : (s.branches q).to_ ≠ v := by
    intro e; rw [e] at hrq; omega
  have huv : (s.branches p).from_ ≠ v := by
    intro e; rw [e] at hrp; omega
  have honly : ∀ b, s.live b → ((s.branches b).from_ = v ∨ (s.branches b).to_ = v) →
      b = p ∨ b = q := by
    intro b hb he
    rcases he with he | he
    · have := ht.in_next b hb
      rw [he, hqe] at this
      right; simpa using this
    · have := ht.in_prev b hb
      rw [he, hpe] at this
      left; simpa using this
  have ht' := mergeVertex_topo rank s v ht h1 h2 hv
  have hlen := mergeVertex_lengths s v
  have hend := mergeVertex_endpoints s v
  have hfn := hcore.has_fn
  have result : TreeCore rank (s.mergeVertex v) ∧
      (∀ w, (s.mergeVertex v).alive w ↔ (s.alive w ∧ w ≠ v)) := by
    by_cases hi : s.inq p = true
    · have hcons : s.consumedOf v = q := by unfold consumedOf; rw [← hpd, if_pos hi]
      have hmv := mergeVertex_of_inq s v hi
      apply contract_core rank s _ p q p q (s.branches p).from_ v (s.branches q).to_ hcore ht'
        (mergeVertex_data s v) _ ⟨hpl, rfl, hpt⟩ ⟨hql, hqf, rfl⟩ (Or.inl ⟨rfl, rfl⟩) hpq
      · have := hend p
        simp only [← hpd, ← hqd, hi, if_true] at this
        exact this
      · intro b hb
        have := hend b
        simp only [← hpd, ← hqd, hi, if_true, hb, if_false] at this
        exact this
      · exact honly
      · exact huv
      · exact htv
      · exact hlen
      · intro b hb
        rw [hmv]; exact hb
      · intro b hb
        rw [hmv] at hb ⊢
        exact hcore.inq_queue b hb
      · intro _
        rw [hmv]
        exact hcore.inq_queue p hi
      · intro b hb
        rw [hmv] at hb
        exact Or.inl hb
      · exact mergeVertex_simFn s v
      · intro b
        unfold live
        rw [mergeVertex_data, mergeVertex_removed, hcons, upd_apply]
        by_cases e : b = q
        · simp [e]
        · simp [e]
    · have hi' : s.inq p = false := by simpa using hi
      have hcons : s.consumedOf v = p := by unfold consumedOf; rw [← hpd, if_neg hi]
      have hmv := mergeVertex_of_not_inq s v hi'
      obtain ⟨hqq, hqi⟩ := mergeIntoNext_queue_inq s p q
      have hcand_eq : (s.mergeVertex v).isCandidate ((s.mergeVertex v).branches q) =
          (s.mergeIntoNext p q).isCandidate ((s.mergeIntoNext p q).branches q) := by
        have e1 : (s.mergeVertex v).nodes = (s.mergeIntoNext p q).nodes := by rw [hmv]
        rw [isCandidate_of_nodes_eq _ _ _ e1]
        apply isCandidate_congr _ _ _ _ _ _ (fun w => ⟨rfl, rfl⟩)
        · rw [hmv]; simp only [transfer_from]
        · rw [hmv]; simp only [transfer_to]
      have hqueue : (s.mergeVertex v).queue = (s.mergeIntoNext p q).queue := by rw [hmv]
      have hinq : (s.mergeVertex v).inq = (s.mergeIntoNext p q).inq := by rw [hmv]
      apply contract_core rank s _ q p p q (s.branches p).from_ v (s.branches q).to_ hcore ht'
        (mergeVertex_data s v) _ ⟨hpl, rfl, hpt⟩ ⟨hql, hqf, rfl⟩ (Or.inr ⟨rfl, rfl⟩) hpq
      · have := hend q
        simp only [← hpd, ← hqd, hi, if_false, if_true] at this
        exact this
      · intro b hb
        have := hend b
        simp only [← hpd, ← hqd, hi, if_false, hb] at this
        exact this
      · exact honly
      · exact huv
      · exact htv
      · exact hlen
      · intro b hb
        rw [hqueue, hqq]
        split_ifs
        · exact List.mem_append_left _ hb
        · exact hb
      · intro b hb
        rw [hinq, hqi] at hb
        rw [hqueue, hqq]
        split_ifs at hb ⊢ with hc
        · rw [upd_apply] at hb
          split_ifs at hb with e
          · rw [e]; simp
          · exact List.mem_append_left _ (hcore.inq_queue b hb)
        · exact hcore.inq_queue b hb
      · intro hc
        rw [hcand_eq] at hc
        rw [hqueue, hqq]
        by_cases hiq : s.inq q = true
        · have : ¬ ((s.simFn.isSome && !s.inq q) = true) := by simp [hiq]
          rw [if_neg (fun x => this x.1)]
          exact hcore.inq_queue q hiq
        · have : (s.simFn.isSome && !s.inq q) = true := by simp [hfn, hiq]
          rw [if_pos ⟨this, hc⟩]
          simp
      · intro b hb
        rw [hqueue, hqq] at hb
        split_ifs at hb
        · rcases List.mem_append.1 hb with hb | hb
          · exact Or.inl hb
          · right; simpa using hb
        · exact Or.inl hb
      · exact mergeVertex_simFn s v
      · intro b
        unfold live
        rw [mergeVertex_data, mergeVertex_removed, hcons, upd_apply]
        by_cases e : b = p
        · simp [e]
        · simp [e]
  obtain ⟨hcore', halive⟩ := result
  refine ⟨hcore', ?_⟩
  intro w hw
  obtain ⟨hw1, hw2⟩ := (halive w).1 hw
  have := hdeg w hw1 hw2
  unfold DegOk at this ⊢
  rw [(hlen w).1, (hlen w).2]
  exact this

/-! ### `removeArc` and the queue loop on a valid tree -/

theorem liveSet_of_eq (s t : SimplifyCT σ) (hd : t.data = s.data) (hr : t.removed = s.removed) :
    t.liveSet = s.liveSet := by
  unfold liveSet; rw [hd, hr]

theorem aliveSet_of_eq (s t : SimplifyCT σ) (hd : t.data = s.data)
    (hr : t.removed = s.removed) (hb : t.branches = s.branches) : t.aliveSet = s.aliveSet := by
  unfold aliveSet; rw [liveSet_of_eq s t hd hr, hb]

theorem TreeCoreBut.of_fields {rank : Nat → Int} {s t : SimplifyCT σ} {a : Nat}
    (h : TreeCoreBut rank s a)
    (hd : t.data = s.data) (hb : t.branches = s.branches) (hn : t.nodes = s.nodes)
    (hr : t.removed = s.removed) (hv : t.vArray = s.vArray) (hq : t.queue = s.queue)
    (hi : t.inq = s.inq) (hf : t.simFn = s.simFn) : TreeCoreBut rank t a := by
  have hl : ∀ b, t.live b ↔ s.live b := by
    intro b; unfold live; rw [hd, hr]
  have ha : ∀ v, t.alive v ↔ s.alive v := by
    intro v; unfold alive; simp only [hl, hb]
  have hadj : ∀ u v, s.adj u v → t.adj u v := by
    rintro u v ⟨b, h1, h2⟩
    exact ⟨b, (hl b).2 h1, by rw [hb]; exact h2⟩
  refine ⟨h.topo.of_eq hd hb hn hr hv, ?_, ?_, ?_, ?_, ?_, ?_⟩
  · intro u v hu hv'
    exact Relation.ReflTransGen.mono hadj (h.conn u v ((ha u).1 hu) ((ha v).1 hv'))
  · rw [liveSet_of_eq s t hd hr, aliveSet_of_eq s t hd hr hb]; exact h.count
  · intro b hb' hne hc
    rw [hq]
    apply h.queued b ((hl b).1 hb') hne
    rw [← isCandidate_of_nodes_eq s t _ hn, ← hb]; exact hc
  · intro b hb'; rw [hq]; rw [hi] at hb'; exact h.inq_queue b hb'
  · intro b hb'; rw [hq] at hb'; rw [hd]; exact h.queue_lt b hb'
  · rw [hf]; exact h.has_fn

theorem TreeCore.but {rank : Nat → Int} {s : SimplifyCT σ} (h : TreeCore rank s) (a : Nat) :
    TreeCoreBut rank s a :=
  ⟨h.topo, h.conn, h.count, fun b hb _ hc => h.queued b hb hc, h.inq_queue, h.queue_lt,
    h.has_fn⟩

theorem TreeCoreBut.core {rank : Nat → Int} {s : SimplifyCT σ} {a : Nat}
    (h : TreeCoreBut rank s a)
    (ha : s.live a → s.isCandidate (s.branches a) = true → a ∈ s.queue) : TreeCore rank s := by
  refine ⟨h.topo, h.conn, h.count, ?_, h.inq_queue, h.queue_lt, h.has_fn⟩
  intro b hb hc
  by_cases e : b = a
  · rw [e] at hb hc ⊢; exact ha hb hc
  · exact h.queued b hb e hc

theorem TreeCore.of_same_fields {rank : Nat → Int} {s t : SimplifyCT σ} (h : TreeCore rank s)
    (hd : t.data = s.data) (hb : t.branches = s.branches) (hn : t.nodes = s.nodes)
    (hr : t.removed = s.removed) (hv : t.vArray = s.vArray) (hq : t.queue = s.queue)
    (hi : t.inq = s.inq) (hf : t.simFn = s.simFn) : TreeCore rank t := by
  apply ((h.but 0).of_fields hd hb hn hr hv hq hi hf).core
  intro hl hc
  rw [hq]
  apply h.queued 0
  · unfold live at hl ⊢; rw [hd, hr] at hl; exact hl
  · rw [← isCandidate_of_nodes_eq s t _ hn, ← hb]; exact hc

theorem degOk_of_eq {s t : SimplifyCT σ}
    (hd : t.data = s.data) (hb : t.branches = s.branches) (hn : t.nodes = s.nodes)
    (hr : t.removed = s.removed) (h : ∀ w, s.alive w → DegOk s w) :
    ∀ w, t.alive w → DegOk t w := by
  intro w hw
  have hw' : s.alive w := by
    unfold alive live at hw ⊢
    rw [hd, hr, hb] at hw
    exact hw
  have := h w hw'
  unfold DegOk at this ⊢
  rw [hn]
  exact this

theorem treeInv_of_eq {rank : Nat → Int} {s t : SimplifyCT σ} (h : TreeInv rank s)
    (hd : t.data = s.data) (hb : t.branches = s.branches) (hn : t.nodes = s.nodes)
    (hr : t.removed = s.removed) (hv : t.vArray = s.vArray) (hq : t.queue = s.queue)
    (hi : t.inq = s.inq) (hf : t.simFn = s.simFn) : TreeInv rank t :=
  ⟨h.1.of_same_fields hd hb hn hr hv hq hi hf, degOk_of_eq hd hb hn hr h.2⟩

/-- Without a merge the degree rule already holds at the merged vertex. -/
theorem treeInv_of_midInv (rank : Nat → Int) (s : SimplifyCT σ) (v : Nat) (h : MidInv rank s v)
    (hm : ¬ ((s.nodes v).prev.length = 1 ∧ (s.nodes v).next.length = 1)) : TreeInv rank s := by
  obtain ⟨hcore, hdeg, hv, hp, hn⟩ := h
  refine ⟨hcore, fun w hw => ?_⟩
  by_cases e : w = v
  · rw [e]
    exact ⟨fun h0 => by omega, fun h0 => by omega, hm⟩
  · exact hdeg w hw e

/-- `removeArc` of a live candidate keeps the tree invariant. -/
theorem removeArc_treeInv (rank : Nat → Int) (s : SimplifyCT σ) (a : Nat)
    (hcore : TreeCoreBut rank s a) (hdeg : ∀ w, s.alive w → DegOk s w)
    (hl : s.live a) (hc : s.isCandidate (s.branches a) = true) :
    TreeInv rank (s.removeArc a) := by
  have hmid := detach_midInv rank s a hcore hdeg hl hc
  rw [removeArc_eq]
  split_ifs with hm
  · exact treeInv_of_eq (mergeVertex_treeInv rank _ _ hmid hm.1 hm.2)
      (by simp) (by simp) (by simp) (by simp) (by simp) (by simp) (by simp) (by simp)
  · exact treeInv_of_eq (treeInv_of_midInv rank _ _ hmid hm)
      (by simp) (by simp) (by simp) (by simp) (by simp) (by simp) (by simp) (by simp)

/-- Re-enqueueing the popped branch restores the invariant. -/
theorem addToQueue_treeInv (rank : Nat → Int) (s : SimplifyCT σ) (a : Nat)
    (h : TreeCoreBut rank s a) (hdeg : ∀ w, s.alive w → DegOk s w)
    (ha : a < s.data.noArcs) : TreeInv rank (s.addToQueue a) := by
  refine ⟨?_, degOk_of_eq (by simp) (by simp) (by simp) (by simp) hdeg⟩
  have hb : TreeCoreBut rank (s.addToQueue a) a := by
    refine ⟨h.topo.of_eq (by simp) (by simp) (by simp) (by simp) (by simp), ?_, ?_, ?_, ?_, ?_,
      ?_⟩
    · intro u v hu hv
      have hu' : s.alive u := by
        unfold alive live at hu ⊢
        simpa using hu
      have hv' : s.alive v := by
        unfold alive live at hv ⊢
        simpa using hv
      refine Relation.ReflTransGen.mono ?_ (h.conn u v hu' hv')
      rintro x y ⟨b, h1, h2⟩
      refine ⟨b, ?_, ?_⟩
      · unfold live at h1 ⊢; simpa using h1
      · simpa using h2
    · rw [liveSet_of_eq s _ (by simp) (by simp),
        aliveSet_of_eq s _ (by simp) (by simp) (by simp)]
      exact h.count
    · intro b hb hne hc
      have hb' : s.live b := by
        unfold live at hb ⊢; simpa using hb
      have hc' : s.isCandidate (s.branches b) = true := by
        rw [← isCandidate_of_nodes_eq s (s.addToQueue a) _ (by simp)]
        simpa using hc
      have := h.queued b hb' hne hc'
      rw [addToQueue_queue]
      split_ifs
      · exact List.mem_append_left _ this
      · exact this
    · intro b hb
      rw [addToQueue_inq] at hb
      rw [addToQueue_queue]
      split_ifs at hb ⊢ with hcand
      · rw [upd_apply] at hb
        split_ifs at hb with e
        · rw [e]; simp
        · exact List.mem_append_left _ (h.inq_queue b hb)
      · exact h.inq_queue b hb
    · intro b hb
      rw [addToQueue_queue] at hb
      rw [addToQueue_data]
      split_ifs at hb
      · rcases List.mem_append.1 hb with hb | hb
        · exact h.queue_lt b hb
        · simp at hb; rw [hb]; exact ha
      · exact h.queue_lt b hb
    · rw [addToQueue_simFn]; exact h.has_fn
  apply hb.core
  intro _ hc
  have hc' : s.isCandidate (s.branches a) = true := by
    rw [← isCandidate_of_nodes_eq s (s.addToQueue a) _ (by simp)]
    simpa using hc
  rw [addToQueue_queue, if_pos hc']
  simp

/-- The body of the queue loop after the pop keeps the tree invariant. -/
theorem popped_treeInv (rank : Nat → Int) (s0 : SimplifyCT σ) (ano : Nat)
    (hbut : TreeCoreBut rank s0 ano) (hdeg0 : ∀ w, s0.alive w → DegOk s0 w)
    (hano : ano < s0.data.noArcs) :
    TreeInv rank
      (if !s0.removed ano then
        if s0.invalid ano then
          ({ s0.updateWeight ano with
            invalid := upd (s0.updateWeight ano).invalid ano false }).addToQueue ano
        else if s0.isCandidate (s0.branches ano) then
          { s0.removeArc ano with order := (s0.removeArc ano).order ++ [ano] }
        else s0
      else s0) := by
  by_cases h1 : s0.removed ano = true
  · simp only [h1, Bool.not_true, Bool.false_eq_true, if_false]
    refine ⟨hbut.core ?_, hdeg0⟩
    intro hl
    rw [hl.2] at h1
    cases h1
  · have h1' : s0.removed ano = false := by simpa using h1
    simp only [h1', Bool.not_false, if_true]
    by_cases h2 : s0.invalid ano = true
    · simp only [h2, if_true]
      apply addToQueue_treeInv
      · exact (hbut.of_fields (t := { s0.updateWeight ano with
          invalid := upd (s0.updateWeight ano).invalid ano false })
          (by simp) (by simp) (by simp) (by simp) (by simp) (by simp) (by simp) (by simp))
      · exact degOk_of_eq (by simp) (by simp) (by simp) (by simp) hdeg0
      · simp only [updateWeight_data]
        exact hano
    · simp only [h2, Bool.false_eq_true, if_false]
      by_cases h3 : s0.isCandidate (s0.branches ano) = true
      · simp only [h3, if_true]
        exact treeInv_of_eq (removeArc_treeInv rank s0 ano hbut hdeg0 ⟨hano, h1'⟩ h3)
          rfl rfl rfl rfl rfl rfl rfl rfl
      · simp only [h3, Bool.false_eq_true, if_false]
        exact ⟨hbut.core (fun _ hc => absurd hc h3), hdeg0⟩

/-- One iteration of the queue loop keeps the tree invariant. -/
theorem loopStep_treeInv (rank : Nat → Int) (s : SimplifyCT σ) (h : TreeInv rank s) :
    TreeInv rank s.loopStep := by
  unfold loopStep
  cases htop : s.queueTop with
  | none => exact h
  | some ano =>
    have hmem := queueTop_mem s ano htop
    have hano := h.1.queue_lt ano hmem
    have hbut : TreeCoreBut rank
        ({ s with queue := s.queue.erase ano, inq := upd s.inq ano false } : SimplifyCT σ)
        ano := by
      refine ⟨h.1.topo.of_eq rfl rfl rfl rfl rfl, h.1.conn, h.1.count, ?_, ?_, ?_, h.1.has_fn⟩
      · intro b hb hne hcand
        exact (List.mem_erase_of_ne hne).2 (h.1.queued b hb hcand)
      · intro b hb
        have hb2 : upd s.inq ano false b = true := hb
        rw [upd_apply] at hb2
        split_ifs at hb2 with e
        exact (List.mem_erase_of_ne e).2 (h.1.inq_queue b hb2)
      · intro b hb; exact h.1.queue_lt b (List.mem_of_mem_erase hb)
    exact popped_treeInv rank _ ano hbut h.2 hano

theorem queueLoop_treeInv (rank : Nat → Int) (fuel : Nat) : ∀ s : SimplifyCT σ,
    TreeInv rank s → TreeInv rank (queueLoop fuel s) := by
  induction fuel with
  | zero => intro s h; exact h
  | succ k ih =>
    intro s h
    unfold queueLoop
    split_ifs
    · exact ih _ (loopStep_treeInv rank s h)
    · exact h

/-! ### The state after `initSimplification` on a valid tree -/

theorem foldl_addToQueue_queued (l : List Nat) : ∀ s : SimplifyCT σ,
    (∀ x, x ∈ s.queue → x ∈ (l.foldl addToQueue s).queue) ∧
    (∀ b, b ∈ l → s.isCandidate (s.branches b) = true → b ∈ (l.foldl addToQueue s).queue) ∧
    (∀ b, (l.foldl addToQueue s).inq b = true →
      s.inq b = true ∨ b ∈ (l.foldl addToQueue s).queue) := by
  induction l with
  | nil => intro s; exact ⟨fun _ h => h, by simp, fun b h => Or.inl h⟩
  | cons a l ih =>
    intro s
    obtain ⟨h1, h2, h3⟩ := ih (s.addToQueue a)
    simp only [List.foldl_cons]
    refine ⟨?_, ?_, ?_⟩
    · intro x hx
      apply h1
      rw [addToQueue_queue]
      split_ifs
      · exact List.mem_append_left _ hx
      · exact hx
    · intro b hb hc
      rcases List.mem_cons.1 hb with e | hb
      · apply h1
        rw [e] at hc
        rw [e, addToQueue_queue, if_pos hc]
        simp
      · apply h2 b hb
        rw [isCandidate_of_nodes_eq s (s.addToQueue a) _ (by simp)]
        simpa using hc
    · intro b hb
      rcases h3 b hb with h | h
      · rw [addToQueue_inq] at h
        split_ifs at h with hc
        · rw [upd_apply] at h
          split_ifs at h with e
          · right
            apply h1
            rw [e, addToQueue_queue, if_pos hc]
            simp
          · left; exact h
        · left; exact h
      · right; exact h

theorem initSimplification_queued (F : SimFunction σ) (sim0 : σ) (d : ContourTreeData) :
    (∀ b, b < d.noArcs →
      (initSimplification (some F) sim0 d).isCandidate
        ((initSimplification (some F) sim0 d).branches b) = true →
      b ∈ (initSimplification (some F) sim0 d).queue) ∧
    (∀ b, (initSimplification (some F) sim0 d).inq b = true →
      b ∈ (initSimplification (some F) sim0 d).queue) := by
  obtain ⟨e1, e2, e3, e4, e5, e6, e7, e8⟩ :=
    foldl_initArc_frame (List.range d.noArcs) (fresh (some F) sim0 d)
  unfold initSimplification
  simp only []
  set s1 : SimplifyCT σ := (List.range d.noArcs).foldl initArc (fresh (some F) sim0 d)
  set s2 : SimplifyCT σ :=
    { s1 with sim := (F.init s1.sim s1.fn d.noArcs s1.branches).1,
              fn := (F.init s1.sim s1.fn d.noArcs s1.branches).2 }
  obtain ⟨g1, g2, g3, g4, g5, g6, g7, g8, g9, g10⟩ :=
    foldl_addToQueue_frame (List.range d.noArcs) s2
  obtain ⟨q1, q2, q3⟩ := foldl_addToQueue_queued (List.range d.noArcs) s2
  refine ⟨?_, ?_⟩
  · intro b hb hc
    apply q2 b (List.mem_range.2 hb)
    rw [← isCandidate_of_nodes_eq s2 _ _ g2, ← g7]
    exact hc
  · intro b hb
    rcases q3 b hb with h | h
    · have : s2.inq b = false := by
        show s1.inq b = false
        rw [e6]
        rfl
      rw [this] at h
      cases h
    · exact h

theorem initSimplification_treeInv (rank : Nat → Int) (F : SimFunction σ) (sim0 : σ)
    (d : ContourTreeData) (hr : Ranked rank d) (hv : ValidTree d) :
    TreeInv rank (initSimplification (some F) sim0 d) := by
  obtain ⟨hd, hb, hn, hrm, hva, _⟩ := initSimplification_fields (some F) sim0 d
  obtain ⟨k1, k2, k3⟩ := foldl_initArc_range (some F) sim0 d d.noArcs
  obtain ⟨hq1, hq2⟩ := initSimplification_queued F sim0 d
  obtain ⟨hinv, _, _, hfn⟩ := initSimplification_spec (some F) sim0 d
  have htopo := initSimplification_topo rank (some F) sim0 d hr
  generalize initSimplification (some F) sim0 d = s at *
  have hbr : ∀ b, b < d.noArcs → (s.branches b).from_ = (d.arcs b).from_ ∧
      (s.branches b).to_ = (d.arcs b).to_ := by
    intro b hb'
    rw [hb, k1, if_pos hb']
    exact ⟨rfl, rfl⟩
  have hprev : ∀ v, (s.nodes v).prev.length = inDegree d v := by
    intro v; rw [hn, k2]; rfl
  have hnext : ∀ v, (s.nodes v).next.length = outDegree d v := by
    intro v; rw [hn, k3]; rfl
  have hlive : ∀ b, s.live b ↔ b < d.noArcs := by
    intro b; unfold live; rw [hd, hrm]; simp
  have halive : ∀ v, s.alive v ↔ v < d.noNodes := by
    intro v
    constructor
    · rintro ⟨b, hb', he⟩
      have hlt := (hlive b).1 hb'
      have := hv.in_range b hlt
      obtain ⟨e1, e2⟩ := hbr b hlt
      rcases he with he | he
      · rw [← he, e1]; exact this.1
      · rw [← he, e2]; exact this.2
    · intro hvn
      by_cases h0 : inDegree d v = 0
      · have h1 := hv.min_rule v hvn h0
        unfold outDegree at h1
        obtain ⟨i, hi⟩ := List.exists_mem_of_length_pos
          (l := (List.range d.noArcs).filter (fun i => (d.arcs i).from_ = v)) (by omega)
        rw [List.mem_filter, List.mem_range] at hi
        exact ⟨i, (hlive i).2 hi.1, Or.inl (by rw [(hbr i hi.1).1]; simpa using hi.2)⟩
      · unfold inDegree at h0
        obtain ⟨i, hi⟩ := List.exists_mem_of_length_pos
          (l := (List.range d.noArcs).filter (fun i => (d.arcs i).to_ = v)) (by omega)
        rw [List.mem_filter, List.mem_range] at hi
        exact ⟨i, (hlive i).2 hi.1, Or.inr (by rw [(hbr i hi.1).2]; simpa using hi.2)⟩
  refine ⟨⟨?_, ?_, ?_, ?_, hq2, ?_, ?_⟩, ?_⟩
  · exact htopo
  · intro u w hu hw
    refine Relation.ReflTransGen.mono ?_ (hv.connected u w ((halive u).1 hu) ((halive w).1 hw))
    rintro x y ⟨i, hi, h⟩
    exact ⟨i, (hlive i).2 hi, by rw [(hbr i hi).1, (hbr i hi).2]; exact h⟩
  · have e1 : s.liveSet = Finset.range d.noArcs := by
      ext b; rw [mem_liveSet, hlive]; simp
    have e2 : s.aliveSet = Finset.range d.noNodes := by
      ext b; rw [mem_aliveSet, halive]; simp
    rw [e1, e2, Finset.card_range, Finset.card_range]
    exact hv.arc_count
  · intro b hb' hc
    exact hq1 b ((hlive b).1 hb') hc
  · intro b hb'
    exact hinv.queue_lt b hb'
  · rw [hfn]; rfl
  · intro w hw
    have hwn := (halive w).1 hw
    unfold DegOk
    rw [hprev, hnext]
    exact ⟨hv.min_rule w hwn, hv.max_rule w hwn, hv.no_pass w hwn⟩

/-! ### The final pass -/

theorem unremoved_length (s : SimplifyCT σ) : s.unremoved.length = s.liveSet.card := by
  unfold unremoved liveSet
  rw [← List.toFinset_card_of_nodup ((List.nodup_range _).filter _)]
  congr 1
  ext b
  simp

theorem foldl_finalPassStep_none (l : List Nat) :
    l.foldl finalPassStep (none : Option (SimplifyCT σ × Nat)) = none := by
  induction l with
  | nil => rfl
  | cons a l ih => simpa [finalPassStep] using ih

theorem foldl_finalPassStep (l : List Nat) : ∀ (s : SimplifyCT σ) (root : Nat),
    l.foldl finalPassStep (some (s, root)) =
      if (l.filter (fun i => !s.removed i)).length = 0 ∨
          root + (l.filter (fun i => !s.removed i)).length ≤ 1 then
        some ({ s with order := s.order ++ l.filter (fun i => !s.removed i) },
          root + (l.filter (fun i => !s.removed i)).length)
      else none := by
  induction l with
  | nil => intro s root; simp
  | cons a l ih =>
    intro s root
    simp only [List.foldl_cons]
    by_cases hr : s.removed a = true
    · have : finalPassStep (some (s, root)) a = some (s, root) := by
        simp [finalPassStep, hr]
      rw [this, ih]
      simp [hr]
    · have hr' : s.removed a = false := by simpa using hr
      by_cases h0 : root = 0
      · have : finalPassStep (some (s, root)) a =
            some ({ s with order := s.order ++ [a] }, root + 1) := by
          simp [finalPassStep, hr', h0]
        rw [this, ih]
        simp only [List.filter_cons, hr', Bool.not_false, if_true, List.length_cons,
          List.append_assoc, List.singleton_append]
        have e : root + 1 + (l.filter (fun i => !s.removed i)).length =
            root + ((l.filter (fun i => !s.removed i)).length + 1) := by omega
        rw [e]
        have c : ((l.filter (fun i => !s.removed i)).length = 0 ∨
            root + ((l.filter (fun i => !s.removed i)).length + 1) ≤ 1) ↔
            ((l.filter (fun i => !s.removed i)).length + 1 = 0 ∨
            root + ((l.filter (fun i => !s.removed i)).length + 1) ≤ 1) := by omega
        simp only [c]
      · have : finalPassStep (some (s, root)) a = none := by
          simp [finalPassStep, hr', h0]
        rw [this, foldl_finalPassStep_none]
        have : ¬ (((a :: l).filter (fun i => !s.removed i)).length = 0 ∨
            root + ((a :: l).filter (fun i => !s.removed i)).length ≤ 1) := by
          simp only [List.filter_cons, hr', Bool.not_false, if_true, List.length_cons]
          omega
        rw [if_neg this]

theorem finalPassChecked_eq (s : SimplifyCT σ) :
    finalPassChecked s =
      if s.unremoved.length ≤ 1 then some (s.finalPass, s.unremoved.length) else none := by
  unfold finalPassChecked
  rw [foldl_finalPassStep]
  simp only [Nat.zero_add]
  have c : (s.unremoved.length = 0 ∨ s.unremoved.length ≤ 1) ↔ s.unremoved.length ≤ 1 := by
    omega
  unfold unremoved at c
  simp only [c]
  rfl

/-! ### The arcs of a valid tree ascend along a ranking -/

/-- A path that leaves a set of nodes crosses its boundary along some arc. -/
theorem exists_crossing (d : ContourTreeData) (S : Finset Nat) (u v : Nat)
    (h : Relation.ReflTransGen (arcAdj d) u v) (hu : u ∈ S) (hv : v ∉ S) :
    ∃ x y, x ∈ S ∧ y ∉ S ∧ arcAdj d x y := by
  induction h with
  | refl => exact absurd hu hv
  | @tail b c _ hbc ih =>
    by_cases hb : b ∈ S
    · exact ⟨b, c, hb, hv, hbc⟩
    · exact ih hb

/-- Growing a spanning tree arc by arc: after `m` steps `m + 1` nodes are reached over `m`
arcs, each ascending along the ranking built so far. -/
theorem exists_partial_ranking (d : ContourTreeData) (hv : ValidTree d) (m : Nat)
    (hm : m + 1 ≤ d.noNodes) :
    ∃ (S U : Finset Nat) (rank : Nat → Int), S ⊆ Finset.range d.noNodes ∧
      U ⊆ Finset.range d.noArcs ∧ S.card = m + 1 ∧ U.card = m ∧
      ∀ i, i ∈ U → (d.arcs i).from_ ∈ S ∧ (d.arcs i).to_ ∈ S ∧
        rank (d.arcs i).from_ < rank (d.arcs i).to_ := by
  induction m with
  | zero =>
    refine ⟨{0}, ∅, fun _ => 0, ?_, by simp, by simp, by simp, by simp⟩
    intro x hx
    rw [Finset.mem_singleton] at hx
    rw [hx, Finset.mem_range]
    omega
  | succ m ih =>
    obtain ⟨S, U, rank, hS, hU, cS, cU, hrk⟩ := ih (by omega)
    -- a node not reached yet
    have hex : ∃ v, v < d.noNodes ∧ v ∉ S := by
      by_contra hne
      have hsub : Finset.range d.noNodes ⊆ S := by
        intro v hv'
        by_contra hvS
        exact hne ⟨v, Finset.mem_range.1 hv', hvS⟩
      have := Finset.card_le_card hsub
      rw [Finset.card_range] at this
      omega
    obtain ⟨v, hvn, hvS⟩ := hex
    have hne : S.Nonempty := by
      rw [← Finset.card_pos]; omega
    obtain ⟨u, huS⟩ := hne
    have hun : u < d.noNodes := Finset.mem_range.1 (hS huS)
    obtain ⟨x, y, hx, hy, i, hi, he⟩ := exists_crossing d S u v (hv.connected u v hun hvn) huS hvS
    have hxy : x ≠ y := fun e => hy (e ▸ hx)
    have hiU : i ∉ U := by
      intro hin
      obtain ⟨h1, h2, _⟩ := hrk i hin
      rcases he with ⟨e1, e2⟩ | ⟨e1, e2⟩
      · rw [e2] at h2; exact hy h2
      · rw [e1] at h1; exact hy h1
    have hyn : y < d.noNodes := by
      have := hv.in_range i hi
      rcases he with ⟨e1, e2⟩ | ⟨e1, e2⟩
      · rw [← e2]; exact this.2
      · rw [← e1]; exact this.1
    refine ⟨insert y S, insert i U,
      fun w => if w = y then (if (d.arcs i).from_ = x then rank x + 1 else rank x - 1)
        else rank w, ?_, ?_, ?_, ?_, ?_⟩
    · intro w hw
      rcases Finset.mem_insert.1 hw with e | h
      · rw [e]; exact Finset.mem_range.2 hyn
      · exact hS h
    · intro j hj
      rcases Finset.mem_insert.1 hj with e | h
      · rw [e]; exact Finset.mem_range.2 hi
      · exact hU h
    · rw [Finset.card_insert_of_not_mem hy, cS]
    · rw [Finset.card_insert_of_not_mem hiU, cU]
    · intro j hj
      rcases Finset.mem_insert.1 hj with e | h
      · rw [e]
        rcases he with ⟨e1, e2⟩ | ⟨e1, e2⟩
        · refine ⟨?_, ?_, ?_⟩
          · rw [e1]; exact Finset.mem_insert_of_mem hx
          · rw [e2]; exact Finset.mem_insert_self _ _
          · rw [e1, e2]
            simp only [hxy, if_false, if_true]
            omega
        · refine ⟨?_, ?_, ?_⟩
          · rw [e1]; exact Finset.mem_insert_self _ _
          · rw [e2]; exact Finset.mem_insert_of_mem hx
          · rw [e1, e2]
            have hyx : ¬ y = x := fun e => hxy e.symm
            simp only [hxy, hyx, if_false, if_true]
            omega
      · obtain ⟨h1, h2, h3⟩ := hrk j h
        have n1 : (d.arcs j).from_ ≠ y := fun e => hy (e ▸ h1)
        have n2 : (d.arcs j).to_ ≠ y := fun e => hy (e ▸ h2)
        refine ⟨Finset.mem_insert_of_mem h1, Finset.mem_insert_of_mem h2, ?_⟩
        simp only [n1, n2, if_false]
        exact h3

/-- The arcs of a connected graph with one arc less than nodes ascend along some ranking of
the nodes. -/
theorem validTree_ranked (d : ContourTreeData) (hv : ValidTree d) :
    ∃ rank : Nat → Int, Ranked rank d := by
  have hc := hv.arc_count
  obtain ⟨S, U, rank, _, hU, _, cU, hrk⟩ := exists_partial_ranking d hv d.noArcs (by omega)
  have hUe : U = Finset.range d.noArcs := by
    apply Finset.eq_of_subset_of_card_le hU
    rw [Finset.card_range, cU]
  refine ⟨rank, ?_⟩
  intro i hi
  exact (hrk i (by rw [hUe]; exact Finset.mem_range.2 hi)).2.2

/-! ### Exactly one branch survives on a valid tree -/

/-- On a valid tree the queue loop of priority mode leaves exactly one branch un-removed. -/
theorem afterQueueLoop_single_root (F : SimFunction σ) (sim0 : σ) (d : ContourTreeData)
    (hv : ValidTree d) : ∃ r, (afterQueueLoop (some F) sim0 d).unremoved = [r] := by
  obtain ⟨rank, hr⟩ := validTree_ranked d hv
  obtain ⟨hinv, hd, hq⟩ := afterQueueLoop_spec (some F) sim0 d
  have ht : TreeInv rank (afterQueueLoop (some F) sim0 d) :=
    queueLoop_treeInv rank _ _ (initSimplification_treeInv rank F sim0 d hr hv)
  have hnc : ∀ b, (afterQueueLoop (some F) sim0 d).live b →
      (afterQueueLoop (some F) sim0 d).isCandidate
        ((afterQueueLoop (some F) sim0 d).branches b) = false := by
    intro b hb
    by_contra hc
    have := ht.1.queued b hb (by simpa using hc)
    rw [hq] at this
    simp at this
  have h1 := single_of_no_candidate rank _ ht hnc
  have hlen : (afterQueueLoop (some F) sim0 d).unremoved.length = 1 := by
    rw [unremoved_length]; exact h1
  exact List.length_eq_one.1 hlen

/-- Claim C5: for every valid input contour tree and every importance function the queue loop
of priority mode ends (the queue is empty) with exactly one branch `r` whose `removed` flag is
clear; the final pass therefore runs through without failing `assert(root == 0)`, counts one
root, and appends `r` as the last entry of `order`. -/
theorem simplify_leaves_single_root (F : SimFunction σ) (sim0 : σ) (d : ContourTreeData)
    (hv : ValidTree d) :
    (afterQueueLoop (some F) sim0 d).queue = [] ∧
      ∃ r, r < d.noArcs ∧
        (∀ b, b < d.noArcs → ((afterQueueLoop (some F) sim0 d).removed b = false ↔ b = r)) ∧
        finalPassChecked (afterQueueLoop (some F) sim0 d) =
          some (simplify (some F) sim0 d, 1) ∧
        (simplify (some F) sim0 d).order = (afterQueueLoop (some F) sim0 d).order ++ [r] := by
  obtain ⟨hinv, hd, hq⟩ := afterQueueLoop_spec (some F) sim0 d
  obtain ⟨r, hr1⟩ := afterQueueLoop_single_root F sim0 d hv
  have hlen : (afterQueueLoop (some F) sim0 d).unremoved.length = 1 := by
    rw [hr1]; rfl
  have hmem : ∀ b, b ∈ (afterQueueLoop (some F) sim0 d).unremoved ↔
      b < d.noArcs ∧ (afterQueueLoop (some F) sim0 d).removed b = false := by
    intro b
    simp [unremoved, hd]
  have hr2 : r < d.noArcs ∧ (afterQueueLoop (some F) sim0 d).removed r = false :=
    (hmem r).1 (by rw [hr1]; simp)
  refine ⟨hq, r, hr2.1, ?_, ?_, ?_⟩
  · intro b hb
    constructor
    · intro h
      have := (hmem b).2 ⟨hb, h⟩
      rw [hr1] at this
      simpa using this
    · intro e
      rw [e]; exact hr2.2
  · rw [finalPassChecked_eq, hlen]
    rfl
  · show (afterQueueLoop (some F) sim0 d).order ++ (afterQueueLoop (some F) sim0 d).unremoved = _
    rw [hr1]

theorem yData_valid : ValidTree yData := by
  have h1 : ∀ u, u < 4 → arcAdj yData u 2 ∨ u = 2 := by decide
  have h2 : ∀ u, u < 4 → arcAdj yData 2 u ∨ u = 2 := by decide
  refine ⟨by decide, ?_, rfl, by decide, by decide, by decide, by decide⟩
  intro u v hu hv
  have a : Relation.ReflTransGen (arcAdj yData) u 2 := by
    rcases h1 u hu with h | h
    · exact Relation.ReflTransGen.single h
    · rw [h]
  have b : Relation.ReflTransGen (arcAdj yData) 2 v := by
    rcases h2 v hv with h | h
    · exact Relation.ReflTransGen.single h
    · rw [h]
  exact a.trans b

/-- Witness for C5: the tree `yData` with the persistence importance function. -/
theorem simplify_leaves_single_root_witness :
    ValidTree yData ∧
      (afterQueueLoop (some (persistenceSim yData.fnVals)) () yData).queue = [] ∧
      ∃ r, r < yData.noArcs ∧
        (∀ b, b < yData.noArcs →
          ((afterQueueLoop (some (persistenceSim yData.fnVals)) () yData).removed b = false ↔
            b = r)) ∧
        finalPassChecked (afterQueueLoop (some (persistenceSim yData.fnVals)) () yData) =
          some (simplify (some (persistenceSim yData.fnVals)) () yData, 1) ∧
        (simplify (some (persistenceSim yData.fnVals)) () yData).order =
          (afterQueueLoop (some (persistenceSim yData.fnVals)) () yData).order ++ [r] :=
  ⟨yData_valid, simplify_leaves_single_root _ () yData yData_valid⟩

/-! ### Replay mirrors priority mode -/

theorem Sim.alive_iff {τ : Type} {rank : Nat → Int} {φ : Nat → Nat} {P : SimplifyCT σ}
    {R : SimplifyCT τ} {rest : List Nat} (h : Sim rank φ P R rest) (v : Nat) :
    R.alive v ↔ P.alive v := by
  constructor
  · rintro ⟨c, hc, he⟩
    obtain ⟨b, hb, e⟩ := h.surj c hc
    refine ⟨b, hb, ?_⟩
    rw [← h.from_eq b hb, ← h.to_eq b hb, e]
    exact he
  · rintro ⟨b, hb, he⟩
    refine ⟨φ b, h.live_map b hb, ?_⟩
    rw [h.from_eq b hb, h.to_eq b hb]
    exact he

theorem Sim.of_eq_left {τ : Type} {rank : Nat → Int} {φ : Nat → Nat} {P P' : SimplifyCT σ}
    {R : SimplifyCT τ} {rest : List Nat} (h : Sim rank φ P R rest)
    (hd : P'.data = P.data) (hb : P'.branches = P.branches) (hn : P'.nodes = P.nodes)
    (hr : P'.removed = P.removed) (hv : P'.vArray = P.vArray) : Sim rank φ P' R rest := by
  have hl : ∀ b, P'.live b ↔ P.live b := by
    intro b; unfold live; rw [hd, hr]
  refine ⟨?_, h.topoP.of_eq hd hb hn hr hv, h.topoR, ?_, ?_, ?_, ?_, ?_, ?_, ?_, ?_, h.inq_iff,
    h.no_fn⟩
  · rw [hd]; exact h.data
  · intro b hb'; exact h.live_map b ((hl b).1 hb')
  · intro b c hb' hc'; exact h.inj b c ((hl b).1 hb') ((hl c).1 hc')
  · intro c hc
    obtain ⟨b, hb', e⟩ := h.surj c hc
    exact ⟨b, (hl b).2 hb', e⟩
  · intro b hb'; rw [hb]; exact h.from_eq b ((hl b).1 hb')
  · intro b hb'; rw [hb]; exact h.to_eq b ((hl b).1 hb')
  · intro v; rw [hn]; exact h.prev_len v
  · intro v; rw [hn]; exact h.next_len v
  · intro x hx
    obtain ⟨h1, h2⟩ := h.fix x hx
    exact ⟨(hl x).2 h1, h2⟩

theorem Sim.of_eq_right {τ : Type} {rank : Nat → Int} {φ : Nat → Nat} {P : SimplifyCT σ}
    {R R' : SimplifyCT τ} {rest : List Nat} (h : Sim rank φ P R rest)
    (hd : R'.data = R.data) (hb : R'.branches = R.branches) (hn : R'.nodes = R.nodes)
    (hr : R'.removed = R.removed) (hv : R'.vArray = R.vArray) (hi : R'.inq = R.inq)
    (hf : R'.simFn = R.simFn) : Sim rank φ P R' rest := by
  have hl : ∀ b, R'.live b ↔ R.live b := by
    intro b; unfold live; rw [hd, hr]
  refine ⟨?_, h.topoP, h.topoR.of_eq hd hb hn hr hv, ?_, h.inj, ?_, ?_, ?_, ?_, ?_, h.fix, ?_,
    ?_⟩
  · rw [hd]; exact h.data
  · intro b hb'; exact (hl _).2 (h.live_map b hb')
  · intro c hc; exact h.surj c ((hl c).1 hc)
  · intro b hb'; rw [hb]; exact h.from_eq b hb'
  · intro b hb'; rw [hb]; exact h.to_eq b hb'
  · intro v; rw [hn]; exact h.prev_len v
  · intro v; rw [hn]; exact h.next_len v
  · intro x; rw [hi]; exact h.inq_iff x
  · rw [hf]; exact h.no_fn

theorem length_filter_ne_of_mem {l : List Nat} {a : Nat} (hn : l.Nodup) (ha : a ∈ l) :
    (l.filter (fun x => x ≠ a)).length + 1 = l.length := by
  induction l with
  | nil => simp at ha
  | cons x l ih =>
    rw [List.nodup_cons] at hn
    by_cases e : x = a
    · have hal : a ∉ l := by rw [← e]; exact hn.1
      rw [List.filter_cons_of_neg (by simpa using e), filter_ne_of_not_mem l a hal]
      simp
    · rw [List.filter_cons_of_pos (by simpa using e)]
      have : a ∈ l := by
        rcases List.mem_cons.1 ha with h | h
        · exact absurd h.symm e
        · exact h
      simp only [List.length_cons]
      have := ih hn.2 this
      omega

theorem mergedVertexOf_congr {τ : Type} (P : SimplifyCT σ) (R : SimplifyCT τ) (a b : Nat)
    (hf : (R.branches b).from_ = (P.branches a).from_)
    (hto : (R.branches b).to_ = (P.branches a).to_)
    (hp : ∀ v, (R.nodes v).prev.length = (P.nodes v).prev.length)
    (hn : ∀ v, (R.nodes v).next.length = (P.nodes v).next.length) :
    R.mergedVertexOf b = P.mergedVertexOf a := by
  unfold mergedVertexOf
  simp only [hf, hto, hp, hn]

/-- `detach` of the next entry of the order on both sides. -/
theorem sim_detach {τ : Type} (rank : Nat → Int) (φ : Nat → Nat) (P : SimplifyCT σ)
    (R : SimplifyCT τ) (a : Nat) (rest : List Nat) (h : Sim rank φ P R (a :: rest))
    (hnd : (a :: rest).Nodup) :
    Sim rank φ (P.detach a) (({ R with inq := upd R.inq a false } : SimplifyCT τ).detach a)
      rest := by
  obtain ⟨hPa, hφa⟩ := h.fix a (List.mem_cons_self _ _)
  have hRa : R.live a := by
    have := h.live_map a hPa
    rwa [hφa] at this
  have hfa : (R.branches a).from_ = (P.branches a).from_ := by
    have := h.from_eq a hPa
    rwa [hφa] at this
  have hta : (R.branches a).to_ = (P.branches a).to_ := by
    have := h.to_eq a hPa
    rwa [hφa] at this
  rw [List.nodup_cons] at hnd
  have tR0 : Topo rank ({ R with inq := upd R.inq a false } : SimplifyCT τ) :=
    h.topoR.of_eq rfl rfl rfl rfl rfl
  have hRa0 : ({ R with inq := upd R.inq a false } : SimplifyCT τ).live a := hRa
  refine ⟨h.data, detach_topo rank P a h.topoP hPa, detach_topo rank _ a tR0 hRa0, ?_, ?_, ?_,
    ?_, ?_, ?_, ?_, ?_, ?_, h.no_fn⟩
  · intro b hb
    obtain ⟨hb1, hb2⟩ := (detach_live P a b).1 hb
    refine (detach_live _ a (φ b)).2 ⟨h.live_map b hb1, ?_⟩
    intro e
    exact hb2 (h.inj b a hb1 hPa (e.trans hφa.symm))
  · intro b c hb hc
    exact h.inj b c ((detach_live P a b).1 hb).1 ((detach_live P a c).1 hc).1
  · intro c hc
    obtain ⟨hc1, hc2⟩ := (detach_live _ a c).1 hc
    obtain ⟨b, hb, e⟩ := h.surj c hc1
    refine ⟨b, (detach_live P a b).2 ⟨hb, ?_⟩, e⟩
    intro e2
    rw [e2, hφa] at e
    exact hc2 e.symm
  · intro b hb
    rw [detach_branches, detach_branches]
    exact h.from_eq b ((detach_live P a b).1 hb).1
  · intro b hb
    rw [detach_branches, detach_branches]
    exact h.to_eq b ((detach_live P a b).1 hb).1
  · intro v
    rw [detach_prev, detach_prev]
    have e : ({ R with inq := upd R.inq a false } : SimplifyCT τ).branches a = R.branches a :=
      rfl
    rw [e, hta]
    split_ifs with hv
    · have aP : P.alive v := ⟨a, hPa, Or.inr hv.symm⟩
      have aR : R.alive v := ⟨a, hRa, Or.inr (hta.trans hv.symm)⟩
      have mP : a ∈ (P.nodes v).prev := by
        have := h.topoP.in_prev a hPa
        rwa [← hv] at this
      have mR : a ∈ (R.nodes v).prev := by
        have := h.topoR.in_prev a hRa
        rwa [hta, ← hv] at this
      have l1 := length_filter_ne_of_mem (h.topoP.prev_nodup v aP) mP
      have l2 := length_filter_ne_of_mem (h.topoR.prev_nodup v aR) mR
      have l3 := h.prev_len v
      have e2 : (({ R with inq := upd R.inq a false } : SimplifyCT τ).nodes v).prev =
        (R.nodes v).prev := rfl
      rw [e2]
      omega
    · exact h.prev_len v
  · intro v
    rw [detach_next, detach_next]
    have e : ({ R with inq := upd R.inq a false } : SimplifyCT τ).branches a = R.branches a :=
      rfl
    rw [e, hfa]
    split_ifs with hv
    · have aP : P.alive v := ⟨a, hPa, Or.inl hv.symm⟩
      have aR : R.alive v := ⟨a, hRa, Or.inl (hfa.trans hv.symm)⟩
      have mP : a ∈ (P.nodes v).next := by
        have := h.topoP.in_next a hPa
        rwa [← hv] at this
      have mR : a ∈ (R.nodes v).next := by
        have := h.topoR.in_next a hRa
        rwa [hfa, ← hv] at this
      have l1 := length_filter_ne_of_mem (h.topoP.next_nodup v aP) mP
      have l2 := length_filter_ne_of_mem (h.topoR.next_nodup v aR) mR
      have l3 := h.next_len v
      have e2 : (({ R with inq := upd R.inq a false } : SimplifyCT τ).nodes v).next =
        (R.nodes v).next := rfl
      rw [e2]
      omega
    · exact h.next_len v
  · intro x hx
    obtain ⟨h1, h2⟩ := h.fix x (List.mem_cons_of_mem _ hx)
    refine ⟨(detach_live P a x).2 ⟨h1, ?_⟩, h2⟩
    intro e
    rw [e] at hx
    exact hnd.1 hx
  · intro x
    rw [detach_inq]
    show upd R.inq a false x = true ↔ x ∈ rest
    rw [upd_apply]
    split_ifs with e
    · rw [e]
      constructor
      · intro h0; cases h0
      · intro h0; exact absurd h0 hnd.1
    · rw [h.inq_iff x]
      constructor
      · intro h0
        rcases List.mem_cons.1 h0 with h1 | h1
        · exact absurd h1 e
        · exact h1
      · intro h0; exact List.mem_cons_of_mem _ h0

theorem survivor_consumed_cases (s : SimplifyCT σ) (v : Nat) :
    (s.survivorOf v = (s.nodes v).prev.headD 0 ∧ s.consumedOf v = (s.nodes v).next.headD 0 ∧
        s.inq ((s.nodes v).prev.headD 0) = true) ∨
      (s.survivorOf v = (s.nodes v).next.headD 0 ∧ s.consumedOf v = (s.nodes v).prev.headD 0 ∧
        s.inq ((s.nodes v).prev.headD 0) = false) := by
  unfold survivorOf consumedOf
  by_cases h : s.inq ((s.nodes v).prev.headD 0) = true
  · left
    simp only [h, if_true, and_self]
  · right
    simp only [Bool.not_eq_true] at h
    simp only [h, Bool.false_eq_true, if_false, and_self]

theorem mergeVertex_live (s : SimplifyCT σ) (v b : Nat) :
    (s.mergeVertex v).live b ↔ s.live b ∧ b ≠ s.consumedOf v := by
  unfold live
  rw [mergeVertex_data, mergeVertex_removed, upd_apply]
  split_ifs with e <;> simp [e]

theorem mergeVertex_ends_survivor (s : SimplifyCT σ) (v : Nat) :
    ((s.mergeVertex v).branches (s.survivorOf v)).from_ =
        (s.branches ((s.nodes v).prev.headD 0)).from_ ∧
      ((s.mergeVertex v).branches (s.survivorOf v)).to_ =
        (s.branches ((s.nodes v).next.headD 0)).to_ := by
  obtain ⟨h1, h2⟩ := mergeVertex_endpoints s v (s.survivorOf v)
  rw [h1, h2]
  unfold survivorOf
  by_cases hi : s.inq ((s.nodes v).prev.headD 0) = true
  · simp only [hi, if_true, and_self]
  · simp only [Bool.not_eq_true] at hi
    simp only [hi, Bool.false_eq_true, if_false, if_true, and_self]

theorem mergeVertex_ends_other (s : SimplifyCT σ) (v b : Nat) (hb : b ≠ s.survivorOf v) :
    ((s.mergeVertex v).branches b).from_ = (s.branches b).from_ ∧
      ((s.mergeVertex v).branches b).to_ = (s.branches b).to_ := by
  obtain ⟨h1, h2⟩ := mergeVertex_endpoints s v b
  rw [h1, h2]
  unfold survivorOf at hb
  by_cases hi : s.inq ((s.nodes v).prev.headD 0) = true
  · simp only [hi, if_true] at hb ⊢
    simp only [hb, if_false, and_self]
  · simp only [Bool.not_eq_true] at hi
    simp only [hi, Bool.false_eq_true, if_false] at hb ⊢
    simp only [hb, if_false, and_self]

theorem mergeVertex_inq_of_no_fn (s : SimplifyCT σ) (v : Nat) (h : s.simFn = none) :
    (s.mergeVertex v).inq = s.inq := by
  unfold mergeVertex
  simp only []
  split_ifs
  · rfl
  · unfold mergeIntoNext
    simp [h]

/-- The merge at `v` on both sides: the survivors may differ, the renaming follows them. -/
theorem sim_merge {τ : Type} (rank : Nat → Int) (φ : Nat → Nat) (P : SimplifyCT σ)
    (R : SimplifyCT τ) (v : Nat) (rest : List Nat) (h : Sim rank φ P R rest)
    (h1 : (P.nodes v).prev.length = 1) (h2 : (P.nodes v).next.length = 1) (hv : P.alive v)
    (hrest : P.consumedOf v ∉ rest) :
    ∃ φ', Sim rank φ' (P.mergeVertex v) (R.mergeVertex v) rest := by
  have hvR : R.alive v := (h.alive_iff v).2 hv
  have r1 : (R.nodes v).prev.length = 1 := by rw [h.prev_len]; exact h1
  have r2 : (R.nodes v).next.length = 1 := by rw [h.next_len]; exact h2
  obtain ⟨hp'l, hp't⟩ := h.topoP.prev_ok v _ hv (headD_mem_of_length_one _ h1)
  obtain ⟨hq'l, hq'f⟩ := h.topoP.next_ok v _ hv (headD_mem_of_length_one _ h2)
  obtain ⟨hpl, hpt⟩ := h.topoR.prev_ok v _ hvR (headD_mem_of_length_one _ r1)
  obtain ⟨hql, hqf⟩ := h.topoR.next_ok v _ hvR (headD_mem_of_length_one _ r2)
  generalize hp'e : (P.nodes v).prev.headD 0 = p' at *
  generalize hq'e : (P.nodes v).next.headD 0 = q' at *
  generalize hpe : (R.nodes v).prev.headD 0 = p at *
  generalize hqe : (R.nodes v).next.headD 0 = q at *
  have hφp : φ p' = p := by
    have := h.topoR.in_prev (φ p') (h.live_map p' hp'l)
    rw [h.to_eq p' hp'l, hp't, list_eq_singleton_headD _ r1, hpe] at this
    simpa using this
  have hφq : φ q' = q := by
    have := h.topoR.in_next (φ q') (h.live_map q' hq'l)
    rw [h.from_eq q' hq'l, hq'f, list_eq_singleton_headD _ r2, hqe] at this
    simpa using this
  have hp'q' : p' ≠ q' := by
    intro e
    have r := h.topoP.ranked p' hp'l
    rw [hp't, e, hq'f] at r
    omega
  have hpq : p ≠ q := by
    intro e
    have r := h.topoR.ranked p hpl
    rw [hpt, e, hqf] at r
    omega
  -- survivors and consumed branches
  have hsP : (P.survivorOf v = p' ∧ P.consumedOf v = q' ∧ P.inq p' = true) ∨
      (P.survivorOf v = q' ∧ P.consumedOf v = p' ∧ P.inq p' = false) := by
    have := survivor_consumed_cases P v
    rwa [hp'e, hq'e] at this
  have hsR : (R.survivorOf v = p ∧ R.consumedOf v = q ∧ R.inq p = true) ∨
      (R.survivorOf v = q ∧ R.consumedOf v = p ∧ R.inq p = false) := by
    have := survivor_consumed_cases R v
    rwa [hpe, hqe] at this
  have hendP := mergeVertex_ends_survivor P v
  have hendR := mergeVertex_ends_survivor R v
  rw [hp'e, hq'e] at hendP
  rw [hpe, hqe] at hendR
  have hothP := mergeVertex_ends_other P v
  have hothR := mergeVertex_ends_other R v
  have hliveP := mergeVertex_live P v
  have hliveR := mergeVertex_live R v
  generalize P.survivorOf v = a' at *
  generalize P.consumedOf v = r' at *
  generalize R.survivorOf v = aR at *
  generalize R.consumedOf v = rR at *
  have A0 : P.live a' ∧ P.live r' ∧ a' ≠ r' ∧ R.live aR ∧ R.live rR ∧ aR ≠ rR := by
    rcases hsP with ⟨e1, e2, _⟩ | ⟨e1, e2, _⟩ <;> rcases hsR with ⟨e3, e4, _⟩ | ⟨e3, e4, _⟩ <;>
      rw [e1, e2, e3, e4] <;>
      first
      | exact ⟨hp'l, hq'l, hp'q', hpl, hql, hpq⟩
      | exact ⟨hp'l, hq'l, hp'q', hql, hpl, hpq.symm⟩
      | exact ⟨hq'l, hp'l, hp'q'.symm, hpl, hql, hpq⟩
      | exact ⟨hq'l, hp'l, hp'q'.symm, hql, hpl, hpq.symm⟩
  obtain ⟨hal, hrl, har, haRl, hrRl, haRr⟩ := A0
  have B1 : ∀ b, b ≠ a' → b ≠ r' → b ≠ p' ∧ b ≠ q' := by
    intro b hb1 hb2
    rcases hsP with ⟨e1, e2, _⟩ | ⟨e1, e2, _⟩
    · rw [e1] at hb1; rw [e2] at hb2; exact ⟨hb1, hb2⟩
    · rw [e1] at hb1; rw [e2] at hb2; exact ⟨hb2, hb1⟩
  have B2 : ∀ c, c ≠ p → c ≠ q → c ≠ aR ∧ c ≠ rR := by
    intro c hc1 hc2
    rcases hsR with ⟨e1, e2, _⟩ | ⟨e1, e2, _⟩
    · rw [e1, e2]; exact ⟨hc1, hc2⟩
    · rw [e1, e2]; exact ⟨hc2, hc1⟩
  have B3 : ∀ c, c ≠ aR → c ≠ rR → c ≠ p ∧ c ≠ q := by
    intro c hc1 hc2
    rcases hsR with ⟨e1, e2, _⟩ | ⟨e1, e2, _⟩
    · rw [e1] at hc1; rw [e2] at hc2; exact ⟨hc1, hc2⟩
    · rw [e1] at hc1; rw [e2] at hc2; exact ⟨hc2, hc1⟩
  have A2 : ∀ b, P.live b → b ≠ a' → b ≠ r' → φ b ≠ aR ∧ φ b ≠ rR := by
    intro b hb hb1 hb2
    obtain ⟨n1, n2⟩ := B1 b hb1 hb2
    apply B2
    · intro e; exact n1 (h.inj b p' hb hp'l (e.trans hφp.symm))
    · intro e; exact n2 (h.inj b q' hb hq'l (e.trans hφq.symm))
  have A3 : ∀ c, R.live c → c ≠ aR → c ≠ rR → ∃ b, P.live b ∧ b ≠ a' ∧ b ≠ r' ∧ φ b = c := by
    intro c hc hc1 hc2
    obtain ⟨n1, n2⟩ := B3 c hc1 hc2
    obtain ⟨b, hb, e⟩ := h.surj c hc
    have m1 : b ≠ p' := by
      intro e2; rw [e2, hφp] at e; exact n1 e.symm
    have m2 : b ≠ q' := by
      intro e2; rw [e2, hφq] at e; exact n2 e.symm
    refine ⟨b, hb, ?_, ?_, e⟩
    · rcases hsP with ⟨e1, _, _⟩ | ⟨e1, _, _⟩
      · rw [e1]; exact m1
      · rw [e1]; exact m2
    · rcases hsP with ⟨_, e1, _⟩ | ⟨_, e1, _⟩
      · rw [e1]; exact m2
      · rw [e1]; exact m1
  have hfixa : a' ∈ rest → aR = a' := by
    intro ha
    rcases hsP with ⟨e1, e2, _⟩ | ⟨e1, e2, _⟩
    · -- `prev` survives in priority mode
      rw [e1] at ha
      have e3 : p = p' := by
        rw [← hφp]; exact (h.fix p' ha).2
      have : R.inq p = true := (h.inq_iff p).2 (by rw [e3]; exact ha)
      rcases hsR with ⟨e4, _, _⟩ | ⟨_, _, e5⟩
      · rw [e4, e1, e3]
      · rw [this] at e5; cases e5
    · -- `next` survives in priority mode
      rw [e1] at ha
      have e3 : q = q' := by
        rw [← hφq]; exact (h.fix q' ha).2
      have : R.inq p = false := by
        by_contra hne
        have hin : p ∈ rest := (h.inq_iff p).1 (by simpa using hne)
        obtain ⟨f1, f2⟩ := h.fix p hin
        have : p = p' := h.inj p p' f1 hp'l (f2.trans hφp.symm)
        rw [this, ← e2] at hin
        exact hrest hin
      rcases hsR with ⟨_, _, e5⟩ | ⟨e4, _, _⟩
      · rw [this] at e5; cases e5
      · rw [e4, e1, e3]
  refine ⟨fun b => if b = a' then aR else φ b, ?_⟩
  refine ⟨?_, mergeVertex_topo rank P v h.topoP h1 h2 hv,
    mergeVertex_topo rank R v h.topoR r1 r2 hvR, ?_, ?_, ?_, ?_, ?_, ?_, ?_, ?_, ?_, ?_⟩
  · rw [mergeVertex_data, mergeVertex_data]; exact h.data
  · intro b hb
    obtain ⟨hb1, hb2⟩ := (hliveP b).1 hb
    rw [hliveR]
    split_ifs with e
    · exact ⟨haRl, haRr⟩
    · exact ⟨h.live_map b hb1, (A2 b hb1 e hb2).2⟩
  · intro b c hb hc
    obtain ⟨hb1, hb2⟩ := (hliveP b).1 hb
    obtain ⟨hc1, hc2⟩ := (hliveP c).1 hc
    split_ifs with e1 e2 e2
    · intro _; rw [e1, e2]
    · intro e; exact absurd e.symm (A2 c hc1 e2 hc2).1
    · intro e; exact absurd e (A2 b hb1 e1 hb2).1
    · exact h.inj b c hb1 hc1
  · intro c hc
    obtain ⟨hc1, hc2⟩ := (hliveR c).1 hc
    by_cases e : c = aR
    · refine ⟨a', (hliveP a').2 ⟨hal, har⟩, ?_⟩
      simp [e]
    · obtain ⟨b, hb, n1, n2, e3⟩ := A3 c hc1 e hc2
      refine ⟨b, (hliveP b).2 ⟨hb, n2⟩, ?_⟩
      simp [n1, e3]
  · intro b hb
    obtain ⟨hb1, hb2⟩ := (hliveP b).1 hb
    split_ifs with e
    · rw [e, hendR.1, hendP.1, ← hφp]
      exact h.from_eq p' hp'l
    · rw [(hothR (φ b) (A2 b hb1 e hb2).1).1, (hothP b e).1]
      exact h.from_eq b hb1
  · intro b hb
    obtain ⟨hb1, hb2⟩ := (hliveP b).1 hb
    split_ifs with e
    · rw [e, hendR.2, hendP.2, ← hφq]
      exact h.to_eq q' hq'l
    · rw [(hothR (φ b) (A2 b hb1 e hb2).1).2, (hothP b e).2]
      exact h.to_eq b hb1
  · intro w
    rw [(mergeVertex_lengths R v w).1, (mergeVertex_lengths P v w).1]
    exact h.prev_len w
  · intro w
    rw [(mergeVertex_lengths R v w).2, (mergeVertex_lengths P v w).2]
    exact h.next_len w
  · intro x hx
    obtain ⟨f1, f2⟩ := h.fix x hx
    refine ⟨(hliveP x).2 ⟨f1, fun e => hrest (e ▸ hx)⟩, ?_⟩
    split_ifs with e
    · rw [e]; exact hfixa (e ▸ hx)
    · exact f2
  · intro x
    rw [mergeVertex_inq_of_no_fn R v h.no_fn]
    exact h.inq_iff x
  · rw [mergeVertex_simFn]; exact h.no_fn

/-- One replayed removal mirrors the removal of the same candidate in priority mode, provided
the entries still to come stay un-removed in priority mode. -/
theorem sim_remove {τ : Type} (rank : Nat → Int) (φ : Nat → Nat) (P : SimplifyCT σ)
    (R : SimplifyCT τ) (a : Nat) (rest : List Nat) (h : Sim rank φ P R (a :: rest))
    (hnd : (a :: rest).Nodup) (hc : P.isCandidate (P.branches a) = true)
    (hrest : ∀ x, x ∈ rest → (P.removeArc a).removed x = false) :
    R.isCandidate (R.branches a) = true ∧
      ∃ φ', Sim rank φ' (P.removeArc a) (R.replayRemove a) rest := by
  obtain ⟨hPa, hφa⟩ := h.fix a (List.mem_cons_self _ _)
  have hfa : (R.branches a).from_ = (P.branches a).from_ := by
    have := h.from_eq a hPa
    rwa [hφa] at this
  have hta : (R.branches a).to_ = (P.branches a).to_ := by
    have := h.to_eq a hPa
    rwa [hφa] at this
  have hcR : R.isCandidate (R.branches a) = true := by
    rw [isCandidate_congr P R (P.branches a) (R.branches a) hfa hta
      (fun w => ⟨h.prev_len w, h.next_len w⟩)]
    exact hc
  have hd := sim_detach rank φ P R a rest h hnd
  have hmv : ({ R with inq := upd R.inq a false } : SimplifyCT τ).mergedVertexOf a =
      P.mergedVertexOf a :=
    mergedVertexOf_congr P _ a a hfa hta h.prev_len h.next_len
  refine ⟨hcR, ?_⟩
  unfold replayRemove
  rw [removeArc_eq, removeArc_eq, hmv, hd.prev_len, hd.next_len]
  by_cases hm : ((P.detach a).nodes (P.mergedVertexOf a)).prev.length = 1 ∧
      ((P.detach a).nodes (P.mergedVertexOf a)).next.length = 1
  · rw [if_pos hm, if_pos hm]
    obtain ⟨_, hal⟩ := mergeTest_live rank P a h.topoP hc hm
    have hcons : (P.detach a).consumedOf (P.mergedVertexOf a) ∉ rest := by
      intro hin
      have := hrest _ hin
      rw [removeArc_eq, if_pos hm, notifyRemoved_removed, mergeVertex_removed, upd_same] at this
      cases this
    obtain ⟨φ', hs⟩ := sim_merge rank φ _ _ _ rest hd hm.1 hm.2 hal hcons
    refine ⟨φ', ?_⟩
    exact (hs.of_eq_left (by simp) (by simp) (by simp) (by simp) (by simp)).of_eq_right
      (by simp) (by simp) (by simp) (by simp) (by simp) (by simp) (by simp)
  · rw [if_neg hm, if_neg hm]
    refine ⟨φ, ?_⟩
    exact (hd.of_eq_left (by simp) (by simp) (by simp) (by simp) (by simp)).of_eq_right
      (by simp) (by simp) (by simp) (by simp) (by simp) (by simp) (by simp)

/-! ### The run of the queue loop, iteration by iteration -/

theorem loopStep_of_empty (s : SimplifyCT σ) (h : s.queue = []) : s.loopStep = s := by
  unfold loopStep queueTop
  rw [h]

theorem queueLoop_succ (i : Nat) : ∀ s : SimplifyCT σ,
    queueLoop (i + 1) s = (queueLoop i s).loopStep := by
  induction i with
  | zero =>
    intro s
    unfold queueLoop
    split_ifs with hq
    · rfl
    · have : s.queue = [] := by
        cases hs : s.queue with
        | nil => rfl
        | cons x xs => simp [hs] at hq
      rw [loopStep_of_empty s this]
  | succ k ih =>
    intro s
    rw [queueLoop]
    split_ifs with hq
    · rw [ih]
      conv_rhs => rw [queueLoop, if_pos hq]
    · have : s.queue = [] := by
        cases hs : s.queue with
        | nil => rfl
        | cons x xs => simp [hs] at hq
      conv_rhs => rw [queueLoop, if_neg hq]
      rw [loopStep_of_empty s this]

theorem queueLoop_add (i m : Nat) (s : SimplifyCT σ) :
    queueLoop (i + m) s = queueLoop m (queueLoop i s) := by
  induction m with
  | zero => rfl
  | succ m ih =>
    rw [← Nat.add_assoc, queueLoop_succ, ih, ← queueLoop_succ]

theorem queueLoop_of_empty (m : Nat) (s : SimplifyCT σ) (h : s.queue = []) :
    queueLoop m s = s := by
  cases m with
  | zero => rfl
  | succ m =>
    unfold queueLoop
    rw [h]
    simp

theorem loopStep_some (s x : SimplifyCT σ) (ano : Nat) (h : s.queueTop = some ano)
    (hx : x = { s with queue := s.queue.erase ano, inq := upd s.inq ano false }) :
    s.loopStep =
      (if !x.removed ano then
        if x.invalid ano then
          ({ x.updateWeight ano with
            invalid := upd (x.updateWeight ano).invalid ano false }).addToQueue ano
        else if x.isCandidate (x.branches ano) then
          { x.removeArc ano with order := (x.removeArc ano).order ++ [ano] }
        else x
      else x) := by
  subst hx
  unfold loopStep
  rw [h]

/-- An iteration of the queue loop either leaves the topology and `order` alone or removes a
queued, un-removed candidate `a` and appends it to `order`. -/
theorem loopStep_cases (s : SimplifyCT σ) :
    (s.loopStep.order = s.order ∧ s.loopStep.data = s.data ∧
        s.loopStep.branches = s.branches ∧ s.loopStep.nodes = s.nodes ∧
        s.loopStep.removed = s.removed ∧ s.loopStep.vArray = s.vArray) ∨
      ∃ (a : Nat) (s0 : SimplifyCT σ), s0.data = s.data ∧ s0.branches = s.branches ∧
        s0.nodes = s.nodes ∧ s0.removed = s.removed ∧ s0.vArray = s.vArray ∧
        s.removed a = false ∧ s0.isCandidate (s0.branches a) = true ∧
        s.loopStep.order = s.order ++ [a] ∧ s.loopStep.data = (s0.removeArc a).data ∧
        s.loopStep.branches = (s0.removeArc a).branches ∧
        s.loopStep.nodes = (s0.removeArc a).nodes ∧
        s.loopStep.removed = (s0.removeArc a).removed ∧
        s.loopStep.vArray = (s0.removeArc a).vArray := by
  cases htop : s.queueTop with
  | none =>
    left
    unfold loopStep
    rw [htop]
    exact ⟨rfl, rfl, rfl, rfl, rfl, rfl⟩
  | some ano =>
    rw [loopStep_some s _ ano htop rfl]
    have e1 : ({ s with queue := s.queue.erase ano, inq := upd s.inq ano false } :
        SimplifyCT σ).removed = s.removed := rfl
    have e2 : ({ s with queue := s.queue.erase ano, inq := upd s.inq ano false } :
        SimplifyCT σ).order = s.order := rfl
    have e3 : ({ s with queue := s.queue.erase ano, inq := upd s.inq ano false } :
        SimplifyCT σ).data = s.data := rfl
    have e4 : ({ s with queue := s.queue.erase ano, inq := upd s.inq ano false } :
        SimplifyCT σ).branches = s.branches := rfl
    have e5 : ({ s with queue := s.queue.erase ano, inq := upd s.inq ano false } :
        SimplifyCT σ).nodes = s.nodes := rfl
    have e6 : ({ s with queue := s.queue.erase ano, inq := upd s.inq ano false } :
        SimplifyCT σ).vArray = s.vArray := rfl
    generalize ({ s with queue := s.queue.erase ano, inq := upd s.inq ano false } :
        SimplifyCT σ) = x at *
    by_cases h1 : x.removed ano = true
    · left
      rw [h1]
      exact ⟨e2, e3, e4, e5, e1, e6⟩
    · have h1' : x.removed ano = false := by simpa using h1
      rw [h1']
      by_cases h2 : x.invalid ano = true
      · left
        rw [h2]
        refine ⟨?_, ?_, ?_, ?_, ?_, ?_⟩
        · simpa using e2
        · simpa using e3
        · simpa using e4
        · simpa using e5
        · simpa using e1
        · simpa using e6
      · have h2' : x.invalid ano = false := by simpa using h2
        rw [h2']
        by_cases h3 : x.isCandidate (x.branches ano) = true
        · right
          rw [h3]
          refine ⟨ano, x, e3, e4, e5, e1, e6, ?_, h3, ?_, rfl, rfl, rfl, rfl, rfl⟩
          · rw [← e1]; exact h1'
          · show (x.removeArc ano).order ++ [ano] = s.order ++ [ano]
            rw [removeArc_order, e2]
        · have h3' : x.isCandidate (x.branches ano) = false := by simpa using h3
          left
          rw [h3']
          exact ⟨e2, e3, e4, e5, e1, e6⟩

theorem loopStep_ext (s : SimplifyCT σ) :
    s.order <+: s.loopStep.order ∧ (∀ x, s.removed x = true → s.loopStep.removed x = true) ∧
      (∀ x, x ∈ s.loopStep.order → x ∉ s.order → s.removed x = false) ∧
      s.loopStep.order.length ≤ s.order.length + 1 := by
  rcases loopStep_cases s with ⟨h1, _, _, _, h5, _⟩ | ⟨a, s0, _, _, _, e4, _, hr, _, ho, _, _, _,
    er, _⟩
  · rw [h1, h5]
    exact ⟨List.prefix_refl _, fun x hx => hx, fun x hx hn => absurd hx hn, by omega⟩
  · rw [ho, er]
    refine ⟨List.prefix_append _ _, ?_, ?_, by simp⟩
    · intro x hx
      apply removeArc_removed_mono
      rw [e4]; exact hx
    · intro x hx hn
      rcases List.mem_append.1 hx with h | h
      · exact absurd h hn
      · simp at h; rw [h]; exact hr

theorem queueLoop_ext (m : Nat) (s : SimplifyCT σ) :
    s.order <+: (queueLoop m s).order ∧
      (∀ x, s.removed x = true → (queueLoop m s).removed x = true) ∧
      (∀ x, x ∈ (queueLoop m s).order → x ∉ s.order → s.removed x = false) := by
  induction m with
  | zero => exact ⟨List.prefix_refl _, fun x hx => hx, fun x hx hn => absurd hx hn⟩
  | succ m ih =>
    rw [queueLoop_succ]
    obtain ⟨a1, a2, a3⟩ := ih
    obtain ⟨b1, b2, b3, _⟩ := loopStep_ext (queueLoop m s)
    refine ⟨a1.trans b1, fun x hx => b2 x (a2 x hx), ?_⟩
    intro x hx hn
    by_cases hin : x ∈ (queueLoop m s).order
    · exact a3 x hin hn
    · have := b3 x hx hin
      by_contra hne
      have ht : s.removed x = true := by simpa using hne
      rw [a2 x ht] at this
      cases this

/-- Every intermediate length of `order` is passed through. -/
theorem queueLoop_order_length (m : Nat) (s : SimplifyCT σ) (t : Nat)
    (h1 : s.order.length ≤ t) (h2 : t ≤ (queueLoop m s).order.length) :
    ∃ i, (queueLoop i s).order.length = t := by
  induction m with
  | zero =>
    refine ⟨0, ?_⟩
    have : (queueLoop 0 s).order.length = s.order.length := rfl
    omega
  | succ m ih =>
    by_cases h : t ≤ (queueLoop m s).order.length
    · exact ih h
    · refine ⟨m + 1, ?_⟩
      rw [queueLoop_succ] at h2 ⊢
      have := (loopStep_ext (queueLoop m s)).2.2.2
      omega

/-! ### Replay of a priority-mode order -/

theorem markQueued_inq (l : List Nat) : ∀ (s : SimplifyCT σ) (x : Nat),
    (markQueued s l).inq x = true ↔ x ∈ l ∨ s.inq x = true := by
  unfold markQueued
  induction l with
  | nil => intro s x; simp
  | cons a l ih =>
    intro s x
    simp only [List.foldl_cons]
    rw [ih]
    simp only [upd_apply, List.mem_cons]
    by_cases e : x = a
    · simp [e]
    · simp [e]

theorem replayTopk_append_ok (l : List Nat) (a : Nat) : ∀ (s : SimplifyCT σ),
    replayTopk s l = .ok (l.foldl replayRemove s) →
    (l.foldl replayRemove s).isCandidate ((l.foldl replayRemove s).branches a) = true →
    replayTopk s (l ++ [a]) = .ok ((l ++ [a]).foldl replayRemove s) := by
  induction l with
  | nil =>
    intro s _ hc
    simp only [List.foldl_nil] at hc
    simp [replayTopk, hc]
  | cons x l ih =>
    intro s h hc
    simp only [List.cons_append, List.foldl_cons] at h hc ⊢
    unfold replayTopk at h ⊢
    by_cases hx : s.isCandidate (s.branches x) = true
    · simp only [hx, Bool.not_true, Bool.false_eq_true, if_false] at h ⊢
      exact ih _ h hc
    · simp only [Bool.not_eq_true] at hx
      simp [hx] at h

theorem foldl_replayRemove_removed (l : List Nat) : ∀ (s : SimplifyCT σ),
    (∀ x, s.removed x = true → (l.foldl replayRemove s).removed x = true) ∧
      (∀ x, x ∈ l → (l.foldl replayRemove s).removed x = true) := by
  induction l with
  | nil => intro s; simp
  | cons a l ih =>
    intro s
    obtain ⟨h1, h2⟩ := ih (s.replayRemove a)
    simp only [List.foldl_cons]
    refine ⟨fun x hx => h1 x (removeArc_removed_mono _ a x hx), ?_⟩
    intro x hx
    rcases List.mem_cons.1 hx with e | hx
    · rw [e]
      exact h1 a (removeArc_removed_self _ a)
    · exact h2 x hx

/-- The order produced by priority mode lists arc ids only, none of them twice. -/
theorem simplify_order_nodup (f : Option (SimFunction σ)) (sim0 : σ) (d : ContourTreeData) :
    (simplify f sim0 d).order.Nodup ∧ ∀ x, x ∈ (simplify f sim0 d).order → x < d.noArcs := by
  obtain ⟨hinv, hd, _⟩ := afterQueueLoop_spec f sim0 d
  have ho : (simplify f sim0 d).order =
      (afterQueueLoop f sim0 d).order ++ (afterQueueLoop f sim0 d).unremoved := rfl
  have hu : ∀ x, x ∈ (afterQueueLoop f sim0 d).unremoved ↔
      x < d.noArcs ∧ (afterQueueLoop f sim0 d).removed x = false := by
    intro x
    simp [unremoved, hd]
  rw [ho]
  constructor
  · apply List.Nodup.append hinv.order_nodup
    · exact (List.nodup_range _).filter _
    · intro x hx1 hx2
      have h1 := hinv.order_removed x hx1
      have h2 := ((hu x).1 hx2).2
      rw [h1] at h2; cases h2
  · intro x hx
    rcases List.mem_append.1 hx with hx | hx
    · have := hinv.order_lt x hx; rwa [hd] at this
    · exact ((hu x).1 hx).1

/-- The `order` of every intermediate state of the queue loop is a prefix of the final order,
and the entries still to come are un-removed in that state. -/
theorem queueLoop_order_prefix (f : Option (SimFunction σ)) (sim0 : σ) (d : ContourTreeData)
    (i : Nat) :
    (queueLoop i (initSimplification f sim0 d)).order <+: (simplify f sim0 d).order ∧
      ∀ x, x ∈ (simplify f sim0 d).order →
        x ∉ (queueLoop i (initSimplification f sim0 d)).order →
        (queueLoop i (initSimplification f sim0 d)).removed x = false := by
  obtain ⟨_, _, hq⟩ := afterQueueLoop_spec f sim0 d
  have hfin : afterQueueLoop f sim0 d =
      queueLoop (loopFuel d.noArcs) (queueLoop i (initSimplification f sim0 d)) := by
    rw [← queueLoop_add, Nat.add_comm, queueLoop_add]
    exact (queueLoop_of_empty i _ hq).symm
  obtain ⟨a1, a2, a3⟩ := queueLoop_ext (loopFuel d.noArcs)
    (queueLoop i (initSimplification f sim0 d))
  rw [← hfin] at a1 a2 a3
  have ho : (simplify f sim0 d).order =
      (afterQueueLoop f sim0 d).order ++ (afterQueueLoop f sim0 d).unremoved := rfl
  rw [ho]
  refine ⟨a1.trans (List.prefix_append _ _), ?_⟩
  intro x hx hn
  rcases List.mem_append.1 hx with hx | hx
  · exact a3 x hx hn
  · have hf : (afterQueueLoop f sim0 d).removed x = false := by
      simpa [unremoved] using (List.mem_filter.1 hx).2
    by_contra hne
    have ht : (queueLoop i (initSimplification f sim0 d)).removed x = true := by
      simpa using hne
    rw [a2 x ht] at hf
    cases hf

/-- Replay mode starts in a state that mirrors the initial state of priority mode. -/
theorem sim_init (rank : Nat → Int) (F : SimFunction σ) (sim0 : σ) (d : ContourTreeData)
    (hr : Ranked rank d) (ord : List Nat) (hlt : ∀ x, x ∈ ord → x < d.noArcs) :
    Sim rank id (initSimplification (some F) sim0 d) (replayStart d ord) ord := by
  obtain ⟨hd, hb, hn, hrm, hva, _⟩ := initSimplification_fields (some F) sim0 d
  obtain ⟨k1, k2, k3⟩ := foldl_initArc_range (some F) sim0 d d.noArcs
  obtain ⟨hd', hb', hn', hrm', hva', _⟩ := initSimplification_fields none () d
  obtain ⟨k1', k2', k3'⟩ := foldl_initArc_range (none : Option (SimFunction Unit)) () d d.noArcs
  have htP := initSimplification_topo rank (some F) sim0 d hr
  have htR := initSimplification_topo rank (none : Option (SimFunction Unit)) () d hr
  have hfn : (initSimplification (none : Option (SimFunction Unit)) () d).simFn = none :=
    (initSimplification_spec none () d).2.2.2
  have hinq : (initSimplification (none : Option (SimFunction Unit)) () d).inq =
      fun _ => false := by
    have := (foldl_initArc_frame (List.range d.noArcs)
      (fresh (none : Option (SimFunction Unit)) () d)).2.2.2.2.2.1
    exact this
  have hmq := markQueued_eq ord (initSimplification (none : Option (SimFunction Unit)) () d)
  have hmi := markQueued_inq ord (initSimplification (none : Option (SimFunction Unit)) () d)
  unfold replayStart
  generalize markQueued (initSimplification (none : Option (SimFunction Unit)) () d) ord = R
    at hmq hmi
  generalize initSimplification (none : Option (SimFunction Unit)) () d = R0 at *
  generalize initSimplification (some F) sim0 d = P at *
  have eR : R.data = R0.data ∧ R.branches = R0.branches ∧ R.nodes = R0.nodes ∧
      R.removed = R0.removed ∧ R.vArray = R0.vArray ∧ R.simFn = R0.simFn := by
    rw [hmq]
    exact ⟨rfl, rfl, rfl, rfl, rfl, rfl⟩
  obtain ⟨r1, r2, r3, r4, r5, r6⟩ := eR
  have hbr : R.branches = P.branches := by
    rw [r2, hb, hb']
    funext b
    rw [k1, k1']
  have hnp : ∀ v, (R.nodes v).prev = (P.nodes v).prev := by
    intro v; rw [r3, hn, hn', k2, k2']
  have hnn : ∀ v, (R.nodes v).next = (P.nodes v).next := by
    intro v; rw [r3, hn, hn', k3, k3']
  have hlP : ∀ b, P.live b ↔ b < d.noArcs := by
    intro b; unfold live; rw [hd, hrm]; simp
  have hlR : ∀ b, R.live b ↔ b < d.noArcs := by
    intro b; unfold live; rw [r1, r4, hd', hrm']; simp
  refine ⟨by rw [r1, hd, hd'], htP, htR.of_eq r1 r2 r3 r4 r5, ?_, ?_, ?_, ?_, ?_, ?_, ?_, ?_, ?_,
    by rw [r6]; exact hfn⟩
  · intro b hb0; exact (hlR b).2 ((hlP b).1 hb0)
  · intro b c _ _ e; exact e
  · intro c hc; exact ⟨c, (hlP c).2 ((hlR c).1 hc), rfl⟩
  · intro b _; rw [hbr]; rfl
  · intro b _; rw [hbr]; rfl
  · intro v; rw [hnp]
  · intro v; rw [hnn]
  · intro x hx; exact ⟨(hlP x).2 (hlt x hx), rfl⟩
  · intro x
    rw [hmi, hinq]
    simp

/-- Replaying the removals priority mode has made so far never fails a candidacy check and
leads to a state that mirrors the priority-mode state. -/
theorem replay_mirrors (rank : Nat → Int) (F : SimFunction σ) (sim0 : σ) (d : ContourTreeData)
    (hr : Ranked rank d) (i : Nat) :
    ∃ (φ : Nat → Nat) (rest : List Nat),
      (simplify (some F) sim0 d).order =
        (queueLoop i (initSimplification (some F) sim0 d)).order ++ rest ∧
      Sim rank φ (queueLoop i (initSimplification (some F) sim0 d))
        ((queueLoop i (initSimplification (some F) sim0 d)).order.foldl replayRemove
          (replayStart d (simplify (some F) sim0 d).order)) rest ∧
      replayTopk (replayStart d (simplify (some F) sim0 d).order)
          (queueLoop i (initSimplification (some F) sim0 d)).order =
        .ok ((queueLoop i (initSimplification (some F) sim0 d)).order.foldl replayRemove
          (replayStart d (simplify (some F) sim0 d).order)) := by
  obtain ⟨hnd, hlt⟩ := simplify_order_nodup (some F) sim0 d
  induction i with
  | zero =>
    have ho : (queueLoop 0 (initSimplification (some F) sim0 d)).order = [] :=
      (initSimplification_spec (some F) sim0 d).2.2.1
    refine ⟨id, (simplify (some F) sim0 d).order, by rw [ho]; rfl, ?_, ?_⟩
    · rw [ho]
      exact sim_init rank F sim0 d hr _ hlt
    · rw [ho]
      rfl
  | succ i ih =>
    obtain ⟨φ, rest, h1, h2, h3⟩ := ih
    obtain ⟨hpre, hun⟩ := queueLoop_order_prefix (some F) sim0 d (i + 1)
    rw [queueLoop_succ] at hpre hun ⊢
    generalize queueLoop i (initSimplification (some F) sim0 d) = P at *
    generalize hR0 : replayStart d (simplify (some F) sim0 d).order = R0 at *
    generalize hord : (simplify (some F) sim0 d).order = ord at *
    rcases loopStep_cases P with ⟨c1, c2, c3, c4, c5, c6⟩ | ⟨a, s0, d1, d2, d3, d4, d5, hra, hca,
      ho, e1, e2, e3, e4, e5⟩
    · rw [c1]
      exact ⟨φ, rest, h1, h2.of_eq_left c2 c3 c4 c5 c6, h3⟩
    · rw [ho] at hpre hun ⊢
      obtain ⟨t, ht⟩ := hpre
      have hrest : rest = a :: t := by
        have : P.order ++ rest = P.order ++ (a :: t) := by
          rw [← h1, ← ht]; simp
        exact List.append_cancel_left this
      rw [hrest] at h1 h2
      have hnd2 : (a :: t).Nodup := by
        rw [h1] at hnd
        exact (List.nodup_append.1 hnd).2.1
      have hs0 : Sim rank φ s0 (P.order.foldl replayRemove R0) (a :: t) :=
        h2.of_eq_left d1 d2 d3 d4 d5
      have hrest2 : ∀ x, x ∈ t → (s0.removeArc a).removed x = false := by
        intro x hx
        rw [← e4]
        apply hun x
        · rw [h1]; simp [hx]
        · intro hin
          rw [h1] at hnd
          have hdis := (List.nodup_append.1 hnd).2.2
          rcases List.mem_append.1 hin with h | h
          · exact hdis h (List.mem_cons_of_mem _ hx)
          · simp at h
            rw [h] at hx
            exact (List.nodup_cons.1 hnd2).1 hx
      obtain ⟨hcR, φ', hs'⟩ := sim_remove rank φ s0 _ a t hs0 hnd2 hca hrest2
      refine ⟨φ', t, by rw [h1]; simp, ?_, ?_⟩
      · rw [List.foldl_append]
        exact hs'.of_eq_left e1 e2 e3 e4 e5
      · exact replayTopk_append_ok _ a R0 h3 hcR

theorem length_le_of_nodup_lt (l : List Nat) (n : Nat) (hnd : l.Nodup)
    (hlt : ∀ x, x ∈ l → x < n) : l.length ≤ n := by
  rw [← List.toFinset_card_of_nodup hnd, ← Finset.card_range n]
  apply Finset.card_le_card
  intro x hx
  rw [List.mem_toFinset] at hx
  rw [Finset.mem_range]
  exact hlt x hx

theorem saddleData_valid : ValidTree saddleData := by
  have h1 : ∀ u, u < 6 → arcAdj saddleData u 2 ∨ u = 2 ∨
      (arcAdj saddleData u 3 ∧ arcAdj saddleData 3 2) := by decide
  have h2 : ∀ u, u < 6 → arcAdj saddleData 2 u ∨ u = 2 ∨
      (arcAdj saddleData 2 3 ∧ arcAdj saddleData 3 u) := by decide
  refine ⟨by decide, ?_, rfl, by decide, by decide, by decide, by decide⟩
  intro u v hu hv
  have a : Relation.ReflTransGen (arcAdj saddleData) u 2 := by
    rcases h1 u hu with h | h | ⟨h, h'⟩
    · exact Relation.ReflTransGen.single h
    · rw [h]
    · exact (Relation.ReflTransGen.single h).trans (Relation.ReflTransGen.single h')
  have b : Relation.ReflTransGen (arcAdj saddleData) 2 v := by
    rcases h2 v hv with h | h | ⟨h, h'⟩
    · exact Relation.ReflTransGen.single h
    · rw [h]
    · exact (Relation.ReflTransGen.single h).trans (Relation.ReflTransGen.single h')
  exact a.trans b

/-- Claim C7 fails as stated.  On the valid tree `saddleData` with the weights
`[1, 2, 9, 3, 4]` priority mode produces the order `[0, 3, 4]`; its first removal merges at
node 2 and keeps branch 1 (then in the queue), consuming branch 2.  Replay with `topk = 2`
removes the same entry but keeps branch 2 and consumes branch 1, which is not listed in the
order: the `removed` flags of branches 1 and 2 differ.  With `topk = 1` the surviving root
holds the arcs `[4, 2, 1]` instead of `[4, 1, 2]`. -/
theorem simplifyReplay_topk_picks_other_survivor :
    ValidTree saddleData ∧
      (simplify (some saddleSim) () saddleData).order = [0, 3, 4] ∧
      (queueLoop 1 (initSimplification (some saddleSim) () saddleData)).order = [0] ∧
      ((queueLoop 1 (initSimplification (some saddleSim) () saddleData)).removed 1,
        (queueLoop 1 (initSimplification (some saddleSim) () saddleData)).removed 2) =
        (false, true) ∧
      (simplifyReplay saddleData [0, 3, 4] 2 0 []).toOption.map
        (fun R => (R.removed 1, R.removed 2)) = some (true, false) ∧
      (queueLoop 3 (initSimplification (some saddleSim) () saddleData)).order = [0, 3] ∧
      ((queueLoop 3 (initSimplification (some saddleSim) () saddleData)).branches 4).arcs =
        [4, 1, 2] ∧
      (simplifyReplay saddleData [0, 3, 4] 1 0 []).toOption.map
        (fun R => (R.branches 4).arcs) = some [4, 2, 1] :=
  ⟨saddleData_valid, by decide!⟩

/-- Claim C7, amended: let `order` (length `n`) be the result of priority mode on a valid
contour tree with an importance function and let `0 < k ≤ n`.  Replay mode with `topk = k`
passes every candidacy check and returns the state reached by `removeArc` on exactly the first
`n - k` entries of `order`; priority mode passes through states whose `order` is these `n - k`
entries, and the replay result mirrors each of them: the branches listed in `order` have the
same `removed` flags and, un-removed, the same endpoints, every node has the same number of
incoming and outgoing entries, and the un-removed branches correspond one-to-one with equal
endpoints (`Mirrors`). -/
theorem simplifyReplay_topk_mirrors (F : SimFunction σ) (sim0 : σ) (d : ContourTreeData)
    (k : Nat) (th : Int) (wts : List Int) (hv : ValidTree d)
    (hsz : d.noArcs < 18446744073709551616) (hk : 0 < k)
    (hkn : k ≤ (simplify (some F) sim0 d).order.length) :
    simplifyReplay d (simplify (some F) sim0 d).order (k : Int) th wts =
        .ok (replayPrefix (replayStart d (simplify (some F) sim0 d).order)
          (simplify (some F) sim0 d).order ((simplify (some F) sim0 d).order.length - k)) ∧
      (∃ i, (queueLoop i (initSimplification (some F) sim0 d)).order =
        (simplify (some F) sim0 d).order.take ((simplify (some F) sim0 d).order.length - k)) ∧
      ∀ i, (queueLoop i (initSimplification (some F) sim0 d)).order.length =
          (simplify (some F) sim0 d).order.length - k →
        Mirrors (simplify (some F) sim0 d).order
          (queueLoop i (initSimplification (some F) sim0 d))
          (replayPrefix (replayStart d (simplify (some F) sim0 d).order)
            (simplify (some F) sim0 d).order ((simplify (some F) sim0 d).order.length - k)) := by
  obtain ⟨rank, hr⟩ := validTree_ranked d hv
  obtain ⟨r, hr1⟩ := afterQueueLoop_single_root F sim0 d hv
  obtain ⟨hnd, hlt⟩ := simplify_order_nodup (some F) sim0 d
  have hnle := length_le_of_nodup_lt _ _ hnd hlt
  have ho : (simplify (some F) sim0 d).order =
      (afterQueueLoop (some F) sim0 d).order ++ (afterQueueLoop (some F) sim0 d).unremoved := rfl
  have hlen : (simplify (some F) sim0 d).order.length =
      (queueLoop (loopFuel d.noArcs) (initSimplification (some F) sim0 d)).order.length + 1 := by
    rw [ho, hr1]
    simp [afterQueueLoop]
  have hinit : (initSimplification (some F) sim0 d).order.length = 0 := by
    rw [(initSimplification_spec (some F) sim0 d).2.2.1]
    rfl
  have hinv0 := (initSimplification_spec (some F) sim0 d).1
  -- what holds at every iteration that has made `n - k` removals
  have key : ∀ i, (queueLoop i (initSimplification (some F) sim0 d)).order.length =
      (simplify (some F) sim0 d).order.length - k →
      (queueLoop i (initSimplification (some F) sim0 d)).order =
        (simplify (some F) sim0 d).order.take ((simplify (some F) sim0 d).order.length - k) ∧
      replayTopk (replayStart d (simplify (some F) sim0 d).order)
          ((simplify (some F) sim0 d).order.take ((simplify (some F) sim0 d).order.length - k)) =
        .ok (replayPrefix (replayStart d (simplify (some F) sim0 d).order)
          (simplify (some F) sim0 d).order ((simplify (some F) sim0 d).order.length - k)) ∧
      Mirrors (simplify (some F) sim0 d).order
        (queueLoop i (initSimplification (some F) sim0 d))
        (replayPrefix (replayStart d (simplify (some F) sim0 d).order)
          (simplify (some F) sim0 d).order ((simplify (some F) sim0 d).order.length - k)) := by
    intro i hi
    obtain ⟨φ, rest, h1, h2, h3⟩ := replay_mirrors rank F sim0 d hr i
    have hinvP := (queueLoop_spec i _ hinv0).1
    generalize queueLoop i (initSimplification (some F) sim0 d) = P at *
    generalize (simplify (some F) sim0 d).order = ord at *
    have htake : P.order = ord.take (ord.length - k) := by
      rw [← hi, h1, List.take_left]
    have hpre : replayPrefix (replayStart d ord) ord (ord.length - k) =
        P.order.foldl replayRemove (replayStart d ord) := by
      unfold replayPrefix
      rw [← htake]
    rw [hpre, ← htake]
    refine ⟨rfl, h3, ?_, fun v => ⟨h2.prev_len v, h2.next_len v⟩, ?_⟩
    · intro b hb
      rw [h1] at hb
      rcases List.mem_append.1 hb with hb | hb
      · have e1 := hinvP.order_removed b hb
        have e2 := (foldl_replayRemove_removed P.order (replayStart d ord)).2 b hb
        rw [e1, e2]
        exact ⟨rfl, fun h => by cases h⟩
      · obtain ⟨f1, f2⟩ := h2.fix b hb
        have f3 := h2.live_map b f1
        have f4 := h2.from_eq b f1
        have f5 := h2.to_eq b f1
        rw [f2] at f3 f4 f5
        rw [f3.2, f1.2]
        exact ⟨rfl, fun _ => ⟨f4, f5⟩⟩
    · refine ⟨φ, ?_, fun b hb => ⟨h2.live_map b hb, h2.from_eq b hb, h2.to_eq b hb⟩, h2.inj,
        h2.surj⟩
      intro b hb hl
      rw [h1] at hb
      rcases List.mem_append.1 hb with hb | hb
      · have e1 := hinvP.order_removed b hb
        rw [hl.2] at e1
        cases e1
      · exact (h2.fix b hb).2
  obtain ⟨i, hi⟩ := queueLoop_order_length (loopFuel d.noArcs)
    (initSimplification (some F) sim0 d) ((simplify (some F) sim0 d).order.length - k)
    (by omega) (by omega)
  obtain ⟨k1, k2, k3⟩ := key i hi
  refine ⟨?_, ⟨i, k1⟩, fun i' hi' => (key i' hi').2.2⟩
  unfold simplifyReplay
  have hk0 : (k : Int) > 0 := by exact_mod_cast hk
  have hct : topkCount (simplify (some F) sim0 d).order (k : Int) =
      (((simplify (some F) sim0 d).order.length - k : Nat) : Int) := by
    unfold topkCount
    have : (((simplify (some F) sim0 d).order.length : Int) - (k : Int)) =
        (((simplify (some F) sim0 d).order.length - k : Nat) : Int) := by
      omega
    rw [this]
    apply Int.emod_eq_of_lt
    · omega
    · omega
  simp only [hk0, if_true, hct]
  rw [if_pos (by omega)]
  simp only [Int.toNat_ofNat]
  exact k2

/-- Witness for the amended C7: the tree `yData` with the persistence importance function
and `topk = 1`. -/
theorem simplifyReplay_topk_mirrors_witness :
    ValidTree yData ∧ yData.noArcs < 18446744073709551616 ∧ 0 < 1 ∧
      1 ≤ (simplify (some (persistenceSim yData.fnVals)) () yData).order.length ∧
      (simplifyReplay yData (simplify (some (persistenceSim yData.fnVals)) () yData).order
          ((1 : Nat) : Int) 0 [] =
        .ok (replayPrefix
          (replayStart yData (simplify (some (persistenceSim yData.fnVals)) () yData).order)
          (simplify (some (persistenceSim yData.fnVals)) () yData).order
          ((simplify (some (persistenceSim yData.fnVals)) () yData).order.length - 1)) ∧
      (∃ i, (queueLoop i
          (initSimplification (some (persistenceSim yData.fnVals)) () yData)).order =
        (simplify (some (persistenceSim yData.fnVals)) () yData).order.take
          ((simplify (some (persistenceSim yData.fnVals)) () yData).order.length - 1)) ∧
      ∀ i, (queueLoop i
          (initSimplification (some (persistenceSim yData.fnVals)) () yData)).order.length =
          (simplify (some (persistenceSim yData.fnVals)) () yData).order.length - 1 →
        Mirrors (simplify (some (persistenceSim yData.fnVals)) () yData).order
          (queueLoop i (initSimplification (some (persistenceSim yData.fnVals)) () yData))
          (replayPrefix
            (replayStart yData (simplify (some (persistenceSim yData.fnVals)) () yData).order)
            (simplify (some (persistenceSim yData.fnVals)) () yData).order
            ((simplify (some (persistenceSim yData.fnVals)) () yData).order.length - 1))) :=
  ⟨yData_valid, by decide, by decide, by decide!,
    simplifyReplay_topk_mirrors (persistenceSim yData.fnVals) () yData 1 0 [] yData_valid
      (by decide) (by decide) (by decide!)⟩

/-! ### The branch hierarchy is a forest -/

theorem mergeVertex_table (s : SimplifyCT σ) (v : Nat) :
    ∃ bs : Nat → Branch, (∀ b, (bs b).children = (s.branches b).children) ∧
      (∀ b, (bs b).parent = (s.branches b).parent) ∧
      (s.mergeVertex v).branches = transfer bs (s.vArray v) (s.survivorOf v) (s.consumedOf v) := by
  refine ⟨_, ?_, ?_, mergeVertex_branches s v⟩
  · intro b
    split_ifs
    · rw [upd_apply]
      split_ifs with e
      · rw [e]
      · rfl
    · rw [upd_apply]
      split_ifs with e
      · rw [e]
      · rfl
  · intro b
    split_ifs
    · rw [upd_apply]
      split_ifs with e
      · rw [e]
      · rfl
    · rw [upd_apply]
      split_ifs with e
      · rw [e]
      · rfl

theorem mergeVertex_children (s : SimplifyCT σ) (v b : Nat) :
    ((s.mergeVertex v).branches b).children =
      if b = s.survivorOf v then
        (s.branches (s.survivorOf v)).children ++ (s.branches (s.consumedOf v)).children ++
          s.vArray v
      else (s.branches b).children := by
  obtain ⟨bs, hC, _, hb⟩ := mergeVertex_table s v
  rw [hb, transfer_children, hC, hC, hC]

theorem mergeVertex_parent (s : SimplifyCT σ) (v b : Nat) :
    ((s.mergeVertex v).branches b).parent =
      if b = s.consumedOf v then -2
      else if b ∈ s.vArray v then (s.survivorOf v : Int)
      else if b ∈ (s.branches (s.consumedOf v)).children then (s.survivorOf v : Int)
      else (s.branches b).parent := by
  obtain ⟨bs, hC, hP, hb⟩ := mergeVertex_table s v
  rw [hb, transfer_parent, hC, hP]

theorem Forest.of_same_tables {s t : SimplifyCT σ} (h : Forest s) (hd : t.data = s.data)
    (hb : t.branches = s.branches) (hr : t.removed = s.removed) (hv : t.vArray = s.vArray) :
    Forest t := by
  have ha : ∀ v, t.alive v → s.alive v := by
    intro v hv'
    unfold alive live at hv' ⊢
    rw [hd, hr, hb] at hv'
    exact hv'
  refine ⟨?_, ?_, ?_, ?_, ?_, ?_, ?_, ?_⟩
  · intro b; rw [hb]; exact h.child_nodup b
  · intro b c; rw [hb]; exact h.child_disjoint b c
  · intro b; rw [hb, hr]; exact h.live_parent b
  · intro v; rw [hv]; exact h.parked_nodup v
  · intro v w; rw [hv]; exact h.parked_disjoint v w
  · intro v b hv'; rw [hv, hb]; exact h.parked_child v b (ha v hv')
  · intro x v; rw [hv, hb]; exact h.consumed_not_parked x v
  · intro x b; rw [hb]; exact h.consumed_not_child x b

/-- `detach` parks a branch nobody owns yet. -/
theorem detach_forest (rank : Nat → Int) (s : SimplifyCT σ) (a : Nat) (ht : Topo rank s)
    (hf : Forest s) (ha : s.removed a = false) : Forest (s.detach a) := by
  have hnp : ∀ v, a ∉ s.vArray v := by
    intro v hin
    rw [ht.parked_removed v a hin] at ha
    cases ha
  have hnc : ∀ b, a ∉ (s.branches b).children := by
    intro b hin
    rw [ht.children_removed b a hin] at ha
    cases ha
  refine ⟨?_, ?_, ?_, ?_, ?_, ?_, ?_, ?_⟩
  · intro b; rw [detach_branches]; exact hf.child_nodup b
  · intro b c; rw [detach_branches]; exact hf.child_disjoint b c
  · intro b hb
    rw [detach_branches]
    apply hf.live_parent
    rw [detach_removed, upd_apply] at hb
    split_ifs at hb
    exact hb
  · intro v
    rw [detach_vArray]
    split_ifs
    · exact List.Nodup.append (hf.parked_nodup v) (List.nodup_singleton a)
        (by
          intro x hx hx2
          rw [List.mem_singleton] at hx2
          rw [hx2] at hx
          exact hnp v hx)
    · exact hf.parked_nodup v
  · intro v w hvw x hx hx2
    rw [detach_vArray] at hx hx2
    have key : ∀ u, x ∈ (if u = s.mergedVertexOf a then s.vArray u ++ [a] else s.vArray u) →
        x ∈ s.vArray u ∨ (x = a ∧ u = s.mergedVertexOf a) := by
      intro u hu
      split_ifs at hu with e
      · rcases List.mem_append.1 hu with h | h
        · exact Or.inl h
        · exact Or.inr ⟨List.mem_singleton.1 h, e⟩
      · exact Or.inl hu
    rcases key v hx with h1 | ⟨h1, e1⟩ <;> rcases key w hx2 with h2 | ⟨h2, e2⟩
    · exact hf.parked_disjoint v w hvw h1 h2
    · rw [h2] at h1; exact hnp v h1
    · rw [h1] at h2; exact hnp w h2
    · exact hvw (e1.trans e2.symm)
  · intro v b hv hb x hx hx2
    rw [detach_branches] at hb hx2
    rw [detach_vArray] at hx
    split_ifs at hx
    · rcases List.mem_append.1 hx with h | h
      · exact hf.parked_child v b (detach_alive s a v hv) hb h hx2
      · rw [List.mem_singleton.1 h] at hx2
        exact hnc b hx2
    · exact hf.parked_child v b (detach_alive s a v hv) hb hx hx2
  · intro x v hx hin
    rw [detach_branches] at hx
    rw [detach_vArray] at hin
    split_ifs at hin
    · rcases List.mem_append.1 hin with h | h
      · exact hf.consumed_not_parked x v hx h
      · rw [List.mem_singleton.1 h] at hx
        exact hf.live_parent a ha hx
    · exact hf.consumed_not_parked x v hx hin
  · intro x b
    rw [detach_branches]
    exact hf.consumed_not_child x b

/-- After the merge at `v` no live branch ends in `v`, and no node has come to life. -/
theorem mergeVertex_alive (rank : Nat → Int) (s : SimplifyCT σ) (v w : Nat) (ht : Topo rank s)
    (h1 : (s.nodes v).prev.length = 1) (h2 : (s.nodes v).next.length = 1) (hv : s.alive v)
    (hw : (s.mergeVertex v).alive w) : s.alive w ∧ w ≠ v := by
  obtain ⟨hpl, hpt⟩ := ht.prev_ok v _ hv (headD_mem_of_length_one _ h1)
  obtain ⟨hql, hqf⟩ := ht.next_ok v _ hv (headD_mem_of_length_one _ h2)
  have hp1 := list_eq_singleton_headD _ h1
  have hq1 := list_eq_singleton_headD _ h2
  have rp := ht.ranked _ hpl
  have rq := ht.ranked _ hql
  rw [hpt] at rp
  rw [hqf] at rq
  obtain ⟨b, hb, he⟩ := hw
  obtain ⟨hb1, hb2⟩ := (mergeVertex_live s v b).1 hb
  by_cases e : b = s.survivorOf v
  · rw [e] at he
    obtain ⟨e1, e2⟩ := mergeVertex_ends_survivor s v
    rw [e1, e2] at he
    rcases he with he | he
    · refine ⟨⟨_, hpl, Or.inl he⟩, ?_⟩
      intro ev; rw [← he] at ev; rw [ev] at rp; omega
    · refine ⟨⟨_, hql, Or.inr he⟩, ?_⟩
      intro ev; rw [← he] at ev; rw [ev] at rq; omega
  · obtain ⟨e1, e2⟩ := mergeVertex_ends_other s v b e
    rw [e1, e2] at he
    refine ⟨⟨b, hb1, he⟩, ?_⟩
    intro ev
    have hb3 : b = (s.nodes v).prev.headD 0 ∨ b = (s.nodes v).next.headD 0 := by
      rcases he with he | he
      · right
        have := ht.in_next b hb1
        rw [he, ev, hq1] at this
        simpa using this
      · left
        have := ht.in_prev b hb1
        rw [he, ev, hp1] at this
        simpa using this
    rcases survivor_consumed_cases s v with ⟨c1, c2, _⟩ | ⟨c1, c2, _⟩
    · rcases hb3 with h | h
      · exact e (h.trans c1.symm)
      · exact hb2 (h.trans c2.symm)
    · rcases hb3 with h | h
      · exact hb2 (h.trans c2.symm)
      · exact e (h.trans c1.symm)

/-- `mergeVertex` hands the children of the consumed branch and the parked branches to the
survivor, which owned none of them. -/
theorem mergeVertex_forest (rank : Nat → Int) (s : SimplifyCT σ) (v : Nat) (ht : Topo rank s)
    (hf : Forest s) (h1 : (s.nodes v).prev.length = 1) (h2 : (s.nodes v).next.length = 1)
    (hv : s.alive v) : Forest (s.mergeVertex v) := by
  obtain ⟨hpl, hpt⟩ := ht.prev_ok v _ hv (headD_mem_of_length_one _ h1)
  obtain ⟨hql, hqf⟩ := ht.next_ok v _ hv (headD_mem_of_length_one _ h2)
  have hpq : (s.nodes v).prev.headD 0 ≠ (s.nodes v).next.headD 0 := by
    intro e
    have r := ht.ranked _ hpl
    rw [hpt, e, hqf] at r
    omega
  have hch := mergeVertex_children s v
  have hpa := mergeVertex_parent s v
  have hal := fun w => mergeVertex_alive rank s v w ht h1 h2 hv
  have hrm := mergeVertex_removed s v
  have hva := mergeVertex_vArray s v
  have A0 : s.removed (s.survivorOf v) = false ∧ s.removed (s.consumedOf v) = false ∧
      s.survivorOf v ≠ s.consumedOf v := by
    rcases survivor_consumed_cases s v with ⟨c1, c2, _⟩ | ⟨c1, c2, _⟩
    · rw [c1, c2]; exact ⟨hpl.2, hql.2, hpq⟩
    · rw [c1, c2]; exact ⟨hql.2, hpl.2, hpq.symm⟩
  obtain ⟨hra, hrr, har⟩ := A0
  generalize s.survivorOf v = a at *
  generalize s.consumedOf v = rem at *
  have hPa := hf.live_parent a hra
  have hPr := hf.live_parent rem hrr
  -- a branch that is not consumed afterwards was not consumed before
  have hold : ∀ b, ((s.mergeVertex v).branches b).parent ≠ -2 →
      b ≠ rem ∧ (s.branches b).parent ≠ -2 := by
    intro b hb
    rw [hpa] at hb
    by_cases e : b = rem
    · rw [if_pos e] at hb; exact absurd rfl hb
    · refine ⟨e, ?_⟩
      intro hc
      rw [if_neg e] at hb
      have n1 : b ∉ s.vArray v := hf.consumed_not_parked b v hc
      have n2 : b ∉ (s.branches rem).children := hf.consumed_not_child b rem hc hPr
      rw [if_neg n1, if_neg n2] at hb
      exact hb hc
  -- the new list of the survivor is free of repetitions
  have hnew : ((s.branches a).children ++ (s.branches rem).children ++ s.vArray v).Nodup := by
    apply List.Nodup.append
    · exact List.Nodup.append (hf.child_nodup a) (hf.child_nodup rem)
        (hf.child_disjoint a rem har hPa hPr)
    · exact hf.parked_nodup v
    · intro x hx hx2
      rcases List.mem_append.1 hx with h | h
      · exact hf.parked_child v a hv hPa hx2 h
      · exact hf.parked_child v rem hv hPr hx2 h
  refine ⟨?_, ?_, ?_, ?_, ?_, ?_, ?_, ?_⟩
  · intro b
    rw [hch]
    split_ifs
    · exact hnew
    · exact hf.child_nodup b
  · intro b c hbc hb hc
    obtain ⟨b1, b2⟩ := hold b hb
    obtain ⟨c1, c2⟩ := hold c hc
    rw [hch, hch]
    have key : ∀ u, u ≠ a → u ≠ rem → (s.branches u).parent ≠ -2 →
        List.Disjoint ((s.branches a).children ++ (s.branches rem).children ++ s.vArray v)
          (s.branches u).children := by
      intro u u1 u2 u3 x hx hx2
      rcases List.mem_append.1 hx with h | h
      · rcases List.mem_append.1 h with h | h
        · exact hf.child_disjoint a u (Ne.symm u1) hPa u3 h hx2
        · exact hf.child_disjoint rem u (Ne.symm u2) hPr u3 h hx2
      · exact hf.parked_child v u hv u3 h hx2
    split_ifs with e1 e2 e2
    · exact absurd (e1.trans e2.symm) hbc
    · exact key c e2 c1 c2
    · exact (key b e1 b1 b2).symm
    · exact hf.child_disjoint b c hbc b2 c2
  · intro b hb hc
    rw [hrm, upd_apply] at hb
    split_ifs at hb with e
    rw [hpa, if_neg e] at hc
    split_ifs at hc with n1 n2
    all_goals first
      | omega
      | exact hf.live_parent b hb hc
  · intro w; rw [hva]; exact hf.parked_nodup w
  · intro w u; rw [hva]; exact hf.parked_disjoint w u
  · intro w b hw hb
    obtain ⟨w1, w2⟩ := hal w hw
    obtain ⟨b1, b2⟩ := hold b hb
    rw [hva, hch]
    split_ifs
    · intro x hx hx2
      rcases List.mem_append.1 hx2 with h | h
      · rcases List.mem_append.1 h with h | h
        · exact hf.parked_child w a w1 hPa hx h
        · exact hf.parked_child w rem w1 hPr hx h
      · exact hf.parked_disjoint w v w2 hx h
    · exact hf.parked_child w b w1 b2
  · intro x w hx hin
    rw [hva] at hin
    rw [hpa] at hx
    by_cases e : x = rem
    · rw [e] at hin
      rw [ht.parked_removed w rem hin] at hrr
      cases hrr
    · rw [if_neg e] at hx
      split_ifs at hx with n1 n2
      all_goals first
        | omega
        | exact hf.consumed_not_parked x w hx hin
  · intro x b hx hb hin
    obtain ⟨b1, b2⟩ := hold b hb
    -- `x` is consumed afterwards: it is `rem` or was consumed before
    have hx' : x = rem ∨ (s.branches x).parent = -2 := by
      rw [hpa] at hx
      by_cases e : x = rem
      · exact Or.inl e
      · rw [if_neg e] at hx
        split_ifs at hx with n1 n2
        all_goals omega
    have hin' : x ∈ (s.branches a).children ∨ x ∈ (s.branches rem).children ∨
        x ∈ s.vArray v ∨ x ∈ (s.branches b).children := by
      rw [hch] at hin
      split_ifs at hin
      · rcases List.mem_append.1 hin with h | h
        · rcases List.mem_append.1 h with h | h
          · exact Or.inl h
          · exact Or.inr (Or.inl h)
        · exact Or.inr (Or.inr (Or.inl h))
      · exact Or.inr (Or.inr (Or.inr hin))
    rcases hx' with e | hc
    · -- `rem` was live, hence in no list
      rw [e] at hin'
      rcases hin' with h | h | h | h
      · rw [ht.children_removed a rem h] at hrr; cases hrr
      · rw [ht.children_removed rem rem h] at hrr; cases hrr
      · rw [ht.parked_removed v rem h] at hrr; cases hrr
      · rw [ht.children_removed b rem h] at hrr; cases hrr
    · rcases hin' with h | h | h | h
      · exact hf.consumed_not_child x a hc hPa h
      · exact hf.consumed_not_child x rem hc hPr h
      · exact hf.consumed_not_parked x v hc h
      · exact hf.consumed_not_child x b hc b2 h

/-- `removeArc` of a live candidate keeps the hierarchy a forest. -/
theorem removeArc_forest (rank : Nat → Int) (s : SimplifyCT σ) (a : Nat) (ht : Topo rank s)
    (hf : Forest s) (hl : s.live a) (hc : s.isCandidate (s.branches a) = true) :
    Forest (s.removeArc a) := by
  have hd := detach_forest rank s a ht hf hl.2
  have htd := detach_topo rank s a ht hl
  rw [removeArc_eq]
  split_ifs with hm
  · obtain ⟨_, hal⟩ := mergeTest_live rank s a ht hc hm
    exact (mergeVertex_forest rank _ _ htd hd hm.1 hm.2 hal).of_same_tables (by simp) (by simp) (by simp)
      (by simp)
  · exact hd.of_same_tables (by simp) (by simp) (by simp) (by simp)

/-- The removal case of `loopStep_cases` with the bound of the removed branch. -/
theorem loopStep_cases_live (s : SimplifyCT σ) (hq : ∀ x, x ∈ s.queue → x < s.data.noArcs) :
    (s.loopStep.order = s.order ∧ s.loopStep.data = s.data ∧
        s.loopStep.branches = s.branches ∧ s.loopStep.nodes = s.nodes ∧
        s.loopStep.removed = s.removed ∧ s.loopStep.vArray = s.vArray) ∨
      ∃ (a : Nat) (s0 : SimplifyCT σ), s0.data = s.data ∧ s0.branches = s.branches ∧
        s0.nodes = s.nodes ∧ s0.removed = s.removed ∧ s0.vArray = s.vArray ∧
        s0.live a ∧ s0.isCandidate (s0.branches a) = true ∧
        s.loopStep.order = s.order ++ [a] ∧ s.loopStep.data = (s0.removeArc a).data ∧
        s.loopStep.branches = (s0.removeArc a).branches ∧
        s.loopStep.nodes = (s0.removeArc a).nodes ∧
        s.loopStep.removed = (s0.removeArc a).removed ∧
        s.loopStep.vArray = (s0.removeArc a).vArray := by
  rcases loopStep_cases s with h | ⟨a, s0, d1, d2, d3, d4, d5, hra, hca, ho, e1, e2, e3, e4, e5⟩
  · exact Or.inl h
  · right
    refine ⟨a, s0, d1, d2, d3, d4, d5, ⟨?_, by rw [d4]; exact hra⟩, hca, ho, e1, e2, e3, e4, e5⟩
    rw [d1]
    apply hq
    -- the removed branch is the popped one
    cases htop : s.queueTop with
    | none =>
      have : s.loopStep = s := by
        unfold loopStep; rw [htop]
      rw [this] at ho
      have := congrArg List.length ho
      simp at this
    | some ano =>
      have hmem := queueTop_mem s ano htop
      have hl := loopStep_some s _ ano htop rfl
      rw [hl] at ho
      by_cases h1 : s.removed ano = true
      · simp only [h1, Bool.not_true, Bool.false_eq_true, if_false] at ho
        have := congrArg List.length ho
        simp at this
      · have h1' : s.removed ano = false := by simpa using h1
        simp only [h1', Bool.not_false, if_true] at ho
        by_cases h2 : s.invalid ano = true
        · simp only [h2, if_true, addToQueue_order, updateWeight_order] at ho
          have := congrArg List.length ho
          simp at this
        · have h2' : s.invalid ano = false := by simpa using h2
          simp only [h2', Bool.false_eq_true, if_false] at ho
          split_ifs at ho with h3
          · simp only [removeArc_order] at ho
            have := List.append_cancel_left ho
            simp at this
            rw [← this]
            exact hmem
          · have := congrArg List.length ho
            simp at this

/-- The hierarchy right after `initSimplification`: no children, nothing parked. -/
theorem initSimplification_forest (f : Option (SimFunction σ)) (sim0 : σ)
    (d : ContourTreeData) : Forest (initSimplification f sim0 d) := by
  obtain ⟨hd, hb, hn, hrm, hva, _⟩ := initSimplification_fields f sim0 d
  obtain ⟨k1, k2, k3⟩ := foldl_initArc_range f sim0 d d.noArcs
  have hc : ∀ b, ((initSimplification f sim0 d).branches b).children = [] := by
    intro b
    rw [hb, k1]
    split_ifs <;> rfl
  have hp : ∀ b, ((initSimplification f sim0 d).branches b).parent ≠ -2 := by
    intro b
    rw [hb, k1]
    split_ifs <;> simp
  refine ⟨?_, ?_, ?_, ?_, ?_, ?_, ?_, ?_⟩
  · intro b; rw [hc]; exact List.nodup_nil
  · intro b c _ _ _; rw [hc]; exact List.disjoint_nil_left _
  · intro b _; exact hp b
  · intro v; rw [hva]; exact List.nodup_nil
  · intro v w _; rw [hva]; exact List.disjoint_nil_left _
  · intro v b _ _; rw [hva]; exact List.disjoint_nil_left _
  · intro x v hx; exact absurd hx (hp x)
  · intro x b hx; exact absurd hx (hp x)

/-- Every iteration of the queue loop keeps the topology consistent and the hierarchy a
forest. -/
theorem queueLoop_forest (rank : Nat → Int) (f : Option (SimFunction σ)) (sim0 : σ)
    (d : ContourTreeData) (hr : Ranked rank d) (i : Nat) :
    Topo rank (queueLoop i (initSimplification f sim0 d)) ∧
      Forest (queueLoop i (initSimplification f sim0 d)) := by
  induction i with
  | zero =>
    exact ⟨initSimplification_topo rank f sim0 d hr, initSimplification_forest f sim0 d⟩
  | succ i ih =>
    obtain ⟨ht, hf⟩ := ih
    have hinv := (queueLoop_spec i _ (initSimplification_spec f sim0 d).1).1
    rw [queueLoop_succ]
    refine ⟨loopStep_topo rank _ ht, ?_⟩
    generalize queueLoop i (initSimplification f sim0 d) = s at *
    rcases loopStep_cases_live s hinv.queue_lt with ⟨_, c2, c3, _, c5, c6⟩ | ⟨a, s0, d1, d2, d3,
      d4, d5, hla, hca, _, e1, e2, _, e4, e5⟩
    · exact hf.of_same_tables c2 c3 c5 c6
    · have hf0 : Forest s0 := hf.of_same_tables d1 d2 d4 d5
      have ht0 : Topo rank s0 := ht.of_eq d1 d2 d3 d4 d5
      exact (removeArc_forest rank s0 a ht0 hf0 hla hca).of_same_tables e1 e2 e4 e5

/-- Claim C11 fails as stated.  On the valid tree `saddleData` priority mode ends with
branch 0 in the `children` lists of two branches: of branch 4, the root, and of branch 1,
which the second merge consumed (`parent == -2`) without clearing its list. -/
theorem simplify_child_of_two_branches :
    ((simplify (some saddleSim) () saddleData).branches 1).children = [0] ∧
      ((simplify (some saddleSim) () saddleData).branches 4).children = [0, 3] ∧
      ((simplify (some saddleSim) () saddleData).branches 1).parent = -2 ∧
      ((simplify (some saddleSim) () saddleData).branches 4).parent = -1 := by
  decide!

/-- Claim C11, amended: on an input whose arcs ascend along a ranking of the nodes (every
valid contour tree is one), in the state after any number of iterations of the priority-mode
queue loop, and in the state `simplify` ends with, no `children` list holds a branch id twice
and no branch id occurs in the `children` lists of two different branches that have not been
consumed by a merge (`parent != -2`). -/
theorem simplify_children_single_owner (rank : Nat → Int) (f : Option (SimFunction σ))
    (sim0 : σ) (d : ContourTreeData) (hr : Ranked rank d) :
    (∀ i, SingleOwner (queueLoop i (initSimplification f sim0 d))) ∧
      SingleOwner (simplify f sim0 d) := by
  have key : ∀ i, SingleOwner (queueLoop i (initSimplification f sim0 d)) := by
    intro i
    obtain ⟨_, hf⟩ := queueLoop_forest rank f sim0 d hr i
    exact ⟨hf.child_nodup, fun b c x hbc hb hc hx hx2 => hf.child_disjoint b c hbc hb hc hx hx2⟩
  exact ⟨key, key (loopFuel d.noArcs)⟩

/-- Witness for the amended C11: the tree `yData` with the persistence importance
function. -/
theorem simplify_children_single_owner_witness :
    Ranked yData.fnVals yData ∧
      (∀ i, SingleOwner
        (queueLoop i (initSimplification (some (persistenceSim yData.fnVals)) () yData))) ∧
      SingleOwner (simplify (some (persistenceSim yData.fnVals)) () yData) :=
  ⟨yData_ranked, simplify_children_single_owner yData.fnVals
    (some (persistenceSim yData.fnVals)) () yData yData_ranked⟩

/-! ### The merged vertex of `removeArc` -/

/-- Claim C13 fails as stated.  After `initSimplification` on the two arcs `0 → 2`, `1 → 2`
branch 0 is a candidate for which both conditions tested by `removeArc` hold: node 0 has no
predecessors and node 2 has no successors.  The second assignment wins: `mergedVertex` is
`from`, not `to`. -/
theorem removeArc_both_conditions_hold :
    veeState.isCandidate (veeState.branches 0) = true ∧
      (veeState.nodes (veeState.branches 0).from_).prev.length = 0 ∧
      (veeState.nodes (veeState.branches 0).to_).next.length = 0 ∧
      veeState.mergedVertexOf 0 = (veeState.branches 0).from_ ∧
      veeState.mergedVertexOf 0 ≠ (veeState.branches 0).to_ := by
  decide

/-- Claim C13, amended: for every engine state and every branch `ano` satisfying
`isCandidate`, at least one of the two conditions tested by `removeArc` holds, and
`mergedVertex` is `from` when node `to` has no successors and `to` otherwise.  Both conditions
can hold, and then node `to` has more than one predecessor; exactly one holds whenever node `to`
obeys the degree rule of a contour tree, as it does for every un-removed branch in every state
of a priority-mode run on a valid tree. -/
theorem removeArc_mergedVertex_cases (s : SimplifyCT σ) (ano : Nat)
    (hc : s.isCandidate (s.branches ano) = true) :
    ((s.nodes (s.branches ano).from_).prev.length = 0 ∨
        (s.nodes (s.branches ano).to_).next.length = 0) ∧
      s.mergedVertexOf ano =
        (if (s.nodes (s.branches ano).to_).next.length = 0 then (s.branches ano).from_
          else (s.branches ano).to_) ∧
      ((s.nodes (s.branches ano).from_).prev.length = 0 →
        (s.nodes (s.branches ano).to_).next.length = 0 →
        (s.nodes (s.branches ano).to_).prev.length > 1) ∧
      (DegOk s (s.branches ano).to_ →
        ((s.nodes (s.branches ano).from_).prev.length = 0 ∧
            ¬ (s.nodes (s.branches ano).to_).next.length = 0) ∨
          (¬ (s.nodes (s.branches ano).from_).prev.length = 0 ∧
            (s.nodes (s.branches ano).to_).next.length = 0)) ∧
      (∀ (F : SimFunction σ) (sim0 : σ) (d : ContourTreeData) (i : Nat), ValidTree d →
        s = queueLoop i (initSimplification (some F) sim0 d) → s.live ano →
        ((s.nodes (s.branches ano).from_).prev.length = 0 ∧
            ¬ (s.nodes (s.branches ano).to_).next.length = 0) ∨
          (¬ (s.nodes (s.branches ano).from_).prev.length = 0 ∧
            (s.nodes (s.branches ano).to_).next.length = 0)) := by
  have hcs := isCandidate_cases s _ hc
  have hdeg : DegOk s (s.branches ano).to_ →
      ((s.nodes (s.branches ano).from_).prev.length = 0 ∧
          ¬ (s.nodes (s.branches ano).to_).next.length = 0) ∨
        (¬ (s.nodes (s.branches ano).from_).prev.length = 0 ∧
          (s.nodes (s.branches ano).to_).next.length = 0) := by
    rintro ⟨_, d2, _⟩
    rcases hcs with ⟨h1, h2⟩ | ⟨h1, h2, _⟩
    · left
      refine ⟨h1, fun h3 => ?_⟩
      have := d2 h3
      omega
    · exact Or.inr ⟨h1, h2⟩
  refine ⟨?_, ?_, ?_, hdeg, ?_⟩
  · rcases hcs with ⟨h1, _⟩ | ⟨_, h2, _⟩
    · exact Or.inl h1
    · exact Or.inr h2
  · unfold mergedVertexOf
    simp only []
    rcases hcs with ⟨h1, _⟩ | ⟨_, h2, _⟩
    · split_ifs <;> rfl
    · rw [if_pos h2, if_pos h2]
  · intro h1 _
    rcases hcs with ⟨_, h2⟩ | ⟨h3, _, _⟩
    · exact h2
    · exact absurd h1 h3
  · intro F sim0 d i hv hs hl
    obtain ⟨rank, hr⟩ := validTree_ranked d hv
    have ht : TreeInv rank s := by
      rw [hs]
      exact queueLoop_treeInv rank i _ (initSimplification_treeInv rank F sim0 d hr hv)
    exact hdeg (ht.2 _ ⟨ano, hl, Or.inr rfl⟩)

/-- Witness for the amended C13: branch 1 of `yState`. -/
theorem removeArc_mergedVertex_cases_witness :
    yState.isCandidate (yState.branches 1) = true ∧
      (((yState.nodes (yState.branches 1).from_).prev.length = 0 ∨
          (yState.nodes (yState.branches 1).to_).next.length = 0) ∧
        yState.mergedVertexOf 1 =
          (if (yState.nodes (yState.branches 1).to_).next.length = 0
            then (yState.branches 1).from_ else (yState.branches 1).to_) ∧
        ((yState.nodes (yState.branches 1).from_).prev.length = 0 →
          (yState.nodes (yState.branches 1).to_).next.length = 0 →
          (yState.nodes (yState.branches 1).to_).prev.length > 1) ∧
        (DegOk yState (yState.branches 1).to_ →
          ((yState.nodes (yState.branches 1).from_).prev.length = 0 ∧
              ¬ (yState.nodes (yState.branches 1).to_).next.length = 0) ∨
            (¬ (yState.nodes (yState.branches 1).from_).prev.length = 0 ∧
              (yState.nodes (yState.branches 1).to_).next.length = 0)) ∧
        (∀ (F : SimFunction Unit) (sim0 : Unit) (d : ContourTreeData) (i : Nat), ValidTree d →
          yState = queueLoop i (initSimplification (some F) sim0 d) → yState.live 1 →
          ((yState.nodes (yState.branches 1).from_).prev.length = 0 ∧
              ¬ (yState.nodes (yState.branches 1).to_).next.length = 0) ∨
            (¬ (yState.nodes (yState.branches 1).from_).prev.length = 0 ∧
              (yState.nodes (yState.branches 1).to_).next.length = 0))) :=
  ⟨by decide!, removeArc_mergedVertex_cases yState 1 (by decide!)⟩

/-! ### The state built by `initSimplification` -/

/-- The second loop of `initSimplification` pushes the candidates among `l`, in sequence. -/
theorem foldl_addToQueue_exact (l : List Nat) : ∀ s : SimplifyCT σ,
    (l.foldl addToQueue s).queue =
        s.queue ++ l.filter (fun i => s.isCandidate (s.branches i)) ∧
      ∀ x, (l.foldl addToQueue s).inq x = true ↔
        (s.inq x = true ∨ (x ∈ l ∧ s.isCandidate (s.branches x) = true)) := by
  induction l with
  | nil => intro s; simp
  | cons a l ih =>
    intro s
    obtain ⟨h1, h2⟩ := ih (s.addToQueue a)
    have hc : ∀ i, (s.addToQueue a).isCandidate ((s.addToQueue a).branches i) =
        s.isCandidate (s.branches i) := by
      intro i
      rw [isCandidate_of_nodes_eq s (s.addToQueue a) _ (by simp)]
      simp
    simp only [List.foldl_cons]
    constructor
    · rw [h1, addToQueue_queue]
      simp only [hc]
      by_cases e : s.isCandidate (s.branches a) = true
      · rw [if_pos e]
        simp [List.filter_cons, e]
      · rw [if_neg e]
        simp [List.filter_cons, e]
    · intro x
      rw [h2, addToQueue_inq, hc]
      by_cases e : s.isCandidate (s.branches a) = true
      · rw [if_pos e, upd_apply]
        by_cases ex : x = a
        · simp [ex, e]
        · simp [ex]
      · rw [if_neg e]
        by_cases ex : x = a
        · rw [ex]
          simp [e]
        · simp [ex]

/-- Claim C14: after `initSimplification(f)` with a non-null `f`, every arc `i` has the branch
`from = arcs[i].from`, `to = arcs[i].to`, `parent = -1`, `arcs = [i]`, no children; for every
node `v`, `nodes[v].prev` lists the arc ids with `to == v` and `nodes[v].next` those with
`from == v`, each once, ascending; all `removed` and `invalid` flags are false; the queue holds
the candidates of this topology, each once, and `inq[i]` is true exactly for them. -/
theorem initSimplification_state (F : SimFunction σ) (sim0 : σ) (d : ContourTreeData) :
    (∀ i, i < d.noArcs → (initSimplification (some F) sim0 d).branches i =
        { from_ := (d.arcs i).from_, to_ := (d.arcs i).to_, parent := -1, children := [],
          arcs := [i] }) ∧
      (∀ v, ((initSimplification (some F) sim0 d).nodes v).prev =
        (List.range d.noArcs).filter (fun i => (d.arcs i).to_ = v)) ∧
      (∀ v, ((initSimplification (some F) sim0 d).nodes v).next =
        (List.range d.noArcs).filter (fun i => (d.arcs i).from_ = v)) ∧
      (∀ i, (initSimplification (some F) sim0 d).removed i = false ∧
        (initSimplification (some F) sim0 d).invalid i = false) ∧
      (initSimplification (some F) sim0 d).queue =
        (List.range d.noArcs).filter (fun i =>
          (initSimplification (some F) sim0 d).isCandidate
            ((initSimplification (some F) sim0 d).branches i)) ∧
      (∀ i, i < d.noArcs →
        ((initSimplification (some F) sim0 d).inq i = true ↔
            (initSimplification (some F) sim0 d).isCandidate
              ((initSimplification (some F) sim0 d).branches i) = true) ∧
          (i ∈ (initSimplification (some F) sim0 d).queue ↔
            (initSimplification (some F) sim0 d).isCandidate
              ((initSimplification (some F) sim0 d).branches i) = true) ∧
          ((initSimplification (some F) sim0 d).queue.count i ≤ 1)) := by
  obtain ⟨hd, hb, hn, hrm, hva, hiv⟩ := initSimplification_fields (some F) sim0 d
  obtain ⟨k1, k2, k3⟩ := foldl_initArc_range (some F) sim0 d d.noArcs
  obtain ⟨e1, e2, e3, e4, e5, e6, e7, e8⟩ :=
    foldl_initArc_frame (List.range d.noArcs) (fresh (some F) sim0 d)
  -- the queue and the `inq` flags
  have hq : (initSimplification (some F) sim0 d).queue =
        (List.range d.noArcs).filter (fun i =>
          (initSimplification (some F) sim0 d).isCandidate
            ((initSimplification (some F) sim0 d).branches i)) ∧
      ∀ x, (initSimplification (some F) sim0 d).inq x = true ↔
        (x < d.noArcs ∧ (initSimplification (some F) sim0 d).isCandidate
          ((initSimplification (some F) sim0 d).branches x) = true) := by
    unfold initSimplification
    simp only []
    set s1 : SimplifyCT σ := (List.range d.noArcs).foldl initArc (fresh (some F) sim0 d)
    set s2 : SimplifyCT σ :=
      { s1 with sim := (F.init s1.sim s1.fn d.noArcs s1.branches).1,
                fn := (F.init s1.sim s1.fn d.noArcs s1.branches).2 }
    obtain ⟨g1, g2, g3, g4, g5, g6, g7, g8, g9, g10⟩ :=
      foldl_addToQueue_frame (List.range d.noArcs) s2
    obtain ⟨q1, q2⟩ := foldl_addToQueue_exact (List.range d.noArcs) s2
    have hc : ∀ i, ((List.range d.noArcs).foldl addToQueue s2).isCandidate
        (((List.range d.noArcs).foldl addToQueue s2).branches i) =
        s2.isCandidate (s2.branches i) := by
      intro i
      rw [isCandidate_of_nodes_eq s2 _ _ g2, g7]
    have hq2 : s2.queue = [] := e2
    have hi2 : ∀ x, s2.inq x = false := by
      intro x
      show s1.inq x = false
      rw [e6]
      rfl
    constructor
    · rw [q1, hq2]
      simp only [hc, List.nil_append]
    · intro x
      rw [q2, hi2, hc]
      simp
  obtain ⟨hq1, hq2⟩ := hq
  refine ⟨?_, ?_, ?_, ?_, hq1, ?_⟩
  · intro i hi
    rw [hb, k1, if_pos hi]
  · intro v; rw [hn, k2]
  · intro v; rw [hn, k3]
  · intro i
    rw [hrm, hiv]
    exact ⟨rfl, rfl⟩
  · intro i hi
    refine ⟨?_, ?_, ?_⟩
    · rw [hq2]
      exact ⟨fun h => h.2, fun h => ⟨hi, h⟩⟩
    · constructor
      · intro h
        rw [hq1] at h
        exact (List.mem_filter.1 h).2
      · intro h
        rw [hq1]
        exact List.mem_filter.2 ⟨List.mem_range.2 hi, h⟩
    · have hnd : (initSimplification (some F) sim0 d).queue.Nodup := by
        rw [hq1]
        exact (List.nodup_range _).filter _
      exact List.nodup_iff_count_le_one.1 hnd i

/-! ### The survivor of a merge and its place in the queue -/

theorem mergeVertex_invalid (s : SimplifyCT σ) (v : Nat) :
    (s.mergeVertex v).invalid = upd s.invalid (s.survivorOf v) true := by
  unfold mergeVertex survivorOf
  simp only []
  split_ifs <;> simp

/-- Candidacy of a branch in the state `mergeVertex` returns is candidacy in the state its
first half leaves: the hierarchy transfer moves no endpoint. -/
theorem mergeVertex_isCandidate_next (s : SimplifyCT σ) (v b : Nat)
    (hi : s.inq ((s.nodes v).prev.headD 0) = false) :
    (s.mergeVertex v).isCandidate ((s.mergeVertex v).branches b) =
      (s.mergeIntoNext ((s.nodes v).prev.headD 0) ((s.nodes v).next.headD 0)).isCandidate
        ((s.mergeIntoNext ((s.nodes v).prev.headD 0) ((s.nodes v).next.headD 0)).branches b) := by
  rw [mergeVertex_of_not_inq s v hi]
  apply isCandidate_congr
  · exact transfer_from _ _ _ _ _
  · exact transfer_to _ _ _ _ _
  · intro w; exact ⟨rfl, rfl⟩

theorem mergeVertex_queue_inq (s : SimplifyCT σ) (v : Nat) :
    (s.inq ((s.nodes v).prev.headD 0) = true →
        (s.mergeVertex v).queue = s.queue ∧ (s.mergeVertex v).inq = s.inq) ∧
      (s.inq ((s.nodes v).prev.headD 0) = false →
        (s.mergeVertex v).queue =
            (if (s.simFn.isSome && !s.inq ((s.nodes v).next.headD 0)) = true ∧
                (s.mergeVertex v).isCandidate
                  ((s.mergeVertex v).branches ((s.nodes v).next.headD 0)) = true
              then s.queue ++ [(s.nodes v).next.headD 0] else s.queue) ∧
          (s.mergeVertex v).inq =
            (if (s.simFn.isSome && !s.inq ((s.nodes v).next.headD 0)) = true ∧
                (s.mergeVertex v).isCandidate
                  ((s.mergeVertex v).branches ((s.nodes v).next.headD 0)) = true
              then upd s.inq ((s.nodes v).next.headD 0) true else s.inq)) := by
  constructor
  · intro hi
    rw [mergeVertex_of_inq s v hi]
    exact ⟨rfl, rfl⟩
  · intro hi
    rw [mergeVertex_isCandidate_next s v _ hi]
    obtain ⟨h1, h2⟩ := mergeIntoNext_queue_inq s ((s.nodes v).prev.headD 0)
      ((s.nodes v).next.headD 0)
    rw [← h1, ← h2, mergeVertex_of_not_inq s v hi]
    exact ⟨rfl, rfl⟩

theorem deepData_valid : ValidTree deepData := by
  have h1 : ∀ u, u < 8 → arcAdj deepData u 3 ∨ u = 3 ∨
      (arcAdj deepData u 2 ∧ arcAdj deepData 2 3) ∨
      (arcAdj deepData u 5 ∧ arcAdj deepData 5 3) := by decide
  have h2 : ∀ u, u < 8 → arcAdj deepData 3 u ∨ u = 3 ∨
      (arcAdj deepData 3 2 ∧ arcAdj deepData 2 u) ∨
      (arcAdj deepData 3 5 ∧ arcAdj deepData 5 u) := by decide
  refine ⟨by decide, ?_, rfl, by decide, by decide, by decide, by decide⟩
  intro u v hu hv
  have a : Relation.ReflTransGen (arcAdj deepData) u 3 := by
    rcases h1 u hu with h | h | ⟨h, h'⟩ | ⟨h, h'⟩
    · exact Relation.ReflTransGen.single h
    · rw [h]
    · exact (Relation.ReflTransGen.single h).trans (Relation.ReflTransGen.single h')
    · exact (Relation.ReflTransGen.single h).trans (Relation.ReflTransGen.single h')
  have b : Relation.ReflTransGen (arcAdj deepData) 3 v := by
    rcases h2 v hv with h | h | ⟨h, h'⟩ | ⟨h, h'⟩
    · exact Relation.ReflTransGen.single h
    · rw [h]
    · exact (Relation.ReflTransGen.single h).trans (Relation.ReflTransGen.single h')
    · exact (Relation.ReflTransGen.single h).trans (Relation.ReflTransGen.single h')
  exact a.trans b

/-- Claim C15 fails as stated.  On the valid tree `deepData` with the weights of `deepSim`
the first iteration of the queue loop removes branch 3 and merges at node 3, between `prev`,
branch 2, and `next`, branch 4, neither of them queued.  `next` survives (branch 2 is marked
removed), yet it is not enqueued: it is no candidate, and `addToQueue` pushes candidates
only. -/
theorem mergeVertex_survivor_not_enqueued :
    ValidTree deepData ∧
      (initSimplification (some deepSim) () deepData).queueTop = some 3 ∧
      mergeTest (initSimplification (some deepSim) () deepData) 3 ∧
      (initSimplification (some deepSim) () deepData).mergedVertexOf 3 = 3 ∧
      (((initSimplification (some deepSim) () deepData).detach 3).nodes 3).prev = [2] ∧
      (((initSimplification (some deepSim) () deepData).detach 3).nodes 3).next = [4] ∧
      (initSimplification (some deepSim) () deepData).inq 2 = false ∧
      (initSimplification (some deepSim) () deepData).inq 4 = false ∧
      (queueLoop 1 (initSimplification (some deepSim) () deepData)).order = [3] ∧
      (queueLoop 1 (initSimplification (some deepSim) () deepData)).removed 2 = true ∧
      (queueLoop 1 (initSimplification (some deepSim) () deepData)).removed 4 = false ∧
      (queueLoop 1 (initSimplification (some deepSim) () deepData)).inq 4 = false ∧
      4 ∉ (queueLoop 1 (initSimplification (some deepSim) () deepData)).queue :=
  ⟨deepData_valid, by decide!⟩

/-- Claim C15, amended: in `mergeVertex(v)` with `nodes[v].prev = [prev]` and
`nodes[v].next = [next]`, `prev` survives iff `inq[prev]` holds, `next` otherwise, queued or
not.  If `prev` survives, `next` is marked removed, `prev` is marked invalid and extended to
`next.to`, and the queue and `inq` stay as they are.  If `next` survives, `prev` is marked
removed, `next` is marked invalid and extended to `prev.from`; it is enqueued (appended to the
queue, `inq[next]` set) exactly when an importance function is present, `inq[next]` was false
and the extended branch satisfies `isCandidate`; otherwise the queue and `inq` stay as they
are. -/
theorem mergeVertex_survivor_and_queue (s : SimplifyCT σ) (v p q : Nat)
    (hp : (s.nodes v).prev = [p]) (hq : (s.nodes v).next = [q]) :
    (s.inq p = true →
        (s.mergeVertex v).removed = upd s.removed q true ∧
        (s.mergeVertex v).invalid = upd s.invalid p true ∧
        ((s.mergeVertex v).branches p).from_ = (s.branches p).from_ ∧
        ((s.mergeVertex v).branches p).to_ = (s.branches q).to_ ∧
        (s.mergeVertex v).queue = s.queue ∧ (s.mergeVertex v).inq = s.inq) ∧
      (s.inq p = false →
        (s.mergeVertex v).removed = upd s.removed p true ∧
        (s.mergeVertex v).invalid = upd s.invalid q true ∧
        ((s.mergeVertex v).branches q).from_ = (s.branches p).from_ ∧
        ((s.mergeVertex v).branches q).to_ = (s.branches q).to_ ∧
        (s.mergeVertex v).queue =
          (if s.simFn.isSome = true ∧ s.inq q = false ∧
              (s.mergeVertex v).isCandidate ((s.mergeVertex v).branches q) = true
            then s.queue ++ [q] else s.queue) ∧
        (s.mergeVertex v).inq =
          (if s.simFn.isSome = true ∧ s.inq q = false ∧
              (s.mergeVertex v).isCandidate ((s.mergeVertex v).branches q) = true
            then upd s.inq q true else s.inq)) := by
  have ep : (s.nodes v).prev.headD 0 = p := by rw [hp]; rfl
  have eq : (s.nodes v).next.headD 0 = q := by rw [hq]; rfl
  have hrm := mergeVertex_removed s v
  have hiv := mergeVertex_invalid s v
  obtain ⟨hs1, hs2⟩ := mergeVertex_ends_survivor s v
  obtain ⟨hq1, hq2⟩ := mergeVertex_queue_inq s v
  have hcs := survivor_consumed_cases s v
  simp only [ep, eq] at hs1 hs2 hq1 hq2 hcs
  constructor
  · intro hi
    rcases hcs with ⟨c1, c2, _⟩ | ⟨_, _, c3⟩
    · rw [c1] at hs1 hs2 hiv
      rw [c2] at hrm
      exact ⟨hrm, hiv, hs1, hs2, (hq1 hi).1, (hq1 hi).2⟩
    · rw [hi] at c3; cases c3
  · intro hi
    rcases hcs with ⟨_, _, c3⟩ | ⟨c1, c2, _⟩
    · rw [hi] at c3; cases c3
    · rw [c1] at hs1 hs2 hiv
      rw [c2] at hrm
      obtain ⟨h1, h2⟩ := hq2 hi
      have hcond : ((s.simFn.isSome && !s.inq q) = true ∧
          (s.mergeVertex v).isCandidate ((s.mergeVertex v).branches q) = true) ↔
          (s.simFn.isSome = true ∧ s.inq q = false ∧
            (s.mergeVertex v).isCandidate ((s.mergeVertex v).branches q) = true) := by
        simp only [Bool.and_eq_true, Bool.not_eq_true']
        tauto
      refine ⟨hrm, hiv, hs1, hs2, ?_, ?_⟩
      · rw [h1]
        simp only [hcond]
      · rw [h2]
        simp only [hcond]

/-- Witness for the amended C15: the merge at node 2 of `yData` after branch 1 was
detached. -/
theorem mergeVertex_survivor_and_queue_witness :
    ((yState.detach 1).nodes 2).prev = [0] ∧ ((yState.detach 1).nodes 2).next = [2] ∧
      (yState.detach 1).inq 0 = true ∧
      ((yState.detach 1).mergeVertex 2).removed = upd (yState.detach 1).removed 2 true ∧
      ((yState.detach 1).mergeVertex 2).queue = (yState.detach 1).queue :=
  ⟨by decide!, by decide!, by decide!,
    ((mergeVertex_survivor_and_queue (yState.detach 1) 2 0 2 (by decide!) (by decide!)).1
      (by decide!)).1,
    ((mergeVertex_survivor_and_queue (yState.detach 1) 2 0 2 (by decide!) (by decide!)).1
      (by decide!)).2.2.2.2.1⟩

/-! ### The queue holds no duplicates and `inq` mirrors it -/

theorem queueInv_of_eq (s t : SimplifyCT σ) (hq : t.queue = s.queue) (hi : t.inq = s.inq)
    (h : QueueInv s) : QueueInv t := by
  unfold QueueInv at *
  rw [hq, hi]
  exact h

theorem queueInv_popped (s : SimplifyCT σ) (a : Nat) (h : QueueInv s) :
    QueueInv (s.popped a) := by
  obtain ⟨h1, h2⟩ := h
  refine ⟨h1.erase a, ?_⟩
  intro b
  show upd s.inq a false b = true ↔ b ∈ s.queue.erase a
  rw [h1.mem_erase_iff, upd_apply]
  by_cases e : b = a
  · simp [e]
  · simp [e, h2 b]

theorem popped_inq_self (s : SimplifyCT σ) (a : Nat) : (s.popped a).inq a = false := by
  show upd s.inq a false a = false
  rw [upd_apply]
  simp

theorem queueInv_push (s : SimplifyCT σ) (a : Nat) (h : QueueInv s) (ha : s.inq a = false) :
    (s.queue ++ [a]).Nodup ∧ ∀ b, upd s.inq a true b = true ↔ b ∈ s.queue ++ [a] := by
  obtain ⟨h1, h2⟩ := h
  have hna : a ∉ s.queue := by
    intro hm
    rw [(h2 a).2 hm] at ha
    cases ha
  constructor
  · rw [List.nodup_append]
    refine ⟨h1, List.nodup_singleton a, ?_⟩
    intro x hx hx2
    rw [List.mem_singleton] at hx2
    rw [hx2] at hx
    exact hna hx
  · intro b
    rw [upd_apply, List.mem_append, List.mem_singleton]
    by_cases e : b = a
    · simp [e]
    · simp [e, h2 b]

theorem queueInv_addToQueue (s : SimplifyCT σ) (a : Nat) (h : QueueInv s)
    (ha : s.inq a = false) : QueueInv (s.addToQueue a) := by
  unfold QueueInv
  rw [addToQueue_queue, addToQueue_inq]
  split_ifs
  · exact queueInv_push s a h ha
  · exact h

theorem queueInv_mergeVertex (s : SimplifyCT σ) (v : Nat) (h : QueueInv s) :
    QueueInv (s.mergeVertex v) := by
  obtain ⟨h1, h2⟩ := mergeVertex_queue_inq s v
  by_cases hi : s.inq ((s.nodes v).prev.headD 0) = true
  · exact queueInv_of_eq s _ (h1 hi).1 (h1 hi).2 h
  · have hi2 : s.inq ((s.nodes v).prev.headD 0) = false := by simpa using hi
    obtain ⟨g1, g2⟩ := h2 hi2
    unfold QueueInv
    rw [g1, g2]
    split_ifs with hc
    · apply queueInv_push s _ h
      have := hc.1
      simp only [Bool.and_eq_true, Bool.not_eq_true'] at this
      exact this.2
    · exact h

theorem queueInv_removeArc (s : SimplifyCT σ) (a : Nat) (h : QueueInv s) :
    QueueInv (s.removeArc a) := by
  rw [removeArc_eq]
  apply queueInv_of_eq _ _ (notifyRemoved_queue _ _) (notifyRemoved_inq _ _)
  split_ifs
  · exact queueInv_mergeVertex _ _ (queueInv_of_eq s _ rfl rfl h)
  · exact queueInv_of_eq s _ rfl rfl h

theorem queueInv_refresh (s : SimplifyCT σ) (a : Nat) (h : QueueInv s) :
    QueueInv { s.updateWeight a with invalid := upd (s.updateWeight a).invalid a false } :=
  queueInv_of_eq s _ (updateWeight_queue s a) (updateWeight_inq s a) h

theorem queueInv_loopStep (s : SimplifyCT σ) (h : QueueInv s) : QueueInv s.loopStep := by
  cases htop : s.queueTop with
  | none =>
    unfold loopStep
    rw [htop]
    exact h
  | some ano =>
    rw [loopStep_some s (s.popped ano) ano htop rfl]
    have hp := queueInv_popped s ano h
    split_ifs
    · apply queueInv_addToQueue _ _ (queueInv_refresh _ _ hp)
      show (updateWeight (s.popped ano) ano).inq ano = false
      rw [updateWeight_inq]
      exact popped_inq_self s ano
    · exact queueInv_of_eq _ _ rfl rfl (queueInv_removeArc _ ano hp)
    · exact hp
    · exact hp

theorem queueInv_foldl_addToQueue (l : List Nat) (s : SimplifyCT σ) (hq : s.queue = [])
    (hi : ∀ x, s.inq x = false) (hl : l.Nodup) : QueueInv (l.foldl addToQueue s) := by
  obtain ⟨h1, h2⟩ := foldl_addToQueue_exact l s
  constructor
  · rw [h1, hq, List.nil_append]
    exact hl.filter _
  · intro b
    rw [h2, h1, hq, List.nil_append, hi, List.mem_filter]
    simp

theorem queueInv_initSimplification (f : Option (SimFunction σ)) (sim0 : σ)
    (d : ContourTreeData) : QueueInv (initSimplification f sim0 d) := by
  obtain ⟨_, e2, _, _, _, e6, _, _⟩ :=
    foldl_initArc_frame (List.range d.noArcs) (fresh f sim0 d)
  cases f with
  | none =>
    unfold initSimplification
    simp only []
    constructor
    · rw [e2]; exact List.nodup_nil
    · intro b
      rw [e2, e6]
      simp [fresh]
  | some F =>
    unfold initSimplification
    simp only []
    apply queueInv_foldl_addToQueue _ _ _ _ (List.nodup_range _)
    · exact e2
    · intro x
      show ((List.range d.noArcs).foldl initArc (fresh (some F) sim0 d)).inq x = false
      rw [e6]
      rfl

theorem queueInv_queueLoop (f : Option (SimFunction σ)) (sim0 : σ) (d : ContourTreeData)
    (i : Nat) : QueueInv (queueLoop i (initSimplification f sim0 d)) := by
  induction i with
  | zero => exact queueInv_initSimplification f sim0 d
  | succ k ih =>
    rw [queueLoop_succ]
    exact queueInv_loopStep _ ih

/-- Claim C16: in a priority-mode run the queue holds no branch id twice and `inq[b]` is true
exactly for the ids `b` in the queue.  This holds after `initSimplification` and after every
number `i` of loop iterations, in the state in which the loop ends and in the one `simplify`
returns, and, within the iteration that pops `ano`, after `queue.pop(); inq[ano] = false`,
after the weight of `ano` was refreshed, after `ano` was unlinked by `removeArc`, after
`mergeVertex`, and when `removeArc` returns. -/
theorem simplify_queue_nodup_inq_mirrors (f : Option (SimFunction σ)) (sim0 : σ)
    (d : ContourTreeData) :
    (∀ i, (queueLoop i (initSimplification f sim0 d)).queue.Nodup ∧
      ∀ b, (queueLoop i (initSimplification f sim0 d)).inq b = true ↔
        b ∈ (queueLoop i (initSimplification f sim0 d)).queue) ∧
      QueueInv (afterQueueLoop f sim0 d) ∧ QueueInv (simplify f sim0 d) ∧
      ∀ i ano, (queueLoop i (initSimplification f sim0 d)).queueTop = some ano →
        QueueInv ((queueLoop i (initSimplification f sim0 d)).popped ano) ∧
        QueueInv (((queueLoop i (initSimplification f sim0 d)).popped ano).updateWeight ano) ∧
        QueueInv (((queueLoop i (initSimplification f sim0 d)).popped ano).detach ano) ∧
        QueueInv ((((queueLoop i (initSimplification f sim0 d)).popped ano).detach ano).mergeVertex
          (((queueLoop i (initSimplification f sim0 d)).popped ano).mergedVertexOf ano)) ∧
        QueueInv (((queueLoop i (initSimplification f sim0 d)).popped ano).removeArc ano) ∧
        (queueLoop (i + 1) (initSimplification f sim0 d)).queue.Nodup := by
  refine ⟨fun i => queueInv_queueLoop f sim0 d i, queueInv_queueLoop f sim0 d _,
    queueInv_of_eq _ _ rfl rfl (queueInv_queueLoop f sim0 d (loopFuel d.noArcs)), ?_⟩
  intro i ano _
  have hp := queueInv_popped _ ano (queueInv_queueLoop f sim0 d i)
  exact ⟨hp, queueInv_of_eq _ _ (updateWeight_queue _ _) (updateWeight_inq _ _) hp,
    queueInv_of_eq _ _ rfl rfl hp,
    queueInv_mergeVertex _ _ (queueInv_of_eq _ _ rfl rfl hp),
    queueInv_removeArc _ _ hp, (queueInv_queueLoop f sim0 d (i + 1)).1⟩

/-! ### Termination of the queue loop -/

theorem filter_length_erase (p : Nat → Bool) (l : List Nat) (a : Nat) (h : a ∈ l) :
    ((l.erase a).filter p).length + (if p a = true then 1 else 0) = (l.filter p).length := by
  have hp := ((List.perm_cons_erase h).filter p).length_eq
  rw [hp, List.filter_cons]
  split_ifs <;> simp

theorem filter_length_mono (p q : Nat → Bool) (l : List Nat)
    (h : ∀ x, p x = true → q x = true) : (l.filter p).length ≤ (l.filter q).length := by
  induction l with
  | nil => simp
  | cons a l ih =>
    rw [List.filter_cons, List.filter_cons]
    by_cases hp : p a = true
    · rw [if_pos hp, if_pos (h a hp)]
      simp only [List.length_cons]
      omega
    · rw [if_neg hp]
      split_ifs
      · simp only [List.length_cons]; omega
      · exact ih

theorem popped_measure (s : SimplifyCT σ) (a : Nat) (h : a ∈ s.queue) :
    (s.popped a).unremovedCount = s.unremovedCount ∧
      (s.popped a).queuedInvalid + (if s.invalid a = true then 1 else 0) = s.queuedInvalid ∧
      (s.popped a).queue.length + 1 = s.queue.length := by
  refine ⟨rfl, filter_length_erase (fun b => s.invalid b) s.queue a h, ?_⟩
  show (s.queue.erase a).length + 1 = s.queue.length
  rw [List.length_erase_of_mem h]
  have := List.length_pos_of_mem h
  omega

/-- Every iteration of the queue loop that finds the queue non-empty decreases the triple
(un-removed branches, queued invalid branches, queue size) in the lexicographic order. -/
theorem loopStep_lexLess (s : SimplifyCT σ) (h : LoopInv s) (hq : s.queue ≠ []) :
    lexLess s.loopStep.lexMeasure s.lexMeasure := by
  cases htop : s.queueTop with
  | none => exact absurd (queueTop_none s htop) hq
  | some ano =>
    have hmem := queueTop_mem s ano htop
    have hano : ano < s.data.noArcs := h.queue_lt ano hmem
    obtain ⟨m1, m2, m3⟩ := popped_measure s ano hmem
    rw [loopStep_some s (s.popped ano) ano htop rfl]
    have hxr : (s.popped ano).removed = s.removed := rfl
    have hxi : (s.popped ano).invalid = s.invalid := rfl
    have hxd : (s.popped ano).data = s.data := rfl
    unfold lexLess lexMeasure
    simp only []
    by_cases hr : s.removed ano = true
    · simp only [hxr, hr, Bool.not_true, Bool.false_eq_true, if_false]
      split_ifs at m2 <;> omega
    · simp only [Bool.not_eq_true] at hr
      simp only [hxr, hr, Bool.not_false, if_true]
      by_cases hi : s.invalid ano = true
      · simp only [hxi, hi, if_true]
        rw [if_pos hi] at m2
        right
        constructor
        · simp only [unremovedCount, addToQueue_data, addToQueue_removed, updateWeight_data,
            updateWeight_removed]
          rfl
        · left
          have hb : ∀ l : List Nat,
              (l.filter (fun b => upd s.invalid ano false b)).length ≤
                (l.filter (fun b => s.invalid b)).length := by
            intro l
            apply filter_length_mono
            intro x hx
            rw [upd_apply] at hx
            split_ifs at hx
            exact hx
          have hq1 := hb (s.queue.erase ano)
          have hq2 : (s.popped ano).queuedInvalid =
              ((s.queue.erase ano).filter (fun b => s.invalid b)).length := rfl
          have hq3 : s.queuedInvalid = (s.queue.filter (fun b => s.invalid b)).length := rfl
          have hz : ([ano].filter (fun b => upd s.invalid ano false b)) = [] := by
            simp [upd_apply]
          simp only [queuedInvalid, addToQueue_queue, addToQueue_invalid, updateWeight_queue,
            updateWeight_invalid]
          split_ifs
          · show ((s.queue.erase ano ++ [ano]).filter
                (fun b => upd s.invalid ano false b)).length < _
            rw [List.filter_append, hz, List.append_nil]
            omega
          · show ((s.queue.erase ano).filter
                (fun b => upd s.invalid ano false b)).length < _
            omega
      · simp only [Bool.not_eq_true] at hi
        simp only [hxi, hi, Bool.false_eq_true, if_false]
        rw [if_neg (by simp [hi])] at m2
        split_ifs with hc
        · left
          show ((s.popped ano).removeArc ano).unremovedCount < s.unremovedCount
          simp only [unremovedCount, removeArc_data, hxd]
          exact card_filter_lt s.data.noArcs ano
            (fun i => ((s.popped ano).removeArc ano).removed i = false)
            (fun i => s.removed i = false) hano hr (by simp [removeArc_removed_self])
            (by
              intro x hx
              by_contra hne
              simp only [Bool.not_eq_false] at hne
              have := removeArc_removed_mono (s.popped ano) ano x hne
              rw [this] at hx; cases hx)
        · omega

theorem loopStep_order_cases (s : SimplifyCT σ) :
    s.loopStep.order = s.order ∨ ∃ a, s.loopStep.order = s.order ++ [a] := by
  rcases loopStep_cases s with h | ⟨a, _, _, _, _, _, _, _, _, h, _⟩
  · exact Or.inl h.1
  · exact Or.inr ⟨a, h⟩

theorem queueLoop_order_length_mono (m : Nat) (s : SimplifyCT σ) :
    s.order.length ≤ (queueLoop m s).order.length := by
  induction m with
  | zero => exact Nat.le_refl _
  | succ m ih =>
    rw [queueLoop_succ]
    rcases loopStep_order_cases (queueLoop m s) with h | ⟨a, h⟩
    · rw [h]; exact ih
    · rw [h, List.length_append]
      omega

/-- An iteration that removes nothing sets no `invalid` flag. -/
theorem loopStep_invalid_of_order_eq (s : SimplifyCT σ)
    (h : s.loopStep.order.length = s.order.length) (b : Nat)
    (hb : s.loopStep.invalid b = true) : s.invalid b = true := by
  cases htop : s.queueTop with
  | none =>
    unfold loopStep at hb
    rw [htop] at hb
    exact hb
  | some ano =>
    rw [loopStep_some s (s.popped ano) ano htop rfl] at hb h
    have hxi : (s.popped ano).invalid = s.invalid := rfl
    have hxo : (s.popped ano).order = s.order := rfl
    split_ifs at hb h
    · simp only [addToQueue_invalid, updateWeight_invalid, hxi, upd_apply] at hb
      split_ifs at hb
      exact hb
    · simp only [removeArc_order, hxo, List.length_append, List.length_singleton] at h
      omega
    · exact hb
    · exact hb

/-- The iteration that re-enqueues `b` leaves `invalid[b]` clear and removes nothing. -/
theorem loopStep_of_requeues (s : SimplifyCT σ) (b : Nat) (h : requeues s b) :
    s.loopStep.invalid b = false ∧ s.loopStep.order = s.order := by
  obtain ⟨htop, hr, hi⟩ := h
  rw [loopStep_some s (s.popped b) b htop rfl]
  have hxr : (s.popped b).removed = s.removed := rfl
  have hxi : (s.popped b).invalid = s.invalid := rfl
  simp only [hxr, hxi, hr, hi, Bool.not_false, if_true]
  constructor
  · simp only [addToQueue_invalid, updateWeight_invalid, hxi, upd_apply]
    simp
  · simp only [addToQueue_order, updateWeight_order]
    rfl

theorem queueLoop_invalid_stays_clear (b : Nat) (m : Nat) (s : SimplifyCT σ)
    (ho : (queueLoop m s).order.length = s.order.length) (hb : s.invalid b = false) :
    (queueLoop m s).invalid b = false := by
  induction m with
  | zero => exact hb
  | succ m ih =>
    have h1 := queueLoop_order_length_mono m s
    have h2 : (queueLoop m s).order.length ≤ (queueLoop (m + 1) s).order.length := by
      rw [queueLoop_succ]
      rcases loopStep_order_cases (queueLoop m s) with h | ⟨a, h⟩
      · rw [h]
      · rw [h, List.length_append]; omega
    have h4 : (queueLoop m s).order.length = s.order.length :=
      Nat.le_antisymm (le_of_le_of_eq h2 ho) h1
    have h3 := ih h4
    rw [queueLoop_succ] at ho ⊢
    by_contra hne
    simp only [Bool.not_eq_false] at hne
    have := loopStep_invalid_of_order_eq (queueLoop m s) (ho.trans h4.symm) b hne
    rw [h3] at this
    cases this

theorem requeues_once (s : SimplifyCT σ) (b : Nat) (m : Nat) (h : requeues s b)
    (ho : (queueLoop (m + 1) s).order = s.order) : ¬ requeues (queueLoop (m + 1) s) b := by
  intro hj
  obtain ⟨h1, h2⟩ := loopStep_of_requeues s b h
  have e : queueLoop (m + 1) s = queueLoop m s.loopStep := by
    rw [Nat.add_comm, queueLoop_add]
    show queueLoop m (queueLoop (0 + 1) s) = _
    rw [queueLoop_succ]
    rfl
  rw [e] at ho hj
  have := queueLoop_invalid_stays_clear b m s.loopStep (by rw [ho, h2]) h1
  rw [hj.2.2] at this
  cases this

/-- Claim C17: for every input and every importance function (its `update` returns a weight
table and cannot touch the `invalid` flags) the queue loop of priority-mode `simplify`
terminates: after at most `loopFuel noArcs` iterations the queue is empty and the state no
longer changes.  `order` grows by one entry per removal and never exceeds `noArcs` entries.
Every iteration that finds the queue non-empty strictly decreases the triple (number of
un-removed branches, number of queued invalid branches, queue size) in the lexicographic
order.  Between two consecutive removals no branch is popped and re-enqueued twice: if
iteration `i` re-enqueues `b` and no removal happens in the iterations `i, ..., j - 1`, then
iteration `j` does not re-enqueue `b`. -/
theorem simplify_queue_loop_terminates (f : Option (SimFunction σ)) (sim0 : σ)
    (d : ContourTreeData) :
    (afterQueueLoop f sim0 d).queue = [] ∧
      (∀ m, queueLoop (loopFuel d.noArcs + m) (initSimplification f sim0 d) =
        afterQueueLoop f sim0 d) ∧
      (∀ i, (queueLoop i (initSimplification f sim0 d)).order.length ≤ d.noArcs ∧
        ((queueLoop (i + 1) (initSimplification f sim0 d)).order =
            (queueLoop i (initSimplification f sim0 d)).order ∨
          ∃ a, (queueLoop (i + 1) (initSimplification f sim0 d)).order =
            (queueLoop i (initSimplification f sim0 d)).order ++ [a])) ∧
      (∀ i, (queueLoop i (initSimplification f sim0 d)).queue ≠ [] →
        lexLess (queueLoop (i + 1) (initSimplification f sim0 d)).lexMeasure
          (queueLoop i (initSimplification f sim0 d)).lexMeasure) ∧
      (∀ i j b, i < j →
        (queueLoop j (initSimplification f sim0 d)).order =
          (queueLoop i (initSimplification f sim0 d)).order →
        requeues (queueLoop i (initSimplification f sim0 d)) b →
        ¬ requeues (queueLoop j (initSimplification f sim0 d)) b) := by
  obtain ⟨_, _, hq⟩ := afterQueueLoop_spec f sim0 d
  obtain ⟨hinit, hd, _, _⟩ := initSimplification_spec f sim0 d
  refine ⟨hq, ?_, ?_, ?_, ?_⟩
  · intro m
    rw [queueLoop_add]
    exact queueLoop_of_empty m _ hq
  · intro i
    obtain ⟨hl, hdd, _⟩ := queueLoop_spec i (initSimplification f sim0 d) hinit
    constructor
    · have := length_le_of_nodup_lt _ _ hl.order_nodup hl.order_lt
      rw [hdd, hd] at this
      exact this
    · rw [queueLoop_succ]
      exact loopStep_order_cases _
  · intro i hne
    obtain ⟨hl, _, _⟩ := queueLoop_spec i (initSimplification f sim0 d) hinit
    rw [queueLoop_succ]
    exact loopStep_lexLess _ hl hne
  · intro i j b hij ho hr
    obtain ⟨m, rfl⟩ : ∃ m, j = i + (m + 1) := ⟨j - i - 1, by omega⟩
    rw [queueLoop_add] at ho ⊢
    exact requeues_once _ b m hr ho

/-! ### The comparator is a strict weak ordering -/

/-- `compare(b1,b2)` unfolded: a lexicographic comparison on weight, persistence, index span
and, reversed, `from`. -/
theorem compare_eq_true_iff (s : SimplifyCT σ) (b1 b2 : Nat) :
    s.compare b1 b2 = true ↔
      (s.fn b2 < s.fn b1 ∨ (s.fn b1 = s.fn b2 ∧
        (s.persistence b2 < s.persistence b1 ∨ (s.persistence b1 = s.persistence b2 ∧
          (indexSpan (s.branches b2) < indexSpan (s.branches b1) ∨
            (indexSpan (s.branches b1) = indexSpan (s.branches b2) ∧
              (s.branches b1).from_ < (s.branches b2).from_)))))) := by
  unfold compare persistence
  simp only [gt_iff_lt]
  split_ifs <;>
    simp only [true_iff, Bool.false_eq_true, false_iff, decide_eq_true_eq] <;> omega

theorem compare_eq_false_iff (s : SimplifyCT σ) (b1 b2 : Nat) :
    s.compare b1 b2 = false ↔
      ¬ (s.fn b2 < s.fn b1 ∨ (s.fn b1 = s.fn b2 ∧
        (s.persistence b2 < s.persistence b1 ∨ (s.persistence b1 = s.persistence b2 ∧
          (indexSpan (s.branches b2) < indexSpan (s.branches b1) ∨
            (indexSpan (s.branches b1) = indexSpan (s.branches b2) ∧
              (s.branches b1).from_ < (s.branches b2).from_)))))) := by
  rw [← compare_eq_true_iff]
  simp

/-- The index span determines `to` once `from` is known, for ids that fit `uint32_t`. -/
theorem to_eq_of_indexSpan_eq (x y : Branch) (hx : x.to_ < 4294967296)
    (hy : y.to_ < 4294967296) (hf : x.from_ = y.from_) (h : indexSpan x = indexSpan y) :
    x.to_ = y.to_ := by
  unfold indexSpan toInt32 at h
  rw [hf] at h
  omega

/-- Claim C18: in any engine state `compare` is a strict weak ordering on branch ids: it is
irreflexive, asymmetric and transitive, and incomparability is transitive.  Two branches are
incomparable only if they agree in weight, persistence, index span `to - from` and `from`,
hence also in `to` when the ids fit `uint32_t`. -/
theorem compare_strict_weak_order (s : SimplifyCT σ) :
    (∀ b, s.compare b b = false) ∧
      (∀ b1 b2, s.compare b1 b2 = true → s.compare b2 b1 = false) ∧
      (∀ b1 b2 b3, s.compare b1 b2 = true → s.compare b2 b3 = true →
        s.compare b1 b3 = true) ∧
      (∀ b1 b2 b3, s.compare b1 b2 = false ∧ s.compare b2 b1 = false →
        s.compare b2 b3 = false ∧ s.compare b3 b2 = false →
        s.compare b1 b3 = false ∧ s.compare b3 b1 = false) ∧
      (∀ b1 b2, s.compare b1 b2 = false ∧ s.compare b2 b1 = false →
        s.fn b1 = s.fn b2 ∧ s.persistence b1 = s.persistence b2 ∧
        indexSpan (s.branches b1) = indexSpan (s.branches b2) ∧
        (s.branches b1).from_ = (s.branches b2).from_ ∧
        ((s.branches b1).to_ < 4294967296 → (s.branches b2).to_ < 4294967296 →
          (s.branches b1).to_ = (s.branches b2).to_)) := by
  refine ⟨?_, ?_, ?_, ?_, ?_⟩
  · intro b
    rw [compare_eq_false_iff]
    omega
  · intro b1 b2 h
    rw [compare_eq_true_iff] at h
    rw [compare_eq_false_iff]
    omega
  · intro b1 b2 b3 h1 h2
    rw [compare_eq_true_iff] at h1 h2 ⊢
    omega
  · intro b1 b2 b3 ⟨h1, h2⟩ ⟨h3, h4⟩
    rw [compare_eq_false_iff] at h1 h2 h3 h4
    constructor <;> rw [compare_eq_false_iff] <;> omega
  · intro b1 b2 ⟨h1, h2⟩
    rw [compare_eq_false_iff] at h1 h2
    have e1 : s.fn b1 = s.fn b2 := by omega
    have e2 : s.persistence b1 = s.persistence b2 := by omega
    have e3 : indexSpan (s.branches b1) = indexSpan (s.branches b2) := by omega
    have e4 : (s.branches b1).from_ = (s.branches b2).from_ := by omega
    exact ⟨e1, e2, e3, e4, fun hx hy => to_eq_of_indexSpan_eq _ _ hx hy e4 e3⟩

/-! ### The accesses of `removeArc` on a candidate are in bounds -/

theorem mergeVertexChecked_of_lengths (s : SimplifyCT σ) (v : Nat)
    (hp : (s.nodes v).prev.length = 1) (hn : (s.nodes v).next.length = 1) :
    s.mergeVertexChecked v = some (s.mergeVertex v) ∧
      (s.nodes v).prev = [(s.nodes v).prev.headD 0] ∧
      (s.nodes v).next = [(s.nodes v).next.headD 0] := by
  unfold mergeVertexChecked
  cases h1 : (s.nodes v).prev with
  | nil => rw [h1] at hp; simp at hp
  | cons p ps =>
    cases h2 : (s.nodes v).next with
    | nil => rw [h2] at hn; simp at hn
    | cons q qs =>
      rw [h1] at hp
      rw [h2] at hn
      simp only [List.length_cons] at hp hn
      have e1 : ps = [] := List.length_eq_zero.1 (by omega)
      have e2 : qs = [] := List.length_eq_zero.1 (by omega)
      subst e1 e2
      exact ⟨rfl, rfl, rfl⟩

/-- Claim C19: let `nodes` and `vArray` hold `n` entries and let the endpoints of branch
`ano` be node ids.  If `isCandidate` holds for `ano`, then at least one of the two
assignments to `mergedVertex` in `removeArc(ano)` is executed, `mergedVertex` is an endpoint
of the branch and so below `n`; whenever the merge test succeeds `nodes[v].prev` and
`nodes[v].next` are one-element lists, so the `at(0)` reads of `mergeVertex` succeed; and the
bounds-checked `removeArc` returns the state that `removeArc` computes. -/
theorem removeArc_accesses_in_bounds (s : SimplifyCT σ) (n ano : Nat)
    (hc : s.isCandidate (s.branches ano) = true)
    (hf : (s.branches ano).from_ < n) (ht : (s.branches ano).to_ < n) :
    ((s.nodes (s.branches ano).from_).prev.length = 0 ∨
        (s.nodes (s.branches ano).to_).next.length = 0) ∧
      (s.mergedVertexOf ano = (s.branches ano).from_ ∨
        s.mergedVertexOf ano = (s.branches ano).to_) ∧
      s.mergedVertexOf ano < n ∧
      (mergeTest s ano →
        (∃ p, ((s.detach ano).nodes (s.mergedVertexOf ano)).prev = [p]) ∧
        (∃ q, ((s.detach ano).nodes (s.mergedVertexOf ano)).next = [q]) ∧
        (s.detach ano).mergeVertexChecked (s.mergedVertexOf ano) =
          some ((s.detach ano).mergeVertex (s.mergedVertexOf ano))) ∧
      s.removeArcChecked n ano = some (s.removeArc ano) := by
  have hmv : s.mergedVertexOf ano < n := by
    rcases mergedVertexOf_candidate s ano hc with ⟨h, _⟩ | ⟨h, _⟩
    · rw [h]; exact ht
    · rw [h]; exact hf
  refine ⟨?_, ?_, hmv, ?_, ?_⟩
  · rcases mergedVertexOf_candidate s ano hc with ⟨_, h, _⟩ | ⟨_, h⟩
    · exact Or.inl h
    · exact Or.inr h
  · rcases mergedVertexOf_candidate s ano hc with ⟨h, _⟩ | ⟨h, _⟩
    · exact Or.inr h
    · exact Or.inl h
  · intro hm
    obtain ⟨g1, g2, g3⟩ := mergeVertexChecked_of_lengths (s.detach ano) (s.mergedVertexOf ano)
      hm.1 hm.2
    exact ⟨⟨_, g2⟩, ⟨_, g3⟩, g1⟩
  · unfold removeArcChecked
    simp only []
    rw [if_pos ⟨hf, ht, hmv⟩, removeArc_eq]
    split_ifs with hm
    · rw [(mergeVertexChecked_of_lengths (s.detach ano) (s.mergedVertexOf ano) hm.1 hm.2).1]
      rfl
    · rfl

/-- Witness for C19: branch 1 of `yData`, whose removal merges at node 2. -/
theorem removeArc_accesses_in_bounds_witness :
    yState.isCandidate (yState.branches 1) = true ∧ mergeTest yState 1 ∧
      yState.mergedVertexOf 1 < 4 ∧
      yState.removeArcChecked 4 1 = some (yState.removeArc 1) :=
  ⟨by decide!, by decide!,
    (removeArc_accesses_in_bounds yState 4 1 (by decide!) (by decide!) (by decide!)).2.2.1,
    (removeArc_accesses_in_bounds yState 4 1 (by decide!) (by decide!) (by decide!)).2.2.2.2⟩

/-! ### Consistency of the live topology -/

theorem Topo.consistent {rank : Nat → Int} {s : SimplifyCT σ} (h : Topo rank s) :
    Consistent s := by
  constructor
  · intro b hb
    have hf : s.alive (s.branches b).from_ := ⟨b, hb, Or.inl rfl⟩
    have ht : s.alive (s.branches b).to_ := ⟨b, hb, Or.inr rfl⟩
    exact ⟨List.count_eq_one_of_mem (h.next_nodup _ hf) (h.in_next b hb),
      List.count_eq_one_of_mem (h.prev_nodup _ ht) (h.in_prev b hb)⟩
  · intro v hv
    exact ⟨fun x hx => h.prev_ok v x hv hx, fun x hx => h.next_ok v x hv hx⟩

/-- The states of a priority-mode run on a ranked input are reachable. -/
theorem queueLoop_reachable (rank : Nat → Int) (f : Option (SimFunction σ)) (sim0 : σ)
    (d : ContourTreeData) (hr : Ranked rank d) (i : Nat) :
    Reachable (queueLoop i (initSimplification f sim0 d)) := by
  induction i with
  | zero => exact Reachable.init rank f sim0 d hr
  | succ k ih =>
    rw [queueLoop_succ]
    exact Reachable.loop _ ih

/-- Claim C20: in every reachable state `s` (the state `initSimplification` builds on an input
whose arcs ascend along a ranking of the nodes, and every state reached from it by iterations
of the queue loop or by `removeArc` on a candidate) every un-removed branch `b` is listed
exactly once in `nodes[branches[b].from].next` and exactly once in `nodes[branches[b].to].prev`,
and the `prev` / `next` lists of every node that is an endpoint of an un-removed branch hold
only un-removed branches whose `to` / `from` is that node.  The same holds inside
`removeArc(ano)` on a candidate: after `ano` was unlinked, after `mergeVertex` if the merge
test succeeds, and when `removeArc` returns. -/
theorem reachable_topology_consistent (s : SimplifyCT σ) (h : Reachable s) :
    Consistent s ∧
      ∀ ano, s.isCandidate (s.branches ano) = true →
        Consistent (s.detach ano) ∧
        (mergeTest s ano → Consistent ((s.detach ano).mergeVertex (s.mergedVertexOf ano))) ∧
        Consistent (s.removeArc ano) := by
  obtain ⟨rank, ht⟩ := h.topo
  refine ⟨ht.consistent, ?_⟩
  intro ano hc
  have hd : Topo rank (s.detach ano) := by
    by_cases hl : s.live ano
    · exact detach_topo rank s ano ht hl
    · exact detach_topo_of_not_live rank s ano ht hc hl
  refine ⟨hd.consistent, ?_, (removeArc_topo rank s ano ht hc).consistent⟩
  intro hm
  obtain ⟨_, hal⟩ := mergeTest_live rank s ano ht hc hm
  exact (mergeVertex_topo rank (s.detach ano) _ hd hm.1 hm.2 hal).consistent

/-- Witness for C20: the state after the first iteration of the priority-mode run on
`yData`, in which branch 1 has been removed and branch 2 absorbed by branch 0. -/
theorem reachable_topology_consistent_witness :
    (queueLoop 1 yState).order = [1] ∧ (queueLoop 1 yState).removed 0 = false ∧
      Reachable (queueLoop 1 yState) ∧ Consistent (queueLoop 1 yState) :=
  ⟨by decide!, by decide!, queueLoop_reachable _ _ _ _ yData_ranked 1,
    (reachable_topology_consistent (queueLoop 1 yState)
      (queueLoop_reachable _ _ _ _ yData_ranked 1)).1⟩

/-! ### The assertion of `mergeVertex` -/

theorem adoptAsserted_some (a rem : Nat) (bs : Nat → Branch) (ch : Nat) :
    adoptAsserted a rem (some bs) ch =
      if (bs ch).parent = (rem : Int) then some (adopt a bs ch) else none := by
  have e : (upd bs a { bs a with children := (bs a).children ++ [ch] } ch).parent =
      (bs ch).parent := by
    rw [upd_apply]
    split_ifs with h
    · rw [h]
    · rfl
  unfold adoptAsserted adopt
  simp only [e]

theorem foldl_adoptAsserted (a rem : Nat) (l : List Nat) : ∀ bs : Nat → Branch,
    l.Nodup → (∀ ch, ch ∈ l → (bs ch).parent = (rem : Int)) →
    l.foldl (adoptAsserted a rem) (some bs) = some (l.foldl (adopt a) bs) := by
  induction l with
  | nil => intro bs _ _; rfl
  | cons c t ih =>
    intro bs hnd hp
    rw [List.nodup_cons] at hnd
    simp only [List.foldl_cons]
    rw [adoptAsserted_some, if_pos (hp c (List.mem_cons_self c t))]
    apply ih _ hnd.2
    intro ch hch
    rw [adopt_parent]
    have : ch ≠ c := fun e => hnd.1 (e ▸ hch)
    rw [if_neg this]
    exact hp ch (List.mem_cons_of_mem c hch)

theorem transferAsserted_eq (bs : Nat → Branch) (parked : List Nat) (a rem : Nat)
    (hnd : (bs rem).children.Nodup)
    (hp : ∀ ch, ch ∈ (bs rem).children → (bs ch).parent = (rem : Int)) :
    transferAsserted bs parked a rem = some (transfer bs parked a rem) := by
  unfold transferAsserted transfer
  rw [foldl_adoptAsserted a rem _ bs hnd hp]

theorem mergeVertexAsserted_eq (s : SimplifyCT σ) (v : Nat)
    (hnd : (s.branches (s.consumedOf v)).children.Nodup)
    (hp : ∀ ch, ch ∈ (s.branches (s.consumedOf v)).children →
      (s.branches ch).parent = (s.consumedOf v : Int)) :
    s.mergeVertexAsserted v = some (s.mergeVertex v) := by
  have k1 : ∀ p q b, ((s.mergeIntoPrev p q).branches b).children = (s.branches b).children ∧
      ((s.mergeIntoPrev p q).branches b).parent = (s.branches b).parent := by
    intro p q b
    rw [mergeIntoPrev_branches, upd_apply]
    split_ifs with e
    · rw [e]; exact ⟨rfl, rfl⟩
    · exact ⟨rfl, rfl⟩
  have k2 : ∀ p q b, ((s.mergeIntoNext p q).branches b).children = (s.branches b).children ∧
      ((s.mergeIntoNext p q).branches b).parent = (s.branches b).parent := by
    intro p q b
    rw [mergeIntoNext_branches, upd_apply]
    split_ifs with e
    · rw [e]; exact ⟨rfl, rfl⟩
    · exact ⟨rfl, rfl⟩
  rcases survivor_consumed_cases s v with ⟨_, c2, hi⟩ | ⟨_, c2, hi⟩
  · rw [c2] at hnd hp
    rw [mergeVertex_of_inq s v hi]
    unfold mergeVertexAsserted
    simp only [hi, if_true]
    rw [transferAsserted_eq]
    · simp only [Option.map_some', mergeIntoPrev_vArray]
    · rw [(k1 _ _ _).1]; exact hnd
    · intro ch hch
      rw [(k1 _ _ _).1] at hch
      rw [(k1 _ _ _).2]
      exact hp ch hch
  · rw [c2] at hnd hp
    rw [mergeVertex_of_not_inq s v hi]
    unfold mergeVertexAsserted
    simp only [hi, Bool.false_eq_true, if_false]
    rw [transferAsserted_eq]
    · simp only [Option.map_some', mergeIntoNext_vArray]
    · rw [(k2 _ _ _).1]; exact hnd
    · intro ch hch
      rw [(k2 _ _ _).1] at hch
      rw [(k2 _ _ _).2]
      exact hp ch hch

/-- The two branches meeting at a vertex about to be merged are live and different. -/
theorem merge_pair_live (rank : Nat → Int) (s : SimplifyCT σ) (v : Nat) (ht : Topo rank s)
    (h1 : (s.nodes v).prev.length = 1) (h2 : (s.nodes v).next.length = 1) (hv : s.alive v) :
    s.live (s.survivorOf v) ∧ s.live (s.consumedOf v) ∧ s.survivorOf v ≠ s.consumedOf v := by
  obtain ⟨hpl, hpt⟩ := ht.prev_ok v _ hv (headD_mem_of_length_one _ h1)
  obtain ⟨hql, hqf⟩ := ht.next_ok v _ hv (headD_mem_of_length_one _ h2)
  have hpq : (s.nodes v).prev.headD 0 ≠ (s.nodes v).next.headD 0 := by
    intro e
    have r := ht.ranked _ hpl
    rw [hpt, e, hqf] at r
    omega
  rcases survivor_consumed_cases s v with ⟨c1, c2, _⟩ | ⟨c1, c2, _⟩
  · rw [c1, c2]; exact ⟨hpl, hql, hpq⟩
  · rw [c1, c2]; exact ⟨hql, hpl, hpq.symm⟩

/-- A branch that is not consumed after a merge was not consumed before it and is not the
branch the merge consumes. -/
theorem mergeVertex_not_consumed (s : SimplifyCT σ) (v : Nat) (hf : Forest s)
    (hrr : s.removed (s.consumedOf v) = false) (b : Nat)
    (hb : ((s.mergeVertex v).branches b).parent ≠ -2) :
    b ≠ s.consumedOf v ∧ (s.branches b).parent ≠ -2 := by
  have hPr := hf.live_parent _ hrr
  rw [mergeVertex_parent] at hb
  by_cases e : b = s.consumedOf v
  · rw [if_pos e] at hb; exact absurd rfl hb
  · refine ⟨e, ?_⟩
    intro hc
    rw [if_neg e] at hb
    have n1 : b ∉ s.vArray v := hf.consumed_not_parked b v hc
    have n2 : b ∉ (s.branches (s.consumedOf v)).children :=
      hf.consumed_not_child b _ hc hPr
    rw [if_neg n1, if_neg n2] at hb
    exact hb hc

theorem Parents.of_same_hierarchy {s t : SimplifyCT σ} (h : Parents s) (hd : t.data = s.data)
    (hb : t.branches = s.branches) (hr : t.removed = s.removed) : Parents t := by
  unfold Parents
  rw [hd, hb, hr]
  exact h

theorem detach_parents (s : SimplifyCT σ) (a : Nat) (h : Parents s) : Parents (s.detach a) := by
  refine ⟨h.1, ?_⟩
  intro b hb hge
  obtain ⟨g1, g2⟩ := h.2 b hb hge
  refine ⟨?_, g2⟩
  rw [detach_removed, upd_apply]
  split_ifs
  · rfl
  · exact g1

/-- `mergeVertex` keeps the `parent` fields and the `children` lists in agreement. -/
theorem mergeVertex_parents (rank : Nat → Int) (s : SimplifyCT σ) (v : Nat) (ht : Topo rank s)
    (hf : Forest s) (hp : Parents s) (h1 : (s.nodes v).prev.length = 1)
    (h2 : (s.nodes v).next.length = 1) (hv : s.alive v) : Parents (s.mergeVertex v) := by
  obtain ⟨hla, hlr, har⟩ := merge_pair_live rank s v ht h1 h2 hv
  have hold := mergeVertex_not_consumed s v hf hlr.2
  have hch := mergeVertex_children s v
  have hpa := mergeVertex_parent s v
  have hrm := mergeVertex_removed s v
  have hdt := mergeVertex_data s v
  generalize s.survivorOf v = a at *
  generalize s.consumedOf v = rem at *
  have hPa := hf.live_parent a hla.2
  have hPr := hf.live_parent rem hlr.2
  -- the consumed branch, being live, is in no list
  have hnr : ∀ b, rem ∉ (s.branches b).children := by
    intro b hin
    have := ht.children_removed b rem hin
    rw [hlr.2] at this
    cases this
  have hnv : rem ∉ s.vArray v := by
    intro hin
    have := ht.parked_removed v rem hin
    rw [hlr.2] at this
    cases this
  constructor
  · intro p ch hpp hin
    obtain ⟨p1, p2⟩ := hold p hpp
    rw [hch] at hin
    have hne : ch ≠ rem := by
      intro e
      rw [e] at hin
      split_ifs at hin
      · rcases List.mem_append.1 hin with h | h
        · rcases List.mem_append.1 h with h | h
          · exact hnr a h
          · exact hnr rem h
        · exact hnv h
      · exact hnr p hin
    rw [hpa, if_neg hne]
    by_cases n1 : ch ∈ s.vArray v
    · rw [if_pos n1]
      by_cases e : p = a
      · rw [e]
      · rw [if_neg e] at hin
        exact absurd hin (fun h => hf.parked_child v p hv p2 n1 h)
    · rw [if_neg n1]
      by_cases n2 : ch ∈ (s.branches rem).children
      · rw [if_pos n2]
        by_cases e : p = a
        · rw [e]
        · rw [if_neg e] at hin
          exact absurd hin (fun h => hf.child_disjoint rem p (Ne.symm p1) hPr p2 n2 h)
      · rw [if_neg n2]
        by_cases e : p = a
        · rw [if_pos e] at hin
          rw [e]
          rcases List.mem_append.1 hin with h | h
          · rcases List.mem_append.1 h with h | h
            · exact hp.1 a ch hPa h
            · exact absurd h n2
          · exact absurd h n1
        · rw [if_neg e] at hin
          exact hp.1 p ch p2 hin
  · intro b hb hge
    rw [hdt] at hb
    have hpb := hpa b
    by_cases e : b = rem
    · rw [if_pos e] at hpb
      rw [hpb] at hge
      omega
    · rw [if_neg e] at hpb
      rw [hrm, upd_apply, if_neg e]
      by_cases n1 : b ∈ s.vArray v
      · rw [if_pos n1] at hpb
        rw [hpb, Int.toNat_ofNat, hch, if_pos rfl]
        exact ⟨ht.parked_removed v b n1, List.mem_append_right _ n1⟩
      · rw [if_neg n1] at hpb
        by_cases n2 : b ∈ (s.branches rem).children
        · rw [if_pos n2] at hpb
          rw [hpb, Int.toNat_ofNat, hch, if_pos rfl]
          exact ⟨ht.children_removed rem b n2,
            List.mem_append_left _ (List.mem_append_right _ n2)⟩
        · rw [if_neg n2] at hpb
          rw [hpb] at hge ⊢
          obtain ⟨g1, g2⟩ := hp.2 b hb hge
          refine ⟨g1, ?_⟩
          rw [hch]
          split_ifs with e2
          · rw [e2] at g2
            exact List.mem_append_left _ (List.mem_append_left _ g2)
          · exact g2

/-- `removeArc` of a live candidate keeps `parent` and `children` in agreement, and the
assertion of `mergeVertex` holds if the merge takes place. -/
theorem removeArc_parents (rank : Nat → Int) (s : SimplifyCT σ) (a : Nat) (ht : Topo rank s)
    (hf : Forest s) (hp : Parents s) (hl : s.live a)
    (hc : s.isCandidate (s.branches a) = true) :
    Parents (s.removeArc a) ∧ s.removeArcAsserted a = some (s.removeArc a) := by
  have hfd := detach_forest rank s a ht hf hl.2
  have htd := detach_topo rank s a ht hl
  have hpd := detach_parents s a hp
  unfold removeArcAsserted
  rw [removeArc_eq]
  simp only []
  split_ifs with hm
  · obtain ⟨_, hal⟩ := mergeTest_live rank s a ht hc hm
    obtain ⟨_, hlr, _⟩ := merge_pair_live rank _ _ htd hm.1 hm.2 hal
    constructor
    · exact (mergeVertex_parents rank _ _ htd hfd hpd hm.1 hm.2 hal).of_same_hierarchy (by simp)
        (by simp) (by simp)
    · rw [mergeVertexAsserted_eq _ _ (hfd.child_nodup _)
        (fun ch hch => hpd.1 _ ch (hfd.live_parent _ hlr.2) hch)]
      rfl
  · exact ⟨hpd.of_same_hierarchy (by simp) (by simp) (by simp), rfl⟩

theorem initSimplification_parents (f : Option (SimFunction σ)) (sim0 : σ)
    (d : ContourTreeData) : Parents (initSimplification f sim0 d) := by
  obtain ⟨hd, hb, _, _, _, _⟩ := initSimplification_fields f sim0 d
  obtain ⟨k1, _, _⟩ := foldl_initArc_range f sim0 d d.noArcs
  constructor
  · intro p ch _ hin
    rw [hb, k1] at hin
    split_ifs at hin <;> simp at hin
  · intro b hlt hge
    rw [hd] at hlt
    rw [hb, k1, if_pos hlt] at hge
    simp at hge

/-- Every iteration of the queue loop keeps `parent` and `children` in agreement and passes
the assertion of `mergeVertex`. -/
theorem queueLoop_parents (rank : Nat → Int) (f : Option (SimFunction σ)) (sim0 : σ)
    (d : ContourTreeData) (hr : Ranked rank d) (i : Nat) :
    Parents (queueLoop i (initSimplification f sim0 d)) := by
  induction i with
  | zero => exact initSimplification_parents f sim0 d
  | succ i ih =>
    obtain ⟨ht, hf⟩ := queueLoop_forest rank f sim0 d hr i
    have hinv := (queueLoop_spec i _ (initSimplification_spec f sim0 d).1).1
    rw [queueLoop_succ]
    generalize queueLoop i (initSimplification f sim0 d) = s at *
    rcases loopStep_cases_live s hinv.queue_lt with ⟨_, c2, c3, _, c5, _⟩ | ⟨a, s0, d1, d2, d3,
      d4, d5, hla, hca, _, e1, e2, _, e4, _⟩
    · exact ih.of_same_hierarchy c2 c3 c5
    · have hf0 : Forest s0 := hf.of_same_tables d1 d2 d4 d5
      have ht0 : Topo rank s0 := ht.of_eq d1 d2 d3 d4 d5
      have hp0 : Parents s0 := ih.of_same_hierarchy d1 d2 d4
      exact (removeArc_parents rank s0 a ht0 hf0 hp0 hla hca).1.of_same_hierarchy e1 e2 e4

theorem loopStepAsserted_some (s x : SimplifyCT σ) (ano : Nat) (h : s.queueTop = some ano)
    (hx : x = { s with queue := s.queue.erase ano, inq := upd s.inq ano false }) :
    s.loopStepAsserted =
      (if !x.removed ano then
        if x.invalid ano then
          some (({ x.updateWeight ano with
            invalid := upd (x.updateWeight ano).invalid ano false }).addToQueue ano)
        else if x.isCandidate (x.branches ano) then
          (x.removeArcAsserted ano).map (fun t => { t with order := t.order ++ [ano] })
        else some x
      else some x) := by
  subst hx
  unfold loopStepAsserted
  rw [h]

theorem loopStepAsserted_eq (rank : Nat → Int) (s : SimplifyCT σ) (ht : Topo rank s)
    (hf : Forest s) (hp : Parents s) (hq : ∀ x, x ∈ s.queue → x < s.data.noArcs) :
    s.loopStepAsserted = some s.loopStep := by
  cases htop : s.queueTop with
  | none =>
    unfold loopStepAsserted loopStep
    rw [htop]
  | some ano =>
    have hlt := hq ano (queueTop_mem s ano htop)
    have ht0 : Topo rank (s.popped ano) := ht.of_eq rfl rfl rfl rfl rfl
    have hf0 : Forest (s.popped ano) := hf.of_same_tables rfl rfl rfl rfl
    have hp0 : Parents (s.popped ano) := hp.of_same_hierarchy rfl rfl rfl
    rw [loopStep_some s (s.popped ano) ano htop rfl,
      loopStepAsserted_some s (s.popped ano) ano htop rfl]
    split_ifs with g1 g2 g3
    · rfl
    · have hl : (s.popped ano).live ano := by
        refine ⟨hlt, ?_⟩
        simpa using g1
      rw [(removeArc_parents rank _ ano ht0 hf0 hp0 hl g3).2]
      rfl
    · rfl
    · rfl

theorem queueLoopAsserted_eq (rank : Nat → Int) (f : Option (SimFunction σ)) (sim0 : σ)
    (d : ContourTreeData) (hr : Ranked rank d) (n : Nat) : ∀ i,
    queueLoopAsserted n (queueLoop i (initSimplification f sim0 d)) =
      some (queueLoop (i + n) (initSimplification f sim0 d)) := by
  induction n with
  | zero => intro i; rfl
  | succ n ih =>
    intro i
    obtain ⟨ht, hf⟩ := queueLoop_forest rank f sim0 d hr i
    have hp := queueLoop_parents rank f sim0 d hr i
    have hinv := (queueLoop_spec i _ (initSimplification_spec f sim0 d).1).1
    rw [queueLoopAsserted]
    split_ifs with hq
    · rw [loopStepAsserted_eq rank _ ht hf hp hinv.queue_lt]
      simp only []
      rw [← queueLoop_succ, ih (i + 1)]
      congr 2
      omega
    · have he : (queueLoop i (initSimplification f sim0 d)).queue = [] := by
        cases hs : (queueLoop i (initSimplification f sim0 d)).queue with
        | nil => rfl
        | cons x xs => simp [hs] at hq
      rw [queueLoop_add, queueLoop_of_empty _ _ he]

/-- Claim C21: in a priority-mode run on a valid contour tree the assertion
`assert(branches[ch].parent == rem)` of `mergeVertex` never fails: the queue loop with the
assertion checked runs to the same final state as the loop without the check.  After any
number of iterations, in the state in which the removal of the popped branch `ano` enters the
merge test, and in the state `simplify` returns, every entry `ch` of the `children` list of a
branch `p` with `parent != -2` has `branches[ch].parent == p`, and every branch with
`parent >= 0` is removed and listed in the `children` of its parent. -/
theorem simplify_assertion_never_fails (f : Option (SimFunction σ)) (sim0 : σ)
    (d : ContourTreeData) (hv : ValidTree d) :
    queueLoopAsserted (loopFuel d.noArcs) (initSimplification f sim0 d) =
        some (afterQueueLoop f sim0 d) ∧
      (∀ i, Parents (queueLoop i (initSimplification f sim0 d))) ∧
      (∀ i ano, Parents (((queueLoop i (initSimplification f sim0 d)).popped ano).detach ano)) ∧
      Parents (simplify f sim0 d) := by
  obtain ⟨rank, hr⟩ := validTree_ranked d hv
  have key := queueLoop_parents rank f sim0 d hr
  refine ⟨?_, key, ?_, (key (loopFuel d.noArcs)).of_same_hierarchy rfl rfl rfl⟩
  · have := queueLoopAsserted_eq rank f sim0 d hr (loopFuel d.noArcs) 0
    rw [Nat.zero_add] at this
    exact this
  · intro i ano
    exact detach_parents _ _ ((key i).of_same_hierarchy rfl rfl rfl)

/-- Witness for C21: the run on `saddleData`, in which the second merge consumes a branch
that has a child. -/
theorem simplify_assertion_never_fails_witness :
    ValidTree saddleData ∧
      ((simplify (some saddleSim) () saddleData).branches 1).children = [0] ∧
      ((simplify (some saddleSim) () saddleData).branches 1).parent = -2 ∧
      queueLoopAsserted (loopFuel saddleData.noArcs)
          (initSimplification (some saddleSim) () saddleData) =
        some (afterQueueLoop (some saddleSim) () saddleData) ∧
      Parents (simplify (some saddleSim) () saddleData) :=
  ⟨saddleData_valid, by decide!, by decide!,
    (simplify_assertion_never_fails (some saddleSim) () saddleData saddleData_valid).1,
    (simplify_assertion_never_fails (some saddleSim) () saddleData saddleData_valid).2.2.2⟩

/-! ### The arcs of the non-consumed branches partition the arc ids -/

theorem mergeVertex_arcs (s : SimplifyCT σ) (v b : Nat) :
    ((s.mergeVertex v).branches b).arcs =
      if b = s.survivorOf v then
        (s.branches (s.survivorOf v)).arcs ++ (s.branches (s.consumedOf v)).arcs
      else (s.branches b).arcs := by
  have key : ∀ x, ((if s.inq ((s.nodes v).prev.headD 0)
          then upd s.branches ((s.nodes v).prev.headD 0)
            { s.branches ((s.nodes v).prev.headD 0) with
              to_ := (s.branches ((s.nodes v).next.headD 0)).to_ }
          else upd s.branches ((s.nodes v).next.headD 0)
            { s.branches ((s.nodes v).next.headD 0) with
              from_ := (s.branches ((s.nodes v).prev.headD 0)).from_ }) x).arcs =
      (s.branches x).arcs := by
    intro x
    split_ifs
    · rw [upd_apply]
      split_ifs with e
      · rw [e]
      · rfl
    · rw [upd_apply]
      split_ifs with e
      · rw [e]
      · rfl
  rw [mergeVertex_branches, transfer_arcs, key, key, key]

theorem ArcPartition.of_same_branches {s t : SimplifyCT σ} (h : ArcPartition s)
    (hd : t.data = s.data) (hb : t.branches = s.branches) : ArcPartition t := by
  unfold ArcPartition
  rw [hd, hb]
  exact h

/-- `mergeVertex` moves the arcs of the consumed branch to the survivor. -/
theorem mergeVertex_arcPartition (rank : Nat → Int) (s : SimplifyCT σ) (v : Nat)
    (ht : Topo rank s) (hf : Forest s) (hp : ArcPartition s)
    (h1 : (s.nodes v).prev.length = 1) (h2 : (s.nodes v).next.length = 1) (hv : s.alive v) :
    ArcPartition (s.mergeVertex v) := by
  obtain ⟨hla, hlr, har⟩ := merge_pair_live rank s v ht h1 h2 hv
  have hold := mergeVertex_not_consumed s v hf hlr.2
  have har' := mergeVertex_arcs s v
  have hpa := mergeVertex_parent s v
  have hdt := mergeVertex_data s v
  generalize s.survivorOf v = a at *
  generalize s.consumedOf v = rem at *
  have hPa := hf.live_parent a hla.2
  have hPr := hf.live_parent rem hlr.2
  -- a non-consumed branch other than `rem` stays non-consumed
  have hkeep : ∀ b, b ≠ rem → (s.branches b).parent ≠ -2 →
      ((s.mergeVertex v).branches b).parent ≠ -2 := by
    intro b e hb
    rw [hpa, if_neg e]
    split_ifs
    · omega
    · omega
    · exact hb
  unfold ArcPartition
  rw [hdt]
  constructor
  · intro b hb hpb i hi
    obtain ⟨b1, b2⟩ := hold b hpb
    rw [har'] at hi
    split_ifs at hi
    · rcases List.mem_append.1 hi with h | h
      · exact hp.1 a hla.1 hPa i h
      · exact hp.1 rem hlr.1 hPr i h
    · exact hp.1 b hb b2 i hi
  · intro i hi
    obtain ⟨b0, hb0, hp0, hc0, hu0⟩ := hp.2 i hi
    have hmem0 : i ∈ (s.branches b0).arcs := by
      apply List.count_pos_iff.1
      omega
    -- uniqueness of the owner afterwards
    have huniq : ∀ (owner : Nat), (b0 = rem → owner = a) → (b0 ≠ rem → owner = b0) →
        ∀ c, c < s.data.noArcs → ((s.mergeVertex v).branches c).parent ≠ -2 →
          i ∈ ((s.mergeVertex v).branches c).arcs → c = owner := by
      intro owner o1 o2 c hc hpc hic
      obtain ⟨c1, c2⟩ := hold c hpc
      rw [har'] at hic
      split_ifs at hic with e
      · rcases List.mem_append.1 hic with h | h
        · have := hu0 a hla.1 hPa h
          rw [e, o2 (by rw [← this]; exact har), this]
        · have := hu0 rem hlr.1 hPr h
          rw [e, o1 this.symm]
      · have := hu0 c hc c2 hic
        rw [this, o2 (by rw [← this]; exact c1)]
    by_cases e : b0 = rem
    · refine ⟨a, hla.1, hkeep a har hPa, ?_, huniq a (fun _ => rfl) (fun h => absurd e h)⟩
      rw [har', if_pos rfl, List.count_append, ← e, hc0]
      have : i ∉ (s.branches a).arcs := by
        intro h
        have := hu0 a hla.1 hPa h
        exact har (this.trans e)
      rw [List.count_eq_zero_of_not_mem this]
    · refine ⟨b0, hb0, hkeep b0 e hp0, ?_, huniq b0 (fun h => absurd h e) (fun _ => rfl)⟩
      rw [har']
      split_ifs with e2
      · rw [List.count_append, ← e2, hc0]
        have : i ∉ (s.branches rem).arcs := by
          intro h
          have := hu0 rem hlr.1 hPr h
          exact e this.symm
        rw [List.count_eq_zero_of_not_mem this]
      · exact hc0

/-- The removal of a live candidate keeps the partition, in each of its stages. -/
theorem removeArc_arcPartition (rank : Nat → Int) (s : SimplifyCT σ) (a : Nat)
    (ht : Topo rank s) (hf : Forest s) (hp : ArcPartition s) (hl : s.live a)
    (hc : s.isCandidate (s.branches a) = true) :
    ArcPartition (s.detach a) ∧
      (mergeTest s a → ArcPartition ((s.detach a).mergeVertex (s.mergedVertexOf a))) ∧
      ArcPartition (s.removeArc a) := by
  have hfd := detach_forest rank s a ht hf hl.2
  have htd := detach_topo rank s a ht hl
  have hpd : ArcPartition (s.detach a) := hp.of_same_branches rfl rfl
  have hm : mergeTest s a → ArcPartition ((s.detach a).mergeVertex (s.mergedVertexOf a)) := by
    intro hm
    obtain ⟨_, hal⟩ := mergeTest_live rank s a ht hc hm
    exact mergeVertex_arcPartition rank _ _ htd hfd hpd hm.1 hm.2 hal
  refine ⟨hpd, hm, ?_⟩
  rw [removeArc_eq]
  split_ifs with h
  · exact (hm h).of_same_branches (by simp) (by simp)
  · exact hpd.of_same_branches (by simp) (by simp)

theorem initSimplification_arcPartition (f : Option (SimFunction σ)) (sim0 : σ)
    (d : ContourTreeData) : ArcPartition (initSimplification f sim0 d) := by
  obtain ⟨hd, hb, _, _, _, _⟩ := initSimplification_fields f sim0 d
  obtain ⟨k1, _, _⟩ := foldl_initArc_range f sim0 d d.noArcs
  unfold ArcPartition
  rw [hd, hb]
  constructor
  · intro b hlt _ i hi
    rw [k1, if_pos hlt] at hi
    simp only [List.mem_singleton] at hi
    rw [hi]
    exact hlt
  · intro i hi
    refine ⟨i, hi, ?_, ?_, ?_⟩
    · rw [k1, if_pos hi]
      simp
    · rw [k1, if_pos hi]
      simp
    · intro c hc _ hic
      rw [k1, if_pos hc] at hic
      simp only [List.mem_singleton] at hic
      exact hic.symm

theorem queueLoop_arcPartition (rank : Nat → Int) (f : Option (SimFunction σ)) (sim0 : σ)
    (d : ContourTreeData) (hr : Ranked rank d) (i : Nat) :
    ArcPartition (queueLoop i (initSimplification f sim0 d)) := by
  induction i with
  | zero => exact initSimplification_arcPartition f sim0 d
  | succ i ih =>
    obtain ⟨ht, hf⟩ := queueLoop_forest rank f sim0 d hr i
    have hinv := (queueLoop_spec i _ (initSimplification_spec f sim0 d).1).1
    rw [queueLoop_succ]
    generalize queueLoop i (initSimplification f sim0 d) = s at *
    rcases loopStep_cases_live s hinv.queue_lt with ⟨_, c2, c3, _, _, _⟩ | ⟨a, s0, d1, d2, d3,
      d4, d5, hla, hca, _, e1, e2, _, _, _⟩
    · exact ih.of_same_branches c2 c3
    · have hf0 : Forest s0 := hf.of_same_tables d1 d2 d4 d5
      have ht0 : Topo rank s0 := ht.of_eq d1 d2 d3 d4 d5
      have hp0 : ArcPartition s0 := ih.of_same_branches d1 d2
      exact (removeArc_arcPartition rank s0 a ht0 hf0 hp0 hla hca).2.2.of_same_branches e1 e2

/-- Replay mode keeps the partition as long as every entry of `order` is an un-removed
candidate when its turn comes. -/
theorem replayPrefix_arcPartition (rank : Nat → Int) (l : List Nat) : ∀ (s : SimplifyCT σ),
    Topo rank s → Forest s → ArcPartition s →
    ∀ i, (∀ j, j < i → j < l.length →
        (replayPrefix s l j).isCandidate ((replayPrefix s l j).branches (l.getD j 0)) = true ∧
        (replayPrefix s l j).live (l.getD j 0)) →
      ArcPartition (replayPrefix s l i) := by
  induction l with
  | nil => intro s _ _ hp i _; simpa [replayPrefix] using hp
  | cons a l ih =>
    intro s ht hf hp i hi
    cases i with
    | zero => exact hp
    | succ i =>
      rw [replayPrefix_cons]
      obtain ⟨h0, h1⟩ := hi 0 (by omega) (by simp)
      simp only [replayPrefix_zero, List.getD_cons_zero] at h0 h1
      have ht0 : Topo rank ({ s with inq := upd s.inq a false } : SimplifyCT σ) :=
        ht.of_eq rfl rfl rfl rfl rfl
      have hf0 : Forest ({ s with inq := upd s.inq a false } : SimplifyCT σ) :=
        hf.of_same_tables rfl rfl rfl rfl
      have hp0 : ArcPartition ({ s with inq := upd s.inq a false } : SimplifyCT σ) :=
        hp.of_same_branches rfl rfl
      have hc0 : ({ s with inq := upd s.inq a false } : SimplifyCT σ).isCandidate
          (({ s with inq := upd s.inq a false } : SimplifyCT σ).branches a) = true := h0
      have hl0 : ({ s with inq := upd s.inq a false } : SimplifyCT σ).live a := h1
      apply ih _ (removeArc_topo rank _ a ht0 hc0) (removeArc_forest rank _ a ht0 hf0 hl0 hc0)
        (removeArc_arcPartition rank _ a ht0 hf0 hp0 hl0 hc0).2.2
      intro j hj hjl
      have := hi (j + 1) (by omega) (by simp; omega)
      simpa [replayPrefix_cons] using this

/-- Claim C22: on an input whose arcs ascend along a ranking of the nodes (every valid
contour tree is one) the `arcs` lists of the branches with `parent != -2` partition the arc
ids `0 .. noArcs - 1`: they hold arc ids only, and every arc id occurs in the list of exactly
one such branch, exactly once.  This holds after `initSimplification` and after every number
of iterations of the priority-mode queue loop, in the state `simplify` returns, inside the
removal of the popped branch (after it was unlinked, after `mergeVertex`, when `removeArc`
returns), and in replay mode after any number of removals, each of an un-removed
candidate. -/
theorem arcs_partition_invariant (rank : Nat → Int) (f : Option (SimFunction σ)) (sim0 : σ)
    (d : ContourTreeData) (hr : Ranked rank d) :
    (∀ i, ArcPartition (queueLoop i (initSimplification f sim0 d))) ∧
      ArcPartition (simplify f sim0 d) ∧
      (∀ i ano, (queueLoop i (initSimplification f sim0 d)).queueTop = some ano →
        (queueLoop i (initSimplification f sim0 d)).removed ano = false →
        ((queueLoop i (initSimplification f sim0 d)).popped ano).isCandidate
          (((queueLoop i (initSimplification f sim0 d)).popped ano).branches ano) = true →
        ArcPartition (((queueLoop i (initSimplification f sim0 d)).popped ano).detach ano) ∧
        (mergeTest ((queueLoop i (initSimplification f sim0 d)).popped ano) ano →
          ArcPartition ((((queueLoop i (initSimplification f sim0 d)).popped ano).detach
            ano).mergeVertex
              (((queueLoop i (initSimplification f sim0 d)).popped ano).mergedVertexOf ano))) ∧
        ArcPartition (((queueLoop i (initSimplification f sim0 d)).popped ano).removeArc ano)) ∧
      ∀ (order : List Nat) (k : Nat),
        (∀ j, j < k → j < order.length →
          (replayPrefix (replayStart d order) order j).isCandidate
            ((replayPrefix (replayStart d order) order j).branches (order.getD j 0)) = true ∧
          (replayPrefix (replayStart d order) order j).live (order.getD j 0)) →
        ArcPartition (replayPrefix (replayStart d order) order k) := by
  have key := queueLoop_arcPartition rank f sim0 d hr
  refine ⟨key, (key (loopFuel d.noArcs)).of_same_branches rfl rfl, ?_, ?_⟩
  · intro i ano htop hrm hc
    obtain ⟨ht, hf⟩ := queueLoop_forest rank f sim0 d hr i
    have hinv := (queueLoop_spec i _ (initSimplification_spec f sim0 d).1).1
    have hlt := hinv.queue_lt ano (queueTop_mem _ ano htop)
    exact removeArc_arcPartition rank _ ano (ht.of_eq rfl rfl rfl rfl rfl)
      (hf.of_same_tables rfl rfl rfl rfl) ((key i).of_same_branches rfl rfl) ⟨hlt, hrm⟩ hc
  · intro order k hk
    have ht := initSimplification_topo rank (none : Option (SimFunction Unit)) () d hr
    have hf := initSimplification_forest (none : Option (SimFunction Unit)) () d
    have hp := initSimplification_arcPartition (none : Option (SimFunction Unit)) () d
    have e := markQueued_eq order (initSimplification (none : Option (SimFunction Unit)) () d)
    have ht1 : Topo rank (replayStart d order) := by
      unfold replayStart; rw [e]; exact ht.of_eq rfl rfl rfl rfl rfl
    have hf1 : Forest (replayStart d order) := by
      unfold replayStart; rw [e]; exact hf.of_same_tables rfl rfl rfl rfl
    have hp1 : ArcPartition (replayStart d order) := by
      unfold replayStart; rw [e]; exact hp.of_same_branches rfl rfl
    exact replayPrefix_arcPartition rank order _ ht1 hf1 hp1 k hk

/-- Witness for C22: the run on `saddleData`, which ends with the arcs 4, 1, 2 in branch 4
and the arcs 0 and 3 in the removed branches 0 and 3. -/
theorem arcs_partition_invariant_witness :
    Ranked saddleData.fnVals saddleData ∧
      ((simplify (some saddleSim) () saddleData).branches 4).arcs = [4, 1, 2] ∧
      ArcPartition (simplify (some saddleSim) () saddleData) :=
  ⟨by unfold Ranked; decide, by decide!,
    (arcs_partition_invariant saddleData.fnVals (some saddleSim) () saddleData
      (by unfold Ranked; decide)).2.1⟩

end SimplifyCT

end contourtree
